import Mathlib

/-!
# Deep Becky: a shallow embedding of the rules engine

Two versions of the engine live in the repository.  `DeepBecky02` embeds
`deepbecky02.cpp` (board, attack oracle, move generator, make / unmake, hashing);
`DeepBecky01` embeds the corresponding parts of `deepbecky01.cpp`.

Conventions.  C++ `int` values are `Int`; the castling bitmask and the 64-bit hash are
`Nat`.  `std::vector` is a `List` whose last element is `back()`.  The engine object is the
record `Engine`; a member function that mutates the object returns the new record.
-/

namespace DeepBecky02

/-! ## Pieces (`enum Piece`) -/

abbrev EMPTY : Nat := 0
abbrev WPAWN : Nat := 1
abbrev WKNIGHT : Nat := 2
abbrev WBISHOP : Nat := 3
abbrev WROOK : Nat := 4
abbrev WQUEEN : Nat := 5
abbrev WKING : Nat := 6
abbrev BPAWN : Nat := 7
abbrev BKNIGHT : Nat := 8
abbrev BBISHOP : Nat := 9
abbrev BROOK : Nat := 10
abbrev BQUEEN : Nat := 11
abbrev BKING : Nat := 12

/-- The function `isWhitePiece`. -/
def isWhitePiece (p : Nat) : Bool := decide (WPAWN ≤ p) && decide (p ≤ WKING)

/-- The function `isBlackPiece`. -/
def isBlackPiece (p : Nat) : Bool := decide (BPAWN ≤ p) && decide (p ≤ BKING)

/-! ## Moves (`struct Move`) -/

/-- The record `Move`, with the defaults of the C++ member initialisers. -/
structure Move where
  from_x : Int := 0
  from_y : Int := 0
  to_x : Int := 0
  to_y : Int := 0
  promotion : Nat := 0
  is_capture : Bool := false
  is_enpassant : Bool := false
  is_castle : Bool := false
  is_doublepush : Bool := false
  captured_piece : Nat := 0
  score : Int := 0
  deriving DecidableEq, Repr, Inhabited

/-! ## Utilities -/

/-- The function `sq`. -/
def sq (x y : Int) : Int := y * 8 + x

/-- The function `onBoard`: `x >= 0 && x < 8 && y >= 0 && y < 8`, by cases on the signs
(see `onBoard_iff`). -/
def onBoard (x y : Int) : Bool :=
  match x, y with
  | Int.ofNat a, Int.ofNat b => Nat.ble a 7 && Nat.ble b 7
  | _, _ => false

/-- The values of a loop counter running over `0 .. 7`. -/
def range8 : List Int := [0, 1, 2, 3, 4, 5, 6, 7]

/-- The squares in the order of `for y in 0..7, for x in 0..7`, as pairs `(y, x)`. -/
def squares : List (Int × Int) := range8.flatMap (fun y => range8.map (fun x => (y, x)))

/-! ## Zobrist constants

`ZOB` is filled by `std::mt19937_64` seeded with `0xD10D10D10 ^ 0xC0FFEEBADBEEF`; the
generator below follows the definition of that engine in the C++ standard
(word size 64, n = 312, m = 156, r = 31).  The state is held as one number whose
base-2^64 digits are the 312 state words. -/

namespace MT

def word (st : Nat) (i : Nat) : Nat := (st >>> (64 * i)) % 2 ^ 64

def setWord (st : Nat) (i : Nat) (v : Nat) : Nat :=
  st - word st i * 2 ^ (64 * i) + (v % 2 ^ 64) * 2 ^ (64 * i)

/-- Seeding: `x[0] = seed`, `x[i] = 6364136223846793005 * (x[i-1] ^ (x[i-1] >> 62)) + i`. -/
def seedState (seed : Nat) : Nat :=
  (List.range 311).foldl
    (fun st k =>
      let p := word st k
      setWord st (k + 1) (6364136223846793005 * (p ^^^ (p >>> 62)) + (k + 1)))
    (seed % 2 ^ 64)

/-- One regeneration of the 312 state words, in place. -/
def twist (st : Nat) : Nat :=
  (List.range 312).foldl
    (fun st i =>
      let y := (word st i &&& 0xFFFFFFFF80000000) ||| (word st ((i + 1) % 312) &&& 0x7FFFFFFF)
      let v := word st ((i + 156) % 312) ^^^ (y >>> 1) ^^^
        (if y % 2 = 1 then 0xB5026F5AA96619E9 else 0)
      setWord st i v)
    st

/-- The output tempering. -/
def temper (y : Nat) : Nat :=
  let y := y ^^^ ((y >>> 29) &&& 0x5555555555555555)
  let y := y ^^^ (((y <<< 17) % 2 ^ 64) &&& 0x71D67FFFEDA60000)
  let y := y ^^^ (((y <<< 37) % 2 ^ 64) &&& 0xFFF7EEE000000000)
  y ^^^ (y >>> 43)

/-- The 312 outputs read from one regenerated state. -/
def blockOutputs (st : Nat) : List Nat := (List.range 312).map (fun i => temper (word st i))

/-- The first 936 outputs of the generator seeded with `seed`. -/
def outputs (seed : Nat) : List Nat :=
  let b1 := twist (seedState seed)
  let b2 := twist b1
  let b3 := twist b2
  blockOutputs b1 ++ blockOutputs b2 ++ blockOutputs b3

end MT

/-- The seed `0xD10D10D10ULL ^ 0xC0FFEEBADBEEFULL`. -/
def zobSeed : Nat := 0xD10D10D10 ^^^ 0xC0FFEEBADBEEF

/-- The draws of the constructor of `Zobrist`, in order: `piece[13][64]`, `side`,
`castling[16]`, `ep[9]`. -/
def zobDraws : List Nat := (MT.outputs zobSeed).take 858

/-- The table `ZOB.piece[p][s]`: the constructor draws it first, `p` outer, `s` inner. -/
def ZOB_piece (p : Nat) (s : Int) : Nat := zobDraws.getD ((p : Int) * 64 + s).toNat 0

/-- The constant `ZOB.side`. -/
def ZOB_side : Nat := zobDraws.getD 832 0

/-- The table `ZOB.castling[i]`. -/
def ZOB_castling (i : Nat) : Nat := zobDraws.getD (833 + i) 0

/-- The table `ZOB.ep[i]`, `i` in `0 .. 8` (the source reads `ep[ep_file & 15]`; an index
above 8 is outside the array and reads 0 here). -/
def ZOB_ep (i : Int) : Nat := zobDraws.getD (849 + i.toNat) 0

/-! ## The engine state -/

/-- The base-16 digit of weight `16 ^ k`. -/
def digit (n k : Nat) : Nat := (n >>> (4 * k)) % 16

/-- The array `int b[8][8]`.  Every value the engine stores in it is a piece code
(`0 .. 12`); the 64 cells are kept as the base-16 digits of one number, the digit of
weight `16 ^ (8 * y + x)` being `b[y][x]`. -/
structure Board where
  bits : Nat
  deriving DecidableEq, Repr

/-- Read `b[y][x]`. -/
def Board.get (b : Board) (y x : Int) : Nat :=
  match y, x with
  | Int.ofNat r, Int.ofNat c => (b.bits >>> (4 * (8 * r + c))) % 16
  | _, _ => 0

/-- Write `b[y][x] = v`. -/
def Board.set (b : Board) (y x : Int) (v : Nat) : Board :=
  match y, x with
  | Int.ofNat r, Int.ofNat c =>
    ⟨b.bits ^^^ ((((b.bits >>> (4 * (8 * r + c))) % 16) ^^^ (v % 16)) <<< (4 * (8 * r + c)))⟩
  | _, _ => b

/-- The result of `memset(b, 0, sizeof(b))`. -/
def Board.zero : Board := ⟨0⟩

/-- The record `Undo`. -/
structure Undo where
  captured : Nat := 0
  castling_before : Nat := 0
  ep_before : Int := 0
  half_before : Int := 0
  full_before : Int := 0
  side_before : Bool := false
  hash_before : Nat := 0
  deriving DecidableEq, Repr, Inhabited

/-- The position fields of `class DeepBeckyEngine`. -/
structure Engine where
  b : Board := Board.zero
  white_to_move : Bool := true
  castling : Nat := 15
  ep_file : Int := 0
  halfmove : Int := 0
  fullmove : Int := 1
  hash : Nat := 0
  uci_history : List String := []
  undo : List Undo := []
  deriving DecidableEq, Repr

/-- The function `computeHash`. -/
def computeHash (s : Engine) : Nat :=
  let h := squares.foldl
    (fun h yx =>
      let p := s.b.get yx.1 yx.2
      if p ≠ 0 then h ^^^ ZOB_piece p (sq yx.2 yx.1) else h)
    0
  let h := if !s.white_to_move then h ^^^ ZOB_side else h
  let h := h ^^^ ZOB_castling (s.castling &&& 15)
  h ^^^ ZOB_ep (s.ep_file % 16)

/-- The back rank of White in `setStartPos`. -/
def rowW : List Nat := [WROOK, WKNIGHT, WBISHOP, WQUEEN, WKING, WBISHOP, WKNIGHT, WROOK]

/-- The back rank of Black in `setStartPos`. -/
def rowB : List Nat := [BROOK, BKNIGHT, BBISHOP, BQUEEN, BKING, BBISHOP, BKNIGHT, BROOK]

/-- The board written by `setStartPos`. -/
def startBoard : Board :=
  range8.foldl
    (fun b x =>
      (((b.set 0 x (rowW.getD x.toNat 0)).set 1 x WPAWN).set 6 x BPAWN).set 7 x
        (rowB.getD x.toNat 0))
    Board.zero

/-- The function `setStartPos`; the undo stack is not touched. -/
def setStartPos (s : Engine) : Engine :=
  let s1 : Engine :=
    { s with b := startBoard, white_to_move := true, castling := 15, ep_file := 0,
             halfmove := 0, fullmove := 1, uci_history := [] }
  { s1 with hash := computeHash s1 }

/-- The engine right after construction: the member initialisers, then `setStartPos`. -/
def newEngine : Engine := setStartPos {}

/-! ## Attack oracle -/

/-- The offset tables `NDX`, `NDY` (and `KX`, `KY` of the generator), entry by entry. -/
def knightJumps : List (Int × Int) :=
  [(1, 2), (2, 1), (2, -1), (1, -2), (-1, -2), (-2, -1), (-2, 1), (-1, 2)]

/-- The offset tables `KDX`, `KDY`, entry by entry. -/
def kingSteps : List (Int × Int) :=
  [(1, 1), (1, 0), (1, -1), (0, 1), (0, -1), (-1, 1), (-1, 0), (-1, -1)]

/-- The values of `dx` and of `dy` in the sliding loop of `isAttacked`. -/
def dirs3 : List Int := [-1, 0, 1]

/-- The inner `while (onBoard(nx, ny))` loop of `isAttacked`, started at `(nx, ny)`.
The loop leaves the board after at most eight squares; `fuel` bounds the iterations. -/
def attackRay (b : Board) (byWhite : Bool) (dx dy : Int) : Nat → Int → Int → Bool
  | 0, _, _ => false
  | fuel + 1, nx, ny =>
    if onBoard nx ny then
      let p := b.get ny nx
      if p ≠ 0 then
        if byWhite then
          (decide (dx = 0 ∨ dy = 0) && decide (p = WROOK ∨ p = WQUEEN)) ||
          (decide (dx ≠ 0 ∧ dy ≠ 0) && decide (p = WBISHOP ∨ p = WQUEEN))
        else
          (decide (dx = 0 ∨ dy = 0) && decide (p = BROOK ∨ p = BQUEEN)) ||
          (decide (dx ≠ 0 ∧ dy ≠ 0) && decide (p = BBISHOP ∨ p = BQUEEN))
      else attackRay b byWhite dx dy fuel (nx + dx) (ny + dy)
    else false

/-- The function `isAttacked`.  The lambda `attackLine` of the source is never called and
is left out. -/
def isAttacked (b : Board) (x y : Int) (byWhite : Bool) : Bool :=
  (if byWhite then
    (onBoard (x - 1) (y - 1) && decide (b.get (y - 1) (x - 1) = WPAWN)) ||
    (onBoard (x + 1) (y - 1) && decide (b.get (y - 1) (x + 1) = WPAWN))
  else
    (onBoard (x - 1) (y + 1) && decide (b.get (y + 1) (x - 1) = BPAWN)) ||
    (onBoard (x + 1) (y + 1) && decide (b.get (y + 1) (x + 1) = BPAWN))) ||
  knightJumps.any (fun d =>
    let nx := x + d.1
    let ny := y + d.2
    onBoard nx ny &&
      (let p := b.get ny nx
       (byWhite && decide (p = WKNIGHT)) || (!byWhite && decide (p = BKNIGHT)))) ||
  kingSteps.any (fun d =>
    let nx := x + d.1
    let ny := y + d.2
    onBoard nx ny &&
      (let p := b.get ny nx
       (byWhite && decide (p = WKING)) || (!byWhite && decide (p = BKING)))) ||
  dirs3.any (fun dx => dirs3.any (fun dy =>
    if dx = 0 ∧ dy = 0 then false else attackRay b byWhite dx dy 8 (x + dx) (y + dy)))

/-- The king search of `inCheck`: the last square holding `king` in scan order, as
`(kx, ky)`, or `(-1, -1)`. -/
def findKing (b : Board) (king : Nat) : Int × Int :=
  squares.foldl (fun k yx => if b.get yx.1 yx.2 = king then (yx.2, yx.1) else k) (-1, -1)

/-- The function `inCheck`. -/
def inCheck (b : Board) (whiteSide : Bool) : Bool :=
  let king := if whiteSide then WKING else BKING
  let k := findKing b king
  if k.1 = -1 then false else isAttacked b k.1 k.2 (!whiteSide)

/-! ## Pseudo-legal move generation -/

/-- The lambda `add` of `generatePseudo`: the move that is pushed. -/
def add (fx fy tx ty : Int) (cap : Bool) (capPiece : Nat) (ep castle dbl : Bool)
    (promo : Nat) : Move :=
  { from_x := fx, from_y := fy, to_x := tx, to_y := ty, is_capture := cap,
    captured_piece := capPiece, is_enpassant := ep, is_castle := castle,
    is_doublepush := dbl, promotion := promo }

/-- The test `t >= oppMin && t <= oppMax`. -/
def isOpp (WT : Bool) (t : Nat) : Bool :=
  decide ((if WT then BPAWN else WPAWN) ≤ t) && decide (t ≤ (if WT then BKING else WKING))

/-- The `case WPAWN: case BPAWN:` block for the pawn on `(x, y)`. -/
def pawnMoves (s : Engine) (capturesOnly : Bool) (x y : Int) : List Move :=
  let WT := s.white_to_move
  let pawnFwd : Int := if WT then 1 else -1
  let pawnStartRank : Int := if WT then 1 else 6
  let promoRank : Int := if WT then 6 else 1
  let q : Nat := if WT then WQUEEN else BQUEEN
  let r : Nat := if WT then WROOK else BROOK
  let n : Nat := if WT then WKNIGHT else BKNIGHT
  let bb : Nat := if WT then WBISHOP else BBISHOP
  let ny := y + pawnFwd
  (if onBoard x ny && decide (s.b.get ny x = EMPTY) && !capturesOnly then
    if y = promoRank then
      [add x y x ny false 0 false false false q, add x y x ny false 0 false false false r,
       add x y x ny false 0 false false false bb, add x y x ny false 0 false false false n]
    else
      add x y x ny false 0 false false false 0 ::
        (if y = pawnStartRank then
          let nny := y + 2 * pawnFwd
          if onBoard x nny && decide (s.b.get nny x = EMPTY) then
            [add x y x nny false 0 false false true 0]
          else []
        else [])
  else []) ++
  ([-1, 1].flatMap (fun dx =>
    let nx := x + dx
    let ny2 := y + pawnFwd
    if !onBoard nx ny2 then []
    else
      let t := s.b.get ny2 nx
      if isOpp WT t then
        if y = promoRank then
          [add x y nx ny2 true t false false false q, add x y nx ny2 true t false false false r,
           add x y nx ny2 true t false false false bb, add x y nx ny2 true t false false false n]
        else [add x y nx ny2 true t false false false 0]
      else [])) ++
  (if 1 ≤ s.ep_file ∧ s.ep_file ≤ 8 then
    let ex := s.ep_file - 1
    let ey : Int := if WT then 5 else 2
    if ey = y + pawnFwd ∧ (ex - x).natAbs = 1 ∧ y = (if WT then 4 else 3) then
      let capP := s.b.get y ex
      if capP = (if WT then BPAWN else WPAWN) then [add x y ex ey true capP true false false 0]
      else []
    else []
  else [])

/-- The loop `for (i = 0; i < 8; i++)` over a table of offsets, as written in the knight
block and again in the king block. -/
def jumpMoves (s : Engine) (capturesOnly : Bool) (x y : Int) (offs : List (Int × Int)) :
    List Move :=
  offs.flatMap (fun d =>
    let nx := x + d.1
    let ny := y + d.2
    if !onBoard nx ny then []
    else
      let t := s.b.get ny nx
      if decide (t = EMPTY) && !capturesOnly then [add x y nx ny false 0 false false false 0]
      else if isOpp s.white_to_move t then [add x y nx ny true t false false false 0]
      else [])

/-- The table `DIRS`. -/
def DIRS : List (Int × Int) :=
  [(1, 0), (-1, 0), (0, 1), (0, -1), (1, 1), (-1, 1), (1, -1), (-1, -1)]

/-- The inner `while (onBoard(nx, ny))` loop of the sliding block, started at `(nx, ny)`;
`fuel` bounds the iterations. -/
def slideRay (s : Engine) (capturesOnly : Bool) (x y dx dy : Int) : Nat → Int → Int → List Move
  | 0, _, _ => []
  | fuel + 1, nx, ny =>
    if onBoard nx ny then
      let t := s.b.get ny nx
      if t = EMPTY then
        (if !capturesOnly then [add x y nx ny false 0 false false false 0] else []) ++
          slideRay s capturesOnly x y dx dy fuel (nx + dx) (ny + dy)
      else if isOpp s.white_to_move t then [add x y nx ny true t false false false 0]
      else []
    else []

/-- The bishop / rook / queen block for the piece `p` on `(x, y)`. -/
def sliderMoves (s : Engine) (capturesOnly : Bool) (x y : Int) (p : Nat) : List Move :=
  let start : Nat := if p = WROOK ∨ p = BROOK then 0 else if p = WBISHOP ∨ p = BBISHOP then 4 else 0
  let stop : Nat := if p = WROOK ∨ p = BROOK then 4 else if p = WBISHOP ∨ p = BBISHOP then 8 else 8
  ((DIRS.take stop).drop start).flatMap (fun d =>
    slideRay s capturesOnly x y d.1 d.2 8 (x + d.1) (y + d.2))

/-- The castling part of the king block. -/
def castleMoves (s : Engine) (capturesOnly : Bool) (x y : Int) : List Move :=
  let WT := s.white_to_move
  let Kside : Bool := if WT then decide (s.castling &&& 8 ≠ 0) else decide (s.castling &&& 2 ≠ 0)
  let Qside : Bool := if WT then decide (s.castling &&& 4 ≠ 0) else decide (s.castling &&& 1 ≠ 0)
  let ry : Int := if WT then 0 else 7
  if decide (y = ry) && decide (x = 4) && !inCheck s.b WT then
    (if Kside && decide (s.b.get ry 5 = EMPTY) && decide (s.b.get ry 6 = EMPTY) &&
        !isAttacked s.b 5 ry (!WT) && !isAttacked s.b 6 ry (!WT) then
      (if !capturesOnly then [add 4 ry 6 ry false 0 false true false 0] else [])
    else []) ++
    (if Qside && decide (s.b.get ry 3 = EMPTY) && decide (s.b.get ry 2 = EMPTY) &&
        decide (s.b.get ry 1 = EMPTY) &&
        !isAttacked s.b 3 ry (!WT) && !isAttacked s.b 2 ry (!WT) then
      (if !capturesOnly then [add 4 ry 2 ry false 0 false true false 0] else [])
    else [])
  else []

/-- The body of the double loop of `generatePseudo` for the square `(x, y)`. -/
def pieceMoves (s : Engine) (capturesOnly : Bool) (x y : Int) : List Move :=
  let p := s.b.get y x
  if p = EMPTY then []
  else if s.white_to_move && !isWhitePiece p then []
  else if !s.white_to_move && !isBlackPiece p then []
  else if p = WPAWN ∨ p = BPAWN then pawnMoves s capturesOnly x y
  else if p = WKNIGHT ∨ p = BKNIGHT then jumpMoves s capturesOnly x y knightJumps
  else if p = WBISHOP ∨ p = BBISHOP ∨ p = WROOK ∨ p = BROOK ∨ p = WQUEEN ∨ p = BQUEEN then
    sliderMoves s capturesOnly x y p
  else if p = WKING ∨ p = BKING then
    jumpMoves s capturesOnly x y kingSteps ++ castleMoves s capturesOnly x y
  else []

/-- The function `generatePseudo`. -/
def generatePseudo (s : Engine) (capturesOnly : Bool) : List Move :=
  squares.flatMap (fun yx => pieceMoves s capturesOnly yx.2 yx.1)

/-! ## Make / unmake -/

/-- The character `'a' + x` (resp. `'1' + y` for `base = 49`), reduced to one byte. -/
def coordChar (base : Int) (v : Int) : Char := Char.ofNat ((base + v) % 256).toNat

/-- The function `moveToUCI`. -/
def moveToUCI (m : Move) : String :=
  let u := String.mk [coordChar 97 m.from_x, coordChar 49 m.from_y,
                      coordChar 97 m.to_x, coordChar 49 m.to_y]
  if m.promotion ≠ 0 then
    if m.promotion = WQUEEN ∨ m.promotion = BQUEEN then u.push 'q'
    else if m.promotion = WROOK ∨ m.promotion = BROOK then u.push 'r'
    else if m.promotion = WBISHOP ∨ m.promotion = BBISHOP then u.push 'b'
    else if m.promotion = WKNIGHT ∨ m.promotion = BKNIGHT then u.push 'n'
    else u
  else u

/-- The castling-rights update of `makeMove` (the lambda `stripCastling` applied in the
order of the source). -/
def stripRights (castling : Nat) (piece target : Nat) (m : Move) : Nat :=
  let c := castling
  let c := if piece = WKING then c &&& 3 else c
  let c := if piece = BKING then c &&& 12 else c
  let c := if piece = WROOK ∧ m.from_y = 0 then
      (let c := if m.from_x = 0 then c &&& 11 else c
       if m.from_x = 7 then c &&& 7 else c)
    else c
  let c := if piece = BROOK ∧ m.from_y = 7 then
      (let c := if m.from_x = 0 then c &&& 14 else c
       if m.from_x = 7 then c &&& 13 else c)
    else c
  let c := if target = WROOK ∧ m.to_y = 0 then
      (let c := if m.to_x = 0 then c &&& 11 else c
       if m.to_x = 7 then c &&& 7 else c)
    else c
  let c := if target = BROOK ∧ m.to_y = 7 then
      (let c := if m.to_x = 0 then c &&& 14 else c
       if m.to_x = 7 then c &&& 13 else c)
    else c
  c

/-- The board update of `makeMove`. -/
def makeBoard (s : Engine) (m : Move) : Board :=
  let piece := s.b.get m.from_y m.from_x
  let b1 := s.b.set m.from_y m.from_x EMPTY
  let b2 :=
    if m.is_enpassant then
      let capy := if s.white_to_move then m.to_y - 1 else m.to_y + 1
      (b1.set m.to_y m.to_x piece).set capy m.to_x EMPTY
    else if m.is_castle then
      let b := b1.set m.to_y m.to_x piece
      if m.to_x = 6 then
        (b.set m.to_y 5 (if s.white_to_move then WROOK else BROOK)).set m.to_y 7 EMPTY
      else if m.to_x = 2 then
        (b.set m.to_y 3 (if s.white_to_move then WROOK else BROOK)).set m.to_y 0 EMPTY
      else b
    else b1.set m.to_y m.to_x piece
  if m.promotion ≠ 0 then b2.set m.to_y m.to_x m.promotion else b2

/-- The function `makeMove`. -/
def makeMove (s : Engine) (m : Move) : Engine :=
  let u : Undo :=
    { captured := if m.is_enpassant then (if s.white_to_move then BPAWN else WPAWN)
                  else s.b.get m.to_y m.to_x,
      castling_before := s.castling, ep_before := s.ep_file, half_before := s.halfmove,
      full_before := s.fullmove, side_before := s.white_to_move, hash_before := s.hash }
  let piece := s.b.get m.from_y m.from_x
  let target := s.b.get m.to_y m.to_x
  let s1 : Engine :=
    { s with
      undo := s.undo ++ [u],
      b := makeBoard s m,
      ep_file := if m.is_doublepush then m.from_x + 1 else 0,
      castling := stripRights s.castling piece target m,
      halfmove := if piece = WPAWN ∨ piece = BPAWN ∨ m.is_capture = true then 0
                  else s.halfmove + 1,
      fullmove := if !s.white_to_move then s.fullmove + 1 else s.fullmove,
      white_to_move := !s.white_to_move }
  { s1 with hash := computeHash s1, uci_history := s1.uci_history ++ [moveToUCI m] }

/-- The function `undoMove`.  `undo.back()` on an empty stack is undefined in the source;
here it reads the all-zero record. -/
def undoMove (s : Engine) (m : Move) : Engine :=
  let u := s.undo.getLastD default
  let wtm := u.side_before
  let piece := s.b.get m.to_y m.to_x
  let b :=
    if m.is_enpassant then
      let capy := if wtm then m.to_y - 1 else m.to_y + 1
      ((s.b.set m.from_y m.from_x piece).set m.to_y m.to_x EMPTY).set capy m.to_x u.captured
    else if m.is_castle then
      let b := (s.b.set m.to_y m.to_x EMPTY).set m.from_y m.from_x (if wtm then WKING else BKING)
      if m.to_x = 6 then
        (b.set m.from_y 5 EMPTY).set m.from_y 7 (if wtm then WROOK else BROOK)
      else
        (b.set m.from_y 3 EMPTY).set m.from_y 0 (if wtm then WROOK else BROOK)
    else
      (s.b.set m.from_y m.from_x
        (if m.promotion ≠ 0 then (if wtm then WPAWN else BPAWN) else piece)).set
        m.to_y m.to_x u.captured
  { s with
    undo := s.undo.dropLast,
    white_to_move := wtm,
    castling := u.castling_before,
    ep_file := u.ep_before,
    halfmove := u.half_before,
    fullmove := u.full_before,
    hash := u.hash_before,
    b := b,
    uci_history := s.uci_history.dropLast }

/-! ## Legality -/

/-- The function `legalMove`: the verdict and the engine after the call. -/
def legalMove (s : Engine) (m : Move) : Bool × Engine :=
  let fromp := s.b.get m.from_y m.from_x
  if fromp = EMPTY then (false, s)
  else
    let s1 := makeMove s m
    let ok := !inCheck s1.b (!s1.white_to_move)
    (ok, undoMove s1 m)

/-- The loop `for (auto &m : mv) if (legalMove(m)) legal.push_back(m);`. -/
def filterLegal : Engine → List Move → List Move × Engine
  | s, [] => ([], s)
  | s, m :: rest =>
    let r := legalMove s m
    let t := filterLegal r.2 rest
    (if r.1 then m :: t.1 else t.1, t.2)

/-- The function `generateLegal`: the legal moves and the engine after the call. -/
def generateLegal (s : Engine) : List Move × Engine :=
  filterLegal s (generatePseudo s false)

/-! ## FEN input

`setFEN` reads its fields with `std::stringstream`'s `operator>>`.  The stream is the list of
characters still to read together with its fail flag. -/

/-- The state of the `stringstream`. -/
structure Stream where
  rest : List Char
  failed : Bool := false

/-- The whitespace skipped by formatted input. -/
def isSpace (c : Char) : Bool :=
  c == ' ' || c == '\t' || c == '\n' || c == '\r' || c.toNat == 11 || c.toNat == 12

/-- The test `isdigit`. -/
def isDigit (c : Char) : Bool := decide ('0'.toNat ≤ c.toNat) && decide (c.toNat ≤ '9'.toNat)

/-- Extraction `ss >> str`: skips whitespace, then takes the characters up to the next
whitespace.  On a failed stream, or when only whitespace is left, the string keeps its
value (`old`) and the stream fails. -/
def readToken (st : Stream) (old : String) : String × Stream :=
  if st.failed then (old, st)
  else
    let r := st.rest.dropWhile isSpace
    if r.isEmpty then (old, { rest := [], failed := true })
    else (String.mk (r.takeWhile (fun c => !isSpace c)),
          { rest := r.dropWhile (fun c => !isSpace c), failed := false })

/-- The value of a run of decimal digits. -/
def digitsValue (ds : List Char) : Int :=
  ds.foldl (fun acc c => acc * 10 + ((c.toNat : Int) - 48)) 0

/-- Extraction `ss >> n` into an `int`: an optional sign and digits.  On a failed stream or
at the end of input `n` keeps its value; when no digit can be read `n` becomes 0 and the
stream fails; a value outside the range of `int` is replaced by the nearest bound and the
stream fails. -/
def readInt (st : Stream) (old : Int) : Int × Stream :=
  if st.failed then (old, st)
  else
    let r := st.rest.dropWhile isSpace
    if r.isEmpty then (old, { rest := [], failed := true })
    else
      let neg := decide (r.head? = some '-')
      let r1 := if r.head? = some '-' ∨ r.head? = some '+' then r.tail else r
      let ds := r1.takeWhile isDigit
      let rest := r1.dropWhile isDigit
      if ds.isEmpty then (0, { rest := rest, failed := true })
      else
        let v := if neg then - digitsValue ds else digitsValue ds
        if v > 2147483647 then (2147483647, { rest := rest, failed := true })
        else if v < -2147483648 then (-2147483648, { rest := rest, failed := true })
        else (v, { rest := rest, failed := false })

/-- The `switch (c)` of `setFEN`. -/
def fenPiece (c : Char) : Nat :=
  if c = 'P' then WPAWN else if c = 'N' then WKNIGHT else if c = 'B' then WBISHOP
  else if c = 'R' then WROOK else if c = 'Q' then WQUEEN else if c = 'K' then WKING
  else if c = 'p' then BPAWN else if c = 'n' then BKNIGHT else if c = 'b' then BBISHOP
  else if c = 'r' then BROOK else if c = 'q' then BQUEEN else if c = 'k' then BKING
  else EMPTY

/-- The loop `for (char c : piece)` of `setFEN`: the board and the cursor `(x, y)`. -/
def fenPlace : List Char → Board × Int × Int → Board × Int × Int
  | [], acc => acc
  | c :: cs, (b, x, y) =>
    if c = '/' then fenPlace cs (b, 0, y - 1)
    else if isDigit c then fenPlace cs (b, x + ((c.toNat : Int) - 48), y)
    else
      let p := fenPiece c
      if p ≠ EMPTY then fenPlace cs (b.set y x p, x + 1, y) else fenPlace cs (b, x, y)

/-- The function `setFEN`; the undo stack is not touched. -/
def setFEN (s : Engine) (fen : String) : Engine :=
  let ss : Stream := { rest := fen.data }
  let r1 := readToken ss ""
  let r2 := readToken r1.2 ""
  let r3 := readToken r2.2 ""
  let r4 := readToken r3.2 ""
  let r5 := readInt r4.2 0
  let r6 := readInt r5.2 1
  let piece := r1.1
  let side := r2.1
  let castl := r3.1
  let ep := r4.1
  let b := (fenPlace piece.data (Board.zero, 0, 7)).1
  let c0 : Nat := 0
  let c1 := if castl.data.contains 'K' then c0 ||| 8 else c0
  let c2 := if castl.data.contains 'Q' then c1 ||| 4 else c1
  let c3 := if castl.data.contains 'k' then c2 ||| 2 else c2
  let c4 := if castl.data.contains 'q' then c3 ||| 1 else c3
  let epf : Int :=
    if ep ≠ "-" ∧ ep.length = 2 then ((ep.data.headD 'a').toNat : Int) - 97 + 1 else 0
  let s1 : Engine :=
    { s with b := b, white_to_move := decide (side = "w"), castling := c4, ep_file := epf,
             halfmove := r5.1, fullmove := r6.1, uci_history := [] }
  { s1 with hash := computeHash s1 }

/-! ## Sequences of make / unmake calls -/

/-- One call made by a client of the engine: `makeMove(m)` for a move of the current
`generateLegal()` list, or `undoMove` of the most recent move not yet undone. -/
inductive Op where
  | make (m : Move)
  | unmake
  deriving DecidableEq, Repr

/-- Runs a sequence of calls from the engine `s` with the moves not yet undone in `pending`
(most recent first).  The result is `none` when the sequence is not properly nested or
makes a move that is not in the current legal list. -/
def runOps : Engine → List Move → List Op → Option (Engine × List Move)
  | s, pending, [] => some (s, pending)
  | s, pending, Op.make m :: rest =>
    if m ∈ (generateLegal s).1 then runOps (makeMove s m) (m :: pending) rest else none
  | s, m :: pending, Op.unmake :: rest => runOps (undoMove s m) pending rest
  | _, [], Op.unmake :: _ => none

/-! ## Predicates used in the statements -/

/-- The piece `p` belongs to the side to move (`WT` is `white_to_move`). -/
def isOwn (WT : Bool) (p : Nat) : Bool := if WT then isWhitePiece p else isBlackPiece p

/-- What every generated move satisfies in the position it was generated in. -/
structure PseudoOK (s : Engine) (m : Move) : Prop where
  from_on : onBoard m.from_x m.from_y = true
  to_on : onBoard m.to_x m.to_y = true
  moved : ¬ (m.to_x = m.from_x ∧ m.to_y = m.from_y)
  own : isOwn s.white_to_move (s.b.get m.from_y m.from_x) = true
  target : m.is_enpassant = false → m.is_castle = false →
    (s.b.get m.to_y m.to_x = EMPTY ∧ m.is_capture = false ∧ m.captured_piece = 0) ∨
    (isOpp s.white_to_move (s.b.get m.to_y m.to_x) = true ∧ m.is_capture = true ∧
      m.captured_piece = s.b.get m.to_y m.to_x)
  promo : m.promotion ≠ 0 →
    s.b.get m.from_y m.from_x = (if s.white_to_move then WPAWN else BPAWN) ∧
    m.is_enpassant = false ∧ m.is_castle = false ∧ m.is_doublepush = false ∧
    m.from_y = (if s.white_to_move then 6 else 1) ∧
    m.to_y = (if s.white_to_move then 7 else 0) ∧
    m.promotion ∈ (if s.white_to_move then [WQUEEN, WROOK, WBISHOP, WKNIGHT]
                   else [BQUEEN, BROOK, BBISHOP, BKNIGHT])
  ep : m.is_enpassant = true →
    s.b.get m.from_y m.from_x = (if s.white_to_move then WPAWN else BPAWN) ∧
    1 ≤ s.ep_file ∧ s.ep_file ≤ 8 ∧ m.to_x = s.ep_file - 1 ∧
    m.to_y = (if s.white_to_move then 5 else 2) ∧
    m.from_y = (if s.white_to_move then 4 else 3) ∧
    (m.to_x - m.from_x).natAbs = 1 ∧
    s.b.get m.from_y m.to_x = (if s.white_to_move then BPAWN else WPAWN) ∧
    m.is_castle = false ∧ m.promotion = 0 ∧ m.is_doublepush = false ∧
    m.is_capture = true ∧ m.captured_piece = (if s.white_to_move then BPAWN else WPAWN)
  castle : m.is_castle = true →
    s.b.get m.from_y m.from_x = (if s.white_to_move then WKING else BKING) ∧
    m.from_x = 4 ∧ m.from_y = (if s.white_to_move then 0 else 7) ∧ m.to_y = m.from_y ∧
    ((m.to_x = 6 ∧ s.castling &&& (if s.white_to_move then 8 else 2) ≠ 0 ∧
        s.b.get m.from_y 5 = EMPTY ∧ s.b.get m.from_y 6 = EMPTY) ∨
     (m.to_x = 2 ∧ s.castling &&& (if s.white_to_move then 4 else 1) ≠ 0 ∧
        s.b.get m.from_y 1 = EMPTY ∧ s.b.get m.from_y 2 = EMPTY ∧
        s.b.get m.from_y 3 = EMPTY)) ∧
    m.is_enpassant = false ∧ m.promotion = 0 ∧ m.is_doublepush = false ∧
    m.is_capture = false
  dbl : m.is_doublepush = true →
    s.b.get m.from_y m.from_x = (if s.white_to_move then WPAWN else BPAWN) ∧
    m.from_y = (if s.white_to_move then 1 else 6) ∧ m.to_x = m.from_x ∧
    m.to_y = (if s.white_to_move then 3 else 4) ∧
    s.b.get (if s.white_to_move then 2 else 5) m.from_x = EMPTY ∧
    s.b.get m.to_y m.to_x = EMPTY ∧
    m.is_enpassant = false ∧ m.is_castle = false ∧ m.promotion = 0
  noscore : m.score = 0

/-- The consistency between the board and the en-passant / castling fields that the engine
relies on: the en-passant target square is empty whenever `ep_file` is set, and each castling
bit that is set has the rook of that side on its home corner. -/
def Consistent (s : Engine) : Prop :=
  (1 ≤ s.ep_file ∧ s.ep_file ≤ 8 →
    s.b.get (if s.white_to_move then 5 else 2) (s.ep_file - 1) = EMPTY) ∧
  (s.castling &&& 8 ≠ 0 → s.b.get 0 7 = WROOK) ∧
  (s.castling &&& 4 ≠ 0 → s.b.get 0 0 = WROOK) ∧
  (s.castling &&& 2 ≠ 0 → s.b.get 7 7 = BROOK) ∧
  (s.castling &&& 1 ≠ 0 → s.b.get 7 0 = BROOK)

instance (s : Engine) : Decidable (Consistent s) := by
  unfold Consistent; infer_instance

/-- The positions reachable from the standard start position by legal moves. -/
inductive Reachable : Engine → Prop
  | start (e : Engine) : Reachable (setStartPos e)
  | step {s : Engine} {m : Move} :
      Reachable s → m ∈ (generateLegal s).1 → Reachable (makeMove s m)

/-- The states met while running a properly nested sequence of calls: `Chain s pending` says
that `s` was obtained from a consistent position whose stored hash is right by making the
moves of `pending` (most recent first), each generated in the position it was made in. -/
inductive Chain : Engine → List Move → Prop
  | base (s : Engine) : Consistent s → s.hash = computeHash s → Chain s []
  | push (s : Engine) (m : Move) (pending : List Move) :
      Chain s pending → PseudoOK s m → Chain (makeMove s m) (m :: pending)

/-- The position `k7/8/4r1K1/3Pp3/8/8/8/8 w - e6 0 1` given to `setFEN`: its en-passant
field names `e6`, a square on which a black rook stands. -/
def fenRookOnEp : Engine := setFEN {} "k7/8/4r1K1/3Pp3/8/8/8/8 w - e6 0 1"

/-- The en-passant capture `d5xe6` that `generatePseudo` produces in `fenRookOnEp`. -/
def epTake : Move := add 3 4 4 5 true BPAWN true false false 0

/-- The first move `e2e4` as `generatePseudo` produces it. -/
def e2e4 : Move := add 4 1 4 3 false 0 false false true 0

/-- The squares whose content `makeMove` changes and what it writes there; `none` for a
square it leaves alone. -/
def madeAt (s : Engine) (m : Move) (y x : Int) : Option Nat :=
  if y = m.from_y ∧ x = m.from_x then some EMPTY
  else if y = m.to_y ∧ x = m.to_x then
    some (if m.promotion ≠ 0 then m.promotion else s.b.get m.from_y m.from_x)
  else if m.is_enpassant = true ∧ y = m.from_y ∧ x = m.to_x then some EMPTY
  else if m.is_castle = true ∧ y = m.from_y ∧ m.to_x = 6 ∧ x = 5 then
    some (if s.white_to_move then WROOK else BROOK)
  else if m.is_castle = true ∧ y = m.from_y ∧ m.to_x = 6 ∧ x = 7 then some EMPTY
  else if m.is_castle = true ∧ y = m.from_y ∧ m.to_x = 2 ∧ x = 3 then
    some (if s.white_to_move then WROOK else BROOK)
  else if m.is_castle = true ∧ y = m.from_y ∧ m.to_x = 2 ∧ x = 0 then some EMPTY
  else none

/-- The kings of one colour stand on at most one square. -/
def AtMostOne (b : Board) (king : Nat) : Prop :=
  ∀ x y x' y', onBoard x y = true → onBoard x' y' = true →
    b.get y x = king → b.get y' x' = king → x = x' ∧ y = y'

/-- The squares `(y, x)` on which the piece `king` stands, in scan order. -/
def kingSquares (b : Board) (king : Nat) : List (Int × Int) :=
  squares.filter (fun yx => b.get yx.1 yx.2 = king)

/-- Exactly one white king and exactly one black king are on the board. -/
def OneKingEach (b : Board) : Prop :=
  (kingSquares b WKING).length = 1 ∧ (kingSquares b BKING).length = 1

instance (b : Board) : Decidable (OneKingEach b) := by
  unfold OneKingEach; infer_instance

/-- In the position after `makeMove(m)`, no square holding a king of the side that moved is
attacked by the other side. -/
def KingSafeAfter (s : Engine) (m : Move) : Prop :=
  ∀ kx ky : Int, onBoard kx ky = true →
    (makeMove s m).b.get ky kx = (if s.white_to_move then WKING else BKING) →
    isAttacked (makeMove s m).b kx ky (!s.white_to_move) = false

/-- The king move `g6h6` as `generatePseudo` produces it in `fenRookOnEp`. -/
def g6h6 : Move := add 6 5 7 5 false 0 false false false 0

/-! ## Chess attack rules, used to state what `isAttacked` computes -/

/-- The piece test at the end of a ray of `isAttacked`. -/
def rayHit (byWhite : Bool) (dx dy : Int) (p : Nat) : Bool :=
  if byWhite then
    (decide (dx = 0 ∨ dy = 0) && decide (p = WROOK ∨ p = WQUEEN)) ||
    (decide (dx ≠ 0 ∧ dy ≠ 0) && decide (p = WBISHOP ∨ p = WQUEEN))
  else
    (decide (dx = 0 ∨ dy = 0) && decide (p = BROOK ∨ p = BQUEEN)) ||
    (decide (dx ≠ 0 ∧ dy ≠ 0) && decide (p = BBISHOP ∨ p = BQUEEN))

/-- The squares `(px, py)` and `(x, y)` are distinct and share a file or a rank. -/
def sameRankOrFile (x y px py : Int) : Prop := (px = x ∧ py ≠ y) ∨ (py = y ∧ px ≠ x)

/-- The squares `(px, py)` and `(x, y)` are distinct and share a diagonal. -/
def sameDiagonal (x y px py : Int) : Prop := (px - x).natAbs = (py - y).natAbs ∧ px ≠ x

/-- Every square strictly between `(x, y)` and `(px, py)`, walking from `(x, y)` one step at
a time towards `(px, py)`, is empty. -/
def emptyBetween (b : Board) (x y px py : Int) : Prop :=
  ∀ j : Int, 0 < j → j < ((max (px - x).natAbs (py - y).natAbs : Nat) : Int) →
    b.get (y + j * (py - y).sign) (x + j * (px - x).sign) = EMPTY

/-- The square `(px, py)` is a knight jump away from `(x, y)`. -/
def knightJump (x y px py : Int) : Prop :=
  ((px - x).natAbs = 1 ∧ (py - y).natAbs = 2) ∨ ((px - x).natAbs = 2 ∧ (py - y).natAbs = 1)

/-- The square `(px, py)` is one of the eight neighbours of `(x, y)`. -/
def adjacent (x y px py : Int) : Prop :=
  (px - x).natAbs ≤ 1 ∧ (py - y).natAbs ≤ 1 ∧ ¬ (px = x ∧ py = y)

/-- The square `(x, y)` is attacked by a piece of the given colour, by the movement rules of
chess and without regard to pins: the piece stands on `(px, py)`. -/
def AttackedBy (b : Board) (x y : Int) (byWhite : Bool) : Prop :=
  ∃ px py : Int, onBoard px py = true ∧
    ((b.get py px = (if byWhite then WPAWN else BPAWN) ∧
        (px = x - 1 ∨ px = x + 1) ∧ py = (if byWhite then y - 1 else y + 1)) ∨
     (b.get py px = (if byWhite then WKNIGHT else BKNIGHT) ∧ knightJump x y px py) ∨
     (b.get py px = (if byWhite then WKING else BKING) ∧ adjacent x y px py) ∨
     ((b.get py px = (if byWhite then WROOK else BROOK) ∨
         b.get py px = (if byWhite then WQUEEN else BQUEEN)) ∧
        sameRankOrFile x y px py ∧ emptyBetween b x y px py) ∨
     ((b.get py px = (if byWhite then WBISHOP else BBISHOP) ∨
         b.get py px = (if byWhite then WQUEEN else BQUEEN)) ∧
        sameDiagonal x y px py ∧ emptyBetween b x y px py))

/-! ## Castling moves -/

/-- The home rank of the side to move: `ry` in the king block of `generatePseudo`. -/
def homeRank (WT : Bool) : Int := if WT then 0 else 7

/-- The king-side castling move as `generatePseudo` pushes it. -/
def castleKingSide (WT : Bool) : Move :=
  add 4 (homeRank WT) 6 (homeRank WT) false 0 false true false 0

/-- The queen-side castling move as `generatePseudo` pushes it. -/
def castleQueenSide (WT : Bool) : Move :=
  add 4 (homeRank WT) 2 (homeRank WT) false 0 false true false 0

/-! ## Promotion moves -/

/-- The four promotion moves from `(x, y)` to `(tx, ty)` in the order `generatePseudo` pushes
them: queen, rook, bishop, knight of the mover's colour. -/
def promotionMoves (WT : Bool) (x y tx ty : Int) (cap : Bool) (t : Nat) : List Move :=
  [add x y tx ty cap t false false false (if WT then WQUEEN else BQUEEN),
   add x y tx ty cap t false false false (if WT then WROOK else BROOK),
   add x y tx ty cap t false false false (if WT then WBISHOP else BBISHOP),
   add x y tx ty cap t false false false (if WT then WKNIGHT else BKNIGHT)]

/-- The test "the move goes from `(x, y)` to `(tx, ty)`". -/
def fromTo (x y tx ty : Int) (m : Move) : Bool :=
  decide (m.from_x = x ∧ m.from_y = y ∧ m.to_x = tx ∧ m.to_y = ty)

/-- The position `4k3/P7/8/8/8/8/8/4K3 w - - 0 1`: a white pawn on a7. -/
def fenPromo : Engine := setFEN {} "4k3/P7/8/8/8/8/8/4K3 w - - 0 1"

/-! ## Exhaustive move counting -/

/-- The number of leaves of the exhaustive recursion to depth `d`: `generateLegal`, then for
each move `makeMove`, the count below it, `undoMove`, all on the one engine; returns the
count and the engine after the recursion. -/
def perft : Nat → Engine → Nat × Engine
  | 0, s => (1, s)
  | d + 1, s =>
    let g := generateLegal s
    g.1.foldl (fun acc m =>
      let r := perft d (makeMove acc.2 m)
      (acc.1 + r.1, undoMove r.2 m)) (0, g.2)

/-! ## The undo stack below a position -/

/-- The engine `s` with the records `pre` below its undo stack. -/
def withUndoBelow (pre : List Undo) (s : Engine) : Engine := { s with undo := pre ++ s.undo }

/-! ## Two-square pawn advances -/

/-- The move `m`, made in `s`, takes a pawn two ranks forward or backward. -/
def movesPawnTwoRanks (s : Engine) (m : Move) : Prop :=
  (s.b.get m.from_y m.from_x = WPAWN ∨ s.b.get m.from_y m.from_x = BPAWN) ∧
    (m.to_y - m.from_y).natAbs = 2

instance (s : Engine) (m : Move) : Decidable (movesPawnTwoRanks s m) := by
  unfold movesPawnTwoRanks; infer_instance

/-! ## A position for the castling-rights update -/

/-- The rook move a1-a2 in a position where the a-pawn is gone. -/
def fenRookA1 : Engine := setFEN {} "4k3/8/8/8/8/8/8/R3K2R w KQ - 0 1"

/-- The move Ra1-a2 as `generatePseudo` produces it in `fenRookA1`. -/
def a1a2 : Move := add 0 0 0 1 false 0 false false false 0

/-! ## The king invariant -/

/-- Exactly one white king and one black king are on the board and the side that is not to
move is not in check. -/
def KingsOK (s : Engine) : Prop :=
  OneKingEach s.b ∧ inCheck s.b (!s.white_to_move) = false

instance (s : Engine) : Decidable (KingsOK s) := by
  unfold KingsOK; infer_instance

/-- The position `k7/8/4K3/3Pp3/8/8/8/8 w - e6 0 1`: the en-passant field names e6, where the
white king stands. -/
def fenKingOnEp : Engine := setFEN {} "k7/8/4K3/3Pp3/8/8/8/8 w - e6 0 1"

/-! ## The comparison of moves -/

/-- The member `Move::operator==`. -/
def Move.opEq (a o : Move) : Bool :=
  decide (a.from_x = o.from_x) && decide (a.from_y = o.from_y) &&
  decide (a.to_x = o.to_x) && decide (a.to_y = o.to_y) &&
  decide (a.promotion = o.promotion) && (a.is_enpassant == o.is_enpassant) &&
  (a.is_castle == o.is_castle)

/-- The king-side castling move of White. -/
def whiteCastles : Move := add 4 0 6 0 false 0 false true false 0

/-- A move with the origin, destination and promotion of `whiteCastles` and no flag set. -/
def whiteKingTwoSteps : Move := add 4 0 6 0 false 0 false false false 0

/-! ## Move notation and the move list of a position command -/

/-- The value of a `char` of a `std::string` as an `int` (the operand of `s[0] - 'a'`).  A
string is the list of its bytes, each a `Char` below 256; `char` is taken as signed, so the
bytes 128 .. 255 have the values -128 .. -1. -/
def charVal (c : Char) : Int := if c.toNat < 128 then (c.toNat : Int) else (c.toNat : Int) - 256

/-- The promotion piece `uciToMove` reads: `rest` holds the bytes from index 4 on, so the
patterns stand for `s.size() >= 5` and its negation. -/
def promoOf (white_to_move : Bool) : List Char → Nat
  | pc :: _ =>
    if pc = 'q' then (if white_to_move then WQUEEN else BQUEEN)
    else if pc = 'r' then (if white_to_move then WROOK else BROOK)
    else if pc = 'b' then (if white_to_move then WBISHOP else BBISHOP)
    else if pc = 'n' then (if white_to_move then WKNIGHT else BKNIGHT)
    else 0
  | [] => 0

/-- The body of `uciToMove` on the bytes of the string; a string of fewer than four bytes
gives the default move. -/
def uciChars (white_to_move : Bool) : List Char → Move
  | c0 :: c1 :: c2 :: c3 :: rest =>
    { from_x := charVal c0 - 97, from_y := charVal c1 - 49,
      to_x := charVal c2 - 97, to_y := charVal c3 - 49,
      promotion := promoOf white_to_move rest }
  | _ => {}

/-- The function `uciToMove`. -/
def uciToMove (s : Engine) (str : String) : Move := uciChars s.white_to_move str.data

/-- The letter `moveToUCI` appends for a promotion piece. -/
def promoLetter (p : Nat) : List Char :=
  if p = WQUEEN ∨ p = BQUEEN then ['q']
  else if p = WROOK ∨ p = BROOK then ['r']
  else if p = WBISHOP ∨ p = BBISHOP then ['b']
  else if p = WKNIGHT ∨ p = BKNIGHT then ['n']
  else []

/-- The line printed for a move string that matches no legal move. -/
def illegalNotice (mstr : String) : String :=
  "info string illegal move from GUI: " ++ mstr ++ "\n"

/-- The loop `while (ss >> mstr)` of the `position` command, over the strings that the
stream yields one after the other: the engine after the loop and the lines printed. -/
def applyMoveList : Engine → List String → Engine × List String
  | s, [] => (s, [])
  | s, mstr :: rest =>
    let want := uciToMove s mstr
    let g := generateLegal s
    match g.1.find? (fun lm => moveToUCI lm == moveToUCI want) with
    | some lm => applyMoveList (makeMove g.2 lm) rest
    | none => (g.2, [illegalNotice mstr])

/-- A `std::string`: every character is one byte. -/
def isBytes (str : String) : Prop := ∀ c ∈ str.data, c.toNat < 256

instance (str : String) : Decidable (isBytes str) := by
  unfold isBytes; infer_instance

/-- The notation that the `position` loop compares with the legal moves: the first four
bytes of the string, followed by the fifth when that is one of `q`, `r`, `b`, `n`; `a1a1` for
a string of fewer than four bytes. -/
def heardAs (str : String) : String :=
  match str.data with
  | c0 :: c1 :: c2 :: c3 :: rest =>
    String.mk ([c0, c1, c2, c3] ++
      (match rest with
       | pc :: _ => if pc = 'q' ∨ pc = 'r' ∨ pc = 'b' ∨ pc = 'n' then [pc] else []
       | [] => []))
  | _ => "a1a1"

/-! ## Evaluation -/

/-- The constants `INF_SCORE`, `MATE_SCORE`, `MATE_IN_MAX`, `MAX_PLY`, `TT_SIZE`. -/
abbrev INF_SCORE : Int := 30000
abbrev MATE_SCORE : Int := 29000
abbrev MATE_IN_MAX : Int := 28000
abbrev MAX_PLY : Int := 64
abbrev TT_SIZE : Nat := 2 ^ 22

/-- The table `PIECE_VALUE[p]`; an index outside the table reads 0. -/
def PIECE_VALUE (p : Nat) : Int :=
  ([0, 100, 320, 330, 500, 900, 20000, 100, 320, 330, 500, 900, 20000] : List Int).getD p 0

/-- The table `PST_PAWN`. -/
def PST_PAWN : List Int :=
  [ 0,  5,  5, -5, -5,  5,  5,  0,
    0, 10, -5,  0,  0, -5, 10,  0,
    0, 10, 10, 20, 20, 10, 10,  0,
    5, 15, 20, 25, 25, 20, 15,  5,
   10, 20, 25, 30, 30, 25, 20, 10,
   15, 25, 30, 35, 35, 30, 25, 15,
   30, 40, 45, 50, 50, 45, 40, 30,
    0,  0,  0,  0,  0,  0,  0,  0]

/-- The table `PST_KNIGHT`. -/
def PST_KNIGHT : List Int :=
  [-30,-10,-10,-10,-10,-10,-10,-30,
   -10,  0,  5,  0,  0,  5,  0,-10,
   -10,  5, 10, 10, 10, 10,  5,-10,
   -10,  0, 10, 15, 15, 10,  0,-10,
   -10,  0, 10, 15, 15, 10,  0,-10,
   -10,  5, 10, 10, 10, 10,  5,-10,
   -10,  0,  5,  0,  0,  5,  0,-10,
   -30,-10,-10,-10,-10,-10,-10,-30]

/-- The table `PST_BISHOP`. -/
def PST_BISHOP : List Int :=
  [-20,-10,-10,-10,-10,-10,-10,-20,
   -10, 10,  0,  5,  5,  0, 10,-10,
   -10,  5, 10, 10, 10, 10,  5,-10,
   -10,  0, 10, 10, 10, 10,  0,-10,
   -10,  0, 10, 10, 10, 10,  0,-10,
   -10,  5, 10, 10, 10, 10,  5,-10,
   -10, 10,  0,  5,  5,  0, 10,-10,
   -20,-10,-10,-10,-10,-10,-10,-20]

/-- The table `PST_ROOK`. -/
def PST_ROOK : List Int :=
  [ 0,  0,  5, 10, 10,  5,  0,  0,
   -5,  0,  0,  0,  0,  0,  0, -5,
   -5,  0,  0,  0,  0,  0,  0, -5,
   -5,  0,  0,  5,  5,  0,  0, -5,
   -5,  0,  0,  5,  5,  0,  0, -5,
   -5,  0,  0,  0,  0,  0,  0, -5,
    5, 10, 10, 10, 10, 10, 10,  5,
    0,  0,  0,  0,  0,  0,  0,  0]

/-- The table `PST_QUEEN`. -/
def PST_QUEEN : List Int :=
  [-20,-10,-10, -5, -5,-10,-10,-20,
   -10,  0,  5,  0,  0,  0,  0,-10,
   -10,  5,  5,  5,  5,  5,  0,-10,
    -5,  0,  5,  5,  5,  5,  0, -5,
    -5,  0,  5,  5,  5,  5,  0, -5,
   -10,  0,  5,  5,  5,  5,  0,-10,
   -10,  0,  0,  0,  0,  0,  0,-10,
   -20,-10,-10, -5, -5,-10,-10,-20]

/-- The table `PST_KING_MG`. -/
def PST_KING_MG : List Int :=
  [-30,-40,-40,-50,-50,-40,-40,-30,
   -30,-40,-40,-50,-50,-40,-40,-30,
   -30,-40,-40,-50,-50,-40,-40,-30,
   -30,-40,-40,-50,-50,-40,-40,-30,
   -20,-30,-30,-40,-40,-30,-30,-20,
   -10,-20,-20,-20,-20,-20,-20,-10,
    20, 20,  0,  0,  0,  0, 20, 20,
    20, 30, 10,  0,  0, 10, 30, 20]

/-- The table `PST_KING_EG`. -/
def PST_KING_EG : List Int :=
  [-50,-30,-30,-30,-30,-30,-30,-50,
   -30,-20,-10,  0,  0,-10,-20,-30,
   -30,-10, 20, 30, 30, 20,-10,-30,
   -30,-10, 30, 40, 40, 30,-10,-30,
   -30,-10, 30, 40, 40, 30,-10,-30,
   -30,-10, 20, 30, 30, 20,-10,-30,
   -30,-30,-10,  0,  0,-10,-30,-30,
   -50,-30,-30,-30,-30,-30,-30,-50]

/-- The function `pstWhite`. -/
def pstWhite (p : Nat) (sqi : Nat) : Int :=
  if p = WPAWN then PST_PAWN.getD sqi 0
  else if p = WKNIGHT then PST_KNIGHT.getD sqi 0
  else if p = WBISHOP then PST_BISHOP.getD sqi 0
  else if p = WROOK then PST_ROOK.getD sqi 0
  else if p = WQUEEN then PST_QUEEN.getD sqi 0
  else if p = WKING then PST_KING_MG.getD sqi 0
  else 0

/-- The function `pstBlack`: `r = 56 ^ sqi`. -/
def pstBlack (p : Nat) (sqi : Nat) : Int :=
  let r := 56 ^^^ sqi
  if p = BPAWN then PST_PAWN.getD r 0
  else if p = BKNIGHT then PST_KNIGHT.getD r 0
  else if p = BBISHOP then PST_BISHOP.getD r 0
  else if p = BROOK then PST_ROOK.getD r 0
  else if p = BQUEEN then PST_QUEEN.getD r 0
  else if p = BKING then PST_KING_MG.getD r 0
  else 0

/-- The counters of the first loop of `evaluate`. -/
structure EvalAcc where
  matW : Int := 0
  matB : Int := 0
  pst : Int := 0
  minorW : Int := 0
  minorB : Int := 0

/-- The body of the first loop of `evaluate` for the square `(x, y)`. -/
def evalSquare (b : Board) (a : EvalAcc) (yx : Int × Int) : EvalAcc :=
  let p := b.get yx.1 yx.2
  if p = 0 then a
  else
    let sqi := (sq yx.2 yx.1).toNat
    if isWhitePiece p then
      let a := { a with matW := a.matW + PIECE_VALUE p }
      if p = WPAWN then { a with pst := a.pst + pstWhite p sqi }
      else if p = WKNIGHT then { a with pst := a.pst + pstWhite p sqi, minorW := a.minorW + 1 }
      else if p = WBISHOP then { a with pst := a.pst + pstWhite p sqi, minorW := a.minorW + 1 }
      else if p = WROOK then { a with pst := a.pst + pstWhite p sqi }
      else if p = WQUEEN then { a with pst := a.pst + pstWhite p sqi }
      else if p = WKING then
        { a with pst := a.pst + (PST_KING_MG.getD sqi 0 + PST_KING_EG.getD sqi 0).tdiv 2 }
      else a
    else
      let a := { a with matB := a.matB + PIECE_VALUE p }
      if p = BPAWN then { a with pst := a.pst - pstBlack p sqi }
      else if p = BKNIGHT then { a with pst := a.pst - pstBlack p sqi, minorB := a.minorB + 1 }
      else if p = BBISHOP then { a with pst := a.pst - pstBlack p sqi, minorB := a.minorB + 1 }
      else if p = BROOK then { a with pst := a.pst - pstBlack p sqi }
      else if p = BQUEEN then { a with pst := a.pst - pstBlack p sqi }
      else if p = BKING then
        { a with pst := a.pst -
            (PST_KING_MG.getD (56 ^^^ sqi) 0 + PST_KING_EG.getD (56 ^^^ sqi) 0).tdiv 2 }
      else a

/-- The loop `for y, x: if (b[y][x] == piece) c++`. -/
def countPiece (b : Board) (piece : Nat) : Int :=
  squares.foldl (fun c yx => if b.get yx.1 yx.2 = piece then c + 1 else c) 0

/-- The loop `while (onBoard(nx, ny) && b[ny][nx] == EMPTY) { c++; nx += d[0]; ny += d[1]; }`
started at `(nx, ny)`: the number of iterations (`fuel` bounds them; the loop leaves the board
after at most seven). -/
def emptyRun (b : Board) (dx dy : Int) : Nat → Int → Int → Int
  | 0, _, _ => 0
  | fuel + 1, nx, ny =>
    if onBoard nx ny && decide (b.get ny nx = EMPTY) then
      1 + emptyRun b dx dy fuel (nx + dx) (ny + dy)
    else 0

/-- The table `D` of the mobility loop. -/
def mobDirs : List (Int × Int) := [(1, 0), (-1, 0), (0, 1), (0, -1)]

/-- The count `c` of the mobility loop for the piece on `(x, y)`. -/
def mobCount (b : Board) (x y : Int) : Int :=
  mobDirs.foldl (fun c d => c + emptyRun b d.1 d.2 8 (x + d.1) (y + d.2)) 0

/-- The body of the mobility loop for the square `(x, y)`. -/
def mobSquare (b : Board) (mob : Int) (yx : Int × Int) : Int :=
  let p := b.get yx.1 yx.2
  if p = 0 then mob
  else if p = WROOK ∨ p = WQUEEN then mob + 2 * mobCount b yx.2 yx.1
  else if p = BROOK ∨ p = BQUEEN then mob - 2 * mobCount b yx.2 yx.1
  else mob

/-- The function `evaluate`. -/
def evaluate (s : Engine) : Int :=
  let a := squares.foldl (evalSquare s.b) {}
  let score := (a.matW - a.matB) + a.pst
  let score :=
    if a.minorW ≥ 2 then (if countPiece s.b WBISHOP ≥ 2 then score + 25 else score) else score
  let score :=
    if a.minorB ≥ 2 then (if countPiece s.b BBISHOP ≥ 2 then score - 25 else score) else score
  let mob := squares.foldl (mobSquare s.b) 0
  let score := score + mob
  if s.white_to_move then score else -score


/-! ## Search

The members and globals used by the search that are not part of `Engine`: the node counter,
the stop flag, the time budget, the transposition table, the killer table and the history
table.  `chrono::high_resolution_clock::now()` is an oracle: `clock k` is the value of the
`k`-th reading (in nanoseconds) and `reads` counts the readings made so far.  Scores and
counters are unbounded integers, except where the source narrows them (`int16_t`, `int8_t`). -/

/-- The constant `MOVE_NONE`, a default-constructed `Move`. -/
def MOVE_NONE : Move := {}

/-- The conversion `(int16_t) v`. -/
def toInt16 (v : Int) : Int := (v + 32768) % 65536 - 32768

/-- The conversion of an `int` to `int8_t`. -/
def toInt8 (v : Int) : Int := (v + 128) % 256 - 128

/-- The flags `TT_EXACT`, `TT_ALPHA`, `TT_BETA`. -/
abbrev TT_EXACT : Int := 0
abbrev TT_ALPHA : Int := 1
abbrev TT_BETA : Int := 2

/-- The structure `TTEntry`. -/
structure TTEntry where
  key : Nat := 0
  score : Int := 0
  depth : Int := 0
  flag : Int := 0
  best : Move := {}

/-- The search state: the engine together with `nodes`, `stop`, `start_time`,
`time_limit_ms`, the clock oracle, and the tables `TT`, `killers.killer`, `history_heur`. -/
structure Search where
  e : Engine := newEngine
  nodes : Int := 0
  stop : Bool := false
  start_time : Int := 0
  time_limit_ms : Int := 0
  clock : Nat → Int := fun _ => 0
  reads : Nat := 0
  TT : Nat → TTEntry := fun _ => {}
  killer : Nat → Int → Move := fun _ _ => {}
  history_heur : Nat → Int → Int → Int := fun _ _ _ => 0

/-- The value `duration_cast<milliseconds>(now - start_time).count()` for the reading
`now = clock k`. -/
def elapsedMs (s : Search) (k : Nat) : Int := (s.clock k - s.start_time).tdiv 1000000

/-- The function `timeUp`: the verdict and the state after the clock has been read. -/
def timeUp (s : Search) : Bool × Search :=
  (decide (elapsedMs s s.reads > s.time_limit_ms), { s with reads := s.reads + 1 })

/-- The lambda `mvv_lva` of `scoreMoves` (the same expression is used in `qsearch`). -/
def mvv_lva (e : Engine) (m : Move) : Int :=
  let att := e.b.get m.from_y m.from_x
  let de := if m.is_enpassant then (if e.white_to_move then BPAWN else WPAWN)
            else e.b.get m.to_y m.to_x
  10 * PIECE_VALUE de - PIECE_VALUE att

/-- The test `(m.from_x | m.from_y | m.to_x | m.to_y)`. -/
def hasSquares (m : Move) : Bool :=
  Int.lor (Int.lor (Int.lor m.from_x m.from_y) m.to_x) m.to_y != 0

/-- The comparison `[](const Move& a, const Move& b){ return a.score > b.score; }` is used
with `stable_sort`: the moves come out by descending score, moves of equal score in their
former order.  An insertion sort that puts a move before the first move whose score is not
larger does the same. -/
def sortByScore (mv : List Move) : List Move :=
  mv.insertionSort (fun a b => a.score ≥ b.score)

/-- The score given to `m` by the loop body of `scoreMoves`. -/
def moveScore (s : Search) (ttMove : Move) (ply : Int) (m : Move) : Int :=
  let sc : Int := 0
  let sc := if hasSquares ttMove && m.opEq ttMove then sc + 2000000 else sc
  let sc := if m.is_capture then sc + 1000000 + mvv_lva s.e m else sc
  let sc := if m.is_castle then sc + 50000 else sc
  let sc := if hasSquares (s.killer 0 ply) && m.opEq (s.killer 0 ply) then sc + 40000 else sc
  let sc := if hasSquares (s.killer 1 ply) && m.opEq (s.killer 1 ply) then sc + 35000 else sc
  let side : Nat := if s.e.white_to_move then 0 else 1
  sc + s.history_heur side (sq m.from_x m.from_y) (sq m.to_x m.to_y)

/-- The function `scoreMoves`. -/
def scoreMoves (s : Search) (mv : List Move) (ttMove : Move) (ply : Int) : List Move :=
  sortByScore (mv.map (fun m => { m with score := moveScore s ttMove ply m }))

/-- The move loop of `qsearch`; `child e alpha beta` is `qsearch(alpha, beta, ply + 1)`. -/
def qLoop (child : Engine → Int → Int → Int × Engine) :
    List Move → Engine → Int → Int → Int × Engine
  | [], e, alpha, _ => (alpha, e)
  | m :: rest, e, alpha, beta =>
    let r := child (makeMove e m) (-beta) (-alpha)
    let sc := -r.1
    let e2 := undoMove r.2 m
    if sc ≥ beta then (beta, e2)
    else qLoop child rest e2 (if sc > alpha then sc else alpha) beta

/-- The body of `qsearch`, with the recursive call `rec e alpha beta ply`. -/
def qBody (rec : Engine → Int → Int → Int → Int × Engine) (e : Engine)
    (alpha beta ply : Int) : Int × Engine :=
  if ply ≥ MAX_PLY - 1 then (evaluate e, e)
  else
    let stand := evaluate e
    if stand ≥ beta then (beta, e)
    else
      let alpha := if stand > alpha then stand else alpha
      let fl := filterLegal e (generatePseudo e true)
      let legal := sortByScore (fl.1.map (fun m => { m with score := mvv_lva fl.2 m }))
      qLoop (fun e1 a b => rec e1 a b (ply + 1)) legal fl.2 alpha beta

/-- The function `qsearch` unfolded `n` times.  Every call goes one ply deeper and the body
returns without a call once `ply ≥ MAX_PLY - 1`, so `MAX_PLY - 1 - ply` unfoldings are all
there are (`qsearch_unfold`). -/
def qsearchF : Nat → Engine → Int → Int → Int → Int × Engine
  | 0 => qBody (fun e a _ _ => (a, e))
  | n + 1 => qBody (qsearchF n)

/-- The function `qsearch`: the score and the engine after the call. -/
def qsearch (e : Engine) (alpha beta ply : Int) : Int × Engine :=
  qsearchF (MAX_PLY - 1 - ply).toNat e alpha beta ply

/-- The search of one move inside the loop of `pvs` (between `makeMove` and `undoMove`):
the score `sc` and the state; `child s depth alpha beta` is `pvs(depth, ply + 1, alpha,
beta)`. -/
def searchMove (child : Search → Int → Int → Int → Int × Search) (depth alpha beta : Int)
    (m : Move) (moveCount : Int) (s : Search) : Int × Search :=
  if moveCount = 1 then
    let c := child s (depth - 1) (-beta) (-alpha)
    (-c.1, c.2)
  else
    let newDepth := depth - 1
    let r1 : Int × Search :=
      if newDepth ≥ 2 ∧ m.is_capture = false ∧ m.is_castle = false then
        let c := child s (newDepth - 1) (-alpha - 1) (-alpha)
        (-c.1, c.2)
      else (alpha + 1, s)
    if r1.1 > alpha then
      let c2 := child r1.2 newDepth (-alpha - 1) (-alpha)
      if -c2.1 > alpha ∧ -c2.1 < beta then
        let c3 := child c2.2 newDepth (-beta) (-alpha)
        (-c3.1, c3.2)
      else (-c2.1, c2.2)
    else r1

/-- The update of `history_heur` and `killers` for a quiet move that raised `alpha`. -/
def updateHeuristics (s : Search) (m : Move) (depth ply : Int) : Search :=
  let side : Nat := if s.e.white_to_move then 0 else 1
  let f := sq m.from_x m.from_y
  let t := sq m.to_x m.to_y
  { s with
    history_heur := fun a b c =>
      if a = side ∧ b = f ∧ c = t then s.history_heur a b c + depth * depth
      else s.history_heur a b c,
    killer := fun k p =>
      if p = ply then (if k = 0 then m else if k = 1 then s.killer 0 ply else s.killer k p)
      else s.killer k p }

/-- The move loop of `pvs`: `best`, `bestMove` and the state when the loop is left. -/
def pvsLoop (child : Search → Int → Int → Int → Int × Search) (depth ply beta : Int) :
    List Move → Search → Int → Int → Int → Move → Int × Move × Search
  | [], s, _, _, best, bestMove => (best, bestMove, s)
  | m :: rest, s, moveCount, alpha, best, bestMove =>
    let moveCount := moveCount + 1
    let r := searchMove child depth alpha beta m moveCount { s with e := makeMove s.e m }
    let sc := r.1
    let s2 : Search := { r.2 with e := undoMove r.2.e m }
    let best1 := if sc > best then sc else best
    let bestMove1 := if sc > best then m else bestMove
    if sc > alpha then
      let s3 := if m.is_capture = false then updateHeuristics s2 m depth ply else s2
      if sc ≥ beta then (best1, bestMove1, s3)
      else if s3.stop then (best1, bestMove1, s3)
      else pvsLoop child depth ply beta rest s3 moveCount sc best1 bestMove1
    else if s2.stop then (best1, bestMove1, s2)
    else pvsLoop child depth ply beta rest s2 moveCount alpha best1 bestMove1

/-- The transposition-table probe of `pvs`: the score to return at once, if any, and
`ttMove`. -/
def ttProbe (te : TTEntry) (hash : Nat) (depth ply alpha beta : Int) : Option Int × Move :=
  if te.key = hash ∧ te.depth ≥ depth then
    let sc := te.score
    let sc := if sc > INF_SCORE - 1000 then sc - ply else sc
    let sc := if sc < -INF_SCORE + 1000 then sc + ply else sc
    if te.flag = TT_EXACT then (some sc, {})
    else if te.flag = TT_ALPHA ∧ sc ≤ alpha then (some alpha, {})
    else if te.flag = TT_BETA ∧ sc ≥ beta then (some beta, {})
    else (none, te.best)
  else if te.key = hash then (none, te.best)
  else (none, {})

/-- The transposition-table store of `pvs` into the slot `idx` taken at the probe. -/
def ttStore (s : Search) (idx : Nat) (depth ply origAlpha beta best : Int) (bestMove : Move) :
    Search :=
  let flag := if best ≤ origAlpha then TT_ALPHA else if best ≥ beta then TT_BETA else TT_EXACT
  let store := best
  let store := if best > INF_SCORE - 1000 then store + ply else store
  let store := if best < -INF_SCORE + 1000 then store - ply else store
  let te : TTEntry := { key := s.e.hash, depth := toInt8 depth, best := bestMove,
                        flag := flag, score := toInt16 store }
  { s with TT := fun i => if i = idx then te else s.TT i }

/-- The part of `pvs` after the three early returns. -/
def pvsNode (child : Search → Int → Int → Int → Int × Search) (s : Search)
    (depth ply alpha beta : Int) : Int × Search :=
  let depth := if inCheck s.e.b s.e.white_to_move then depth + 1 else depth
  let s : Search := { s with nodes := s.nodes + 1 }
  let idx := s.e.hash &&& (TT_SIZE - 1)
  let probe := ttProbe (s.TT idx) s.e.hash depth ply alpha beta
  match probe.1 with
  | some sc => (sc, s)
  | none =>
    let ttMove := probe.2
    let alpha := max alpha (-MATE_IN_MAX + ply)
    let beta := min beta (MATE_IN_MAX - ply - 1)
    if alpha ≥ beta then (alpha, s)
    else
      let g := generateLegal s.e
      let s : Search := { s with e := g.2 }
      if g.1.isEmpty then
        if inCheck s.e.b s.e.white_to_move then (-MATE_SCORE + ply, s) else (0, s)
      else
        let mv := scoreMoves s g.1 ttMove ply
        let r := pvsLoop child depth ply beta mv s 0 alpha (-INF_SCORE) (mv.headD {})
        (r.1, ttStore r.2.2 idx depth ply alpha beta r.1 r.2.1)

/-- The body of `pvs`, with the recursive call `rec s depth ply alpha beta`. -/
def pvsBody (rec : Search → Int → Int → Int → Int → Int × Search) (s : Search)
    (depth ply alpha beta : Int) : Int × Search :=
  if s.stop then (alpha, { s with stop := true })
  else
    let t := timeUp s
    if t.1 then (alpha, { t.2 with stop := true })
    else
      let s := t.2
      if depth ≤ 0 then
        let q := qsearch s.e alpha beta ply
        (q.1, { s with e := q.2 })
      else if ply ≥ MAX_PLY - 1 then (evaluate s.e, s)
      else pvsNode (fun s1 d a b => rec s1 d (ply + 1) a b) s depth ply alpha beta

/-- The function `pvs` unfolded `n` times; as for `qsearch`, `MAX_PLY - 1 - ply` unfoldings
are all there are (`pvs_unfold`). -/
def pvsF : Nat → Search → Int → Int → Int → Int → Int × Search
  | 0 => pvsBody (fun s _ _ a _ => (a, s))
  | n + 1 => pvsBody (pvsF n)

/-- The function `pvs`: the score and the state after the call. -/
def pvs (s : Search) (depth ply alpha beta : Int) : Int × Search :=
  pvsF (MAX_PLY - 1 - ply).toNat s depth ply alpha beta

/-- The map `opening_book`, as the list of its keys with their replies. -/
abbrev Book := List (String × List String)

/-- The function `initBook`. -/
def initBook : Book :=
  [("e2e4 e7e5 ", ["g1f3", "d2d4"]), ("d2d4 d7d5 ", ["c1f4", "g1f3"])]

/-- The function `bookKey`. -/
def bookKey (e : Engine) : String :=
  let limit := min 12 e.uci_history.length
  (e.uci_history.drop (e.uci_history.length - limit)).foldl (fun s u => (s ++ u).push ' ') ""

/-- The two nested loops of the book lookup: the first reply `u`, and for it the first root
move `r`, with `moveToUCI(r) == u`. -/
def bookReply (replies : List String) (root : List Move) : Option Move :=
  replies.findSome? (fun u => root.find? (fun r => moveToUCI r == u))

/-- The book lookup of `search`. -/
def bookMove (opening_book : Book) (e : Engine) (root : List Move) : Option Move :=
  if e.uci_history.length < 12 then
    match opening_book.lookup (bookKey e) with
    | some replies => bookReply replies root
    | none => none
  else none

/-- The loop `while (!stop && (sc <= A || sc >= B))` of `search`, run for at most `fuel`
rounds: the score `sc` and the state when the loop is left, `none` when it is still running
after `fuel` rounds.  `int(expand * 1.8)` is `expand * 9 / 5` for the values `expand` takes
in the first 28 rounds (80, 154, 287, ...); from the next round on the product is outside
the range of `int` in the source, while `expand` is unbounded here.  The bounds `A` and `B`
are clamped to `±INF_SCORE` and no longer depend on `expand` once it exceeds `2 * INF_SCORE`,
which it does after 12 rounds. -/
def aspiration : Nat → Search → Int → Int → Int → Int → Int → Option (Int × Search)
  | 0, s, _, A, B, sc, _ =>
    if !s.stop && (decide (sc ≤ A) || decide (sc ≥ B)) then none else some (sc, s)
  | fuel + 1, s, d, A, B, sc, expand =>
    if !s.stop && (decide (sc ≤ A) || decide (sc ≥ B)) then
      let A1 := if sc ≤ A then max (-INF_SCORE) (A - expand) else A
      let B1 := if sc ≤ A then B else min INF_SCORE (B + expand)
      let r := pvs s d 0 A1 B1
      aspiration fuel r.2 d A1 B1 r.1 (expand * 9 / 5 + 10)
    else some (sc, s)

/-- The choice `for (const auto& r : root) if (r == te.best) { best = r; break; }` made when
`te.key == hash`. -/
def rootBest (s : Search) (root : List Move) (best : Move) : Move :=
  let te := s.TT (s.e.hash &&& (TT_SIZE - 1))
  if te.key = s.e.hash then
    match root.find? (fun r => r.opEq te.best) with
    | some r => r
    | none => best
  else best

/-- The loop `for (int d = 1; d <= maxDepth; ++d)` of `search`, entered with `n` rounds to go
(`n = maxDepth + 1 - d`, so `n = 0` is `d > maxDepth`): the move `best` and the state when
the loop is left, `none` when an inner loop is still running after `fuel` rounds. -/
def deepen (fuel : Nat) (root : List Move) (maxDepth : Int) :
    Nat → Search → Move → Int → Int → Option (Move × Search)
  | 0, s, best, _, _ => some (best, s)
  | n + 1, s, best, prev, d =>
    if d ≤ maxDepth then
      let A := if d ≥ 3 then prev - (35 + d * 3) else -INF_SCORE
      let B := if d ≥ 3 then prev + (35 + d * 3) else INF_SCORE
      let r := pvs s d 0 A B
      match aspiration fuel r.2 d A B r.1 80 with
      | none => none
      | some (sc, s1) =>
        if s1.stop && decide (d > 1) then some (best, s1)
        else
          let best := rootBest s1 root best
          let t := timeUp s1
          if t.1 then some (best, t.2)
          else deepen fuel root maxDepth n t.2 best sc (d + 1)
    else some (best, s)

/-- The first statements of `search`: `start_time` is read from the clock, `time_limit_ms`,
`stop` and `nodes` are set and the killer table is cleared. -/
def searchStart (s : Search) (timeMs : Int) : Search :=
  { s with start_time := s.clock s.reads, reads := s.reads + 1, time_limit_ms := timeMs,
           stop := false, nodes := 0, killer := fun _ _ => {} }

/-- The function `search(maxDepth, timeMs)` with the book `opening_book`: the move returned
and the state after the call, `none` when a re-search loop is still running after `fuel`
rounds. -/
def search (opening_book : Book) (fuel : Nat) (s : Search) (maxDepth timeMs : Int) :
    Option (Move × Search) :=
  let s := searchStart s timeMs
  let g := generateLegal s.e
  let s : Search := { s with e := g.2 }
  if g.1.isEmpty then some (MOVE_NONE, s)
  else
    match bookMove opening_book s.e g.1 with
    | some r => some (r, s)
    | none => deepen fuel g.1 maxDepth maxDepth.toNat s (g.1.headD {}) 0 1

/-! ## Search: progress of the clock -/

/-- The clock reading `k` lies beyond the time budget of the search. -/
def Over (s : Search) (k : Nat) : Prop := elapsedMs s k > s.time_limit_ms

/-- The state `t` comes after `s` in one search: same clock, start time and budget, no
reading taken back, a raised stop flag stays raised, and while the flag is clear every
reading taken in between was within the budget. -/
structure Adv (s t : Search) : Prop where
  clock : t.clock = s.clock
  start : t.start_time = s.start_time
  limit : t.time_limit_ms = s.time_limit_ms
  reads : s.reads ≤ t.reads
  stop : s.stop = true → t.stop = true
  quiet : t.stop = false → ∀ j, s.reads ≤ j → j < t.reads → ¬ Over s j

/-- The search is bound to end: the reading `k` lies beyond the budget, and the stop flag is
raised already or the reading `k` is still to come within `fuel` readings. -/
def Ready (k fuel : Nat) (s : Search) : Prop :=
  Over s k ∧ (s.stop = true ∨ (s.reads ≤ k ∧ k < s.reads + fuel))

/-! ## Search: a clock that stands still -/

/-- A table entry for the start position with a score outside the widest window. -/
def loudEntry : TTEntry :=
  { key := newEngine.hash, score := INF_SCORE, depth := 100, flag := TT_EXACT }

/-- The start position, a clock that stands still, and `loudEntry` in every table slot. -/
def frozenSearch : Search := { e := newEngine, TT := fun _ => loudEntry }

/-- The states of a search of `frozenSearch` with a budget of 1000 ms. -/
def Frozen (s : Search) : Prop :=
  s.e = newEngine ∧ s.stop = false ∧ s.clock = (fun _ => 0) ∧ s.start_time = 0 ∧
  s.time_limit_ms = 1000 ∧ s.TT = fun _ => loudEntry

/-! ## Search: book example -/

/-- The move e7e5 (a double push). -/
def e7e5 : Move := add 4 6 4 4 false 0 false false true 0

/-- The move g1f3. -/
def g1f3 : Move := add 6 0 5 2 false 0 false false false 0

/-- The position after `e2e4 e7e5` from the start position. -/
def afterE4E5 : Engine := makeMove (makeMove newEngine e2e4) e7e5

/-! ## Search: mate examples -/

/-- A position accepted by `setFEN` whose en-passant field names a square (e6) that holds a
black rook: the white king on c6 is in check from that rook and White has no legal move. -/
def fenMatedStaleEp : Engine := setFEN {} "7k/r3p3/1pK1r3/3Pp3/8/8/6b1/1r6 w - e6 0 1"

/-- A mate: the white king on g1 is in check from the rook on a1 behind its own pawns. -/
def fenBackRankMate : Engine := setFEN {} "7k/8/8/8/8/8/5PPP/r5K1 w - - 0 1"

/-! ## Colour symmetry of evaluate -/

/-- The piece of the other colour: white `1 .. 6` and black `7 .. 12` change places. -/
def swapColour (p : Nat) : Nat :=
  if 1 ≤ p ∧ p ≤ 6 then p + 6 else if 7 ≤ p ∧ p ≤ 12 then p - 6 else p

/-- The square `(y, x)` seen from the other side of the board: rank `7 - y`, same file. -/
def flipSquare (yx : Int × Int) : Int × Int := (7 - yx.1, yx.2)

/-- The board `b2` is `b1` flipped vertically with the colour of every piece swapped. -/
def Mirrored (b1 b2 : Board) : Prop :=
  ∀ yx ∈ squares, b2.get yx.1 yx.2 = swapColour (b1.get (7 - yx.1) yx.2)

instance (b1 b2 : Board) : Decidable (Mirrored b1 b2) := by
  unfold Mirrored
  infer_instance

/-- The sum of two records of counters. -/
def EvalAcc.add (a t : EvalAcc) : EvalAcc :=
  { matW := a.matW + t.matW, matB := a.matB + t.matB, pst := a.pst + t.pst,
    minorW := a.minorW + t.minorW, minorB := a.minorB + t.minorB }

/-- The score of `evaluate` before the last line, from the totals of its loops: material,
square tables, number of minor pieces, number of bishops, mobility. -/
def whiteScore (matW matB pst minorW minorB bishopsW bishopsB mob : Int) : Int :=
  let score := (matW - matB) + pst
  let score := if minorW ≥ 2 then (if bishopsW ≥ 2 then score + 25 else score) else score
  let score := if minorB ≥ 2 then (if bishopsB ≥ 2 then score - 25 else score) else score
  score + mob

/-! ## Colour symmetry of evaluate: mobility and examples -/

/-- The term that `mobSquare` adds for the square `(y, x)`. -/
def mobTerm (b : Board) (yx : Int × Int) : Int :=
  if b.get yx.1 yx.2 = 0 then 0
  else if b.get yx.1 yx.2 = WROOK ∨ b.get yx.1 yx.2 = WQUEEN then 2 * mobCount b yx.2 yx.1
  else if b.get yx.1 yx.2 = BROOK ∨ b.get yx.1 yx.2 = BQUEEN then - (2 * mobCount b yx.2 yx.1)
  else 0

/-- The position after `1. e4`, black to move. -/
def fenAfterE4 : String := "rnbqkbnr/pppppppp/8/8/4P3/8/PPPP1PPP/RNBQKBNR b KQkq - 0 1"

/-- The mirror image of `fenAfterE4`: black has a pawn on e5 and white is to move. -/
def fenMirrorE4 : String := "rnbqkbnr/pppp1ppp/8/4p3/8/8/PPPPPPPP/RNBQKBNR w KQkq - 0 1"

/-! ## The start position as a FEN -/

/-- The standard start position in Forsyth-Edwards notation. -/
def startFEN : String := "rnbqkbnr/pppppppp/8/8/8/8/PPPPPPPP/RNBQKBNR w KQkq - 0 1"

/-! ## The score read by the probe, and a session of two searches -/

/-- The local `sc` of the table probe of `pvs` at ply `ply`: the stored score after the two
statements `if(sc > INF_SCORE-1000) sc -= (ply); if(sc < -INF_SCORE+1000) sc += (ply);`. -/
def probeScore (te : TTEntry) (ply : Int) : Int :=
  let sc := te.score
  let sc := if sc > INF_SCORE - 1000 then sc - ply else sc
  if sc < -INF_SCORE + 1000 then sc + ply else sc

/-- White is in check by the rook on a1; the one legal move g2f1 gives check, and Black
mates by taking the bishop with the rook. -/
def fenCrossCheck : Engine := setFEN {} "8/8/8/8/8/3k3p/6BP/r6K w - - 0 1"

/-- The bishop move g2f1. -/
def g2f1 : Move := add 6 1 5 0 false 0 false false false 0

/-- The position of `fenCrossCheck` after g2f1: Black is in check and mates by a1f1. -/
def fenCrossCheckReply : String := "8/8/8/8/8/3k3p/7P/r4B1K b - - 1 1"

/-- The state in which `search(maxDepth, timeMs)` makes its first call of `pvs`: after its
first statements and the generation of the root moves. -/
def rootCall (s : Search) (timeMs : Int) : Search :=
  { searchStart s timeMs with e := (generateLegal (searchStart s timeMs).e).2 }

/-- The engine with an empty table after `position fen 8/8/8/8/8/3k3p/6BP/r6K w - - 0 1`. -/
def crossCheckSearch : Search := { e := fenCrossCheck }

/-- The state after `go depth 1` (that is `search(1, 2000)`) in `crossCheckSearch`. -/
def afterFirstGo : Search :=
  match search initBook 0 crossCheckSearch 1 2000 with
  | some r => r.2
  | none => crossCheckSearch

/-- The state after `position fen 8/8/8/8/8/3k3p/7P/r4B1K b - - 1 1` in `afterFirstGo`. -/
def replySearch : Search := { afterFirstGo with e := setFEN afterFirstGo.e fenCrossCheckReply }

/-! ## A clock that runs out at the first child -/

instance (s : Search) (k : Nat) : Decidable (Over s k) := by
  unfold Over
  infer_instance

/-- A clock that reads 0 once and is far beyond any budget afterwards. -/
def clockOneTick : Nat → Int := fun k => if k = 0 then 0 else 10000000000

/-- The search state at the start position with a budget of 1000 ms whose second clock
reading lies beyond the budget. -/
def stopAtChild : Search := { e := newEngine, time_limit_ms := 1000, clock := clockOneTick }

/-! ## A search stopped in its second iteration -/

/-- A search state whose next clock reading lies beyond the budget of 1000 ms. -/
def lateSearch : Search := { e := newEngine, time_limit_ms := 1000, clock := fun _ => 10000000000 }

/-! ## Move ordering -/

/-- In the list `L` an occurrence of `a` stands before an occurrence of `b`. -/
def Before (L : List Move) (a b : Move) : Prop :=
  ∃ l1 l2 l3, L = l1 ++ a :: (l2 ++ b :: l3)

/-- The test of `scoreMoves` for the transposition move. -/
def isTTMove (ttMove m : Move) : Bool := hasSquares ttMove && m.opEq ttMove

/-- The test of `scoreMoves` for the two killer moves of `ply`. -/
def isKiller (s : Search) (ply : Int) (m : Move) : Bool :=
  (hasSquares (s.killer 0 ply) && m.opEq (s.killer 0 ply)) ||
  (hasSquares (s.killer 1 ply) && m.opEq (s.killer 1 ply))

/-- The bonus of `scoreMoves` for the transposition move. -/
def ttBonus (ttMove m : Move) : Int := if isTTMove ttMove m then 2000000 else 0

/-- The bonus of `scoreMoves` for a capture. -/
def captureBonus (s : Search) (m : Move) : Int :=
  if m.is_capture then 1000000 + mvv_lva s.e m else 0

/-- The bonus of `scoreMoves` for castling. -/
def castleBonus (m : Move) : Int := if m.is_castle then 50000 else 0

/-- The bonus of `scoreMoves` for the killer in slot `k` of the ply. -/
def killerBonus (s : Search) (ply : Int) (k : Nat) (m : Move) : Int :=
  if hasSquares (s.killer k ply) && m.opEq (s.killer k ply) then 40000 - 5000 * k else 0

/-- The entry of `history_heur` read by `scoreMoves` for `m`. -/
def historyOf (s : Search) (m : Move) : Int :=
  s.history_heur (if s.e.white_to_move then 0 else 1) (sq m.from_x m.from_y)
    (sq m.to_x m.to_y)

/-- The piece value of the piece captured by `m` (`PIECE_VALUE[def]` in `mvv_lva`). -/
def victimValue (e : Engine) (m : Move) : Int :=
  PIECE_VALUE (if m.is_enpassant then (if e.white_to_move then BPAWN else WPAWN)
               else e.b.get m.to_y m.to_x)

/-- The piece value of the capturing piece (`PIECE_VALUE[att]` in `mvv_lva`). -/
def attackerValue (e : Engine) (m : Move) : Int := PIECE_VALUE (e.b.get m.from_y m.from_x)

/-- The captures that `qsearch` loops over, in its order: the legal captures, scored and
sorted (see `qBody_moves`). -/
def qsearchMoves (e : Engine) : List Move :=
  sortByScore ((filterLegal e (generatePseudo e true)).1.map
    (fun m => { m with score := mvv_lva (filterLegal e (generatePseudo e true)).2 m }))

/-- White to move with castling e1g1 available and the quiet pawn move a2a3. -/
def fenCastleKiller : Engine := setFEN {} "4k3/8/8/8/8/8/P7/4K2R w K - 0 1"

/-- The move a2a3. -/
def a2a3 : Move := add 0 1 0 2 false 0 false false false 0

/-- The search state at `fenCastleKiller` with a2a3 as first killer of ply 0 and an all-zero
history table. -/
def killerSearch : Search :=
  { e := fenCastleKiller, killer := fun k p => if k = 0 ∧ p = 0 then a2a3 else {} }

/-- The queen can take the bishop on d7, the pawn can take the knight on f5. -/
def fenTwoCaptures : Engine := setFEN {} "7k/3b4/8/5n2/4P3/8/8/K2Q4 w - - 0 1"

instance scoreTotal : IsTotal Move (fun a b => a.score ≥ b.score) :=
  ⟨fun a b => le_total b.score a.score⟩

instance scoreTrans : IsTrans Move (fun a b => a.score ≥ b.score) :=
  ⟨fun _ _ _ h1 h2 => le_trans h2 h1⟩

/-! ## Move ordering: examples -/

/-- The castling move e1g1. -/
def e1g1 : Move := add 4 0 6 0 false 0 false true false 0

/-- The double push a2a4. -/
def a2a4 : Move := add 0 1 0 3 false 0 false false true 0

/-- The king move e1d1. -/
def e1d1 : Move := add 4 0 3 0 false 0 false false false 0

/-- The search state at `fenCastleKiller` with a2a3 as second killer of ply 0 (the first
slot is empty) and a history table that is zero but for the entry 35000 of White's move
from e1 to d1. -/
def historySearch : Search :=
  { e := fenCastleKiller, killer := fun k p => if k = 1 ∧ p = 0 then a2a3 else {},
    history_heur := fun side f t => if side = 0 ∧ f = sq 4 0 ∧ t = sq 3 0 then 35000 else 0 }

/-- The capture e4xf5 (pawn takes knight). -/
def e4xf5 : Move := add 4 3 5 4 true BKNIGHT false false false 0

/-- The capture d1xd7 (queen takes bishop). -/
def d1xd7 : Move := add 3 0 3 6 true BBISHOP false false false 0

/-! ## Killer and history updates: example -/

/-- The score `sc` of the move `m` in the loop of `pvs` and the state after `undoMove(m)`,
before the loop looks at the score. -/
def searchedMove (child : Search → Int → Int → Int → Int × Search) (depth alpha beta : Int)
    (m : Move) (moveCount : Int) (s : Search) : Int × Search :=
  ((searchMove child depth alpha beta m (moveCount + 1) { s with e := makeMove s.e m }).1,
   { (searchMove child depth alpha beta m (moveCount + 1) { s with e := makeMove s.e m }).2 with
     e := undoMove (searchMove child depth alpha beta m (moveCount + 1)
            { s with e := makeMove s.e m }).2.e m })

/-- White has the king on a1 and a pawn on a2, Black the king on h8. -/
def fenKingPawn : Engine := setFEN {} "7k/8/8/8/8/8/P7/K7 w - - 0 1"

/-- The king move a1b2. -/
def a1b2 : Move := add 0 0 1 1 false 0 false false false 0

/-! ## Reaching the table store of pvs -/

/-- The call `pvs(depth, ply, alpha, beta)` in the state `s` gets to its store step: the stop
flag is clear and the time is not used up, `depth > 0`, `ply < MAX_PLY - 1`, the table probe
gives no score, the window is not empty after the mate-distance clamp, and there is a legal
move. -/
def ReachesStore (s : Search) (depth ply alpha beta : Int) : Prop :=
  s.stop = false ∧ ¬ Over s s.reads ∧ 0 < depth ∧ ply < MAX_PLY - 1 ∧
  (ttProbe (s.TT (s.e.hash &&& (TT_SIZE - 1))) s.e.hash
    (if inCheck s.e.b s.e.white_to_move then depth + 1 else depth) ply alpha beta).1 = none ∧
  max alpha (-MATE_IN_MAX + ply) < min beta (MATE_IN_MAX - ply - 1) ∧
  (generateLegal s.e).1 ≠ []

instance (s : Search) (depth ply alpha beta : Int) :
    Decidable (ReachesStore s depth ply alpha beta) := by
  unfold ReachesStore; infer_instance

/-- White mates by taking the rook on a8. -/
def fenMateInOne : Engine := setFEN {} "r5k1/5ppp/8/8/8/8/8/R3K3 w - - 0 1"

/-- The search state at `fenMateInOne` with a budget of 1000 ms and an empty table. -/
def mateInOneSearch : Search := { e := fenMateInOne, time_limit_ms := 1000 }

/-! ## A quiet promotion -/

/-- The quiet queen promotion `a7a8q` as `generatePseudo(false)` produces it. -/
def a7a8q : Move := add 0 6 0 7 false 0 false false false WQUEEN

/-! ## Approximants of pvs and qsearch by call depth -/

/-- The function `qsearch` with at most `n` nested calls: the call itself counts, and a call
for which none is left is answered by `bot`. -/
def qsearchN (bot : Engine → Int → Int → Int → Int × Engine) :
    Nat → Engine → Int → Int → Int → Int × Engine
  | 0 => bot
  | n + 1 => qBody (qsearchN bot n)

/-- The body of `pvs` as in `pvsBody`, with the function called for `qsearch(alpha, beta,
ply)` as a parameter. -/
def pvsBodyQ (q : Engine → Int → Int → Int → Int × Engine)
    (rec : Search → Int → Int → Int → Int → Int × Search) (s : Search)
    (depth ply alpha beta : Int) : Int × Search :=
  if s.stop then (alpha, { s with stop := true })
  else
    let t := timeUp s
    if t.1 then (alpha, { t.2 with stop := true })
    else
      let s := t.2
      if depth ≤ 0 then
        let r := q s.e alpha beta ply
        (r.1, { s with e := r.2 })
      else if ply ≥ MAX_PLY - 1 then (evaluate s.e, s)
      else pvsNode (fun s1 d a b => rec s1 d (ply + 1) a b) s depth ply alpha beta

/-- The function `pvs` with at most `n` nested calls of `pvs` and `qsearch` together: the
call itself counts, and a call for which none is left is answered by `bot` (by `botq` for a
call of `qsearch`). -/
def pvsN (botq : Engine → Int → Int → Int → Int × Engine)
    (bot : Search → Int → Int → Int → Int → Int × Search) :
    Nat → Search → Int → Int → Int → Int → Int × Search
  | 0 => bot
  | n + 1 => pvsBodyQ (qsearchN botq n) (pvsN botq bot n)

/-! ## A position with a move that leaves the king in check -/

/-- The moves `d1h5` and `f7f6` as `generatePseudo` produces them. -/
def d1h5 : Move := add 3 0 7 4 false 0 false false false 0

def f7f6 : Move := add 5 6 5 5 false 0 false false false 0

/-- The position after `1. e4 e5 2. Qh5`: the pawn on f7 shields the black king from the
queen. -/
def afterQh5 : Engine := makeMove (makeMove (makeMove newEngine e2e4) e7e5) d1h5

/-! ## Negamax over capture sequences -/

/-- The legal captures of a position: the moves of `generatePseudo(false)` that capture and
after which the mover's king is not attacked. -/
def legalCaptures (e : Engine) : List Move :=
  (generatePseudo e false).filter
    (fun m => m.is_capture && !inCheck (makeBoard e m) e.white_to_move)

/-- The capture-only negamax without pruning, unfolded `n` times: `evaluate(P)` when
`ply ≥ MAX_PLY - 1`, else the maximum of `evaluate(P)` and `-Q(child, ply + 1)` over the
legal captures. -/
def quiescenceF : Nat → Engine → Int → Int
  | 0, e, _ => evaluate e
  | n + 1, e, ply =>
    if ply ≥ MAX_PLY - 1 then evaluate e
    else (legalCaptures e).foldl
      (fun acc m => max acc (- quiescenceF n (makeMove e m) (ply + 1))) (evaluate e)

/-- The value `Q(P, ply)`. -/
def quiescence (e : Engine) (ply : Int) : Int :=
  quiescenceF (MAX_PLY - 1 - ply).toNat e ply

/-- A position accepted by `setFEN` whose en-passant field names e6, a square on which a
white knight stands; the knight attacks the black queen on c7. -/
def fenKnightOnEp : Engine := setFEN {} "7k/2q5/4N3/3Pp3/8/8/8/K7 w - e6 0 1"

instance maxNegRightComm (v : Move → Int) :
    RightCommutative (fun (acc : Int) (m : Move) => max acc (v m)) :=
  ⟨fun a b c => by simp only [max_assoc, max_comm (v b) (v c)]⟩

/-! ## Captures onto a square -/

/-- The move is a capture that is not en passant and lands on `(x, y)`. -/
def CapturesOn (x y : Int) (m : Move) : Prop :=
  m.is_capture = true ∧ m.is_enpassant = false ∧ m.to_x = x ∧ m.to_y = y

instance (x y : Int) (m : Move) : Decidable (CapturesOn x y m) := by
  unfold CapturesOn; infer_instance

/-- The move `d7d5` as `generatePseudo` produces it. -/
def d7d5 : Move := add 3 6 3 4 false 0 false false true 0

/-- The position after `1. e4 d5`: the pawn on e4 attacks the pawn on d5. -/
def afterE4D5 : Engine := makeMove (makeMove newEngine e2e4) d7d5

/-- The directions tried by the sliding block for the piece `p`. -/
def sliderDirs (p : Nat) : List (Int × Int) :=
  (DIRS.take (if p = WROOK ∨ p = BROOK then 4 else if p = WBISHOP ∨ p = BBISHOP then 8 else 8)).drop
    (if p = WROOK ∨ p = BROOK then 0 else if p = WBISHOP ∨ p = BBISHOP then 4 else 0)

/-! ## Home squares of castling rights -/

/-- Each castling right that is still set has its king on e1 / e8 and its rook on the home
corner: bit 8 is White's king side, 4 White's queen side, 2 Black's king side, 1 Black's
queen side. -/
def CastleHome (s : Engine) : Prop :=
  (s.castling &&& 8 ≠ 0 → s.b.get 0 4 = WKING ∧ s.b.get 0 7 = WROOK) ∧
  (s.castling &&& 4 ≠ 0 → s.b.get 0 4 = WKING ∧ s.b.get 0 0 = WROOK) ∧
  (s.castling &&& 2 ≠ 0 → s.b.get 7 4 = BKING ∧ s.b.get 7 7 = BROOK) ∧
  (s.castling &&& 1 ≠ 0 → s.b.get 7 4 = BKING ∧ s.b.get 7 0 = BROOK)

instance (s : Engine) : Decidable (CastleHome s) := by
  unfold CastleHome; infer_instance

/-- The king of a castling right: the square e1 or e8 holds it. -/
def KingHome (s : Engine) : Prop :=
  (s.castling &&& 8 ≠ 0 → s.b.get 0 4 = WKING) ∧
  (s.castling &&& 4 ≠ 0 → s.b.get 0 4 = WKING) ∧
  (s.castling &&& 2 ≠ 0 → s.b.get 7 4 = BKING) ∧
  (s.castling &&& 1 ≠ 0 → s.b.get 7 4 = BKING)

/-! ## Piece counts and square terms -/

/-- The number of white pieces other than the king. -/
def othersW (b : Board) : Int :=
  countPiece b WPAWN + countPiece b WKNIGHT + countPiece b WBISHOP + countPiece b WROOK +
    countPiece b WQUEEN

/-- The number of black pieces other than the king. -/
def othersB (b : Board) : Int :=
  countPiece b BPAWN + countPiece b BKNIGHT + countPiece b BBISHOP + countPiece b BROOK +
    countPiece b BQUEEN

/-- The value 1 when the square `(y, x)` holds `piece`, else 0. -/
def holds (b : Board) (piece : Nat) (yx : Int × Int) : Int :=
  if b.get yx.1 yx.2 = piece then 1 else 0

/-- What the square `(y, x)` adds to `(matW - matB) + pst + mob` in `evaluate`. -/
def squareTerm (b : Board) (yx : Int × Int) : Int :=
  (evalSquare b {} yx).matW - (evalSquare b {} yx).matB + (evalSquare b {} yx).pst
    + mobTerm b yx

end DeepBecky02

/-! # The first engine, `deepbecky01.cpp`

The board array is the same `[8][8]` array of piece codes as in the second engine and is
held in the same way. -/

namespace DeepBecky01

/-! ## Pieces and moves -/

abbrev EMPTY : Nat := 0
abbrev wP : Nat := 1
abbrev wN : Nat := 2
abbrev wB : Nat := 3
abbrev wR : Nat := 4
abbrev wQ : Nat := 5
abbrev wK : Nat := 6
abbrev bP : Nat := 7
abbrev bN : Nat := 8
abbrev bB : Nat := 9
abbrev bR : Nat := 10
abbrev bQ : Nat := 11
abbrev bK : Nat := 12

/-- The record `Move` with its default constructor. -/
structure Move where
  from_x : Int := 0
  from_y : Int := 0
  to_x : Int := 0
  to_y : Int := 0
  promotion_piece : Nat := EMPTY
  captured_piece : Nat := EMPTY
  is_castle : Bool := false
  is_en_passant : Bool := false
  deriving DecidableEq, Repr, Inhabited

/-- The constructor `Move(fx, fy, tx, ty, p_prom, p_cap, c, ep)`, all arguments given. -/
def move (fx fy tx ty : Int) (p_prom p_cap : Nat) (c ep : Bool) : Move :=
  { from_x := fx, from_y := fy, to_x := tx, to_y := ty, promotion_piece := p_prom,
    captured_piece := p_cap, is_castle := c, is_en_passant := ep }

/-- The record `BoardState`. -/
structure BoardState where
  white_king_moved : Bool := false
  black_king_moved : Bool := false
  white_rook_a1_moved : Bool := false
  white_rook_h1_moved : Bool := false
  black_rook_a8_moved : Bool := false
  black_rook_h8_moved : Bool := false
  en_passant_x : Int := 0
  captured_piece : Nat := EMPTY
  hash : Nat := 0
  move : Move := {}
  deriving DecidableEq, Repr, Inhabited

/-- The function `get_piece_color`: `true` for `WHITE`. -/
def get_piece_color (p : Nat) : Bool := decide (0 < p) && decide (p ≤ wK)

/-- The function `get_piece_type`. -/
def get_piece_type (p : Nat) : Nat := if p > wK then p - 6 else p

/-- The position fields of `class DeepBeckyEngine`; the search tables are left out, the
functions below do not read them. -/
structure Engine where
  board : DeepBecky02.Board := DeepBecky02.Board.zero
  is_white_turn : Bool := true
  white_king_moved : Bool := false
  black_king_moved : Bool := false
  white_rook_a1_moved : Bool := false
  white_rook_h1_moved : Bool := false
  black_rook_a8_moved : Bool := false
  black_rook_h8_moved : Bool := false
  en_passant_x : Int := -1
  king_x_white : Int := 0
  king_y_white : Int := 0
  king_x_black : Int := 0
  king_y_black : Int := 0
  current_hash : Nat := 0
  board_history : List BoardState := []
  deriving DecidableEq, Repr

/-! ## Zobrist constants and `generateHash` -/

/-- The draws of `initializeZobrist`, in order: `ZOBRIST_TABLE[13][8][8]`, `ZOBRIST_TURN`,
`ZOBRIST_CASTLE[16]`, `ZOBRIST_ENPASSANT[8]`. -/
def zobDraws : List Nat := (DeepBecky02.MT.outputs 0xDEADBEEF1337).take 857

/-- The table `ZOBRIST_TABLE[p][y][x]`. -/
def ZOBRIST_TABLE (p : Nat) (y x : Int) : Nat :=
  zobDraws.getD ((p : Int) * 64 + y * 8 + x).toNat 0

/-- The constant `ZOBRIST_TURN`. -/
def ZOBRIST_TURN : Nat := zobDraws.getD 832 0

/-- The table `ZOBRIST_CASTLE[i]`. -/
def ZOBRIST_CASTLE (i : Nat) : Nat := zobDraws.getD (833 + i) 0

/-- The table `ZOBRIST_ENPASSANT[i]`, `i` in `0 .. 7`; an index outside the array reads 0
here. -/
def ZOBRIST_ENPASSANT (i : Int) : Nat := if 0 ≤ i ∧ i < 8 then zobDraws.getD (849 + i.toNat) 0 else 0

/-- The function `generateHash`. -/
def generateHash (s : Engine) : Nat :=
  let h := DeepBecky02.squares.foldl
    (fun h yx =>
      if s.board.get yx.1 yx.2 ≠ EMPTY then
        h ^^^ ZOBRIST_TABLE (s.board.get yx.1 yx.2) yx.1 yx.2
      else h) 0
  let h := if s.is_white_turn then h ^^^ ZOBRIST_TURN else h
  let cr : Nat := 0
  let cr := if !s.white_king_moved && !s.white_rook_h1_moved then cr ||| 1 else cr
  let cr := if !s.white_king_moved && !s.white_rook_a1_moved then cr ||| 2 else cr
  let cr := if !s.black_king_moved && !s.black_rook_h8_moved then cr ||| 4 else cr
  let cr := if !s.black_king_moved && !s.black_rook_a8_moved then cr ||| 8 else cr
  let h := h ^^^ ZOBRIST_CASTLE cr
  if s.en_passant_x ≠ -1 then h ^^^ ZOBRIST_ENPASSANT s.en_passant_x else h

/-! ## `initializeBoard` -/

/-- The map `pm` read with `operator[]`: a character that is not a key reads `EMPTY`. -/
def pm (c : Char) : Nat :=
  if c = 'p' then bP else if c = 'n' then bN else if c = 'b' then bB
  else if c = 'r' then bR else if c = 'q' then bQ else if c = 'k' then bK
  else if c = 'P' then wP else if c = 'N' then wN else if c = 'B' then wB
  else if c = 'R' then wR else if c = 'Q' then wQ else if c = 'K' then wK
  else EMPTY

/-- The loop `for (char c : part)` over the placement field: the engine and the counters
`r`, `f`. -/
def placeLoop : List Char → Engine → Int → Int → Engine
  | [], s, _, _ => s
  | c :: cs, s, r, f =>
    if c = '/' then placeLoop cs s (r - 1) 0
    else if DeepBecky02.isDigit c then placeLoop cs s r (f + ((c.toNat : Int) - 48))
    else
      let s1 := { s with board := s.board.set r f (pm c) }
      let s2 := if pm c = wK then { s1 with king_x_white := f, king_y_white := r } else s1
      let s3 := if pm c = bK then { s2 with king_x_black := f, king_y_black := r } else s2
      placeLoop cs s3 r (f + 1)

/-- The function `initializeBoard`; `s` is the engine before the call (the cached king
squares keep their old values when the placement field has no king). -/
def initializeBoard (s : Engine) (fen : String) : Engine :=
  let s0 : Engine :=
    { s with board := DeepBecky02.Board.zero, is_white_turn := true, en_passant_x := -1,
             white_king_moved := false, black_king_moved := false,
             white_rook_a1_moved := false, white_rook_h1_moved := false,
             black_rook_a8_moved := false, black_rook_h8_moved := false,
             board_history := [] }
  let ss : DeepBecky02.Stream := { rest := fen.toList }
  let (part, ss) := DeepBecky02.readToken ss ""
  let s1 := placeLoop part.toList s0 7 0
  let (part, ss) := DeepBecky02.readToken ss part
  let s2 := { s1 with is_white_turn := decide (part = "w") }
  let (part, ss) := DeepBecky02.readToken ss part
  let cr := part.toList
  let s3 := if !cr.contains 'K' then { s2 with white_rook_h1_moved := true } else s2
  let s4 := if !cr.contains 'Q' then { s3 with white_rook_a1_moved := true } else s3
  let s5 := if !cr.contains 'k' then { s4 with black_rook_h8_moved := true } else s4
  let s6 := if !cr.contains 'q' then { s5 with black_rook_a8_moved := true } else s5
  let s7 := if s6.white_rook_a1_moved && s6.white_rook_h1_moved then
    { s6 with white_king_moved := true } else s6
  let s8 := if s7.black_rook_a8_moved && s7.black_rook_h8_moved then
    { s7 with black_king_moved := true } else s7
  let s9 := if part = "-" then
    { s8 with white_king_moved := true, black_king_moved := true, white_rook_a1_moved := true,
              white_rook_h1_moved := true, black_rook_a8_moved := true,
              black_rook_h8_moved := true } else s8
  let (part, _) := DeepBecky02.readToken ss part
  let s10 := if part ≠ "-" then
    { s9 with en_passant_x := ((part.toList.headD (Char.ofNat 0)).toNat : Int) - 97 }
    else { s9 with en_passant_x := -1 }
  { s10 with current_hash := generateHash s10 }

/-- The default argument of `initializeBoard`. -/
def startFEN : String := "rnbqkbnr/pppppppp/8/8/8/8/PPPPPPPP/RNBQKBNR w KQkq - 0 1"

/-- The engine after `initializeBoard()` on a fresh object. -/
def startEngine : Engine := initializeBoard {} startFEN

/-! ## Make / unmake -/

/-- The function `applyMove`. -/
def applyMove (s : Engine) (m : Move) : Engine :=
  let hist := s.board_history ++
    [{ white_king_moved := s.white_king_moved, black_king_moved := s.black_king_moved,
       white_rook_a1_moved := s.white_rook_a1_moved,
       white_rook_h1_moved := s.white_rook_h1_moved,
       black_rook_a8_moved := s.black_rook_a8_moved,
       black_rook_h8_moved := s.black_rook_h8_moved,
       en_passant_x := s.en_passant_x, captured_piece := m.captured_piece,
       hash := s.current_hash, move := m }]
  let piece := s.board.get m.from_y m.from_x
  let b := s.board.set m.to_y m.to_x piece
  let b := b.set m.from_y m.from_x EMPTY
  let b :=
    if m.is_en_passant then b.set (m.to_y + (if s.is_white_turn then -1 else 1)) m.to_x EMPTY
    else if m.is_castle then
      if m.to_x = 6 then (b.set m.from_y 5 (b.get m.from_y 7)).set m.from_y 7 EMPTY
      else if m.to_x = 2 then (b.set m.from_y 3 (b.get m.from_y 0)).set m.from_y 0 EMPTY
      else b
    else b
  let b := if m.promotion_piece ≠ EMPTY then b.set m.to_y m.to_x m.promotion_piece else b
  let s1 : Engine := { s with board := b, board_history := hist }
  let s1 := if piece = wK then
    { s1 with white_king_moved := true, king_x_white := m.to_x, king_y_white := m.to_y }
    else s1
  let s1 := if piece = bK then
    { s1 with black_king_moved := true, king_x_black := m.to_x, king_y_black := m.to_y }
    else s1
  let s1 := if m.from_x = 0 ∧ m.from_y = 0 then { s1 with white_rook_a1_moved := true } else s1
  let s1 := if m.from_x = 7 ∧ m.from_y = 0 then { s1 with white_rook_h1_moved := true } else s1
  let s1 := if m.from_x = 0 ∧ m.from_y = 7 then { s1 with black_rook_a8_moved := true } else s1
  let s1 := if m.from_x = 7 ∧ m.from_y = 7 then { s1 with black_rook_h8_moved := true } else s1
  let s1 := if m.to_x = 0 ∧ m.to_y = 0 ∧ b.get 0 0 ≠ wR then
    { s1 with white_rook_a1_moved := true } else s1
  let s1 := if m.to_x = 7 ∧ m.to_y = 0 ∧ b.get 0 7 ≠ wR then
    { s1 with white_rook_h1_moved := true } else s1
  let s1 := if m.to_x = 0 ∧ m.to_y = 7 ∧ b.get 7 0 ≠ bR then
    { s1 with black_rook_a8_moved := true } else s1
  let s1 := if m.to_x = 7 ∧ m.to_y = 7 ∧ b.get 7 7 ≠ bR then
    { s1 with black_rook_h8_moved := true } else s1
  let ep : Int :=
    if get_piece_type piece = wP ∧ (m.from_y - m.to_y).natAbs = 2 then m.to_x else -1
  let s2 : Engine := { s1 with en_passant_x := ep, is_white_turn := !s.is_white_turn }
  { s2 with current_hash := generateHash s2 }

/-- The function `undoMove`; on an empty `board_history` the record read by `back()` is the
default one here. -/
def undoMove (s : Engine) (m : Move) : Engine :=
  let last_state := s.board_history.getLastD default
  let hist := s.board_history.dropLast
  let wt := !s.is_white_turn
  let piece := s.board.get m.to_y m.to_x
  let piece := if m.promotion_piece ≠ EMPTY then (if wt then wP else bP) else piece
  let b := s.board.set m.from_y m.from_x piece
  let b := b.set m.to_y m.to_x last_state.captured_piece
  let b :=
    if m.is_en_passant then
      (b.set m.from_y m.to_x EMPTY).set (m.to_y + (if wt then -1 else 1)) m.to_x
        (if wt then bP else wP)
    else if m.is_castle then
      if m.to_x = 6 then (b.set m.from_y 7 (b.get m.from_y 5)).set m.from_y 5 EMPTY
      else if m.to_x = 2 then (b.set m.from_y 0 (b.get m.from_y 3)).set m.from_y 3 EMPTY
      else b
    else b
  let s1 : Engine := { s with board := b, board_history := hist, is_white_turn := wt }
  let s1 := if piece = wK then { s1 with king_x_white := m.from_x, king_y_white := m.from_y }
    else s1
  let s1 := if piece = bK then { s1 with king_x_black := m.from_x, king_y_black := m.from_y }
    else s1
  { s1 with white_king_moved := last_state.white_king_moved,
            black_king_moved := last_state.black_king_moved,
            white_rook_a1_moved := last_state.white_rook_a1_moved,
            white_rook_h1_moved := last_state.white_rook_h1_moved,
            black_rook_a8_moved := last_state.black_rook_a8_moved,
            black_rook_h8_moved := last_state.black_rook_h8_moved,
            en_passant_x := last_state.en_passant_x,
            current_hash := last_state.hash }

/-! ## Attacks -/

/-- The function `isPieceOfSameColor`. -/
def isPieceOfSameColor (p1 p2 : Nat) : Bool :=
  if p1 = EMPTY ∨ p2 = EMPTY then false
  else
    let is_white1 := decide (p1 ≥ wP) && decide (p1 ≤ wK)
    let is_white2 := decide (p2 ≥ wP) && decide (p2 ≤ wK)
    is_white1 == is_white2

/-- The test `nx >= 0 && nx < 8 && ny >= 0 && ny < 8`. -/
def inside (nx ny : Int) : Bool := DeepBecky02.onBoard nx ny

/-- The pairs `(dy, dx)` of `for dy in {-2,-1,1,2} for dx in {-2,-1,1,2}` with
`abs(dx) + abs(dy) == 3`, in loop order. -/
def knightOffsets : List (Int × Int) :=
  ([-2, -1, 1, 2] : List Int).flatMap (fun dy =>
    (([-2, -1, 1, 2] : List Int).filter (fun dx => dx.natAbs + dy.natAbs = 3)).map
      (fun dx => (dy, dx)))

/-- The pairs `(dy, dx)` of `for dy in {-1,0,1} for dx in {-1,0,1}` with
`dx != 0 || dy != 0`, in loop order. -/
def kingOffsets : List (Int × Int) :=
  ([-1, 0, 1] : List Int).flatMap (fun dy =>
    (([-1, 0, 1] : List Int).filter (fun dx => dx ≠ 0 ∨ dy ≠ 0)).map (fun dx => (dy, dx)))

/-- The arrays `dxs`, `dys`, entry by entry as `(dx, dy)`. -/
def dirs : List (Int × Int) :=
  [(0, 1), (0, -1), (1, 0), (-1, 0), (1, 1), (1, -1), (-1, 1), (-1, -1)]

/-- The loop `for (s = 1; s < 8; ++s)` of `isAttacked` in direction `i`, from step `s`, with
`fuel` steps left: whether it returns `true`. -/
def attackRay (b : DeepBecky02.Board) (tx ty : Int) (R B Q : Nat) (i : Nat) (dx dy : Int) :
    Nat → Int → Bool
  | 0, _ => false
  | fuel + 1, st =>
    let nx := tx + dx * st
    let ny := ty + dy * st
    if !inside nx ny then false
    else
      let p := b.get ny nx
      if p ≠ EMPTY then
        (decide (i < 4) && (decide (p = R) || decide (p = Q))) ||
        (decide (i ≥ 4) && (decide (p = B) || decide (p = Q)))
      else attackRay b tx ty R B Q i dx dy fuel (st + 1)

/-- The function `isAttacked`. -/
def isAttacked (b : DeepBecky02.Board) (target_x target_y : Int) (by_white : Bool) : Bool :=
  let pawn_dir : Int := if by_white then 1 else -1
  let pawn_type : Nat := if by_white then wP else bP
  (decide (target_y - pawn_dir ≥ 0) && decide (target_y - pawn_dir < 8) &&
    ((decide (target_x > 0) && decide (b.get (target_y - pawn_dir) (target_x - 1) = pawn_type)) ||
     (decide (target_x < 7) && decide (b.get (target_y - pawn_dir) (target_x + 1) = pawn_type)))) ||
  knightOffsets.any (fun d =>
    let nx := target_x + d.2
    let ny := target_y + d.1
    inside nx ny && decide (b.get ny nx = (if by_white then wN else bN))) ||
  (List.range 8).any (fun i =>
    attackRay b target_x target_y (if by_white then wR else bR) (if by_white then wB else bB)
      (if by_white then wQ else bQ) i (dirs.getD i (0, 0)).1 (dirs.getD i (0, 0)).2 7 1) ||
  kingOffsets.any (fun d =>
    let nx := target_x + d.2
    let ny := target_y + d.1
    inside nx ny && decide (b.get ny nx = (if by_white then wK else bK)))

/-- The function `isInCheck`. -/
def isInCheck (s : Engine) (is_white_king : Bool) : Bool :=
  if is_white_king then isAttacked s.board s.king_x_white s.king_y_white false
  else isAttacked s.board s.king_x_black s.king_y_black true

/-! ## Move generation -/

/-- The four promotion moves pushed for a pawn arriving on `prom_rank`. -/
def promos (wt : Bool) (x y nx ny : Int) (cap : Nat) : List Move :=
  [move x y nx ny (if wt then wQ else bQ) cap false false,
   move x y nx ny (if wt then wR else bR) cap false false,
   move x y nx ny (if wt then wB else bB) cap false false,
   move x y nx ny (if wt then wN else bN) cap false false]

/-- The branch `pt == wP` for the pawn `p` on `(x, y)`. -/
def pawnMoves (s : Engine) (x y : Int) (p : Nat) : List Move :=
  let wt := s.is_white_turn
  let dir : Int := if wt then 1 else -1
  let start_rank : Int := if wt then 1 else 6
  let prom_rank : Int := if wt then 7 else 0
  (if y + dir ≥ 0 ∧ y + dir < 8 ∧ s.board.get (y + dir) x = EMPTY then
    (if y + dir = prom_rank then promos wt x y x (y + dir) EMPTY
     else [move x y x (y + dir) EMPTY EMPTY false false]) ++
    (if y = start_rank ∧ s.board.get (y + 2 * dir) x = EMPTY then
      [move x y x (y + 2 * dir) EMPTY EMPTY false false]
     else [])
  else []) ++
  ([-1, 1] : List Int).flatMap (fun dx =>
    let nx := x + dx
    let ny := y + dir
    if inside nx ny then
      (if s.board.get ny nx ≠ EMPTY ∧ isPieceOfSameColor p (s.board.get ny nx) = false then
        (if ny = prom_rank then promos wt x y nx ny (s.board.get ny nx)
         else [move x y nx ny EMPTY (s.board.get ny nx) false false])
       else []) ++
      (if nx = s.en_passant_x ∧ y = (if wt then 4 else 3) then
        [move x y nx (y + dir) EMPTY (if wt then bP else wP) false true]
       else [])
    else [])

/-- The loops of the knight branch and of the first part of the king branch over a list of
offsets `(dy, dx)`. -/
def stepMoves (s : Engine) (x y : Int) (p : Nat) (offs : List (Int × Int)) : List Move :=
  offs.flatMap (fun d =>
    let nx := x + d.2
    let ny := y + d.1
    if inside nx ny && !isPieceOfSameColor p (s.board.get ny nx) then
      [move x y nx ny EMPTY (s.board.get ny nx) false false]
    else [])

/-- The castling part of the king branch. -/
def castleMoves (s : Engine) : List Move :=
  if !isInCheck s s.is_white_turn then
    if s.is_white_turn then
      (if !s.white_king_moved && !s.white_rook_h1_moved && decide (s.board.get 0 5 = EMPTY) &&
          decide (s.board.get 0 6 = EMPTY) && !isAttacked s.board 5 0 false &&
          !isAttacked s.board 6 0 false then
        [move 4 0 6 0 EMPTY EMPTY true false] else []) ++
      (if !s.white_king_moved && !s.white_rook_a1_moved && decide (s.board.get 0 1 = EMPTY) &&
          decide (s.board.get 0 2 = EMPTY) && decide (s.board.get 0 3 = EMPTY) &&
          !isAttacked s.board 2 0 false && !isAttacked s.board 3 0 false then
        [move 4 0 2 0 EMPTY EMPTY true false] else [])
    else
      (if !s.black_king_moved && !s.black_rook_h8_moved && decide (s.board.get 7 5 = EMPTY) &&
          decide (s.board.get 7 6 = EMPTY) && !isAttacked s.board 5 7 true &&
          !isAttacked s.board 6 7 true then
        [move 4 7 6 7 EMPTY EMPTY true false] else []) ++
      (if !s.black_king_moved && !s.black_rook_a8_moved && decide (s.board.get 7 1 = EMPTY) &&
          decide (s.board.get 7 2 = EMPTY) && decide (s.board.get 7 3 = EMPTY) &&
          !isAttacked s.board 2 7 true && !isAttacked s.board 3 7 true then
        [move 4 7 2 7 EMPTY EMPTY true false] else [])
  else []

/-- The loop `for (s = 1; s < 8; ++s)` of the slider branch in direction `(dx, dy)`, from
step `st`, with `fuel` steps left. -/
def slideRay (s : Engine) (x y : Int) (p : Nat) (dx dy : Int) : Nat → Int → List Move
  | 0, _ => []
  | fuel + 1, st =>
    let nx := x + dx * st
    let ny := y + dy * st
    if !inside nx ny then []
    else if s.board.get ny nx = EMPTY then
      move x y nx ny EMPTY EMPTY false false :: slideRay s x y p dx dy fuel (st + 1)
    else if !isPieceOfSameColor p (s.board.get ny nx) then
      [move x y nx ny EMPTY (s.board.get ny nx) false false]
    else []

/-- The slider branch for the piece `p` of type `pt` on `(x, y)`. -/
def sliderMoves (s : Engine) (x y : Int) (p pt : Nat) : List Move :=
  let sd : Nat := if pt = wB then 4 else 0
  let ed : Nat := if pt = wR then 4 else 8
  ((dirs.take ed).drop sd).flatMap (fun d => slideRay s x y p d.1 d.2 7 1)

/-- The body of the double loop over the board for the square `(x, y)`. -/
def pieceMoves (s : Engine) (x y : Int) : List Move :=
  let p := s.board.get y x
  if p = EMPTY ∨ get_piece_color p ≠ s.is_white_turn then []
  else
    let pt := get_piece_type p
    if pt = wP then pawnMoves s x y p
    else if pt = wN then stepMoves s x y p knightOffsets
    else if pt = wK then stepMoves s x y p kingOffsets ++ castleMoves s
    else sliderMoves s x y p pt

/-- The first loop of `generateAllLegalMoves`: the vector `moves`. -/
def pseudoMoves (s : Engine) : List Move :=
  DeepBecky02.squares.flatMap (fun yx => pieceMoves s yx.2 yx.1)

/-- The second loop of `generateAllLegalMoves`: `applyMove`, test, `undoMove` on the engine
itself, move after move. -/
def legalLoop : Engine → List Move → List Move × Engine
  | s, [] => ([], s)
  | s, m :: rest =>
    let s1 := applyMove s m
    let ok := !isInCheck s1 (!s1.is_white_turn)
    let t := legalLoop (undoMove s1 m) rest
    (if ok then m :: t.1 else t.1, t.2)

/-- The function `generateAllLegalMoves`: the returned vector and the engine after the
call. -/
def generateAllLegalMoves (s : Engine) : List Move × Engine :=
  legalLoop s (pseudoMoves s)

/-! ## A position with an en-passant capture -/

/-- The move 1. e4 as `generateAllLegalMoves` returns it. -/
def e2e4 : Move := move 4 1 4 3 EMPTY EMPTY false false

/-- The move 1... a6. -/
def a7a6 : Move := move 0 6 0 5 EMPTY EMPTY false false

/-- The move 2. e5. -/
def e4e5 : Move := move 4 3 4 4 EMPTY EMPTY false false

/-- The move 2... d5. -/
def d7d5 : Move := move 3 6 3 4 EMPTY EMPTY false false

/-- The position after 1. e4 a6 2. e5 d5. -/
def afterD5 : Engine :=
  applyMove (applyMove (applyMove (applyMove startEngine e2e4) a7a6) e4e5) d7d5

/-- The en-passant capture 3. exd6 as `generateAllLegalMoves` returns it. -/
def e5d6 : Move := move 4 4 3 5 EMPTY bP false true

/-! ## Repetition check of pvs -/

/-- The constant `MAX_PLY`. -/
abbrev MAX_PLY : Int := 64

/-- The difference `a - b` of two `size_t` values (64 bits, wrapping around). -/
def sizeSub (a b : Nat) : Nat := (a % 2 ^ 64 + 2 ^ 64 - b % 2 ^ 64) % 2 ^ 64

/-- The loop `for (size_t i = ...; i > 0 && i > board_history.size() - 10; i -= 2)
if (board_history[i].hash == current_hash) return 0;` from the index `i` on, run for at most
`fuel` tests of the loop condition: `some true` when it returns 0, `some false` when it
ends, `none` when it is still running. -/
def repetitionLoop (s : Engine) : Nat → Nat → Option Bool
  | 0, _ => none
  | fuel + 1, i =>
    if 0 < i ∧ sizeSub s.board_history.length 10 < i then
      if (s.board_history.getD i default).hash = s.current_hash then some true
      else repetitionLoop s fuel (sizeSub i 2)
    else some false

/-- The head of `pvs`, up to and including the repetition test.  `quiescenceSearch` and
`evaluatePosition` stand for the two calls before the test and `rest` for the statements
after it; the loop is given five tests of its condition, which is all it can use
(`repetitionLoop_total`). -/
def pvs (quiescenceSearch : Engine → Int → Int → Int → Int) (evaluatePosition : Engine → Int)
    (rest : Engine → Int → Int → Int → Int → Int) (s : Engine) (depth ply alpha beta : Int) :
    Option Int :=
  if depth ≤ 0 then some (quiescenceSearch s ply alpha beta)
  else if ply ≥ MAX_PLY then some (evaluatePosition s)
  else if ply > 0 ∧ s.board_history.length > 4 then
    match repetitionLoop s 5 (sizeSub s.board_history.length 2) with
    | none => none
    | some true => some 0
    | some false => some (rest s depth ply alpha beta)
  else some (rest s depth ply alpha beta)

/-- The knight moves g1f3, g8f6, f3g1, f6g8. -/
def g1f3 : Move := move 6 0 5 2 EMPTY EMPTY false false

def g8f6 : Move := move 6 7 5 5 EMPTY EMPTY false false

def f3g1 : Move := move 5 2 6 0 EMPTY EMPTY false false

def f6g8 : Move := move 5 5 6 7 EMPTY EMPTY false false

/-- The position after `g1f3 g8f6 f3g1 f6g8 g1f3 g8f6` from the start position: six entries
on the move stack, and the position is the one of four plies earlier. -/
def knightsDance : Engine :=
  [g1f3, g8f6, f3g1, f6g8, g1f3, g8f6].foldl applyMove startEngine

/-- The position two plies into `knightsDance`. -/
def knightsOut : Engine := [g1f3, g8f6].foldl applyMove startEngine

/-! ## Move ordering and the head of quiescenceSearch -/

/-- The operator `==` on moves: origin, destination and promotion piece. -/
def Move.same (a b : Move) : Bool :=
  decide (a.from_x = b.from_x) && decide (a.from_y = b.from_y) && decide (a.to_x = b.to_x) &&
    decide (a.to_y = b.to_y) && decide (a.promotion_piece = b.promotion_piece)

/-- The table `MVV_LVA[7][7]`, row by row. -/
def MVV_LVA : List (List Int) :=
  [[0, 0, 0, 0, 0, 0, 0], [0, 15, 14, 13, 12, 11, 10], [0, 25, 24, 23, 22, 21, 20],
   [0, 35, 34, 33, 32, 31, 30], [0, 45, 44, 43, 42, 41, 40], [0, 55, 54, 53, 52, 51, 50],
   [0, 0, 0, 0, 0, 0, 0]]

/-- The record `TTEntry`; the flag is the number of the enumerator of `TT_FLAG`. -/
structure TTEntry where
  hash_key : Nat := 0
  depth : Int := 0
  score : Int := 0
  flag : Nat := 0
  best_move : Move := {}
  deriving DecidableEq, Repr, Inhabited

/-- The constant `TT_SIZE`. -/
def TT_SIZE : Nat := 2 ^ 22

/-- The search fields of `class DeepBeckyEngine`: the table `tt` by index, the
`MAX_PLY` rows of `killer_moves`, `history_heuristic` by its two indices, `stop_search` and
`nodes_searched`. -/
structure Tables where
  tt : Nat → TTEntry := fun _ => {}
  killer_moves : List (Move × Move) := List.replicate 64 ({}, {})
  history_heuristic : Nat → Int → Int := fun _ _ => 0
  stop_search : Bool := false
  nodes_searched : Nat := 0

/-- The row `killer_moves[ply]` of the array `Move killer_moves[MAX_PLY][2]`: `none` when
`ply` is not an index of the array. -/
def killerRow (killer_moves : List (Move × Move)) (ply : Int) : Option (Move × Move) :=
  if 0 ≤ ply ∧ ply < MAX_PLY then some (killer_moves.getD ply.toNat ({}, {})) else none

/-- The local `tt_move` of `scoreMoves`: the stored best move when the slot of the current
fingerprint holds its key, and the default move otherwise. -/
def ttMove (s : Engine) (t : Tables) : Move :=
  let tt_entry := t.tt (s.current_hash % TT_SIZE)
  if tt_entry.hash_key = s.current_hash then tt_entry.best_move else {}

/-- The body of the loop of `scoreMoves` for the move `m`: its score, or `none` when the
chain of tests reaches `killer_moves[ply]` with `ply` outside the array. -/
def scoreOf (s : Engine) (t : Tables) (ply : Int) (m : Move) : Option Int :=
  if Move.same m (ttMove s t) then some 30000
  else if m.captured_piece ≠ EMPTY then
    some (20000 + ((MVV_LVA.getD (get_piece_type m.captured_piece) []).getD
      (get_piece_type (s.board.get m.from_y m.from_x)) 0))
  else
    match killerRow t.killer_moves ply with
    | none => none
    | some k =>
      if Move.same m k.1 then some 10000
      else if Move.same m k.2 then some 9000
      else some (t.history_heuristic (s.board.get m.from_y m.from_x) (m.to_y * 8 + m.to_x))

/-- The function `scoreMoves`: the vector `scored_moves`, or `none` when one of the moves
makes it read `killer_moves[ply]` outside the array. -/
def scoreMoves (s : Engine) (t : Tables) : List Move → Int → Option (List (Move × Int))
  | [], _ => some []
  | m :: rest, ply =>
    match scoreOf s t ply m with
    | none => none
    | some sc =>
      match scoreMoves s t rest ply with
      | none => none
      | some l => some ((m, sc) :: l)

/-- The function `quiescenceSearch` up to and including its call of `scoreMoves`.
`evaluatePosition` stands for the evaluator, `timeOver` for the outcome of the comparison
of the clock with the budget (read when `nodes_searched & 2047` is 0), and `rest` for the
sort and the loop over the moves; the result is `none` when `scoreMoves` reads outside the
killer table. -/
def quiescenceSearch (evaluatePosition : Engine → Int) (timeOver : Bool)
    (rest : Engine → Tables → List (Move × Int) → Int → Int → Int → Int)
    (s : Engine) (t : Tables) (ply alpha beta : Int) : Option Int :=
  let t1 := { t with nodes_searched := t.nodes_searched + 1 }
  let t2 := if t1.nodes_searched % 2048 = 0 ∧ timeOver = true then
    { t1 with stop_search := true } else t1
  if t2.stop_search then some 0
  else
    let stand_pat := evaluatePosition s
    if stand_pat ≥ beta then some beta
    else
      let alpha1 := if stand_pat > alpha then stand_pat else alpha
      let g := generateAllLegalMoves s
      match scoreMoves g.2 t2 g.1 ply with
      | none => none
      | some moves => some (rest g.2 t2 moves ply alpha1 beta)

/-- The position `8/8/8/4k3/8/8/8/4K3 w - - 0 1`: the two kings alone. -/
def bareKings : Engine := initializeBoard {} "8/8/8/4k3/8/8/8/4K3 w - - 0 1"

/-- The move `e1d1` as `generateAllLegalMoves` returns it. -/
def e1d1 : Move := move 4 0 3 0 EMPTY EMPTY false false

end DeepBecky01

/-! # Theorems -/

namespace DeepBecky02

/-! ## The board -/

theorem onBoard_iff (x y : Int) : onBoard x y = true ↔ 0 ≤ x ∧ x < 8 ∧ 0 ≤ y ∧ y < 8 := by
  unfold onBoard
  cases x <;> cases y <;> simp [Nat.ble_eq] <;> omega

theorem onBoard_eq_false_iff (x y : Int) :
    onBoard x y = false ↔ ¬ (0 ≤ x ∧ x < 8 ∧ 0 ≤ y ∧ y < 8) := by
  rw [← onBoard_iff]; simp

theorem testBit_digit (n k i : Nat) :
    (digit n k).testBit i = (decide (i < 4) && n.testBit (4 * k + i)) := by
  unfold digit
  rw [show (16 : Nat) = 2 ^ 4 by norm_num, Nat.testBit_mod_two_pow, Nat.testBit_shiftRight]

theorem eq_of_digit_eq {n m : Nat} (h : ∀ k, digit n k = digit m k) : n = m := by
  apply Nat.eq_of_testBit_eq
  intro i
  have h1 := congrArg (fun d => Nat.testBit d (i % 4)) (h (i / 4))
  simp only [testBit_digit] at h1
  have h2 : 4 * (i / 4) + i % 4 = i := Nat.div_add_mod i 4
  have h3 : i % 4 < 4 := Nat.mod_lt _ (by norm_num)
  simpa [h2, h3] using h1

theorem testBit_mod16 (v i : Nat) :
    (v % 16).testBit i = (decide (i < 4) && v.testBit i) := by
  rw [show (16 : Nat) = 2 ^ 4 by norm_num, Nat.testBit_mod_two_pow]

theorem digit_setDigit (n k v j : Nat) :
    digit (n ^^^ ((((n >>> (4 * k)) % 16) ^^^ (v % 16)) <<< (4 * k))) j
      = if j = k then v % 16 else digit n j := by
  apply Nat.eq_of_testBit_eq
  intro i
  have hd : (n >>> (4 * k)) % 16 = digit n k := rfl
  rw [hd]
  split
  · rename_i hjk
    subst hjk
    rw [testBit_digit, Nat.testBit_xor, Nat.testBit_shiftLeft, Nat.testBit_xor, testBit_digit,
      testBit_mod16, testBit_mod16]
    by_cases hi : i < 4
    · have : 4 * j + i - 4 * j = i := by omega
      simp [hi, this]
    · simp [hi]
  · rename_i hjk
    rw [testBit_digit, Nat.testBit_xor, Nat.testBit_shiftLeft, Nat.testBit_xor, testBit_digit,
      testBit_digit, testBit_mod16]
    by_cases hi : i < 4
    · by_cases hge : 4 * j + i ≥ 4 * k
      · have : ¬ (4 * j + i - 4 * k < 4) := by omega
        simp [hi, this]
      · simp [hi, hge]
    · simp [hi]

theorem Board.get_ofNat (b : Board) (r c : Nat) :
    b.get (Int.ofNat r) (Int.ofNat c) = digit b.bits (8 * r + c) := rfl

theorem Board.get_lt (b : Board) (y x : Int) : b.get y x < 16 := by
  unfold Board.get
  split
  · exact Nat.mod_lt _ (by norm_num)
  · norm_num

theorem Board.get_set (b : Board) (y x : Int) (v : Nat) (y' x' : Int)
    (hx : 0 ≤ x ∧ x < 8) (hy : 0 ≤ y) (hx' : 0 ≤ x' ∧ x' < 8) (hy' : 0 ≤ y') :
    (b.set y x v).get y' x' = if y' = y ∧ x' = x then v % 16 else b.get y' x' := by
  obtain ⟨r, rfl⟩ := Int.eq_ofNat_of_zero_le hy
  obtain ⟨c, rfl⟩ := Int.eq_ofNat_of_zero_le hx.1
  obtain ⟨r', rfl⟩ := Int.eq_ofNat_of_zero_le hy'
  obtain ⟨c', rfl⟩ := Int.eq_ofNat_of_zero_le hx'.1
  have h1 : (b.set (r : Int) (c : Int) v).get (r' : Int) (c' : Int)
      = digit (b.bits ^^^
          ((((b.bits >>> (4 * (8 * r + c))) % 16) ^^^ (v % 16)) <<< (4 * (8 * r + c))))
          (8 * r' + c') := rfl
  have h2 : b.get (r' : Int) (c' : Int) = digit b.bits (8 * r' + c') := rfl
  rw [h1, h2, digit_setDigit]
  have hc : c < 8 := by omega
  have hc' : c' < 8 := by omega
  by_cases h : 8 * r' + c' = 8 * r + c
  · have : r' = r ∧ c' = c := by omega
    simp [this.1, this.2]
  · have : ¬ (r' = r ∧ c' = c) := by
      rintro ⟨h3, h4⟩
      exact h (by rw [h3, h4])
    simp [h, this]

theorem Board.ext_get {b b' : Board}
    (h : ∀ y x : Int, 0 ≤ y → 0 ≤ x ∧ x < 8 → b.get y x = b'.get y x) : b = b' := by
  cases b with
  | mk n =>
    cases b' with
    | mk m =>
      congr 1
      apply eq_of_digit_eq
      intro k
      have := h (Int.ofNat (k / 8)) (Int.ofNat (k % 8)) (Int.ofNat_nonneg _)
        ⟨Int.ofNat_nonneg _, by have := Nat.mod_lt k (show 8 > 0 by norm_num); simp; omega⟩
      rw [Board.get_ofNat, Board.get_ofNat] at this
      have hk : 8 * (k / 8) + k % 8 = k := Nat.div_add_mod k 8
      simpa [hk] using this

/-! ## Soundness of the move generator -/

theorem mem_range8 (a : Int) : a ∈ range8 ↔ 0 ≤ a ∧ a < 8 := by
  simp only [range8, List.mem_cons, List.mem_singleton, List.not_mem_nil, or_false]
  omega

theorem mem_squares (yx : Int × Int) : yx ∈ squares ↔ onBoard yx.2 yx.1 = true := by
  obtain ⟨y, x⟩ := yx
  simp only [squares, List.mem_flatMap, List.mem_map, mem_range8, onBoard_iff, Prod.mk.injEq]
  constructor
  · rintro ⟨a, ha, b, hb, rfl, rfl⟩
    exact ⟨hb.1, hb.2, ha.1, ha.2⟩
  · rintro ⟨h1, h2, h3, h4⟩
    exact ⟨y, ⟨h3, h4⟩, x, ⟨h1, h2⟩, rfl, rfl⟩

theorem mem_generatePseudo (s : Engine) (c : Bool) (m : Move) :
    m ∈ generatePseudo s c ↔ ∃ x y, onBoard x y = true ∧ m ∈ pieceMoves s c x y := by
  simp only [generatePseudo, List.mem_flatMap, mem_squares]
  constructor
  · rintro ⟨⟨y, x⟩, h1, h2⟩
    exact ⟨x, y, h1, h2⟩
  · rintro ⟨x, y, h1, h2⟩
    exact ⟨(y, x), h1, h2⟩

theorem ok_quiet (s : Engine) (x y tx ty : Int)
    (hf : onBoard x y = true) (ht : onBoard tx ty = true) (hne : ¬ (tx = x ∧ ty = y))
    (hown : isOwn s.white_to_move (s.b.get y x) = true) (he : s.b.get ty tx = EMPTY) :
    PseudoOK s (add x y tx ty false 0 false false false 0) := by
  refine ⟨hf, ht, hne, hown, ?_, ?_, ?_, ?_, ?_, rfl⟩ <;> simp [add, he]

theorem ok_capture (s : Engine) (x y tx ty : Int)
    (hf : onBoard x y = true) (ht : onBoard tx ty = true) (hne : ¬ (tx = x ∧ ty = y))
    (hown : isOwn s.white_to_move (s.b.get y x) = true)
    (ho : isOpp s.white_to_move (s.b.get ty tx) = true) :
    PseudoOK s (add x y tx ty true (s.b.get ty tx) false false false 0) := by
  refine ⟨hf, ht, hne, hown, ?_, ?_, ?_, ?_, ?_, rfl⟩ <;> simp [add, ho]

theorem jump_ok (s : Engine) (c : Bool) (x y : Int) (offs : List (Int × Int)) (m : Move)
    (hon : onBoard x y = true)
    (hown : isOwn s.white_to_move (s.b.get y x) = true)
    (hoffs : ∀ d ∈ offs, ¬ (d.1 = 0 ∧ d.2 = 0))
    (hm : m ∈ jumpMoves s c x y offs) : PseudoOK s m := by
  unfold jumpMoves at hm
  simp only [List.mem_flatMap] at hm
  obtain ⟨d, hd, hm⟩ := hm
  have hd0 := hoffs d hd
  split_ifs at hm with h1 h2 h3
  all_goals simp only [List.mem_singleton, List.not_mem_nil] at hm
  all_goals simp only [Bool.not_eq_true', Bool.not_eq_false] at h1
  · subst hm
    simp only [Bool.and_eq_true, decide_eq_true_eq] at h2
    exact ok_quiet s x y _ _ hon h1 (by omega) hown h2.1
  · subst hm
    exact ok_capture s x y _ _ hon h1 (by omega) hown h3

theorem slide_ok (s : Engine) (c : Bool) (x y dx dy : Int) (m : Move)
    (hon : onBoard x y = true)
    (hown : isOwn s.white_to_move (s.b.get y x) = true)
    (hd : ¬ (dx = 0 ∧ dy = 0)) :
    ∀ (fuel : Nat) (nx ny : Int),
      ((0 < dx → x < nx) ∧ (dx < 0 → nx < x) ∧ (0 < dy → y < ny) ∧ (dy < 0 → ny < y)) →
      m ∈ slideRay s c x y dx dy fuel nx ny → PseudoOK s m := by
  intro fuel
  induction fuel with
  | zero => intro nx ny _ hm; simp [slideRay] at hm
  | succ n ih =>
    intro nx ny hinv hm
    unfold slideRay at hm
    by_cases h1 : onBoard nx ny = true
    · simp only [h1, if_true] at hm
      by_cases h2 : s.b.get ny nx = EMPTY
      · simp only [h2, if_true, List.mem_append] at hm
        rcases hm with hm | hm
        · split_ifs at hm
          · simp only [List.mem_singleton] at hm
            subst hm
            exact ok_quiet s x y _ _ hon h1 (by omega) hown h2
          · simp at hm
        · exact ih _ _ (by omega) hm
      · simp only [h2, if_false] at hm
        split_ifs at hm with h4
        · simp only [List.mem_singleton] at hm
          subst hm
          exact ok_capture s x y _ _ hon h1 (by omega) hown h4
        · simp at hm
    · simp [h1] at hm

theorem mem_DIRS (d : Int × Int) (h : d ∈ DIRS) : ¬ (d.1 = 0 ∧ d.2 = 0) := by
  simp only [DIRS, List.mem_cons, List.mem_singleton, List.not_mem_nil, or_false] at h
  rcases h with rfl | rfl | rfl | rfl | rfl | rfl | rfl | rfl <;> simp

theorem slider_ok (s : Engine) (c : Bool) (x y : Int) (p : Nat) (m : Move)
    (hon : onBoard x y = true)
    (hown : isOwn s.white_to_move (s.b.get y x) = true)
    (hm : m ∈ sliderMoves s c x y p) : PseudoOK s m := by
  unfold sliderMoves at hm
  simp only [List.mem_flatMap] at hm
  obtain ⟨d, hd, hm⟩ := hm
  have hd1 : d ∈ DIRS := List.mem_of_mem_take (List.mem_of_mem_drop hd)
  have hd0 := mem_DIRS d hd1
  exact slide_ok s c x y d.1 d.2 m hon hown hd0 8 _ _ (by omega) hm

theorem ok_castle (s : Engine) (WT : Bool) (hw : s.white_to_move = WT) (ry tx : Int)
    (hry : ry = (if WT then 0 else 7))
    (hp : s.b.get ry 4 = (if WT then WKING else BKING))
    (hside : (tx = 6 ∧ s.castling &&& (if WT then 8 else 2) ≠ 0 ∧
        s.b.get ry 5 = EMPTY ∧ s.b.get ry 6 = EMPTY) ∨
      (tx = 2 ∧ s.castling &&& (if WT then 4 else 1) ≠ 0 ∧
        s.b.get ry 1 = EMPTY ∧ s.b.get ry 2 = EMPTY ∧ s.b.get ry 3 = EMPTY)) :
    PseudoOK s (add 4 ry tx ry false 0 false true false 0) := by
  have hown : isOwn s.white_to_move (s.b.get ry 4) = true := by
    rw [hp, hw]; cases WT <;> decide
  have hry2 : 0 ≤ ry ∧ ry < 8 := by cases WT <;> simp_all
  have htx : tx = 6 ∨ tx = 2 := by rcases hside with h | h <;> simp [h.1]
  refine ⟨?_, ?_, ?_, hown, ?_, ?_, ?_, ?_, ?_, rfl⟩
  · simp only [add, onBoard_iff]; omega
  · simp only [add, onBoard_iff]; omega
  · simp only [add]; omega
  · simp [add]
  · simp [add]
  · simp [add]
  · intro _; rw [hw]; exact ⟨hp, rfl, hry, rfl, hside, rfl, rfl, rfl, rfl⟩
  · simp [add]

theorem mem_ite_nil {α : Type} {p : Prop} [Decidable p] {l : List α} {a : α} :
    a ∈ (if p then l else []) ↔ p ∧ a ∈ l := by
  split <;> simp [*]

theorem mem_castleMoves (s : Engine) (c : Bool) (x y : Int) (m : Move) :
    m ∈ castleMoves s c x y ↔
      y = (if s.white_to_move then 0 else 7) ∧ x = 4 ∧ inCheck s.b s.white_to_move = false ∧
      c = false ∧
      ((s.castling &&& (if s.white_to_move then 8 else 2) ≠ 0 ∧
          s.b.get y 5 = EMPTY ∧ s.b.get y 6 = EMPTY ∧
          isAttacked s.b 5 y (!s.white_to_move) = false ∧
          isAttacked s.b 6 y (!s.white_to_move) = false ∧
          m = add 4 y 6 y false 0 false true false 0) ∨
       (s.castling &&& (if s.white_to_move then 4 else 1) ≠ 0 ∧
          s.b.get y 3 = EMPTY ∧ s.b.get y 2 = EMPTY ∧ s.b.get y 1 = EMPTY ∧
          isAttacked s.b 3 y (!s.white_to_move) = false ∧
          isAttacked s.b 2 y (!s.white_to_move) = false ∧
          m = add 4 y 2 y false 0 false true false 0)) := by
  unfold castleMoves
  cases hw : s.white_to_move <;>
    simp only [if_true, if_false, Bool.false_eq_true, mem_ite_nil, List.mem_append,
      List.mem_singleton, Bool.and_eq_true, decide_eq_true_eq, Bool.not_eq_true', ne_eq,
      Bool.not_true, Bool.not_false] <;>
    constructor
  · rintro ⟨⟨⟨rfl, rfl⟩, h3⟩, h⟩
    rcases h with ⟨h1, hc, rfl⟩ | ⟨h1, hc, rfl⟩
    · exact ⟨rfl, rfl, h3, hc, Or.inl ⟨h1.1.1.1.1, h1.1.1.1.2, h1.1.1.2, h1.1.2, h1.2, rfl⟩⟩
    · exact ⟨rfl, rfl, h3, hc, Or.inr ⟨h1.1.1.1.1.1, h1.1.1.1.1.2, h1.1.1.1.2, h1.1.1.2, h1.1.2,
        h1.2, rfl⟩⟩
  · rintro ⟨rfl, rfl, h3, hc, h⟩
    refine ⟨⟨⟨rfl, rfl⟩, h3⟩, ?_⟩
    rcases h with ⟨h1, h2, h4, h5, h6, rfl⟩ | ⟨h1, h2, h4, h5, h6, h7, rfl⟩
    · exact Or.inl ⟨⟨⟨⟨⟨h1, h2⟩, h4⟩, h5⟩, h6⟩, hc, rfl⟩
    · exact Or.inr ⟨⟨⟨⟨⟨⟨h1, h2⟩, h4⟩, h5⟩, h6⟩, h7⟩, hc, rfl⟩
  · rintro ⟨⟨⟨rfl, rfl⟩, h3⟩, h⟩
    rcases h with ⟨h1, hc, rfl⟩ | ⟨h1, hc, rfl⟩
    · exact ⟨rfl, rfl, h3, hc, Or.inl ⟨h1.1.1.1.1, h1.1.1.1.2, h1.1.1.2, h1.1.2, h1.2, rfl⟩⟩
    · exact ⟨rfl, rfl, h3, hc, Or.inr ⟨h1.1.1.1.1.1, h1.1.1.1.1.2, h1.1.1.1.2, h1.1.1.2, h1.1.2,
        h1.2, rfl⟩⟩
  · rintro ⟨rfl, rfl, h3, hc, h⟩
    refine ⟨⟨⟨rfl, rfl⟩, h3⟩, ?_⟩
    rcases h with ⟨h1, h2, h4, h5, h6, rfl⟩ | ⟨h1, h2, h4, h5, h6, h7, rfl⟩
    · exact Or.inl ⟨⟨⟨⟨⟨h1, h2⟩, h4⟩, h5⟩, h6⟩, hc, rfl⟩
    · exact Or.inr ⟨⟨⟨⟨⟨⟨h1, h2⟩, h4⟩, h5⟩, h6⟩, h7⟩, hc, rfl⟩

theorem castle_ok (s : Engine) (c : Bool) (x y : Int) (m : Move)
    (hp : s.b.get y x = (if s.white_to_move then WKING else BKING))
    (hm : m ∈ castleMoves s c x y) : PseudoOK s m := by
  rw [mem_castleMoves] at hm
  obtain ⟨hy, rfl, _, _, h⟩ := hm
  rcases h with ⟨h1, h2, h3, _, _, rfl⟩ | ⟨h1, h2, h3, h4, _, _, rfl⟩
  · exact ok_castle s _ rfl y 6 hy hp (Or.inl ⟨rfl, h1, h2, h3⟩)
  · exact ok_castle s _ rfl y 2 hy hp (Or.inr ⟨rfl, h1, h4, h3, h2⟩)

theorem isOwn_cases {WT : Bool} {p : Nat} (h : isOwn WT p = true) :
    (WT = true ∧ 1 ≤ p ∧ p ≤ 6) ∨ (WT = false ∧ 7 ≤ p ∧ p ≤ 12) := by
  cases WT <;> simp_all [isOwn, isWhitePiece, isBlackPiece]

theorem mem_pieceMoves_own (s : Engine) (c : Bool) (x y : Int) (m : Move)
    (hm : m ∈ pieceMoves s c x y) : isOwn s.white_to_move (s.b.get y x) = true := by
  unfold pieceMoves at hm
  simp only at hm
  split_ifs at hm <;> first | (simp at hm; done) | skip
  all_goals cases hw : s.white_to_move <;> simp_all [isOwn]
theorem isOwn_pawn (WT : Bool) : isOwn WT (if WT then WPAWN else BPAWN) = true := by
  cases WT <;> decide

theorem ok_promo (s : Engine) (WT : Bool) (hw : s.white_to_move = WT)
    (x y tx ty : Int) (cap : Bool) (t pr : Nat)
    (hf : onBoard x y = true) (ht : onBoard tx ty = true) (hne : ¬ (tx = x ∧ ty = y))
    (hp : s.b.get y x = (if WT then WPAWN else BPAWN))
    (hy : y = (if WT then 6 else 1))
    (hty : ty = (if WT then 7 else 0))
    (hpr : pr ∈ (if WT then [WQUEEN, WROOK, WBISHOP, WKNIGHT]
                   else [BQUEEN, BROOK, BBISHOP, BKNIGHT]))
    (htgt : (s.b.get ty tx = EMPTY ∧ cap = false ∧ t = 0) ∨
      (isOpp WT (s.b.get ty tx) = true ∧ cap = true ∧ t = s.b.get ty tx)) :
    PseudoOK s (add x y tx ty cap t false false false pr) := by
  subst hw
  refine ⟨hf, ht, hne, ?_, ?_, ?_, ?_, ?_, ?_, rfl⟩
  · show isOwn s.white_to_move (s.b.get y x) = true
    rw [hp]; exact isOwn_pawn _
  · intro _ _; exact htgt
  · intro _; exact ⟨hp, rfl, rfl, rfl, hy, hty, hpr⟩
  · simp [add]
  · simp [add]
  · simp [add]

theorem ok_dbl (s : Engine) (WT : Bool) (hw : s.white_to_move = WT) (x y ty : Int)
    (hf : onBoard x y = true)
    (hp : s.b.get y x = (if WT then WPAWN else BPAWN))
    (hy : y = (if WT then 1 else 6))
    (hty : ty = (if WT then 3 else 4))
    (h1 : s.b.get (if WT then 2 else 5) x = EMPTY)
    (h2 : s.b.get ty x = EMPTY) :
    PseudoOK s (add x y x ty false 0 false false true 0) := by
  rw [onBoard_iff] at hf
  have hown : isOwn s.white_to_move (s.b.get y x) = true := by
    rw [hp, hw]; exact isOwn_pawn _
  refine ⟨?_, ?_, ?_, hown, ?_, ?_, ?_, ?_, ?_, rfl⟩
  · simp only [add, onBoard_iff]; exact hf
  · simp only [add, onBoard_iff]; cases WT <;> simp_all
  · simp only [add]; cases WT <;> simp_all
  · intro _ _; left; exact ⟨h2, rfl, rfl⟩
  · simp [add]
  · simp [add]
  · simp [add]
  · intro _; rw [hw]; exact ⟨hp, hy, rfl, hty, h1, h2, rfl, rfl, rfl⟩

theorem ok_ep (s : Engine) (WT : Bool) (hw : s.white_to_move = WT) (x y ty : Int)
    (hf : onBoard x y = true)
    (hp : s.b.get y x = (if WT then WPAWN else BPAWN))
    (he : 1 ≤ s.ep_file ∧ s.ep_file ≤ 8)
    (hy : y = (if WT then 4 else 3))
    (hty : ty = (if WT then 5 else 2))
    (hx : (s.ep_file - 1 - x).natAbs = 1)
    (hc : s.b.get y (s.ep_file - 1) = (if WT then BPAWN else WPAWN)) :
    PseudoOK s (add x y (s.ep_file - 1) ty true (s.b.get y (s.ep_file - 1)) true false false 0) := by
  rw [onBoard_iff] at hf
  have hown : isOwn s.white_to_move (s.b.get y x) = true := by
    rw [hp, hw]; exact isOwn_pawn _
  refine ⟨?_, ?_, ?_, hown, ?_, ?_, ?_, ?_, ?_, rfl⟩
  · simp only [add, onBoard_iff]; exact hf
  · simp only [add, onBoard_iff]; cases WT <;> simp_all <;> omega
  · simp only [add]; omega
  · simp [add]
  · simp [add]
  · intro _; rw [hw]; exact ⟨hp, he.1, he.2, rfl, hty, hy, hx, hc, rfl, rfl, rfl, rfl, hc⟩
  · simp [add]
  · simp [add]

theorem pawn_ok (s : Engine) (c : Bool) (x y : Int) (m : Move)
    (hon : onBoard x y = true)
    (hp : s.b.get y x = (if s.white_to_move then WPAWN else BPAWN))
    (hm : m ∈ pawnMoves s c x y) : PseudoOK s m := by
  have hon2 := (onBoard_iff _ _).mp hon
  have hown : isOwn s.white_to_move (s.b.get y x) = true := by
    rw [hp]; exact isOwn_pawn _
  unfold pawnMoves at hm
  simp only [List.mem_append, List.mem_flatMap, List.mem_cons, List.mem_singleton,
    List.not_mem_nil, or_false] at hm
  cases hw : s.white_to_move <;>
    simp only [hw, if_true, if_false, Bool.false_eq_true] at hm hp <;>
    rcases hm with (hm | ⟨a, ha, hm⟩) | hm
  -- pushes
  case false.inl.inl | true.inl.inl =>
    split_ifs at hm with h1 h2 h3 h4
    all_goals simp only [List.mem_cons, List.mem_singleton, List.not_mem_nil, or_false] at hm
    all_goals simp only [Bool.and_eq_true, decide_eq_true_eq, Bool.not_eq_true'] at h1
    · rcases hm with rfl | rfl | rfl | rfl
      all_goals
        refine ok_promo s _ hw x y x _ false 0 _ hon h1.1.1 ?_ hp h2 ?_ ?_ (Or.inl ⟨h1.1.2, rfl, rfl⟩)
        · omega
        · simp only [Bool.false_eq_true, if_false, if_true]; omega
        · simp
    · simp only [Bool.and_eq_true, decide_eq_true_eq] at h4
      rcases hm with rfl | rfl
      · exact ok_quiet s x y x _ hon h1.1.1 (by omega) hown h1.1.2
      · refine ok_dbl s _ hw x y _ hon hp h3 ?_ ?_ h4.2
        · simp only [Bool.false_eq_true, if_false, if_true]; omega
        · simp only [Bool.false_eq_true, if_false, if_true]
          first
            | (have : y + -1 = 5 := by omega
               rw [← this]; exact h1.1.2)
            | (have : y + 1 = 2 := by omega
               rw [← this]; exact h1.1.2)
    · subst hm
      exact ok_quiet s x y x _ hon h1.1.1 (by omega) hown h1.1.2
    · subst hm
      exact ok_quiet s x y x _ hon h1.1.1 (by omega) hown h1.1.2
  -- captures
  case false.inl.inr | true.inl.inr =>
    split_ifs at hm with h1 h2 h3
    all_goals simp only [List.mem_cons, List.mem_singleton, List.not_mem_nil, or_false] at hm
    all_goals simp only [Bool.not_eq_true', Bool.not_eq_false] at h1
    · rcases hm with rfl | rfl | rfl | rfl
      all_goals
        refine ok_promo s _ hw x y _ _ true _ _ hon h1 ?_ hp h3 ?_ ?_ (Or.inr ⟨h2, rfl, rfl⟩)
        · omega
        · simp only [Bool.false_eq_true, if_false, if_true]; omega
        · simp
    · subst hm
      exact ok_capture s x y _ _ hon h1 (by omega) hown (by rw [hw]; exact h2)
  -- en passant
  case false.inr | true.inr =>
    split_ifs at hm with h1 h2 h3
    all_goals simp only [List.mem_cons, List.mem_singleton, List.not_mem_nil, or_false] at hm
    subst hm
    exact ok_ep s _ hw x y _ hon hp h1 h2.2.2 rfl h2.2.1 h3


theorem knightJumps_ne (d : Int × Int) (h : d ∈ knightJumps) : ¬ (d.1 = 0 ∧ d.2 = 0) := by
  simp only [knightJumps, List.mem_cons, List.mem_singleton, List.not_mem_nil, or_false] at h
  rcases h with rfl | rfl | rfl | rfl | rfl | rfl | rfl | rfl <;> simp

theorem kingSteps_ne (d : Int × Int) (h : d ∈ kingSteps) : ¬ (d.1 = 0 ∧ d.2 = 0) := by
  simp only [kingSteps, List.mem_cons, List.mem_singleton, List.not_mem_nil, or_false] at h
  rcases h with rfl | rfl | rfl | rfl | rfl | rfl | rfl | rfl <;> simp

theorem piece_ok (s : Engine) (c : Bool) (x y : Int) (m : Move)
    (hon : onBoard x y = true) (hm : m ∈ pieceMoves s c x y) : PseudoOK s m := by
  have hown := mem_pieceMoves_own s c x y m hm
  unfold pieceMoves at hm
  simp only at hm
  split_ifs at hm with h1 h2 h3 h4 h5 h6 h7
  · simp at hm
  · simp at hm
  · simp at hm
  · refine pawn_ok s c x y m hon ?_ hm
    rcases isOwn_cases hown with ⟨hw, _, _⟩ | ⟨hw, _, _⟩ <;> rw [hw] <;>
      simp only [EMPTY, WPAWN, WKNIGHT, WBISHOP, WROOK, WQUEEN, WKING, BPAWN, BKNIGHT, BBISHOP,
        BROOK, BQUEEN, BKING, if_true, if_false, Bool.false_eq_true] at * <;> omega
  · exact jump_ok s c x y _ m hon hown knightJumps_ne hm
  · exact slider_ok s c x y _ m hon hown hm
  · rw [List.mem_append] at hm
    rcases hm with hm | hm
    · exact jump_ok s c x y _ m hon hown kingSteps_ne hm
    · refine castle_ok s c x y m ?_ hm
      rcases isOwn_cases hown with ⟨hw, _, _⟩ | ⟨hw, _, _⟩ <;> rw [hw] <;>
      simp only [EMPTY, WPAWN, WKNIGHT, WBISHOP, WROOK, WQUEEN, WKING, BPAWN, BKNIGHT, BBISHOP,
        BROOK, BQUEEN, BKING, if_true, if_false, Bool.false_eq_true] at * <;> omega
  · simp at hm

theorem pseudo_ok (s : Engine) (c : Bool) (m : Move) (hm : m ∈ generatePseudo s c) :
    PseudoOK s m := by
  rw [mem_generatePseudo] at hm
  obtain ⟨x, y, hon, hm⟩ := hm
  exact piece_ok s c x y m hon hm

/-! ## Make / unmake round trip -/

theorem Board.get_mod (b : Board) (y x : Int) : b.get y x % 16 = b.get y x :=
  Nat.mod_eq_of_lt (Board.get_lt b y x)

theorem Board.get_set_on (b : Board) (y x : Int) (v : Nat) (y' x' : Int)
    (h : onBoard x y = true) (hx' : 0 ≤ x' ∧ x' < 8) (hy' : 0 ≤ y') :
    (b.set y x v).get y' x' = if y' = y ∧ x' = x then v % 16 else b.get y' x' := by
  rw [onBoard_iff] at h
  exact Board.get_set b y x v y' x' ⟨h.1, h.2.1⟩ h.2.2.1 hx' hy'

theorem undo_last (l : List Undo) (u : Undo) : (l ++ [u]).getLastD default = u := by
  simp [List.getLastD_eq_getLast?]

theorem board_roundtrip_ep (s : Engine) (m : Move) (hc : Consistent s) (hm : PseudoOK s m)
    (hep : m.is_enpassant = true) : (undoMove (makeMove s m) m).b = s.b := by
  have hf := hm.from_on
  have ht := hm.to_on
  obtain ⟨hp, he1, he2, htx, hty, hfy, hdx, hcap, hcas, hpr, _, _, _⟩ := hm.ep hep
  have hempty := hc.1 ⟨he1, he2⟩
  obtain ⟨b, wtm, castling, ep_file, hmv, fmv, hash, hist, undo⟩ := s
  dsimp only at hp he1 he2 htx hty hfy hdx hcap hempty ⊢
  rw [← htx, ← hty] at hempty
  have hf2 := (onBoard_iff _ _).mp hf
  have ht2 := (onBoard_iff _ _).mp ht
  have hcy : (if wtm then m.to_y - 1 else m.to_y + 1) = m.from_y := by
    cases wtm <;> simp_all
  have hcon : onBoard m.to_x m.from_y = true := by
    rw [onBoard_iff]; omega
  have hne : m.to_y ≠ m.from_y := by
    cases wtm <;> simp_all
  have hnx : m.to_x ≠ m.from_x := by
    intro h; rw [h] at hdx; simp at hdx
  apply Board.ext_get
  intro y' x' hy' hx'
  simp only [undoMove, makeMove, undo_last, makeBoard, hep, hpr, if_true, hcy, ne_eq,
    not_true_eq_false, if_false]
  simp only [Board.get_set_on _ _ _ _ _ _ hf hx' hy', Board.get_set_on _ _ _ _ _ _ ht hx' hy',
    Board.get_set_on _ _ _ _ _ _ hcon hx' hy',
    Board.get_set_on _ _ _ _ _ _ hf ⟨ht2.1, ht2.2.1⟩ ht2.2.2.1,
    Board.get_set_on _ _ _ _ _ _ ht ⟨ht2.1, ht2.2.1⟩ ht2.2.2.1,
    Board.get_set_on _ _ _ _ _ _ hcon ⟨ht2.1, ht2.2.1⟩ ht2.2.2.1]
  clear hc hm
  cases wtm <;> simp only [if_true, if_false, Bool.false_eq_true] at * <;>
    split_ifs <;> simp_all [Board.get_mod] <;> decide

theorem board_roundtrip_castle (s : Engine) (m : Move) (hc : Consistent s) (hm : PseudoOK s m)
    (hep : m.is_enpassant = false) (hcas : m.is_castle = true) :
    (undoMove (makeMove s m) m).b = s.b := by
  have hf := hm.from_on
  have ht := hm.to_on
  obtain ⟨hp, hfx, hfy, hty, hside, _, hpr, _, _⟩ := hm.castle hcas
  obtain ⟨hc1, hc2, hc3, hc4, hc5⟩ := hc
  obtain ⟨b, wtm, castling, ep_file, hmv, fmv, hash, hist, undo⟩ := s
  dsimp only at hp hfx hfy hty hside hc2 hc3 hc4 hc5 ⊢
  have hf2 := (onBoard_iff _ _).mp hf
  have ht2 := (onBoard_iff _ _).mp ht
  have hr0 : onBoard 0 m.from_y = true := by rw [onBoard_iff]; omega
  have hr3 : onBoard 3 m.from_y = true := by rw [onBoard_iff]; omega
  have hr5 : onBoard 5 m.from_y = true := by rw [onBoard_iff]; omega
  have hr7 : onBoard 7 m.from_y = true := by rw [onBoard_iff]; omega
  clear hm hc1
  apply Board.ext_get
  intro y' x' hy' hx'
  rcases hside with ⟨htx, hbit, h5, h6⟩ | ⟨htx, hbit, h1, h2, h3⟩
  · simp only [undoMove, makeMove, undo_last, makeBoard, hep, hcas, hpr, htx, hty, if_true,
      ne_eq, not_true_eq_false, if_false, Bool.false_eq_true]
    rw [htx, hty] at ht
    simp only [Board.get_set_on _ _ _ _ _ _ hf hx' hy', Board.get_set_on _ _ _ _ _ _ ht hx' hy',
      Board.get_set_on _ _ _ _ _ _ hr5 hx' hy', Board.get_set_on _ _ _ _ _ _ hr7 hx' hy']
    have hrook : b.get m.from_y 7 = (if wtm then WROOK else BROOK) := by
      cases wtm <;> simp only [if_true, if_false, Bool.false_eq_true] at * <;> rw [hfy]
      · exact hc4 hbit
      · exact hc2 hbit
    cases wtm <;> simp only [if_true, if_false, Bool.false_eq_true] at * <;>
      split_ifs <;> simp_all [Board.get_mod] <;> decide
  · have hne6 : ¬ (m.to_x = 6) := by omega
    simp only [undoMove, makeMove, undo_last, makeBoard, hep, hcas, hpr, hne6, hty, if_true,
      ne_eq, not_true_eq_false, if_false, Bool.false_eq_true]
    simp only [htx, if_true]
    rw [htx, hty] at ht
    simp only [Board.get_set_on _ _ _ _ _ _ hf hx' hy', Board.get_set_on _ _ _ _ _ _ ht hx' hy',
      Board.get_set_on _ _ _ _ _ _ hr3 hx' hy', Board.get_set_on _ _ _ _ _ _ hr0 hx' hy']
    have hrook : b.get m.from_y 0 = (if wtm then WROOK else BROOK) := by
      cases wtm <;> simp only [if_true, if_false, Bool.false_eq_true] at * <;> rw [hfy]
      · exact hc5 hbit
      · exact hc3 hbit
    cases wtm <;> simp only [if_true, if_false, Bool.false_eq_true] at * <;>
      split_ifs <;> simp_all [Board.get_mod] <;> decide

theorem board_roundtrip_plain (s : Engine) (m : Move) (hm : PseudoOK s m)
    (hep : m.is_enpassant = false) (hcas : m.is_castle = false) :
    (undoMove (makeMove s m) m).b = s.b := by
  have hf := hm.from_on
  have ht := hm.to_on
  have hpr := hm.promo
  obtain ⟨b, wtm, castling, ep_file, hmv, fmv, hash, hist, undo⟩ := s
  dsimp only at hpr ⊢
  have hf2 := (onBoard_iff _ _).mp hf
  have ht2 := (onBoard_iff _ _).mp ht
  clear hm
  apply Board.ext_get
  intro y' x' hy' hx'
  simp only [undoMove, makeMove, undo_last, makeBoard, hep, hcas, if_false, Bool.false_eq_true]
  by_cases hp0 : m.promotion = 0
  · simp only [hp0, ne_eq, not_true_eq_false, if_false]
    simp only [Board.get_set_on _ _ _ _ _ _ hf hx' hy', Board.get_set_on _ _ _ _ _ _ ht hx' hy',
      Board.get_set_on _ _ _ _ _ _ hf ⟨ht2.1, ht2.2.1⟩ ht2.2.2.1,
      Board.get_set_on _ _ _ _ _ _ ht ⟨ht2.1, ht2.2.1⟩ ht2.2.2.1]
    split_ifs <;> simp_all [Board.get_mod]
  · obtain ⟨hp, _, _, _, _, _, _⟩ := hpr hp0
    simp only [hp0, ne_eq, not_false_eq_true, if_true]
    simp only [Board.get_set_on _ _ _ _ _ _ hf hx' hy', Board.get_set_on _ _ _ _ _ _ ht hx' hy']
    cases wtm <;> simp only [if_true, if_false, Bool.false_eq_true] at * <;>
      split_ifs <;> simp_all [Board.get_mod] <;> decide

theorem board_roundtrip (s : Engine) (m : Move) (hc : Consistent s) (hm : PseudoOK s m) :
    (undoMove (makeMove s m) m).b = s.b := by
  cases hep : m.is_enpassant
  · cases hcas : m.is_castle
    · exact board_roundtrip_plain s m hm hep hcas
    · exact board_roundtrip_castle s m hc hm hep hcas
  · exact board_roundtrip_ep s m hc hm hep

theorem roundtrip (s : Engine) (m : Move) (hc : Consistent s) (hm : PseudoOK s m) :
    undoMove (makeMove s m) m = s := by
  have hb := board_roundtrip s m hc hm
  obtain ⟨b, wtm, castling, ep_file, hmv, fmv, hash, hist, undo⟩ := s
  simp only [undoMove, makeMove, undo_last] at hb ⊢
  simp only [Engine.mk.injEq, List.dropLast_concat, and_true, true_and]
  exact hb


theorem land_step (c mask bit : Nat) (p : Prop) [Decidable p]
    (h : (if p then c &&& mask else c) &&& bit ≠ 0) :
    c &&& bit ≠ 0 ∧ (p → mask &&& bit ≠ 0) := by
  split_ifs at h with hp
  · rw [Nat.land_assoc] at h
    constructor
    · intro h0
      apply h
      apply Nat.eq_of_testBit_eq
      intro i
      have := congrArg (fun n => Nat.testBit n i) h0
      simp only [Nat.testBit_land, Nat.zero_testBit] at this ⊢
      cases h1 : c.testBit i <;> cases h2 : bit.testBit i <;> simp_all
    · intro _ h0
      apply h
      rw [h0]; simp
  · exact ⟨h, fun hp' => absurd hp' hp⟩

theorem land_step2 (c m1 m2 bit : Nat) (A B C : Prop) [Decidable A] [Decidable B]
    [Decidable C]
    (h : (if A then (if C then (if B then c &&& m1 else c) &&& m2
                     else (if B then c &&& m1 else c)) else c) &&& bit ≠ 0) :
    c &&& bit ≠ 0 ∧ (A → (B → m1 &&& bit ≠ 0) ∧ (C → m2 &&& bit ≠ 0)) := by
  by_cases hA : A
  · rw [if_pos hA] at h
    obtain ⟨h1, h2⟩ := land_step _ _ _ _ h
    obtain ⟨h3, h4⟩ := land_step _ _ _ _ h1
    exact ⟨h3, fun _ => ⟨h4, h2⟩⟩
  · rw [if_neg hA] at h
    exact ⟨h, fun hA' => absurd hA' hA⟩

theorem stripRights_bit (c p t : Nat) (m : Move) (bit : Nat)
    (h : stripRights c p t m &&& bit ≠ 0) :
    c &&& bit ≠ 0 ∧
    (p = WKING → 3 &&& bit ≠ 0) ∧ (p = BKING → 12 &&& bit ≠ 0) ∧
    (p = WROOK ∧ m.from_y = 0 → (m.from_x = 0 → 11 &&& bit ≠ 0) ∧ (m.from_x = 7 → 7 &&& bit ≠ 0)) ∧
    (p = BROOK ∧ m.from_y = 7 → (m.from_x = 0 → 14 &&& bit ≠ 0) ∧ (m.from_x = 7 → 13 &&& bit ≠ 0)) ∧
    (t = WROOK ∧ m.to_y = 0 → (m.to_x = 0 → 11 &&& bit ≠ 0) ∧ (m.to_x = 7 → 7 &&& bit ≠ 0)) ∧
    (t = BROOK ∧ m.to_y = 7 → (m.to_x = 0 → 14 &&& bit ≠ 0) ∧ (m.to_x = 7 → 13 &&& bit ≠ 0)) := by
  unfold stripRights at h
  simp only at h
  obtain ⟨h, f6⟩ := land_step2 _ _ _ _ _ _ _ h
  obtain ⟨h, f5⟩ := land_step2 _ _ _ _ _ _ _ h
  obtain ⟨h, f4⟩ := land_step2 _ _ _ _ _ _ _ h
  obtain ⟨h, f3⟩ := land_step2 _ _ _ _ _ _ _ h
  obtain ⟨h, f2⟩ := land_step _ _ _ _ h
  obtain ⟨h, f1⟩ := land_step _ _ _ _ h
  exact ⟨h, f1, f2, f3, f4, f5, f6⟩

theorem makeBoard_get_other (s : Engine) (m : Move) (hm : PseudoOK s m) (y x : Int)
    (hon : onBoard x y = true)
    (hnf : ¬ (y = m.from_y ∧ x = m.from_x)) (hnt : ¬ (y = m.to_y ∧ x = m.to_x))
    (hnep : m.is_enpassant = true → ¬ (y = m.from_y ∧ x = m.to_x))
    (hncas : m.is_castle = true → y ≠ m.from_y) :
    (makeBoard s m).get y x = s.b.get y x := by
  have hf := hm.from_on
  have ht := hm.to_on
  have hf2 := (onBoard_iff _ _).mp hf
  have ht2 := (onBoard_iff _ _).mp ht
  have hon2 := (onBoard_iff _ _).mp hon
  have hx' : 0 ≤ x ∧ x < 8 := ⟨hon2.1, hon2.2.1⟩
  have hy' : 0 ≤ y := hon2.2.2.1
  unfold makeBoard
  cases hep : m.is_enpassant
  · cases hcas : m.is_castle
    · simp only [Bool.false_eq_true, if_false]
      split_ifs <;>
        simp only [Board.get_set_on _ _ _ _ _ _ hf hx' hy',
          Board.get_set_on _ _ _ _ _ _ ht hx' hy', hnf, hnt, if_false]
    · obtain ⟨_, hfx, hfy, hty, hside, _, hpr, _, _⟩ := hm.castle hcas
      have hne := hncas hcas
      have hr0 : onBoard 0 m.to_y = true := by rw [onBoard_iff]; omega
      have hr3 : onBoard 3 m.to_y = true := by rw [onBoard_iff]; omega
      have hr5 : onBoard 5 m.to_y = true := by rw [onBoard_iff]; omega
      have hr7 : onBoard 7 m.to_y = true := by rw [onBoard_iff]; omega
      have hne2 : y ≠ m.to_y := by rw [hty]; exact hne
      simp only [Bool.false_eq_true, if_false, if_true, hpr, ne_eq, not_true_eq_false]
      split_ifs <;>
        simp only [Board.get_set_on _ _ _ _ _ _ hf hx' hy',
          Board.get_set_on _ _ _ _ _ _ ht hx' hy', Board.get_set_on _ _ _ _ _ _ hr0 hx' hy',
          Board.get_set_on _ _ _ _ _ _ hr3 hx' hy', Board.get_set_on _ _ _ _ _ _ hr5 hx' hy',
          Board.get_set_on _ _ _ _ _ _ hr7 hx' hy', hnf, hnt, hne2, false_and, if_false]
  · obtain ⟨_, _, _, _, hty, hfy, _, _, _, hpr, _, _, _⟩ := hm.ep hep
    have hne := hnep hep
    have hcy : (if s.white_to_move then m.to_y - 1 else m.to_y + 1) = m.from_y := by
      rw [hty, hfy]; cases s.white_to_move <;> simp
    have hcon : onBoard m.to_x m.from_y = true := by rw [onBoard_iff]; omega
    simp only [if_true, hpr, ne_eq, not_true_eq_false, if_false, hcy]
    simp only [Board.get_set_on _ _ _ _ _ _ hf hx' hy',
      Board.get_set_on _ _ _ _ _ _ ht hx' hy', Board.get_set_on _ _ _ _ _ _ hcon hx' hy',
      hnf, hnt, hne, if_false]

/-! ## The consistency invariant -/

theorem land_const (a b : Nat) (h : a &&& b = 0) : ¬ (a &&& b ≠ 0) := fun h' => h' h

theorem rook_kept (s : Engine) (m : Move) (hm : PseudoOK s m) (bit : Nat) (rook : Nat)
    (cx cy : Int) (hon : onBoard cx cy = true) (hcy : cy = 0 ∨ cy = 7)
    (hbit : stripRights s.castling (s.b.get m.from_y m.from_x) (s.b.get m.to_y m.to_x) m &&& bit ≠ 0)
    (hold : s.castling &&& bit ≠ 0 → s.b.get cy cx = rook)
    (hnf : s.b.get m.from_y m.from_x = rook → ¬ (cy = m.from_y ∧ cx = m.from_x))
    (hnt : s.b.get m.to_y m.to_x = rook → ¬ (cy = m.to_y ∧ cx = m.to_x))
    (hncas : m.is_castle = true → cy ≠ m.from_y) :
    (makeBoard s m).get cy cx = rook := by
  obtain ⟨h0, _⟩ := stripRights_bit _ _ _ _ _ hbit
  have hr := hold h0
  rw [makeBoard_get_other s m hm cy cx hon]
  · exact hr
  · intro h
    exact hnf (by rw [← h.1, ← h.2]; exact hr) h
  · intro h
    exact hnt (by rw [← h.1, ← h.2]; exact hr) h
  · intro hep h
    obtain ⟨_, _, _, _, hty, hfy, _, _, _, hpr, _, _, _⟩ := hm.ep hep
    rw [← h.1] at hfy
    have h43 : cy = 4 ∨ cy = 3 := by
      split_ifs at hfy
      · exact Or.inl hfy
      · exact Or.inr hfy
    rcases h43 with h4 | h4 <;> rcases hcy with h7 | h7 <;> rw [h4] at h7 <;>
      exact absurd h7 (by decide)
  · exact hncas

theorem consistent_make (s : Engine) (m : Move) (hc : Consistent s) (hm : PseudoOK s m) :
    Consistent (makeMove s m) := by
  obtain ⟨hc1, hc2, hc3, hc4, hc5⟩ := hc
  have hmb : (makeMove s m).b = makeBoard s m := rfl
  have hmc : (makeMove s m).castling
      = stripRights s.castling (s.b.get m.from_y m.from_x) (s.b.get m.to_y m.to_x) m := rfl
  have hme : (makeMove s m).ep_file = if m.is_doublepush then m.from_x + 1 else 0 := rfl
  have hmw : (makeMove s m).white_to_move = !s.white_to_move := rfl
  have hown := isOwn_cases hm.own
  refine ⟨?_, ?_, ?_, ?_, ?_⟩
  · rw [hmb, hme, hmw]
    intro hep
    cases hd : m.is_doublepush
    · rw [hd] at hep; simp at hep
    · obtain ⟨hp, hfy, htx, hty, hmid, hto, hnep, hncas, hpr⟩ := hm.dbl hd
      have hf2 := (onBoard_iff _ _).mp hm.from_on
      simp only [if_true, add_sub_cancel_right]
      have hmid2 : (if (!s.white_to_move) = true then (5 : Int) else 2)
          = (if s.white_to_move then 2 else 5) := by
        cases s.white_to_move <;> rfl
      rw [hmid2, makeBoard_get_other s m hm _ _ _ _ _ _ _]
      · exact hmid
      · rw [onBoard_iff]; split_ifs <;> omega
      · rw [hfy]; split_ifs <;> simp
      · rw [hty]; split_ifs <;> simp
      · intro h; rw [hnep] at h; simp at h
      · intro h; rw [hncas] at h; simp at h
  · rw [hmb, hmc]
    intro hbit
    obtain ⟨h0, f1, f2, f3, f4, f5, f6⟩ := stripRights_bit _ _ _ _ _ hbit
    refine rook_kept s m hm 8 WROOK 7 0 (by decide) (Or.inl rfl) hbit hc2 ?_ ?_ ?_
    · intro hp h
      exact (f3 ⟨hp, h.1.symm⟩).2 h.2.symm (by decide)
    · intro hp h
      exact (f5 ⟨hp, h.1.symm⟩).2 h.2.symm (by decide)
    · intro hcas h
      obtain ⟨hk, _, hfy, _⟩ := hm.castle hcas
      rcases hown with ⟨hw, _⟩ | ⟨hw, _⟩
      · rw [hw] at hk
        exact f1 hk (by decide)
      · rw [hw] at hfy
        rw [← h] at hfy
        simp at hfy
  · rw [hmb, hmc]
    intro hbit
    obtain ⟨h0, f1, f2, f3, f4, f5, f6⟩ := stripRights_bit _ _ _ _ _ hbit
    refine rook_kept s m hm 4 WROOK 0 0 (by decide) (Or.inl rfl) hbit hc3 ?_ ?_ ?_
    · intro hp h
      exact (f3 ⟨hp, h.1.symm⟩).1 h.2.symm (by decide)
    · intro hp h
      exact (f5 ⟨hp, h.1.symm⟩).1 h.2.symm (by decide)
    · intro hcas h
      obtain ⟨hk, _, hfy, _⟩ := hm.castle hcas
      rcases hown with ⟨hw, _⟩ | ⟨hw, _⟩
      · rw [hw] at hk
        exact f1 hk (by decide)
      · rw [hw] at hfy
        rw [← h] at hfy
        simp at hfy
  · rw [hmb, hmc]
    intro hbit
    obtain ⟨h0, f1, f2, f3, f4, f5, f6⟩ := stripRights_bit _ _ _ _ _ hbit
    refine rook_kept s m hm 2 BROOK 7 7 (by decide) (Or.inr rfl) hbit hc4 ?_ ?_ ?_
    · intro hp h
      exact (f4 ⟨hp, h.1.symm⟩).2 h.2.symm (by decide)
    · intro hp h
      exact (f6 ⟨hp, h.1.symm⟩).2 h.2.symm (by decide)
    · intro hcas h
      obtain ⟨hk, _, hfy, _⟩ := hm.castle hcas
      rcases hown with ⟨hw, _⟩ | ⟨hw, _⟩
      · rw [hw] at hfy
        rw [← h] at hfy
        simp at hfy
      · rw [hw] at hk
        exact f2 hk (by decide)
  · rw [hmb, hmc]
    intro hbit
    obtain ⟨h0, f1, f2, f3, f4, f5, f6⟩ := stripRights_bit _ _ _ _ _ hbit
    refine rook_kept s m hm 1 BROOK 0 7 (by decide) (Or.inr rfl) hbit hc5 ?_ ?_ ?_
    · intro hp h
      exact (f4 ⟨hp, h.1.symm⟩).1 h.2.symm (by decide)
    · intro hp h
      exact (f6 ⟨hp, h.1.symm⟩).1 h.2.symm (by decide)
    · intro hcas h
      obtain ⟨hk, _, hfy, _⟩ := hm.castle hcas
      rcases hown with ⟨hw, _⟩ | ⟨hw, _⟩
      · rw [hw] at hfy
        rw [← h] at hfy
        simp at hfy
      · rw [hw] at hk
        exact f2 hk (by decide)

theorem filterLegal_subset (l : List Move) : ∀ (s : Engine) (m : Move),
    m ∈ (filterLegal s l).1 → m ∈ l := by
  induction l with
  | nil => intro s m h; simp [filterLegal] at h
  | cons a rest ih =>
    intro s m h
    simp only [filterLegal] at h
    split_ifs at h
    · rcases List.mem_cons.mp h with rfl | h
      · exact List.mem_cons_self _ _
      · exact List.mem_cons_of_mem _ (ih _ _ h)
    · exact List.mem_cons_of_mem _ (ih _ _ h)

theorem legal_pseudo (s : Engine) (m : Move) (h : m ∈ (generateLegal s).1) :
    m ∈ generatePseudo s false :=
  filterLegal_subset _ s m h

theorem consistent_start (e : Engine) : Consistent (setStartPos e) := by
  unfold Consistent setStartPos
  simp only
  decide

theorem reachable_consistent (s : Engine) (h : Reachable s) : Consistent s := by
  induction h with
  | start e => exact consistent_start e
  | step _ hm ih => exact consistent_make _ _ ih (pseudo_ok _ _ _ (legal_pseudo _ _ hm))

/-! ## Nested sequences of calls -/

theorem computeHash_congr (s t : Engine) (hb : s.b = t.b)
    (hw : s.white_to_move = t.white_to_move) (hc : s.castling = t.castling)
    (he : s.ep_file = t.ep_file) : computeHash s = computeHash t := by
  unfold computeHash
  rw [hb, hw, hc, he]

theorem computeHash_makeMove (s : Engine) (m : Move) :
    (makeMove s m).hash = computeHash (makeMove s m) := by
  unfold makeMove
  exact computeHash_congr _ _ rfl rfl rfl rfl

theorem computeHash_setStartPos (e : Engine) :
    (setStartPos e).hash = computeHash (setStartPos e) := by
  unfold setStartPos
  exact computeHash_congr _ _ rfl rfl rfl rfl

theorem computeHash_setFEN (e : Engine) (fen : String) :
    (setFEN e fen).hash = computeHash (setFEN e fen) := by
  unfold setFEN
  exact computeHash_congr _ _ rfl rfl rfl rfl

theorem chain_good (s : Engine) (p : List Move) (h : Chain s p) :
    Consistent s ∧ s.hash = computeHash s := by
  induction h with
  | base s hc hh => exact ⟨hc, hh⟩
  | push s m _ _ hm ih => exact ⟨consistent_make s m ih.1 hm, computeHash_makeMove s m⟩

theorem chain_run (ops : List Op) : ∀ (s : Engine) (p : List Move) (s' : Engine)
    (p' : List Move), Chain s p → runOps s p ops = some (s', p') → Chain s' p' := by
  induction ops with
  | nil =>
    intro s p s' p' hc hr
    simp only [runOps, Option.some.injEq, Prod.mk.injEq] at hr
    rw [← hr.1, ← hr.2]; exact hc
  | cons op rest ih =>
    intro s p s' p' hc hr
    cases op with
    | make m =>
      simp only [runOps] at hr
      split_ifs at hr with hm
      exact ih _ _ _ _ (Chain.push s m p hc (pseudo_ok _ _ _ (legal_pseudo _ _ hm))) hr
    | unmake =>
      cases hc with
      | base s hcs hh => simp [runOps] at hr
      | push s0 m p0 hc0 hm =>
        simp only [runOps] at hr
        rw [roundtrip s0 m (chain_good _ _ hc0).1 hm] at hr
        exact ih _ _ _ _ hc0 hr

/-! ## Legality filtering -/

theorem own_ne_empty {WT : Bool} {p : Nat} (h : isOwn WT p = true) : p ≠ EMPTY := by
  rcases isOwn_cases h with ⟨_, h1, _⟩ | ⟨_, h1, _⟩ <;> simp only [EMPTY] <;> omega

theorem legalMove_eq (s : Engine) (m : Move) (hc : Consistent s) (hm : PseudoOK s m) :
    legalMove s m = (!inCheck (makeBoard s m) s.white_to_move, s) := by
  unfold legalMove
  simp only [if_neg (own_ne_empty hm.own), roundtrip s m hc hm]
  have h1 : (makeMove s m).b = makeBoard s m := rfl
  have h2 : (makeMove s m).white_to_move = !s.white_to_move := rfl
  rw [h1, h2, Bool.not_not]

theorem filterLegal_eq (s : Engine) (hc : Consistent s) : ∀ l : List Move,
    (∀ m ∈ l, PseudoOK s m) →
    filterLegal s l = (l.filter (fun m => !inCheck (makeBoard s m) s.white_to_move), s) := by
  intro l
  induction l with
  | nil => intro _; rfl
  | cons a rest ih =>
    intro h
    have ha := h a (List.mem_cons_self _ _)
    have hrest := ih (fun m hm => h m (List.mem_cons_of_mem _ hm))
    simp only [filterLegal, legalMove_eq s a hc ha, hrest, List.filter_cons]

theorem generateLegal_eq (s : Engine) (hc : Consistent s) :
    generateLegal s
      = ((generatePseudo s false).filter
          (fun m => !inCheck (makeBoard s m) s.white_to_move), s) :=
  filterLegal_eq s hc _ (fun m hm => pseudo_ok s false m hm)

theorem findKing_fold (b : Board) (king : Nat) (l : List (Int × Int)) :
    ∀ init : Int × Int,
      let r := l.foldl (fun k yx => if b.get yx.1 yx.2 = king then (yx.2, yx.1) else k) init
      (r = init ∧ ∀ yx ∈ l, b.get yx.1 yx.2 ≠ king) ∨
      ((r.2, r.1) ∈ l ∧ b.get r.2 r.1 = king) := by
  induction l with
  | nil => intro init; left; exact ⟨rfl, fun _ h => absurd h (List.not_mem_nil _)⟩
  | cons a rest ih =>
    intro init
    simp only [List.foldl_cons]
    by_cases ha : b.get a.1 a.2 = king
    · simp only [ha, if_true]
      rcases ih (a.2, a.1) with ⟨h1, _⟩ | ⟨h1, h2⟩
      · right
        rw [h1]
        exact ⟨List.mem_cons_self _ _, ha⟩
      · right
        exact ⟨List.mem_cons_of_mem _ h1, h2⟩
    · simp only [ha, if_false]
      rcases ih init with ⟨h1, h2⟩ | ⟨h1, h2⟩
      · left
        refine ⟨h1, ?_⟩
        intro yx hyx
        rcases List.mem_cons.mp hyx with rfl | h
        · exact ha
        · exact h2 yx h
      · right
        exact ⟨List.mem_cons_of_mem _ h1, h2⟩

theorem findKing_spec (b : Board) (king : Nat) :
    (findKing b king = (-1, -1) ∧ ∀ x y, onBoard x y = true → b.get y x ≠ king) ∨
    (onBoard (findKing b king).1 (findKing b king).2 = true ∧
      b.get (findKing b king).2 (findKing b king).1 = king) := by
  rcases findKing_fold b king squares (-1, -1) with ⟨h1, h2⟩ | ⟨h1, h2⟩
  · left
    refine ⟨h1, fun x y hon => h2 (y, x) ((mem_squares _).mpr hon)⟩
  · right
    exact ⟨(mem_squares _).mp h1, h2⟩

theorem inCheck_iff (b : Board) (side : Bool)
    (hu : AtMostOne b (if side then WKING else BKING)) :
    inCheck b side = true ↔
      ∃ kx ky, onBoard kx ky = true ∧ b.get ky kx = (if side then WKING else BKING) ∧
        isAttacked b kx ky (!side) = true := by
  unfold inCheck
  simp only
  rcases findKing_spec b (if side then WKING else BKING) with ⟨h1, h2⟩ | ⟨h1, h2⟩
  · rw [h1]
    simp only [if_true]
    constructor
    · intro h; exact absurd h (by simp)
    · rintro ⟨kx, ky, hon, hk, _⟩
      exact absurd hk (h2 kx ky hon)
  · have hne : ¬ ((findKing b (if side then WKING else BKING)).1 = -1) := by
      have := (onBoard_iff _ _).mp h1
      omega
    rw [if_neg hne]
    constructor
    · intro h
      exact ⟨_, _, h1, h2, h⟩
    · rintro ⟨kx, ky, hon, hk, ha⟩
      obtain ⟨rfl, rfl⟩ := hu _ _ _ _ h1 hon h2 hk
      exact ha

/-! ## The board after a move -/

theorem promo_mod (s : Engine) (m : Move) (hm : PseudoOK s m) : m.promotion % 16 = m.promotion := by
  by_cases h : m.promotion = 0
  · rw [h]
  · obtain ⟨_, _, _, _, _, _, hl⟩ := hm.promo h
    split_ifs at hl <;>
      simp only [List.mem_cons, List.mem_singleton, List.not_mem_nil, or_false] at hl <;>
      rcases hl with h | h | h | h <;> rw [h] <;> rfl

theorem makeBoard_get_plain (s : Engine) (m : Move) (hm : PseudoOK s m) (y x : Int)
    (hon : onBoard x y = true) (hep : m.is_enpassant = false) (hcas : m.is_castle = false) :
    (makeBoard s m).get y x = (madeAt s m y x).getD (s.b.get y x) := by
  have hf := hm.from_on
  have ht := hm.to_on
  have hon2 := (onBoard_iff _ _).mp hon
  have hx' : 0 ≤ x ∧ x < 8 := ⟨hon2.1, hon2.2.1⟩
  have hy' : 0 ≤ y := hon2.2.2.1
  have hpm := promo_mod s m hm
  unfold makeBoard madeAt
  simp only [hep, hcas, Bool.false_eq_true, if_false, false_and]
  have hmv := hm.moved
  have hne1 : ¬ (m.from_y = m.to_y ∧ m.from_x = m.to_x) := fun h => hmv ⟨h.2.symm, h.1.symm⟩
  have hne2 : ¬ (m.to_y = m.from_y ∧ m.to_x = m.from_x) := fun h => hmv ⟨h.2, h.1⟩
  by_cases hp0 : m.promotion = 0
  · simp only [hp0, ne_eq, not_true_eq_false, if_false,
      Board.get_set_on _ _ _ _ _ _ hf hx' hy', Board.get_set_on _ _ _ _ _ _ ht hx' hy',
      Board.get_mod]
    by_cases h1 : y = m.from_y ∧ x = m.from_x
    · simp [h1, hne1, hne2]
    · by_cases h2 : y = m.to_y ∧ x = m.to_x
      · simp [h2, hne1, hne2]
      · simp [h1, h2]
  · simp only [hp0, ne_eq, not_false_eq_true, if_true,
      Board.get_set_on _ _ _ _ _ _ hf hx' hy', Board.get_set_on _ _ _ _ _ _ ht hx' hy',
      Board.get_mod, hpm]
    by_cases h1 : y = m.from_y ∧ x = m.from_x
    · simp [h1, hne1, hne2]
    · by_cases h2 : y = m.to_y ∧ x = m.to_x
      · simp [h2, hne1, hne2, hp0]
      · simp [h1, h2]

theorem makeBoard_get_castle (s : Engine) (m : Move) (hm : PseudoOK s m) (y x : Int)
    (hon : onBoard x y = true) (hep : m.is_enpassant = false) (hcas : m.is_castle = true) :
    (makeBoard s m).get y x = (madeAt s m y x).getD (s.b.get y x) := by
  have hf := hm.from_on
  have ht := hm.to_on
  have hmv := hm.moved
  have hf2 := (onBoard_iff _ _).mp hf
  have ht2 := (onBoard_iff _ _).mp ht
  have hon2 := (onBoard_iff _ _).mp hon
  have hx' : 0 ≤ x ∧ x < 8 := ⟨hon2.1, hon2.2.1⟩
  have hy' : 0 ≤ y := hon2.2.2.1
  obtain ⟨hk, hfx, hfy, hty, hside, _, hpr, _, _⟩ := hm.castle hcas
  have hr0 : onBoard 0 m.to_y = true := by rw [onBoard_iff]; omega
  have hr3 : onBoard 3 m.to_y = true := by rw [onBoard_iff]; omega
  have hr5 : onBoard 5 m.to_y = true := by rw [onBoard_iff]; omega
  have hr7 : onBoard 7 m.to_y = true := by rw [onBoard_iff]; omega
  have hrk : (if s.white_to_move = true then WROOK else BROOK) % 16
      = (if s.white_to_move = true then WROOK else BROOK) := by
    split_ifs <;> rfl
  have h62 : ¬ ((6 : Int) = 2) := by decide
  have h26 : ¬ ((2 : Int) = 6) := by decide
  have hxy : (y = m.from_y ∧ x = 4) ∨ (y = m.from_y ∧ x = 5) ∨ (y = m.from_y ∧ x = 6) ∨
      (y = m.from_y ∧ x = 7) ∨ (y = m.from_y ∧ x = 3) ∨ (y = m.from_y ∧ x = 2) ∨
      (y = m.from_y ∧ x = 0) ∨ (y = m.from_y ∧ x = 1) ∨ y ≠ m.from_y := by omega
  unfold makeBoard madeAt
  simp only [hep, hcas, hpr, Bool.false_eq_true, if_false, if_true, ne_eq, not_true_eq_false,
    false_and, true_and, hty, hfx]
  rw [hty] at hr0 hr3 hr5 hr7 ht
  rcases hside with ⟨htx, _⟩ | ⟨htx, _⟩
  · simp only [htx, if_true, h62, false_and, true_and, if_false]
    rw [htx] at ht
    rw [hfx] at hf
    simp only [Board.get_set_on _ _ _ _ _ _ hf hx' hy',
      Board.get_set_on _ _ _ _ _ _ ht hx' hy',
      Board.get_set_on _ _ _ _ _ _ hr5 hx' hy', Board.get_set_on _ _ _ _ _ _ hr7 hx' hy',
      hrk, Board.get_mod]
    rcases hxy with h | h | h | h | h | h | h | h | h
    all_goals first
      | (obtain ⟨h1, h2⟩ := h; subst h2; rw [h1]; simp)
      | simp [h]
  · simp only [htx, h26, if_true, if_false, false_and, true_and]
    rw [htx] at ht
    rw [hfx] at hf
    simp only [Board.get_set_on _ _ _ _ _ _ hf hx' hy',
      Board.get_set_on _ _ _ _ _ _ ht hx' hy',
      Board.get_set_on _ _ _ _ _ _ hr3 hx' hy', Board.get_set_on _ _ _ _ _ _ hr0 hx' hy',
      hrk, Board.get_mod]
    rcases hxy with h | h | h | h | h | h | h | h | h
    all_goals first
      | (obtain ⟨h1, h2⟩ := h; subst h2; rw [h1]; simp)
      | simp [h]

theorem makeBoard_get_ep (s : Engine) (m : Move) (hm : PseudoOK s m) (y x : Int)
    (hon : onBoard x y = true) (hep : m.is_enpassant = true) :
    (makeBoard s m).get y x = (madeAt s m y x).getD (s.b.get y x) := by
  have hf := hm.from_on
  have ht := hm.to_on
  have hf2 := (onBoard_iff _ _).mp hf
  have ht2 := (onBoard_iff _ _).mp ht
  have hon2 := (onBoard_iff _ _).mp hon
  have hx' : 0 ≤ x ∧ x < 8 := ⟨hon2.1, hon2.2.1⟩
  have hy' : 0 ≤ y := hon2.2.2.1
  obtain ⟨_, _, _, _, hty, hfy, hdx, _, hcas, hpr, _, _, _⟩ := hm.ep hep
  have hcy : (if s.white_to_move then m.to_y - 1 else m.to_y + 1) = m.from_y := by
    rw [hty, hfy]; cases s.white_to_move <;> simp
  have hcon : onBoard m.to_x m.from_y = true := by rw [onBoard_iff]; omega
  have hne : m.to_y ≠ m.from_y := by
    rw [hty, hfy]; cases s.white_to_move <;> simp
  unfold makeBoard madeAt
  simp only [hep, if_true, hpr, ne_eq, not_true_eq_false, if_false, hcy, hcas,
    Bool.false_eq_true, false_and, true_and,
    Board.get_set_on _ _ _ _ _ _ hf hx' hy', Board.get_set_on _ _ _ _ _ _ ht hx' hy',
    Board.get_set_on _ _ _ _ _ _ hcon hx' hy', Board.get_mod]
  have hnx : ¬ (m.from_x = m.to_x) := by
    intro h; rw [h] at hdx; simp at hdx
  have hnx2 : ¬ (m.to_x = m.from_x) := fun h => hnx h.symm
  have hne2 : ¬ (m.from_y = m.to_y) := fun h => hne h.symm
  by_cases h1 : y = m.from_y ∧ x = m.from_x
  · simp [h1, hnx, hnx2, hne, hne2]
  · by_cases h2 : y = m.to_y ∧ x = m.to_x
    · simp [h2, hnx, hnx2, hne, hne2]
    · by_cases h3 : y = m.from_y ∧ x = m.to_x
      · simp [h3, hnx, hnx2, hne, hne2]
      · simp [h1, h2, h3]

/-- The board after `makeMove`, square by square. -/
theorem makeBoard_get (s : Engine) (m : Move) (hm : PseudoOK s m) (y x : Int)
    (hon : onBoard x y = true) :
    (makeBoard s m).get y x = (madeAt s m y x).getD (s.b.get y x) := by
  cases hep : m.is_enpassant
  · cases hcas : m.is_castle
    · exact makeBoard_get_plain s m hm y x hon hep hcas
    · exact makeBoard_get_castle s m hm y x hon hep hcas
  · exact makeBoard_get_ep s m hm y x hon hep

theorem promo_not_king (s : Engine) (m : Move) (hm : PseudoOK s m) (h : m.promotion ≠ 0) :
    m.promotion ≠ (if s.white_to_move then WKING else BKING) := by
  obtain ⟨_, _, _, _, _, _, hl⟩ := hm.promo h
  split_ifs at hl ⊢ <;>
    simp only [List.mem_cons, List.mem_singleton, List.not_mem_nil, or_false] at hl <;>
    rcases hl with h | h | h | h <;> rw [h] <;> decide

theorem king_after (s : Engine) (m : Move) (hm : PseudoOK s m) (y x : Int)
    (hon : onBoard x y = true)
    (hk : (makeBoard s m).get y x = (if s.white_to_move then WKING else BKING)) :
    (s.b.get m.from_y m.from_x = (if s.white_to_move then WKING else BKING) ∧
      y = m.to_y ∧ x = m.to_x) ∨
    (s.b.get y x = (if s.white_to_move then WKING else BKING) ∧
      ¬ (y = m.from_y ∧ x = m.from_x)) := by
  rw [makeBoard_get s m hm y x hon] at hk
  unfold madeAt at hk
  have hrk : (if s.white_to_move then WROOK else BROOK)
      ≠ (if s.white_to_move then WKING else BKING) := by
    cases s.white_to_move <;> decide
  have hek : EMPTY ≠ (if s.white_to_move then WKING else BKING) := by
    cases s.white_to_move <;> decide
  by_cases h1 : y = m.from_y ∧ x = m.from_x
  · rw [if_pos h1] at hk; exact absurd hk hek
  rw [if_neg h1] at hk
  by_cases h2 : y = m.to_y ∧ x = m.to_x
  · rw [if_pos h2] at hk
    by_cases h3 : m.promotion ≠ 0
    · rw [if_pos h3] at hk; exact absurd hk (promo_not_king s m hm h3)
    · rw [if_neg h3] at hk; exact Or.inl ⟨hk, h2⟩
  rw [if_neg h2] at hk
  by_cases h4 : m.is_enpassant = true ∧ y = m.from_y ∧ x = m.to_x
  · rw [if_pos h4] at hk; exact absurd hk hek
  rw [if_neg h4] at hk
  by_cases h5 : m.is_castle = true ∧ y = m.from_y ∧ m.to_x = 6 ∧ x = 5
  · rw [if_pos h5] at hk; exact absurd hk hrk
  rw [if_neg h5] at hk
  by_cases h6 : m.is_castle = true ∧ y = m.from_y ∧ m.to_x = 6 ∧ x = 7
  · rw [if_pos h6] at hk; exact absurd hk hek
  rw [if_neg h6] at hk
  by_cases h7 : m.is_castle = true ∧ y = m.from_y ∧ m.to_x = 2 ∧ x = 3
  · rw [if_pos h7] at hk; exact absurd hk hrk
  rw [if_neg h7] at hk
  by_cases h8 : m.is_castle = true ∧ y = m.from_y ∧ m.to_x = 2 ∧ x = 0
  · rw [if_pos h8] at hk; exact absurd hk hek
  rw [if_neg h8] at hk
  exact Or.inr ⟨hk, h1⟩

theorem atMostOne_after (s : Engine) (m : Move) (hm : PseudoOK s m)
    (hu : AtMostOne s.b (if s.white_to_move then WKING else BKING)) :
    AtMostOne (makeBoard s m) (if s.white_to_move then WKING else BKING) := by
  intro x y x' y' hon hon' hk hk'
  have hf := hm.from_on
  rcases king_after s m hm y x hon hk with ⟨hp, hy, hx⟩ | ⟨hb, hnf⟩ <;>
    rcases king_after s m hm y' x' hon' hk' with ⟨hp', hy', hx'⟩ | ⟨hb', hnf'⟩
  · exact ⟨by rw [hx, hx'], by rw [hy, hy']⟩
  · have := hu _ _ _ _ hf hon' hp hb'
    exact absurd ⟨this.2.symm, this.1.symm⟩ hnf'
  · have := hu _ _ _ _ hf hon hp' hb
    exact absurd ⟨this.2.symm, this.1.symm⟩ hnf
  · exact hu _ _ _ _ hon hon' hb hb'

theorem atMostOne_of_count (b : Board) (king : Nat) (h : (kingSquares b king).length = 1) :
    AtMostOne b king := by
  intro x y x' y' hon hon' hk hk'
  obtain ⟨a, ha⟩ := List.length_eq_one.mp h
  have h1 : (y, x) ∈ kingSquares b king := by
    unfold kingSquares
    rw [List.mem_filter]
    exact ⟨(mem_squares _).mpr hon, by simpa using hk⟩
  have h2 : (y', x') ∈ kingSquares b king := by
    unfold kingSquares
    rw [List.mem_filter]
    exact ⟨(mem_squares _).mpr hon', by simpa using hk'⟩
  rw [ha, List.mem_singleton] at h1 h2
  have := h1.trans h2.symm
  simp only [Prod.mk.injEq] at this
  exact ⟨this.2, this.1⟩

theorem keep_iff_safe (s : Engine) (m : Move) (hm : PseudoOK s m)
    (hu : AtMostOne s.b (if s.white_to_move then WKING else BKING)) :
    (!inCheck (makeBoard s m) s.white_to_move) = true ↔ KingSafeAfter s m := by
  have hb : (makeMove s m).b = makeBoard s m := rfl
  unfold KingSafeAfter
  rw [hb]
  have hiff := inCheck_iff (makeBoard s m) s.white_to_move (by
    have := atMostOne_after s m hm hu
    exact this)
  constructor
  · intro h kx ky hon hk
    cases ha : isAttacked (makeBoard s m) kx ky (!s.white_to_move)
    · rfl
    · have : inCheck (makeBoard s m) s.white_to_move = true := hiff.mpr ⟨kx, ky, hon, hk, ha⟩
      rw [this] at h
      exact absurd h (by decide)
  · intro h
    cases hc : inCheck (makeBoard s m) s.white_to_move
    · rfl
    · obtain ⟨kx, ky, hon, hk, ha⟩ := hiff.mp hc
      rw [h kx ky hon hk] at ha
      exact absurd ha (by decide)

/-! ## Round trip, fingerprint and legality (C1, C3, C4) -/

/-- C1. In every position reachable from the standard start position by legal moves,
`makeMove(m)` followed by `undoMove(m)` for a move `m` of `generateLegal()` gives back the
engine record unchanged: board, side to move, castling rights, `ep_file`, both move
counters, hash, undo stack and `uci_history`. -/
theorem make_undo_restores (s : Engine) (m : Move) (hr : Reachable s)
    (hm : m ∈ (generateLegal s).1) : undoMove (makeMove s m) m = s :=
  roundtrip s m (reachable_consistent s hr) (pseudo_ok s false m (legal_pseudo s m hm))

set_option maxRecDepth 100000 in
theorem make_undo_restores_witness :
    e2e4 ∈ (generateLegal newEngine).1 ∧ undoMove (makeMove newEngine e2e4) e2e4 = newEngine :=
  ⟨by decide!, make_undo_restores newEngine e2e4 (Reachable.start {}) (by decide!)⟩

/-- C3 (as amended). From `setStartPos()`, or from a `setFEN` position that is consistent
(en-passant target square empty when `ep_file` is set, home-corner rook present for every
castling bit that is set), every properly nested sequence of `makeMove` on legal moves and
matching `undoMove` calls ends in a state whose stored hash equals `computeHash()`. -/
theorem hash_matches_recomputation (e : Engine) (fen : String) (s0 : Engine)
    (ops : List Op) (s : Engine) (pending : List Move)
    (h0 : s0 = setStartPos e ∨ (s0 = setFEN e fen ∧ Consistent s0))
    (hrun : runOps s0 [] ops = some (s, pending)) : s.hash = computeHash s := by
  have hc : Chain s0 [] := by
    rcases h0 with rfl | ⟨rfl, hc⟩
    · exact Chain.base _ (consistent_start e) (computeHash_setStartPos e)
    · exact Chain.base _ hc (computeHash_setFEN e fen)
  exact (chain_good _ _ (chain_run ops _ _ _ _ hc hrun)).2

set_option maxRecDepth 100000 in
theorem hash_matches_recomputation_witness :
    (makeMove newEngine e2e4).hash = computeHash (makeMove newEngine e2e4) :=
  hash_matches_recomputation {} "" newEngine [Op.make e2e4] (makeMove newEngine e2e4) [e2e4]
    (Or.inl rfl) (by simp only [runOps, if_pos (show e2e4 ∈ (generateLegal newEngine).1 by decide!)])

set_option maxRecDepth 100000 in
theorem hash_stale_after_fen_ep :
    runOps fenRookOnEp [] [Op.make epTake, Op.unmake]
        = some (undoMove (makeMove fenRookOnEp epTake) epTake, []) ∧
      (undoMove (makeMove fenRookOnEp epTake) epTake).hash
        ≠ computeHash (undoMove (makeMove fenRookOnEp epTake) epTake) := by
  refine ⟨?_, by decide!⟩
  simp only [runOps, if_pos (show epTake ∈ (generateLegal fenRookOnEp).1 by decide!)]

/-- C4 (as amended). In every consistent position (en-passant target square empty when
`ep_file` is set, home-corner rook present for every castling bit that is set) with exactly
one king per side, `generateLegal()` returns exactly the moves of `generatePseudo(false)`,
in the same order, after which no king of the mover is attacked by the opponent. -/
theorem legal_is_king_safe_filter (s : Engine) (hc : Consistent s) (hk : OneKingEach s.b) :
    ∃ keep : Move → Bool,
      (generateLegal s).1 = (generatePseudo s false).filter keep ∧
      ∀ m ∈ generatePseudo s false, keep m = true ↔ KingSafeAfter s m := by
  refine ⟨fun m => !inCheck (makeBoard s m) s.white_to_move, ?_, ?_⟩
  · rw [generateLegal_eq s hc]
  · intro m hm
    have hu : AtMostOne s.b (if s.white_to_move then WKING else BKING) := by
      split_ifs
      · exact atMostOne_of_count _ _ hk.1
      · exact atMostOne_of_count _ _ hk.2
    exact keep_iff_safe s m (pseudo_ok s false m hm) hu

set_option maxRecDepth 100000 in
theorem legal_is_king_safe_filter_witness :
    Consistent newEngine ∧ OneKingEach newEngine.b ∧
    ∃ keep : Move → Bool,
      (generateLegal newEngine).1 = (generatePseudo newEngine false).filter keep ∧
      ∀ m ∈ generatePseudo newEngine false, keep m = true ↔ KingSafeAfter newEngine m :=
  ⟨by decide!, by decide!, legal_is_king_safe_filter newEngine (by decide!) (by decide!)⟩

set_option maxRecDepth 100000 in
theorem legal_move_leaves_king_attacked :
    OneKingEach fenRookOnEp.b ∧ g6h6 ∈ (generateLegal fenRookOnEp).1 ∧
    (makeMove fenRookOnEp g6h6).b.get 5 7 = WKING ∧
    isAttacked (makeMove fenRookOnEp g6h6).b 7 5 (!fenRookOnEp.white_to_move) = true := by
  decide!

/-! ## The attack oracle (C7) -/

theorem attackRay_iff (b : Board) (w : Bool) (dx dy : Int) :
    ∀ (fuel : Nat) (nx ny : Int),
      attackRay b w dx dy fuel nx ny = true ↔
        ∃ k : Nat, k < fuel ∧
          (∀ j : Nat, j < k → onBoard (nx + j * dx) (ny + j * dy) = true ∧
              b.get (ny + j * dy) (nx + j * dx) = EMPTY) ∧
          onBoard (nx + k * dx) (ny + k * dy) = true ∧
          b.get (ny + k * dy) (nx + k * dx) ≠ EMPTY ∧
          rayHit w dx dy (b.get (ny + k * dy) (nx + k * dx)) = true := by
  intro fuel
  induction fuel with
  | zero =>
    intro nx ny
    simp [attackRay]
  | succ n ih =>
    intro nx ny
    unfold attackRay
    by_cases hon : onBoard nx ny = true
    · simp only [hon, if_true]
      by_cases hp : b.get ny nx = 0
      · simp only [hp, ne_eq, not_true_eq_false, if_false]
        rw [ih]
        constructor
        · rintro ⟨k, hk, hall, h1, h2, h3⟩
          refine ⟨k + 1, by omega, ?_, ?_, ?_, ?_⟩
          · intro j hj
            cases j with
            | zero => simpa using ⟨hon, hp⟩
            | succ j =>
              have := hall j (by omega)
              have e1 : nx + ((j + 1 : Nat) : Int) * dx = nx + dx + (j : Int) * dx := by
                push_cast; ring
              have e2 : ny + ((j + 1 : Nat) : Int) * dy = ny + dy + (j : Int) * dy := by
                push_cast; ring
              rw [e1, e2]; exact this
          · have e1 : nx + ((k + 1 : Nat) : Int) * dx = nx + dx + (k : Int) * dx := by
              push_cast; ring
            have e2 : ny + ((k + 1 : Nat) : Int) * dy = ny + dy + (k : Int) * dy := by
              push_cast; ring
            rw [e1, e2]; exact h1
          · have e1 : nx + ((k + 1 : Nat) : Int) * dx = nx + dx + (k : Int) * dx := by
              push_cast; ring
            have e2 : ny + ((k + 1 : Nat) : Int) * dy = ny + dy + (k : Int) * dy := by
              push_cast; ring
            rw [e1, e2]; exact h2
          · have e1 : nx + ((k + 1 : Nat) : Int) * dx = nx + dx + (k : Int) * dx := by
              push_cast; ring
            have e2 : ny + ((k + 1 : Nat) : Int) * dy = ny + dy + (k : Int) * dy := by
              push_cast; ring
            rw [e1, e2]; exact h3
        · rintro ⟨k, hk, hall, h1, h2, h3⟩
          cases k with
          | zero =>
            simp at h2
            exact absurd hp h2
          | succ k =>
            have e1 : nx + ((k + 1 : Nat) : Int) * dx = nx + dx + (k : Int) * dx := by
              push_cast; ring
            have e2 : ny + ((k + 1 : Nat) : Int) * dy = ny + dy + (k : Int) * dy := by
              push_cast; ring
            rw [e1, e2] at h1 h2 h3
            refine ⟨k, by omega, ?_, h1, h2, h3⟩
            intro j hj
            have := hall (j + 1) (by omega)
            have e3 : nx + ((j + 1 : Nat) : Int) * dx = nx + dx + (j : Int) * dx := by
              push_cast; ring
            have e4 : ny + ((j + 1 : Nat) : Int) * dy = ny + dy + (j : Int) * dy := by
              push_cast; ring
            rw [e3, e4] at this
            exact this
      · simp only [hp, ne_eq, not_false_eq_true, if_true]
        have hh : (if w = true then
            (decide (dx = 0 ∨ dy = 0) && decide (b.get ny nx = WROOK ∨ b.get ny nx = WQUEEN) ||
              decide (dx ≠ 0 ∧ dy ≠ 0) && decide (b.get ny nx = WBISHOP ∨ b.get ny nx = WQUEEN))
          else
            (decide (dx = 0 ∨ dy = 0) && decide (b.get ny nx = BROOK ∨ b.get ny nx = BQUEEN) ||
              decide (dx ≠ 0 ∧ dy ≠ 0) && decide (b.get ny nx = BBISHOP ∨ b.get ny nx = BQUEEN)))
          = rayHit w dx dy (b.get ny nx) := rfl
        rw [hh]
        constructor
        · intro h
          exact ⟨0, by omega, fun j hj => absurd hj (by omega), by simpa using hon,
            by simpa using hp, by simpa using h⟩
        · rintro ⟨k, hk, hall, h1, h2, h3⟩
          cases k with
          | zero => simpa using h3
          | succ k =>
            have := (hall 0 (by omega)).2
            simp at this
            exact absurd this hp
    · simp only [hon, Bool.false_eq_true, if_false]
      constructor
      · intro h; exact absurd h (by decide)
      · rintro ⟨k, hk, hall, h1, h2, h3⟩
        cases k with
        | zero => simp at h1; exact absurd h1 hon
        | succ k =>
          have := (hall 0 (by omega)).1
          simp at this
          exact absurd this hon

theorem rayHit_ne_empty (w : Bool) (dx dy : Int) (p : Nat) (h : rayHit w dx dy p = true) :
    p ≠ EMPTY := by
  intro h0
  rw [h0] at h
  cases w <;> simp [rayHit] at h

theorem mem_dirs3 (d : Int) : d ∈ dirs3 ↔ d = -1 ∨ d = 0 ∨ d = 1 := by
  simp [dirs3]

theorem ray_attack_iff (b : Board) (w : Bool) (x y dx dy : Int) (hon : onBoard x y = true)
    (hdx : dx = -1 ∨ dx = 0 ∨ dx = 1) (hdy : dy = -1 ∨ dy = 0 ∨ dy = 1)
    (hd : ¬ (dx = 0 ∧ dy = 0)) :
    attackRay b w dx dy 8 (x + dx) (y + dy) = true ↔
      ∃ n : Nat, 1 ≤ n ∧ onBoard (x + n * dx) (y + n * dy) = true ∧
        (∀ j : Nat, 1 ≤ j → j < n → b.get (y + j * dy) (x + j * dx) = EMPTY) ∧
        rayHit w dx dy (b.get (y + n * dy) (x + n * dx)) = true := by
  rw [attackRay_iff]
  have hon2 := (onBoard_iff _ _).mp hon
  constructor
  · rintro ⟨k, _, hall, h1, _, h3⟩
    have e1 : x + ((k + 1 : Nat) : Int) * dx = x + dx + (k : Int) * dx := by push_cast; ring
    have e2 : y + ((k + 1 : Nat) : Int) * dy = y + dy + (k : Int) * dy := by push_cast; ring
    refine ⟨k + 1, by omega, by rw [e1, e2]; exact h1, ?_, by rw [e1, e2]; exact h3⟩
    intro j hj1 hj2
    obtain ⟨i, rfl⟩ : ∃ i, j = i + 1 := ⟨j - 1, by omega⟩
    have := (hall i (by omega)).2
    have e3 : x + ((i + 1 : Nat) : Int) * dx = x + dx + (i : Int) * dx := by push_cast; ring
    have e4 : y + ((i + 1 : Nat) : Int) * dy = y + dy + (i : Int) * dy := by push_cast; ring
    rw [e3, e4]; exact this
  · rintro ⟨n, hn, h1, hall, h3⟩
    obtain ⟨k, rfl⟩ : ∃ k, n = k + 1 := ⟨n - 1, by omega⟩
    have e1 : x + ((k + 1 : Nat) : Int) * dx = x + dx + (k : Int) * dx := by push_cast; ring
    have e2 : y + ((k + 1 : Nat) : Int) * dy = y + dy + (k : Int) * dy := by push_cast; ring
    have h1' := (onBoard_iff _ _).mp h1
    have hk : k < 8 := by
      rcases hdx with rfl | rfl | rfl <;> rcases hdy with rfl | rfl | rfl <;>
        simp at hd h1' <;> omega
    refine ⟨k, hk, ?_, by rw [← e1, ← e2]; exact h1, ?_, by rw [← e1, ← e2]; exact h3⟩
    · intro j hj
      have e3 : x + ((j + 1 : Nat) : Int) * dx = x + dx + (j : Int) * dx := by push_cast; ring
      have e4 : y + ((j + 1 : Nat) : Int) * dy = y + dy + (j : Int) * dy := by push_cast; ring
      refine ⟨?_, by rw [← e3, ← e4]; exact hall (j + 1) (by omega) (by omega)⟩
      rw [onBoard_iff]
      rcases hdx with rfl | rfl | rfl <;> rcases hdy with rfl | rfl | rfl <;>
        simp at hd h1' ⊢ <;> omega
    · rw [← e1, ← e2]
      exact rayHit_ne_empty _ _ _ _ h3

theorem sign_mul_dir (n : Nat) (hn : 1 ≤ n) (d : Int) (hd : d = -1 ∨ d = 0 ∨ d = 1) :
    ((n : Int) * d).sign = d := by
  have hpos : (0 : Int) < n := by omega
  rcases hd with rfl | rfl | rfl
  · have : (n : Int) * -1 < 0 := by omega
    exact Int.sign_eq_neg_one_of_neg this
  · simp
  · have : 0 < (n : Int) * 1 := by omega
    exact Int.sign_eq_one_of_pos this

theorem natAbs_mul_dir (n : Nat) (d : Int) (hd : d = -1 ∨ d = 0 ∨ d = 1) :
    ((n : Int) * d).natAbs = if d = 0 then 0 else n := by
  rcases hd with rfl | rfl | rfl <;> simp

theorem geom_of_ray (x y dx dy : Int) (n : Nat) (hn : 1 ≤ n)
    (hdx : dx = -1 ∨ dx = 0 ∨ dx = 1) (hdy : dy = -1 ∨ dy = 0 ∨ dy = 1)
    (hd : ¬ (dx = 0 ∧ dy = 0)) :
    (x + n * dx - x).sign = dx ∧ (y + n * dy - y).sign = dy ∧
    max (x + n * dx - x).natAbs (y + n * dy - y).natAbs = n ∧
    ((dx = 0 ∨ dy = 0) → sameRankOrFile x y (x + n * dx) (y + n * dy)) ∧
    ((dx ≠ 0 ∧ dy ≠ 0) → sameDiagonal x y (x + n * dx) (y + n * dy)) := by
  have e1 : x + n * dx - x = n * dx := by ring
  have e2 : y + n * dy - y = n * dy := by ring
  rw [e1, e2, sign_mul_dir n hn dx hdx, sign_mul_dir n hn dy hdy, natAbs_mul_dir n dx hdx,
    natAbs_mul_dir n dy hdy]
  refine ⟨rfl, rfl, ?_, ?_, ?_⟩
  · rcases hdx with rfl | rfl | rfl <;> rcases hdy with rfl | rfl | rfl <;> simp at hd ⊢
  · unfold sameRankOrFile
    rcases hdx with rfl | rfl | rfl <;> rcases hdy with rfl | rfl | rfl <;> simp at hd ⊢ <;> omega
  · unfold sameDiagonal
    rw [e1, e2, natAbs_mul_dir n dx hdx, natAbs_mul_dir n dy hdy]
    rcases hdx with rfl | rfl | rfl <;> rcases hdy with rfl | rfl | rfl <;> simp <;> omega

theorem sign_dir (a : Int) : a.sign = -1 ∨ a.sign = 0 ∨ a.sign = 1 := by
  rcases lt_trichotomy a 0 with h | h | h
  · left; exact Int.sign_eq_neg_one_of_neg h
  · right; left; rw [h]; rfl
  · right; right; exact Int.sign_eq_one_of_pos h

theorem ray_of_geom (x y px py : Int) (h : sameRankOrFile x y px py ∨ sameDiagonal x y px py) :
    1 ≤ max (px - x).natAbs (py - y).natAbs ∧
    px = x + ((max (px - x).natAbs (py - y).natAbs : Nat) : Int) * (px - x).sign ∧
    py = y + ((max (px - x).natAbs (py - y).natAbs : Nat) : Int) * (py - y).sign ∧
    ¬ ((px - x).sign = 0 ∧ (py - y).sign = 0) ∧
    (sameRankOrFile x y px py → (px - x).sign = 0 ∨ (py - y).sign = 0) ∧
    (sameDiagonal x y px py → (px - x).sign ≠ 0 ∧ (py - y).sign ≠ 0) := by
  have hx := Int.sign_mul_natAbs (px - x)
  have hy := Int.sign_mul_natAbs (py - y)
  have sx : (px - x).sign = 0 ↔ px = x := by rw [Int.sign_eq_zero_iff_zero]; omega
  have sy : (py - y).sign = 0 ↔ py = y := by rw [Int.sign_eq_zero_iff_zero]; omega
  rcases h with (⟨h1, h2⟩ | ⟨h1, h2⟩) | ⟨h1, h2⟩
  · have e : max (px - x).natAbs (py - y).natAbs = (py - y).natAbs := by
      rw [h1]; simp
    rw [e]
    refine ⟨by omega, ?_, ?_, ?_, ?_, ?_⟩
    · rw [h1]; simp
    · rw [mul_comm]; omega
    · rw [sx, sy]; exact fun h => h2 h.2
    · intro _; left; rw [sx]; exact h1
    · rintro ⟨_, h3⟩; exact absurd h1 h3
  · have e : max (px - x).natAbs (py - y).natAbs = (px - x).natAbs := by
      rw [h1]; simp
    rw [e]
    refine ⟨by omega, ?_, ?_, ?_, ?_, ?_⟩
    · rw [mul_comm]; omega
    · rw [h1]; simp
    · rw [sx, sy]; exact fun h => h2 h.1
    · intro _; right; rw [sy]; exact h1
    · rintro ⟨h3, _⟩
      rw [h1] at h3; simp at h3; omega
  · have e : max (px - x).natAbs (py - y).natAbs = (px - x).natAbs := by
      rw [h1]; simp
    have hy2 : py ≠ y := by omega
    rw [e]
    refine ⟨by omega, ?_, ?_, ?_, ?_, ?_⟩
    · rw [mul_comm]; omega
    · rw [h1, mul_comm]; omega
    · rw [sx, sy]; exact fun h => h2 h.1
    · rintro (⟨h3, _⟩ | ⟨h3, _⟩)
      · exact absurd h3 h2
      · exact absurd h3 hy2
    · intro _; rw [Ne, Ne, sx, sy]; exact ⟨h2, hy2⟩

theorem jump_any_iff (b : Board) (x y : Int) (w : Bool) (pw pb : Nat) (offs : List (Int × Int)) :
    offs.any (fun d =>
      let nx := x + d.1
      let ny := y + d.2
      onBoard nx ny &&
        (let p := b.get ny nx
         (w && decide (p = pw)) || (!w && decide (p = pb)))) = true ↔
    ∃ px py, onBoard px py = true ∧ b.get py px = (if w then pw else pb) ∧
      (px - x, py - y) ∈ offs := by
  simp only [List.any_eq_true, Bool.and_eq_true, Bool.or_eq_true, decide_eq_true_eq,
    Bool.not_eq_true']
  constructor
  · rintro ⟨d, hd, hon, hp⟩
    refine ⟨x + d.1, y + d.2, hon, ?_, ?_⟩
    · cases w <;> simp_all
    · have e1 : x + d.1 - x = d.1 := by ring
      have e2 : y + d.2 - y = d.2 := by ring
      rw [e1, e2]; exact hd
  · rintro ⟨px, py, hon, hp, hd⟩
    refine ⟨(px - x, py - y), hd, ?_, ?_⟩
    · have e1 : x + (px - x) = px := by ring
      have e2 : y + (py - y) = py := by ring
      simp only [e1, e2]; exact hon
    · have e1 : x + (px - x) = px := by ring
      have e2 : y + (py - y) = py := by ring
      simp only [e1, e2]
      cases w <;> simp_all

theorem mem_knightJumps (x y px py : Int) :
    (px - x, py - y) ∈ knightJumps ↔ knightJump x y px py := by
  simp only [knightJumps, knightJump, List.mem_cons, List.mem_singleton, List.not_mem_nil,
    or_false, Prod.mk.injEq]
  omega

theorem mem_kingSteps (x y px py : Int) :
    (px - x, py - y) ∈ kingSteps ↔ adjacent x y px py := by
  simp only [kingSteps, adjacent, List.mem_cons, List.mem_singleton, List.not_mem_nil,
    or_false, Prod.mk.injEq]
  omega

theorem pawn_part_iff (b : Board) (x y : Int) (w : Bool) :
    (if w then
      (onBoard (x - 1) (y - 1) && decide (b.get (y - 1) (x - 1) = WPAWN)) ||
      (onBoard (x + 1) (y - 1) && decide (b.get (y - 1) (x + 1) = WPAWN))
    else
      (onBoard (x - 1) (y + 1) && decide (b.get (y + 1) (x - 1) = BPAWN)) ||
      (onBoard (x + 1) (y + 1) && decide (b.get (y + 1) (x + 1) = BPAWN))) = true ↔
    ∃ px py, onBoard px py = true ∧ b.get py px = (if w then WPAWN else BPAWN) ∧
      (px = x - 1 ∨ px = x + 1) ∧ py = (if w then y - 1 else y + 1) := by
  cases w <;>
    simp only [if_true, if_false, Bool.false_eq_true, Bool.or_eq_true, Bool.and_eq_true,
      decide_eq_true_eq] <;>
    constructor
  · rintro (⟨h1, h2⟩ | ⟨h1, h2⟩)
    · exact ⟨_, _, h1, h2, Or.inl rfl, rfl⟩
    · exact ⟨_, _, h1, h2, Or.inr rfl, rfl⟩
  · rintro ⟨px, py, h1, h2, rfl | rfl, rfl⟩
    · exact Or.inl ⟨h1, h2⟩
    · exact Or.inr ⟨h1, h2⟩
  · rintro (⟨h1, h2⟩ | ⟨h1, h2⟩)
    · exact ⟨_, _, h1, h2, Or.inl rfl, rfl⟩
    · exact ⟨_, _, h1, h2, Or.inr rfl, rfl⟩
  · rintro ⟨px, py, h1, h2, rfl | rfl, rfl⟩
    · exact Or.inl ⟨h1, h2⟩
    · exact Or.inr ⟨h1, h2⟩

theorem rayHit_iff (w : Bool) (dx dy : Int) (p : Nat) :
    rayHit w dx dy p = true ↔
      ((dx = 0 ∨ dy = 0) ∧ (p = (if w then WROOK else BROOK) ∨ p = (if w then WQUEEN else BQUEEN))) ∨
      ((dx ≠ 0 ∧ dy ≠ 0) ∧
        (p = (if w then WBISHOP else BBISHOP) ∨ p = (if w then WQUEEN else BQUEEN))) := by
  cases w <;> simp [rayHit]

theorem ray_part_iff (b : Board) (x y : Int) (w : Bool) (hon : onBoard x y = true) :
    dirs3.any (fun dx => dirs3.any (fun dy =>
      if dx = 0 ∧ dy = 0 then false else attackRay b w dx dy 8 (x + dx) (y + dy))) = true ↔
    ∃ px py, onBoard px py = true ∧
      (((b.get py px = (if w then WROOK else BROOK) ∨
          b.get py px = (if w then WQUEEN else BQUEEN)) ∧ sameRankOrFile x y px py) ∨
       ((b.get py px = (if w then WBISHOP else BBISHOP) ∨
          b.get py px = (if w then WQUEEN else BQUEEN)) ∧ sameDiagonal x y px py)) ∧
      emptyBetween b x y px py := by
  simp only [List.any_eq_true, mem_dirs3]
  constructor
  · rintro ⟨dx, hdx, dy, hdy, h⟩
    split_ifs at h with hd
    rw [ray_attack_iff b w x y dx dy hon hdx hdy hd] at h
    obtain ⟨n, hn, h1, hall, h3⟩ := h
    obtain ⟨g1, g2, g3, g4, g5⟩ := geom_of_ray x y dx dy n hn hdx hdy hd
    refine ⟨x + n * dx, y + n * dy, h1, ?_, ?_⟩
    · rcases (rayHit_iff _ _ _ _).mp h3 with ⟨hs, hp⟩ | ⟨hs, hp⟩
      · exact Or.inl ⟨hp, g4 hs⟩
      · exact Or.inr ⟨hp, g5 hs⟩
    · intro j hj0 hjn
      rw [g1, g2]
      rw [g3] at hjn
      obtain ⟨i, rfl⟩ := Int.eq_ofNat_of_zero_le (le_of_lt hj0)
      exact hall i (by omega) (by omega)
  · rintro ⟨px, py, h1, hp, he⟩
    have hg : sameRankOrFile x y px py ∨ sameDiagonal x y px py := by
      rcases hp with ⟨_, h⟩ | ⟨_, h⟩
      · exact Or.inl h
      · exact Or.inr h
    obtain ⟨g1, g2, g3, g4, g5, g6⟩ := ray_of_geom x y px py hg
    refine ⟨(px - x).sign, sign_dir _, (py - y).sign, sign_dir _, ?_⟩
    rw [if_neg g4, ray_attack_iff b w x y _ _ hon (sign_dir _) (sign_dir _) g4]
    refine ⟨max (px - x).natAbs (py - y).natAbs, g1, ?_, ?_, ?_⟩
    · rw [← g2, ← g3]; exact h1
    · intro j hj1 hj2
      exact he j (by omega) (by omega)
    · rw [← g2, ← g3, rayHit_iff]
      rcases hp with ⟨hp, h⟩ | ⟨hp, h⟩
      · exact Or.inl ⟨g5 h, hp⟩
      · exact Or.inr ⟨g6 h, hp⟩

/-- C7. For every board and every on-board square `(x, y)`, `isAttacked(x, y, byWhite)` is
true exactly when some piece of the given colour attacks the square: a pawn on
`(x ± 1, y - 1)` for White or `(x ± 1, y + 1)` for Black, a knight a knight-jump away, a
king on an adjacent square, a rook or queen on the same rank or file with only empty squares
in between, or a bishop or queen on the same diagonal with only empty squares in between. -/
theorem isAttacked_iff_attackedBy (b : Board) (x y : Int) (byWhite : Bool)
    (hon : onBoard x y = true) :
    isAttacked b x y byWhite = true ↔ AttackedBy b x y byWhite := by
  unfold isAttacked AttackedBy
  rw [Bool.or_eq_true, Bool.or_eq_true, Bool.or_eq_true, pawn_part_iff, jump_any_iff,
    jump_any_iff, ray_part_iff b x y byWhite hon]
  simp only [mem_knightJumps, mem_kingSteps]
  constructor
  · rintro (((⟨px, py, h1, h2⟩ | ⟨px, py, h1, h2⟩) | ⟨px, py, h1, h2⟩) | ⟨px, py, h1, h2, h3⟩)
    · exact ⟨px, py, h1, Or.inl h2⟩
    · exact ⟨px, py, h1, Or.inr (Or.inl h2)⟩
    · exact ⟨px, py, h1, Or.inr (Or.inr (Or.inl h2))⟩
    · rcases h2 with ⟨hp, hg⟩ | ⟨hp, hg⟩
      · exact ⟨px, py, h1, Or.inr (Or.inr (Or.inr (Or.inl ⟨hp, hg, h3⟩)))⟩
      · exact ⟨px, py, h1, Or.inr (Or.inr (Or.inr (Or.inr ⟨hp, hg, h3⟩)))⟩
  · rintro ⟨px, py, h1, h | h | h | ⟨hp, hg, h3⟩ | ⟨hp, hg, h3⟩⟩
    · exact Or.inl (Or.inl (Or.inl ⟨px, py, h1, h⟩))
    · exact Or.inl (Or.inl (Or.inr ⟨px, py, h1, h⟩))
    · exact Or.inl (Or.inr ⟨px, py, h1, h⟩)
    · exact Or.inr ⟨px, py, h1, Or.inl ⟨hp, hg⟩, h3⟩
    · exact Or.inr ⟨px, py, h1, Or.inr ⟨hp, hg⟩, h3⟩

theorem isAttacked_iff_attackedBy_witness :
    onBoard 5 2 = true ∧
      (isAttacked newEngine.b 5 2 true = true ↔ AttackedBy newEngine.b 5 2 true) :=
  ⟨by decide, isAttacked_iff_attackedBy newEngine.b 5 2 true (by decide)⟩

/-! ## Castling (C8) -/

theorem jumpMoves_origin (s : Engine) (c : Bool) (x y : Int) (offs : List (Int × Int))
    (m : Move) (hm : m ∈ jumpMoves s c x y offs) :
    m.from_x = x ∧ m.from_y = y ∧ m.is_castle = false ∧ m.is_enpassant = false ∧
      m.promotion = 0 := by
  unfold jumpMoves at hm
  simp only [List.mem_flatMap] at hm
  obtain ⟨d, _, hm⟩ := hm
  split_ifs at hm <;> simp only [List.mem_singleton, List.not_mem_nil] at hm <;> subst hm <;>
    exact ⟨rfl, rfl, rfl, rfl, rfl⟩

theorem slideRay_origin (s : Engine) (c : Bool) (x y dx dy : Int) (m : Move) :
    ∀ (fuel : Nat) (nx ny : Int), m ∈ slideRay s c x y dx dy fuel nx ny →
      m.from_x = x ∧ m.from_y = y ∧ m.is_castle = false ∧ m.is_enpassant = false ∧
        m.promotion = 0 := by
  intro fuel
  induction fuel with
  | zero => intro nx ny hm; simp [slideRay] at hm
  | succ n ih =>
    intro nx ny hm
    unfold slideRay at hm
    by_cases h1 : onBoard nx ny = true
    · simp only [h1, if_true] at hm
      by_cases h2 : s.b.get ny nx = EMPTY
      · simp only [h2, if_true, List.mem_append] at hm
        rcases hm with hm | hm
        · split_ifs at hm
          · simp only [List.mem_singleton] at hm
            subst hm
            exact ⟨rfl, rfl, rfl, rfl, rfl⟩
          · simp at hm
        · exact ih _ _ hm
      · simp only [h2, if_false] at hm
        split_ifs at hm with h4
        · simp only [List.mem_singleton] at hm
          subst hm
          exact ⟨rfl, rfl, rfl, rfl, rfl⟩
        · simp at hm
    · simp [h1] at hm

theorem sliderMoves_origin (s : Engine) (c : Bool) (x y : Int) (p : Nat) (m : Move)
    (hm : m ∈ sliderMoves s c x y p) :
    m.from_x = x ∧ m.from_y = y ∧ m.is_castle = false ∧ m.is_enpassant = false ∧
      m.promotion = 0 := by
  unfold sliderMoves at hm
  simp only [List.mem_flatMap] at hm
  obtain ⟨d, _, hm⟩ := hm
  exact slideRay_origin s c x y d.1 d.2 m 8 _ _ hm

theorem pawnMoves_origin (s : Engine) (c : Bool) (x y : Int) (m : Move)
    (hm : m ∈ pawnMoves s c x y) : m.from_x = x ∧ m.from_y = y ∧ m.is_castle = false := by
  unfold pawnMoves at hm
  simp only [List.mem_append, List.mem_flatMap, List.mem_cons, List.mem_singleton,
    List.not_mem_nil, or_false] at hm
  rcases hm with (hm | ⟨a, _, hm⟩) | hm
  all_goals split_ifs at hm
  all_goals simp only [List.mem_cons, List.mem_singleton, List.not_mem_nil, or_false] at hm
  all_goals rcases hm with rfl | rfl | rfl | rfl <;> exact ⟨rfl, rfl, rfl⟩

theorem castleMoves_origin (s : Engine) (c : Bool) (x y : Int) (m : Move)
    (hm : m ∈ castleMoves s c x y) : m.from_x = x ∧ m.from_y = y := by
  rw [mem_castleMoves] at hm
  obtain ⟨_, rfl, _, _, h⟩ := hm
  rcases h with ⟨_, _, _, _, _, rfl⟩ | ⟨_, _, _, _, _, _, rfl⟩ <;> exact ⟨rfl, rfl⟩

theorem pieceMoves_origin (s : Engine) (c : Bool) (x y : Int) (m : Move)
    (hm : m ∈ pieceMoves s c x y) : m.from_x = x ∧ m.from_y = y := by
  unfold pieceMoves at hm
  simp only at hm
  split_ifs at hm
  · simp at hm
  · simp at hm
  · simp at hm
  · exact ⟨(pawnMoves_origin s c x y m hm).1, (pawnMoves_origin s c x y m hm).2.1⟩
  · exact ⟨(jumpMoves_origin s c x y _ m hm).1, (jumpMoves_origin s c x y _ m hm).2.1⟩
  · exact ⟨(sliderMoves_origin s c x y _ m hm).1, (sliderMoves_origin s c x y _ m hm).2.1⟩
  · rw [List.mem_append] at hm
    rcases hm with hm | hm
    · exact ⟨(jumpMoves_origin s c x y _ m hm).1, (jumpMoves_origin s c x y _ m hm).2.1⟩
    · exact castleMoves_origin s c x y m hm
  · simp at hm

theorem pieceMoves_castle (s : Engine) (c : Bool) (x y : Int) (m : Move)
    (hm : m ∈ pieceMoves s c x y) (hc : m.is_castle = true) : m ∈ castleMoves s c x y := by
  unfold pieceMoves at hm
  simp only at hm
  split_ifs at hm
  · simp at hm
  · simp at hm
  · simp at hm
  · rw [(pawnMoves_origin s c x y m hm).2.2] at hc; exact absurd hc (by decide)
  · rw [(jumpMoves_origin s c x y _ m hm).2.2.1] at hc; exact absurd hc (by decide)
  · rw [(sliderMoves_origin s c x y _ m hm).2.2.1] at hc; exact absurd hc (by decide)
  · rw [List.mem_append] at hm
    rcases hm with hm | hm
    · rw [(jumpMoves_origin s c x y _ m hm).2.2.1] at hc; exact absurd hc (by decide)
    · exact hm
  · simp at hm

theorem pieceMoves_king (s : Engine) (c : Bool) (x y : Int)
    (hp : s.b.get y x = (if s.white_to_move then WKING else BKING)) :
    pieceMoves s c x y = jumpMoves s c x y kingSteps ++ castleMoves s c x y := by
  unfold pieceMoves
  cases hw : s.white_to_move <;> rw [hw] at hp <;>
    simp only [if_true, if_false, Bool.false_eq_true] at hp <;>
    simp [hp, isWhitePiece, isBlackPiece, EMPTY, WPAWN, WKNIGHT, WBISHOP, WROOK, WQUEEN, WKING,
      BPAWN, BKNIGHT, BBISHOP, BROOK, BQUEEN, BKING]

theorem pieceMoves_pawn (s : Engine) (c : Bool) (x y : Int)
    (hp : s.b.get y x = (if s.white_to_move then WPAWN else BPAWN)) :
    pieceMoves s c x y = pawnMoves s c x y := by
  unfold pieceMoves
  cases hw : s.white_to_move <;> rw [hw] at hp <;>
    simp only [if_true, if_false, Bool.false_eq_true] at hp <;>
    simp [hp, isWhitePiece, isBlackPiece, EMPTY, WPAWN, WKNIGHT, WBISHOP, WROOK, WQUEEN, WKING,
      BPAWN, BKNIGHT, BBISHOP, BROOK, BQUEEN, BKING]

theorem onBoard_home (WT : Bool) : onBoard 4 (homeRank WT) = true := by
  cases WT <;> decide

theorem castle_side_iff (s : Engine) (tx : Int) :
    add 4 (homeRank s.white_to_move) tx (homeRank s.white_to_move) false 0 false true false 0 ∈
        generatePseudo s false ↔
      s.b.get (homeRank s.white_to_move) 4 = (if s.white_to_move then WKING else BKING) ∧
      add 4 (homeRank s.white_to_move) tx (homeRank s.white_to_move) false 0 false true false 0 ∈
        castleMoves s false 4 (homeRank s.white_to_move) := by
  rw [mem_generatePseudo]
  constructor
  · rintro ⟨x, y, hon, hm⟩
    obtain ⟨hx, hy⟩ := pieceMoves_origin s false x y _ hm
    have hx4 : x = 4 := hx.symm
    have hyr : y = homeRank s.white_to_move := hy.symm
    subst hx4
    subst hyr
    have hk := (piece_ok s false _ _ _ hon hm).castle rfl
    exact ⟨hk.1, pieceMoves_castle s false _ _ _ hm rfl⟩
  · rintro ⟨hk, hm⟩
    refine ⟨4, homeRank s.white_to_move, onBoard_home _, ?_⟩
    rw [pieceMoves_king s false _ _ hk]
    exact List.mem_append_right _ hm

theorem add_to_x_ne (fy ty fy2 ty2 : Int) (a b : Int) (h : a ≠ b) :
    add 4 fy a ty false 0 false true false 0 ≠ add 4 fy2 b ty2 false 0 false true false 0 := by
  intro he
  exact h (congrArg Move.to_x he)

theorem inCheck_eq_attacked (b : Board) (side : Bool) (kx ky : Int)
    (hu : AtMostOne b (if side then WKING else BKING)) (hon : onBoard kx ky = true)
    (hk : b.get ky kx = (if side then WKING else BKING)) :
    inCheck b side = isAttacked b kx ky (!side) := by
  rw [Bool.eq_iff_iff, inCheck_iff b side hu]
  constructor
  · rintro ⟨x, y, h1, h2, h3⟩
    obtain ⟨rfl, rfl⟩ := hu x y kx ky h1 hon h2 hk
    exact h3
  · intro h
    exact ⟨kx, ky, hon, hk, h⟩

/-- C8. In `generatePseudo(false)` the king-side (resp. queen-side) castling move of the side
to move, from the e-file to the g-file (resp. c-file) of its home rank, is present exactly
when that side's king stands on e1/e8, the castling-right bit of that side and wing is set,
f and g (resp. d, c and b) of the home rank are empty, `inCheck` is false for the side to
move, and neither f nor g (resp. neither d nor c) is attacked by the opponent; and every
generated move with the castle flag is one of these two. -/
theorem castling_generated_iff (s : Engine) :
    (castleKingSide s.white_to_move ∈ generatePseudo s false ↔
      s.b.get (homeRank s.white_to_move) 4 = (if s.white_to_move then WKING else BKING) ∧
      s.castling &&& (if s.white_to_move then 8 else 2) ≠ 0 ∧
      s.b.get (homeRank s.white_to_move) 5 = EMPTY ∧
      s.b.get (homeRank s.white_to_move) 6 = EMPTY ∧
      inCheck s.b s.white_to_move = false ∧
      isAttacked s.b 5 (homeRank s.white_to_move) (!s.white_to_move) = false ∧
      isAttacked s.b 6 (homeRank s.white_to_move) (!s.white_to_move) = false) ∧
    (castleQueenSide s.white_to_move ∈ generatePseudo s false ↔
      s.b.get (homeRank s.white_to_move) 4 = (if s.white_to_move then WKING else BKING) ∧
      s.castling &&& (if s.white_to_move then 4 else 1) ≠ 0 ∧
      s.b.get (homeRank s.white_to_move) 1 = EMPTY ∧
      s.b.get (homeRank s.white_to_move) 2 = EMPTY ∧
      s.b.get (homeRank s.white_to_move) 3 = EMPTY ∧
      inCheck s.b s.white_to_move = false ∧
      isAttacked s.b 3 (homeRank s.white_to_move) (!s.white_to_move) = false ∧
      isAttacked s.b 2 (homeRank s.white_to_move) (!s.white_to_move) = false) ∧
    (∀ (c : Bool) (m : Move), m ∈ generatePseudo s c → m.is_castle = true →
      m = castleKingSide s.white_to_move ∨ m = castleQueenSide s.white_to_move) := by
  refine ⟨?_, ?_, ?_⟩
  · unfold castleKingSide
    rw [castle_side_iff, mem_castleMoves]
    constructor
    · rintro ⟨hk, _, _, hc, _, h⟩
      rcases h with ⟨h1, h2, h3, h4, h5, _⟩ | ⟨_, _, _, _, _, _, h7⟩
      · exact ⟨hk, h1, h2, h3, hc, h4, h5⟩
      · exact absurd h7 (add_to_x_ne _ _ _ _ 6 2 (by decide))
    · rintro ⟨hk, h1, h2, h3, hc, h4, h5⟩
      exact ⟨hk, rfl, rfl, hc, rfl, Or.inl ⟨h1, h2, h3, h4, h5, rfl⟩⟩
  · unfold castleQueenSide
    rw [castle_side_iff, mem_castleMoves]
    constructor
    · rintro ⟨hk, _, _, hc, _, h⟩
      rcases h with ⟨_, _, _, _, _, h7⟩ | ⟨h1, h2, h3, h4, h5, h6, _⟩
      · exact absurd h7 (add_to_x_ne _ _ _ _ 2 6 (by decide))
      · exact ⟨hk, h1, h4, h3, h2, hc, h5, h6⟩
    · rintro ⟨hk, h1, h2, h3, h4, hc, h5, h6⟩
      exact ⟨hk, rfl, rfl, hc, rfl, Or.inr ⟨h1, h4, h3, h2, h5, h6, rfl⟩⟩
  · intro c m hm hc
    rw [mem_generatePseudo] at hm
    obtain ⟨x, y, _, hm⟩ := hm
    have h := pieceMoves_castle s c x y m hm hc
    rw [mem_castleMoves] at h
    obtain ⟨hy, _, _, _, h⟩ := h
    unfold castleKingSide castleQueenSide homeRank
    rw [← hy]
    rcases h with ⟨_, _, _, _, _, h7⟩ | ⟨_, _, _, _, _, _, h7⟩
    · exact Or.inl h7
    · exact Or.inr h7

/-! ## Promotions (C9) -/

theorem filter_flatMap_nil {α β : Type} (l : List α) (f : α → List β) (P : β → Bool)
    (h : ∀ b ∈ l, (f b).filter P = []) : (l.flatMap f).filter P = [] := by
  induction l with
  | nil => rfl
  | cons b l ih =>
    rw [List.flatMap_cons, List.filter_append, h b (List.mem_cons_self _ _),
      ih (fun c hc => h c (List.mem_cons_of_mem _ hc))]
    rfl

theorem filter_flatMap_single {α β : Type} (l : List α) (f : α → List β) (P : β → Bool)
    (a : α) (hnd : l.Nodup) (ha : a ∈ l) (h : ∀ b ∈ l, b ≠ a → (f b).filter P = []) :
    (l.flatMap f).filter P = (f a).filter P := by
  induction l with
  | nil => exact absurd ha (List.not_mem_nil _)
  | cons b l ih =>
    rw [List.flatMap_cons, List.filter_append]
    rw [List.nodup_cons] at hnd
    by_cases hba : b = a
    · subst hba
      rw [filter_flatMap_nil l f P (fun c hc => h c (List.mem_cons_of_mem _ hc)
        (fun hcb => hnd.1 (hcb ▸ hc))), List.append_nil]
    · have ha2 : a ∈ l := by
        rcases List.mem_cons.mp ha with h1 | h1
        · exact absurd h1.symm hba
        · exact h1
      rw [h b (List.mem_cons_self _ _) hba, List.nil_append,
        ih hnd.2 ha2 (fun c hc => h c (List.mem_cons_of_mem _ hc))]

theorem squares_nodup : squares.Nodup := by decide

theorem filter_generatePseudo (s : Engine) (c : Bool) (x y tx ty : Int)
    (hon : onBoard x y = true) :
    (generatePseudo s c).filter (fromTo x y tx ty) =
      (pieceMoves s c x y).filter (fromTo x y tx ty) := by
  unfold generatePseudo
  rw [filter_flatMap_single squares _ _ (y, x) squares_nodup ((mem_squares (y, x)).mpr hon)]
  intro yx _ hne
  rw [List.filter_eq_nil_iff]
  intro m hm
  obtain ⟨h1, h2⟩ := pieceMoves_origin s c _ _ m hm
  unfold fromTo
  rw [decide_eq_true_eq]
  rintro ⟨h3, h4, _⟩
  apply hne
  exact Prod.ext (h2.symm.trans h4) (h1.symm.trans h3)

theorem filter_promos_keep (WT : Bool) (x y tx ty : Int) (cap : Bool) (t : Nat) :
    (promotionMoves WT x y tx ty cap t).filter (fromTo x y tx ty) =
      promotionMoves WT x y tx ty cap t := by
  simp [promotionMoves, fromTo, add]

theorem filter_promos_drop (WT : Bool) (x y tx ty tx2 ty2 : Int) (cap : Bool) (t : Nat)
    (h : tx2 ≠ tx) :
    (promotionMoves WT x y tx2 ty2 cap t).filter (fromTo x y tx ty) = [] := by
  simp [promotionMoves, fromTo, add, h]

theorem ite_not_nil {α : Type} (c i : Bool) (L : List α) :
    (if (!c) = true then [] else if i = true then L else []) =
      if (c && i) = true then L else [] := by
  cases c <;> cases i <;> rfl

theorem pawnMoves_promo (s : Engine) (x y : Int)
    (hy : y = (if s.white_to_move then 6 else 1)) :
    pawnMoves s false x y =
      (if onBoard x (y + (if s.white_to_move then 1 else -1)) &&
          decide (s.b.get (y + (if s.white_to_move then 1 else -1)) x = EMPTY) then
        promotionMoves s.white_to_move x y x (y + (if s.white_to_move then 1 else -1)) false 0
       else []) ++
      ((if onBoard (x + -1) (y + (if s.white_to_move then 1 else -1)) &&
          isOpp s.white_to_move (s.b.get (y + (if s.white_to_move then 1 else -1)) (x + -1)) then
        promotionMoves s.white_to_move x y (x + -1) (y + (if s.white_to_move then 1 else -1))
          true (s.b.get (y + (if s.white_to_move then 1 else -1)) (x + -1))
       else []) ++
      (if onBoard (x + 1) (y + (if s.white_to_move then 1 else -1)) &&
          isOpp s.white_to_move (s.b.get (y + (if s.white_to_move then 1 else -1)) (x + 1)) then
        promotionMoves s.white_to_move x y (x + 1) (y + (if s.white_to_move then 1 else -1))
          true (s.b.get (y + (if s.white_to_move then 1 else -1)) (x + 1))
       else [])) := by
  unfold pawnMoves promotionMoves
  cases hw : s.white_to_move <;> rw [hw] at hy <;>
    simp only [if_true, if_false, Bool.false_eq_true] at hy <;> subst hy <;>
    simp only [if_true, if_false, Bool.false_eq_true, Bool.not_false, Bool.and_true,
      List.flatMap_cons, List.flatMap_nil, List.append_nil]
  all_goals
    have h64 : ¬ ((6 : Int) = 4) := by decide
    have h13 : ¬ ((1 : Int) = 3) := by decide
    simp only [ite_not_nil, h64, h13, and_false, if_false, ite_self, List.append_nil,
      List.append_assoc]

theorem filter_ite_drop (WT : Bool) (x y tx ty tx2 ty2 : Int) (c cap : Bool) (t : Nat)
    (h : tx2 ≠ tx) :
    (if c = true then promotionMoves WT x y tx2 ty2 cap t else []).filter (fromTo x y tx ty) =
      [] := by
  split_ifs
  · exact filter_promos_drop WT x y tx ty tx2 ty2 cap t h
  · rfl

theorem filter_ite_keep (WT : Bool) (x y tx ty : Int) (c cap : Bool) (t : Nat)
    (h : c = true) :
    (if c = true then promotionMoves WT x y tx ty cap t else []).filter (fromTo x y tx ty) =
      promotionMoves WT x y tx ty cap t := by
  rw [if_pos h]
  exact filter_promos_keep WT x y tx ty cap t

theorem isOpp_ne_empty (WT : Bool) (t : Nat) (h : isOpp WT t = true) : t ≠ EMPTY := by
  intro h0
  subst h0
  cases WT <;> simp [isOpp, EMPTY, WPAWN, BPAWN] at h

/-- C9. For a pawn of the side to move on `(x, y)` and a destination `(tx, ty)` on the final
rank that it reaches by a push onto an empty square or by a diagonal capture of an enemy
piece, the moves of `generatePseudo(false)` from `(x, y)` to `(tx, ty)` are exactly four, with
promotion queen, rook, bishop and knight of the mover's colour in that order (so none of
them is without promotion); and every generated move with a non-zero promotion is a move of
a pawn of the side to move that arrives on the final rank. -/
theorem promotions_generated (s : Engine) (x y tx ty : Int)
    (hon : onBoard x y = true) (hto : onBoard tx ty = true)
    (hp : s.b.get y x = (if s.white_to_move then WPAWN else BPAWN))
    (hfinal : ty = (if s.white_to_move then 7 else 0))
    (hfwd : ty = y + (if s.white_to_move then 1 else -1))
    (hreach : (tx = x ∧ s.b.get ty tx = EMPTY) ∨
      ((tx - x).natAbs = 1 ∧ isOpp s.white_to_move (s.b.get ty tx) = true)) :
    (generatePseudo s false).filter (fromTo x y tx ty) =
        promotionMoves s.white_to_move x y tx ty (decide (tx ≠ x)) (s.b.get ty tx) ∧
      ∀ (c : Bool) (m : Move), m ∈ generatePseudo s c → m.promotion ≠ 0 →
        s.b.get m.from_y m.from_x = (if s.white_to_move then WPAWN else BPAWN) ∧
        m.to_y = (if s.white_to_move then 7 else 0) := by
  refine ⟨?_, fun c m hm hpr => ?_⟩
  · have hy : y = (if s.white_to_move then 6 else 1) := by
      cases hw : s.white_to_move <;> rw [hw] at hfinal hfwd <;>
        simp only [if_true, if_false, Bool.false_eq_true] at hfinal hfwd ⊢ <;> omega
    rw [filter_generatePseudo s false x y tx ty hon, pieceMoves_pawn s false x y hp,
      pawnMoves_promo s x y hy, ← hfwd, List.filter_append, List.filter_append]
    rcases hreach with ⟨hx, he⟩ | ⟨hx, ho⟩
    · subst hx
      rw [filter_ite_drop _ _ _ _ _ (tx + -1) _ _ _ _ (by omega),
        filter_ite_drop _ _ _ _ _ (tx + 1) _ _ _ _ (by omega),
        filter_ite_keep _ _ _ _ _ _ _ _ (by rw [hto, he]; rfl), he]
      simp [EMPTY]
    · have hne : tx ≠ x := by
        intro h; rw [h] at hx; simp at hx
      have hd : decide (tx ≠ x) = true := decide_eq_true hne
      rw [filter_ite_drop _ _ _ _ _ x _ _ _ _ (fun h => hne h.symm), hd]
      have hcases : tx = x + -1 ∨ tx = x + 1 := by omega
      rcases hcases with rfl | rfl
      · rw [filter_ite_drop _ _ _ _ _ (x + 1) _ _ _ _ (by omega),
          filter_ite_keep _ _ _ _ _ _ _ _ (by rw [hto, ho]; rfl)]
        rfl
      · rw [filter_ite_drop _ _ _ _ _ (x + -1) _ _ _ _ (by omega),
          filter_ite_keep _ _ _ _ _ _ _ _ (by rw [hto, ho]; rfl)]
        rfl
  · have h := (pseudo_ok s c m hm).promo hpr
    exact ⟨h.1, h.2.2.2.2.2.1⟩

set_option maxRecDepth 100000 in
theorem promotions_generated_witness :
    (generatePseudo fenPromo false).filter (fromTo 0 6 0 7) =
        promotionMoves true 0 6 0 7 false 0 ∧
      ∀ (c : Bool) (m : Move), m ∈ generatePseudo fenPromo c → m.promotion ≠ 0 →
        fenPromo.b.get m.from_y m.from_x = (if fenPromo.white_to_move then WPAWN else BPAWN) ∧
        m.to_y = (if fenPromo.white_to_move then 7 else 0) :=
  promotions_generated fenPromo 0 6 0 7 (by decide) (by decide) (by decide!) (by decide!)
    (by decide!) (Or.inl ⟨rfl, by decide!⟩)

/-! ## En passant (C10) -/

theorem mem_pawnMoves_ep (s : Engine) (c : Bool) (x y : Int)
    (he : 1 ≤ s.ep_file ∧ s.ep_file ≤ 8)
    (hx : (s.ep_file - 1 - x).natAbs = 1)
    (hy : y = (if s.white_to_move then 4 else 3))
    (hcap : s.b.get y (s.ep_file - 1) = (if s.white_to_move then BPAWN else WPAWN)) :
    add x y (s.ep_file - 1) (y + (if s.white_to_move then 1 else -1)) true
        (if s.white_to_move then BPAWN else WPAWN) true false false 0 ∈ pawnMoves s c x y := by
  unfold pawnMoves
  simp only [List.mem_append]
  right
  cases hw : s.white_to_move <;> rw [hw] at hy hcap <;>
    simp only [if_true, if_false, Bool.false_eq_true] at hy hcap ⊢ <;> subst hy <;>
    rw [if_pos he, if_pos ⟨by decide, hx, rfl⟩, if_pos hcap, hcap] <;>
    exact List.mem_singleton.mpr rfl

/-- C10. `generatePseudo` contains an en-passant capture from `(x, y)` to `(ex, ey)` exactly
when `ep_file` is in 1..8, `ex = ep_file - 1` is a file adjacent to `x`, a pawn of the side to
move stands on `(x, y)` with `y` the rank index 4 (White) or 3 (Black), `ey` is the next rank
forward, and an enemy pawn stands on `(ex, y)`; every generated en-passant move is flagged
capture, with the enemy pawn recorded as captured piece. -/
theorem enpassant_generated_iff (s : Engine) (c : Bool) (x y ex ey : Int) :
    ((∃ m ∈ generatePseudo s c, m.is_enpassant = true ∧
        m.from_x = x ∧ m.from_y = y ∧ m.to_x = ex ∧ m.to_y = ey) ↔
      onBoard x y = true ∧ 1 ≤ s.ep_file ∧ s.ep_file ≤ 8 ∧ ex = s.ep_file - 1 ∧
      (ex - x).natAbs = 1 ∧
      s.b.get y x = (if s.white_to_move then WPAWN else BPAWN) ∧
      y = (if s.white_to_move then 4 else 3) ∧
      ey = y + (if s.white_to_move then 1 else -1) ∧
      s.b.get y ex = (if s.white_to_move then BPAWN else WPAWN)) ∧
    (∀ m ∈ generatePseudo s c, m.is_enpassant = true →
      m.is_capture = true ∧
      m.captured_piece = (if s.white_to_move then BPAWN else WPAWN)) := by
  refine ⟨⟨?_, ?_⟩, fun m hm hep => ?_⟩
  · rintro ⟨m, hm, hep, rfl, rfl, rfl, rfl⟩
    have hok := pseudo_ok s c m hm
    obtain ⟨h1, h2, h3, h4, h5, h6, h7, h8, _⟩ := hok.ep hep
    refine ⟨hok.from_on, h2, h3, h4, h7, h1, h6, ?_, h8⟩
    rw [h5, h6]
    cases s.white_to_move <;> rfl
  · rintro ⟨hon, h1, h2, rfl, hx, hp, hy, rfl, hcap⟩
    refine ⟨add x y (s.ep_file - 1) (y + (if s.white_to_move then 1 else -1)) true
      (if s.white_to_move then BPAWN else WPAWN) true false false 0,
      (mem_generatePseudo s c _).mpr ⟨x, y, hon, ?_⟩, ?_⟩
    · rw [pieceMoves_pawn s c x y hp]
      exact mem_pawnMoves_ep s c x y ⟨h1, h2⟩ hx hy hcap
    · exact ⟨rfl, rfl, rfl, rfl, rfl⟩
  · obtain ⟨_, _, _, _, _, _, _, _, _, _, _, h12, h13⟩ := (pseudo_ok s c m hm).ep hep
    exact ⟨h12, h13⟩

/-! ## Move counts from the start position (C5) -/

theorem setStartPos_eq (e : Engine) : setStartPos e = withUndoBelow e.undo newEngine := by
  have h : computeHash
      { e with b := startBoard, white_to_move := true, castling := 15, ep_file := 0,
               halfmove := 0, fullmove := 1, uci_history := [] } =
    computeHash
      { ({} : Engine) with b := startBoard, white_to_move := true, castling := 15,
                           ep_file := 0, halfmove := 0, fullmove := 1, uci_history := [] } :=
    computeHash_congr _ _ rfl rfl rfl rfl
  unfold newEngine withUndoBelow setStartPos
  simp only [h, List.append_nil]

theorem generatePseudo_below (pre : List Undo) (s : Engine) (c : Bool) :
    generatePseudo (withUndoBelow pre s) c = generatePseudo s c := by
  obtain ⟨b, wtm, castling, ep_file, hmv, fmv, hash, hist, undo⟩ := s
  rfl

theorem makeBoard_below (pre : List Undo) (s : Engine) (m : Move) :
    makeBoard (withUndoBelow pre s) m = makeBoard s m := by
  obtain ⟨b, wtm, castling, ep_file, hmv, fmv, hash, hist, undo⟩ := s
  rfl

theorem makeMove_below (pre : List Undo) (s : Engine) (m : Move) :
    makeMove (withUndoBelow pre s) m = withUndoBelow pre (makeMove s m) := by
  obtain ⟨b, wtm, castling, ep_file, hmv, fmv, hash, hist, undo⟩ := s
  simp only [makeMove, withUndoBelow, Engine.mk.injEq, List.append_assoc, true_and, and_true]
  exact ⟨rfl, computeHash_congr _ _ rfl rfl rfl rfl⟩

theorem consistent_below (pre : List Undo) (s : Engine) (hc : Consistent s) :
    Consistent (withUndoBelow pre s) := hc

theorem perft_fold (d : Nat) (s : Engine) (hc : Consistent s)
    (ih : ∀ t, Consistent t → (perft d t).2 = t) :
    ∀ (l : List Move), (∀ m ∈ l, PseudoOK s m) → ∀ n : Nat,
      l.foldl (fun acc m =>
          let r := perft d (makeMove acc.2 m)
          (acc.1 + r.1, undoMove r.2 m)) (n, s) =
        (n + (l.map (fun m => (perft d (makeMove s m)).1)).sum, s) := by
  intro l
  induction l with
  | nil => intro _ n; simp
  | cons a rest ihl =>
    intro h n
    have ha := h a (List.mem_cons_self _ _)
    rw [List.foldl_cons]
    simp only
    rw [ih _ (consistent_make s a hc ha), roundtrip s a hc ha,
      ihl (fun m hm => h m (List.mem_cons_of_mem _ hm)), List.map_cons, List.sum_cons,
      Nat.add_assoc]

theorem perft_spec : ∀ (d : Nat) (s : Engine), Consistent s →
    (perft d s).2 = s ∧
    (perft (d + 1) s).1 =
      ((generateLegal s).1.map (fun m => (perft d (makeMove s m)).1)).sum := by
  intro d
  induction d with
  | zero =>
    intro s hc
    refine ⟨rfl, ?_⟩
    have hl : ∀ m ∈ (generateLegal s).1, PseudoOK s m :=
      fun m hm => pseudo_ok s false m (legal_pseudo s m hm)
    have h2 : (generateLegal s).2 = s := by rw [generateLegal_eq s hc]
    unfold perft
    simp only
    rw [h2, perft_fold 0 s hc (fun t _ => rfl) _ hl 0, Nat.zero_add]
    rfl
  | succ d ih =>
    intro s hc
    have hl : ∀ m ∈ (generateLegal s).1, PseudoOK s m :=
      fun m hm => pseudo_ok s false m (legal_pseudo s m hm)
    have h2 : (generateLegal s).2 = s := by rw [generateLegal_eq s hc]
    have ihs : ∀ t, Consistent t → (perft (d + 1) t).2 = t := by
      intro t ht
      have hlt : ∀ m ∈ (generateLegal t).1, PseudoOK t m :=
        fun m hm => pseudo_ok t false m (legal_pseudo t m hm)
      have h2t : (generateLegal t).2 = t := by rw [generateLegal_eq t ht]
      rw [perft]
      simp only
      rw [h2t, perft_fold d t ht (fun u hu => (ih u hu).1) _ hlt 0]
    refine ⟨ihs s hc, ?_⟩
    rw [perft]
    simp only
    rw [h2, perft_fold (d + 1) s hc ihs _ hl 0, Nat.zero_add]

theorem perft_below (pre : List Undo) : ∀ (d : Nat) (s : Engine), Consistent s →
    (perft d (withUndoBelow pre s)).1 = (perft d s).1 := by
  intro d
  induction d with
  | zero => intro s _; rfl
  | succ d ih =>
    intro s hc
    rw [(perft_spec d _ (consistent_below pre s hc)).2, (perft_spec d s hc).2,
      generateLegal_eq _ (consistent_below pre s hc), generateLegal_eq s hc,
      generatePseudo_below]
    simp only [makeBoard_below]
    have hw : (withUndoBelow pre s).white_to_move = s.white_to_move := rfl
    rw [hw]
    apply congrArg
    apply List.map_congr_left
    intro m hm
    have hp : PseudoOK s m := pseudo_ok s false m (List.mem_of_mem_filter hm)
    rw [makeMove_below, ih _ (consistent_make s m hc hp)]

set_option maxRecDepth 100000 in
theorem perft_newEngine : (perft 1 newEngine).1 = 20 ∧ (perft 2 newEngine).1 = 400 := by
  decide!

/-- C5. Counting the leaves of the exhaustive `generateLegal` / `makeMove` recursion from the
position set by `setStartPos`, whatever the engine held before the call, gives 20 at depth 1
and 400 at depth 2. -/
theorem perft_start_depth_1_2 (e : Engine) :
    (perft 1 (setStartPos e)).1 = 20 ∧ (perft 2 (setStartPos e)).1 = 400 := by
  have hc : Consistent newEngine := consistent_start _
  rw [setStartPos_eq, perft_below _ 1 _ hc, perft_below _ 2 _ hc]
  exact perft_newEngine

/-! ## The board after makeMove (C11) -/

theorem castle_rook_home (s : Engine) (m : Move) (hc : Consistent s) (hm : PseudoOK s m)
    (hcas : m.is_castle = true) :
    (m.to_x = 6 → s.b.get m.from_y 7 = (if s.white_to_move then WROOK else BROOK)) ∧
    (m.to_x = 2 → s.b.get m.from_y 0 = (if s.white_to_move then WROOK else BROOK)) := by
  obtain ⟨_, _, hfy, _, hside, _⟩ := hm.castle hcas
  obtain ⟨_, h8, h4, h2, h1⟩ := hc
  rw [hfy]
  cases hw : s.white_to_move <;> rw [hw] at hside <;>
    simp only [if_true, if_false, Bool.false_eq_true] at hside ⊢
  · refine ⟨fun h6 => ?_, fun h2' => ?_⟩
    · rcases hside with ⟨_, hbit, _⟩ | ⟨hx, _, _⟩
      · exact h2 hbit
      · exact absurd (hx.symm.trans h6) (by decide)
    · rcases hside with ⟨hx, _, _⟩ | ⟨_, hbit, _⟩
      · exact absurd (hx.symm.trans h2') (by decide)
      · exact h1 hbit
  · refine ⟨fun h6 => ?_, fun h2' => ?_⟩
    · rcases hside with ⟨_, hbit, _⟩ | ⟨hx, _, _⟩
      · exact h8 hbit
      · exact absurd (hx.symm.trans h6) (by decide)
    · rcases hside with ⟨hx, _, _⟩ | ⟨_, hbit, _⟩
      · exact absurd (hx.symm.trans h2') (by decide)
      · exact h4 hbit

/-- C11. In a position reachable from the start and for a move `m` of `generatePseudo(false)`,
the board after `makeMove(m)` is the board before except that: the origin square is empty;
the destination holds the moved piece, or the promotion piece when `m` promotes; for an
en-passant capture the square `(to_x, from_y)` is empty; for castling the rook of the mover,
which stood on the h-file (a-file) corner of the rank, stands on the f-file (d-file) square
and the corner is empty; every other on-board square holds what it held before. -/
theorem makeMove_board_frame (s : Engine) (m : Move) (hr : Reachable s)
    (hm : m ∈ generatePseudo s false) :
    (makeMove s m).b.get m.from_y m.from_x = EMPTY ∧
    (makeMove s m).b.get m.to_y m.to_x =
      (if m.promotion ≠ 0 then m.promotion else s.b.get m.from_y m.from_x) ∧
    (m.is_enpassant = true → (makeMove s m).b.get m.from_y m.to_x = EMPTY) ∧
    (m.is_castle = true → m.to_x = 6 →
      s.b.get m.from_y 7 = (if s.white_to_move then WROOK else BROOK) ∧
      (makeMove s m).b.get m.from_y 7 = EMPTY ∧
      (makeMove s m).b.get m.from_y 5 = (if s.white_to_move then WROOK else BROOK)) ∧
    (m.is_castle = true → m.to_x = 2 →
      s.b.get m.from_y 0 = (if s.white_to_move then WROOK else BROOK) ∧
      (makeMove s m).b.get m.from_y 0 = EMPTY ∧
      (makeMove s m).b.get m.from_y 3 = (if s.white_to_move then WROOK else BROOK)) ∧
    (∀ x y : Int, onBoard x y = true →
      ¬ (x = m.from_x ∧ y = m.from_y) → ¬ (x = m.to_x ∧ y = m.to_y) →
      ¬ (m.is_enpassant = true ∧ x = m.to_x ∧ y = m.from_y) →
      ¬ (m.is_castle = true ∧ y = m.from_y ∧
          ((m.to_x = 6 ∧ (x = 5 ∨ x = 7)) ∨ (m.to_x = 2 ∧ (x = 3 ∨ x = 0)))) →
      (makeMove s m).b.get y x = s.b.get y x) := by
  have hc := reachable_consistent s hr
  have hok := pseudo_ok s false m hm
  have hb : (makeMove s m).b = makeBoard s m := rfl
  have hfrom := (onBoard_iff _ _).mp hok.from_on
  have hto := (onBoard_iff _ _).mp hok.to_on
  have hmv := hok.moved
  rw [hb]
  refine ⟨?_, ?_, ?_, ?_, ?_, ?_⟩
  · rw [makeBoard_get s m hok _ _ hok.from_on]
    simp [madeAt]
  · rw [makeBoard_get s m hok _ _ hok.to_on]
    have h1 : ¬ (m.to_y = m.from_y ∧ m.to_x = m.from_x) := fun h => hmv ⟨h.2, h.1⟩
    simp [madeAt, h1]
  · intro hep
    obtain ⟨_, _, _, _, hty, hfy, hx, _⟩ := hok.ep hep
    have hon : onBoard m.to_x m.from_y = true := by
      rw [onBoard_iff]; exact ⟨hto.1, hto.2.1, hfrom.2.2.1, hfrom.2.2.2⟩
    rw [makeBoard_get s m hok _ _ hon]
    have h1 : ¬ (m.to_x = m.from_x) := by
      intro h; rw [h] at hx; simp at hx
    have h2 : ¬ (m.from_y = m.to_y) := by
      rw [hty, hfy]; cases s.white_to_move <;> decide
    simp [madeAt, h1, h2, hep]
  · intro hcas h6
    obtain ⟨_, hfx, hfy, hty, _, hep, _⟩ := hok.castle hcas
    have hy : 0 ≤ m.from_y ∧ m.from_y < 8 := ⟨hfrom.2.2.1, hfrom.2.2.2⟩
    refine ⟨(castle_rook_home s m hc hok hcas).1 h6, ?_, ?_⟩
    · rw [makeBoard_get s m hok _ _ ((onBoard_iff _ _).mpr ⟨by decide, by decide, hy.1, hy.2⟩)]
      simp [madeAt, hfx, h6, hep, hcas]
    · rw [makeBoard_get s m hok _ _ ((onBoard_iff _ _).mpr ⟨by decide, by decide, hy.1, hy.2⟩)]
      simp [madeAt, hfx, h6, hep, hcas]
  · intro hcas h2
    obtain ⟨_, hfx, hfy, hty, _, hep, _⟩ := hok.castle hcas
    have hy : 0 ≤ m.from_y ∧ m.from_y < 8 := ⟨hfrom.2.2.1, hfrom.2.2.2⟩
    refine ⟨(castle_rook_home s m hc hok hcas).2 h2, ?_, ?_⟩
    · rw [makeBoard_get s m hok _ _ ((onBoard_iff _ _).mpr ⟨by decide, by decide, hy.1, hy.2⟩)]
      simp [madeAt, hfx, h2, hep, hcas]
    · rw [makeBoard_get s m hok _ _ ((onBoard_iff _ _).mpr ⟨by decide, by decide, hy.1, hy.2⟩)]
      simp [madeAt, hfx, h2, hep, hcas]
  · intro x y hon h1 h2 h3 h4
    rw [makeBoard_get s m hok _ _ hon]
    have e1 : ¬ (y = m.from_y ∧ x = m.from_x) := fun h => h1 ⟨h.2, h.1⟩
    have e2 : ¬ (y = m.to_y ∧ x = m.to_x) := fun h => h2 ⟨h.2, h.1⟩
    have e3 : ¬ (m.is_enpassant = true ∧ y = m.from_y ∧ x = m.to_x) :=
      fun h => h3 ⟨h.1, h.2.2, h.2.1⟩
    have e4 : ¬ (m.is_castle = true ∧ y = m.from_y ∧ m.to_x = 6 ∧ x = 5) :=
      fun h => h4 ⟨h.1, h.2.1, Or.inl ⟨h.2.2.1, Or.inl h.2.2.2⟩⟩
    have e5 : ¬ (m.is_castle = true ∧ y = m.from_y ∧ m.to_x = 6 ∧ x = 7) :=
      fun h => h4 ⟨h.1, h.2.1, Or.inl ⟨h.2.2.1, Or.inr h.2.2.2⟩⟩
    have e6 : ¬ (m.is_castle = true ∧ y = m.from_y ∧ m.to_x = 2 ∧ x = 3) :=
      fun h => h4 ⟨h.1, h.2.1, Or.inr ⟨h.2.2.1, Or.inl h.2.2.2⟩⟩
    have e7 : ¬ (m.is_castle = true ∧ y = m.from_y ∧ m.to_x = 2 ∧ x = 0) :=
      fun h => h4 ⟨h.1, h.2.1, Or.inr ⟨h.2.2.1, Or.inr h.2.2.2⟩⟩
    unfold madeAt
    rw [if_neg e1, if_neg e2, if_neg e3, if_neg e4, if_neg e5, if_neg e6, if_neg e7]
    rfl

set_option maxRecDepth 100000 in
theorem makeMove_board_frame_witness :
    e2e4 ∈ generatePseudo newEngine false ∧
      (makeMove newEngine e2e4).b.get e2e4.from_y e2e4.from_x = EMPTY :=
  ⟨by decide!, (makeMove_board_frame newEngine e2e4 (Reachable.start {}) (by decide!)).1⟩

/-! ## The en-passant file after makeMove (C12) -/

theorem pawnMoves_step (s : Engine) (c : Bool) (x y : Int) (m : Move)
    (hm : m ∈ pawnMoves s c x y) :
    m.is_doublepush = true ∨ m.to_y = y + (if s.white_to_move then 1 else -1) := by
  unfold pawnMoves at hm
  simp only [List.mem_append, List.mem_flatMap, List.mem_cons, List.mem_singleton,
    List.not_mem_nil, or_false] at hm
  cases hw : s.white_to_move <;>
    simp only [hw, if_true, if_false, Bool.false_eq_true] at hm ⊢ <;>
    rcases hm with (hm | ⟨a, _, hm⟩) | hm
  all_goals split_ifs at hm with h1 h2 h3
  all_goals simp only [List.mem_cons, List.mem_singleton, List.not_mem_nil, or_false] at hm
  all_goals first
    | (rcases hm with rfl | rfl | rfl | rfl <;> first | exact Or.inr rfl | exact Or.inl rfl)
    | (subst hm; exact Or.inr h2.1)

theorem doublepush_iff (s : Engine) (c : Bool) (m : Move) (hm : m ∈ generatePseudo s c) :
    m.is_doublepush = true ↔ movesPawnTwoRanks s m := by
  have hok := pseudo_ok s c m hm
  constructor
  · intro hd
    obtain ⟨hp, hfy, _, hty, _⟩ := hok.dbl hd
    refine ⟨?_, ?_⟩
    · rw [hp]; cases s.white_to_move
      · exact Or.inr rfl
      · exact Or.inl rfl
    · rw [hfy, hty]; cases s.white_to_move <;> rfl
  · rintro ⟨hp, hdy⟩
    rw [mem_generatePseudo] at hm
    obtain ⟨x, y, _, hm⟩ := hm
    obtain ⟨hx, hy⟩ := pieceMoves_origin s c x y m hm
    have hown := hok.own
    have hp2 : s.b.get y x = (if s.white_to_move then WPAWN else BPAWN) := by
      rw [← hx, ← hy]
      rcases hp with hp | hp <;> rw [hp] at hown ⊢ <;> cases hw : s.white_to_move <;>
        rw [hw] at hown <;> first | rfl | exact absurd hown (by decide)
    rw [pieceMoves_pawn s c x y hp2] at hm
    rcases pawnMoves_step s c x y m hm with h | h
    · exact h
    · exfalso
      rw [h, hy] at hdy
      cases hw : s.white_to_move <;> rw [hw] at hdy <;> simp at hdy

/-- C12. For every move `m` produced by `generatePseudo`, after `makeMove(m)` the field
`ep_file` is `from_x + 1` if `m` moved a pawn two ranks and 0 otherwise; so whatever
`ep_file` was before, after the next generated move that is not a two-square pawn advance it
is 0. -/
theorem ep_file_after_makeMove (s : Engine) (c : Bool) (m : Move)
    (hm : m ∈ generatePseudo s c) :
    (makeMove s m).ep_file = (if movesPawnTwoRanks s m then m.from_x + 1 else 0) ∧
    ∀ (c2 : Bool) (m2 : Move), m2 ∈ generatePseudo (makeMove s m) c2 →
      ¬ movesPawnTwoRanks (makeMove s m) m2 →
      (makeMove (makeMove s m) m2).ep_file = 0 := by
  have key : ∀ (t : Engine) (d : Bool) (n : Move), n ∈ generatePseudo t d →
      (makeMove t n).ep_file = (if movesPawnTwoRanks t n then n.from_x + 1 else 0) := by
    intro t d n hn
    have h1 : (makeMove t n).ep_file = (if n.is_doublepush then n.from_x + 1 else 0) := rfl
    rw [h1]
    by_cases hd : n.is_doublepush = true
    · rw [if_pos hd, if_pos ((doublepush_iff t d n hn).mp hd)]
    · rw [if_neg hd, if_neg (fun h => hd ((doublepush_iff t d n hn).mpr h))]
  refine ⟨key s c m hm, fun c2 m2 hm2 hn => ?_⟩
  rw [key _ c2 m2 hm2, if_neg hn]

set_option maxRecDepth 100000 in
theorem ep_file_after_makeMove_witness :
    (makeMove newEngine e2e4).ep_file = 5 :=
  (ep_file_after_makeMove newEngine false e2e4 (by decide!)).1

/-! ## Castling rights after makeMove (C13) -/

theorem land_bit_iff (x k : Nat) : x &&& 2 ^ k ≠ 0 ↔ x.testBit k = true := by
  constructor
  · intro h
    by_contra hb
    apply h
    apply Nat.eq_of_testBit_eq
    intro i
    rw [Nat.testBit_land, Nat.testBit_two_pow, Nat.zero_testBit]
    by_cases hki : k = i
    · subst hki
      simp [hb]
    · simp [hki]
  · intro hb h0
    have h1 := congrArg (fun n => Nat.testBit n k) h0
    simp only [Nat.testBit_land, Nat.testBit_two_pow_self, Nat.zero_testBit, hb] at h1
    exact absurd h1 (by decide)

theorem testBit_strip (c mask k : Nat) (p : Prop) [Decidable p] :
    (if p then c &&& mask else c).testBit k = (c.testBit k && (!decide p || mask.testBit k)) := by
  by_cases hp : p
  · simp [hp, Nat.testBit_land]
  · simp [hp]

theorem testBit_strip2 (c m1 m2 k : Nat) (A B C : Prop) [Decidable A] [Decidable B]
    [Decidable C] :
    (if A then (if C then (if B then c &&& m1 else c) &&& m2
                else (if B then c &&& m1 else c)) else c).testBit k =
      (c.testBit k && (!decide (A ∧ B) || m1.testBit k) && (!decide (A ∧ C) || m2.testBit k)) := by
  by_cases hA : A <;> by_cases hB : B <;> by_cases hC : C <;>
    simp [hA, hB, hC, Nat.testBit_land]

theorem testBit_stripRights (c p t : Nat) (m : Move) (k : Nat) :
    (stripRights c p t m).testBit k =
      (c.testBit k &&
        (!decide (p = WKING) || (3 : Nat).testBit k) &&
        (!decide (p = BKING) || (12 : Nat).testBit k) &&
        (!decide ((p = WROOK ∧ m.from_y = 0) ∧ m.from_x = 0) || (11 : Nat).testBit k) &&
        (!decide ((p = WROOK ∧ m.from_y = 0) ∧ m.from_x = 7) || (7 : Nat).testBit k) &&
        (!decide ((p = BROOK ∧ m.from_y = 7) ∧ m.from_x = 0) || (14 : Nat).testBit k) &&
        (!decide ((p = BROOK ∧ m.from_y = 7) ∧ m.from_x = 7) || (13 : Nat).testBit k) &&
        (!decide ((t = WROOK ∧ m.to_y = 0) ∧ m.to_x = 0) || (11 : Nat).testBit k) &&
        (!decide ((t = WROOK ∧ m.to_y = 0) ∧ m.to_x = 7) || (7 : Nat).testBit k) &&
        (!decide ((t = BROOK ∧ m.to_y = 7) ∧ m.to_x = 0) || (14 : Nat).testBit k) &&
        (!decide ((t = BROOK ∧ m.to_y = 7) ∧ m.to_x = 7) || (13 : Nat).testBit k)) := by
  unfold stripRights
  simp only [testBit_strip2, testBit_strip, Bool.and_assoc]

theorem makeMove_castling (s : Engine) (m : Move) :
    (makeMove s m).castling =
      stripRights s.castling (s.b.get m.from_y m.from_x) (s.b.get m.to_y m.to_x) m := rfl

theorem right_kept_iff (c p t : Nat) (m : Move) (k : Nat) (hk : k < 4) :
    stripRights c p t m &&& 2 ^ k ≠ 0 ↔
      c &&& 2 ^ k ≠ 0 ∧
      ¬ (p = (if k < 2 then BKING else WKING)) ∧
      ¬ (p = (if k < 2 then BROOK else WROOK) ∧ m.from_y = (if k < 2 then 7 else 0) ∧
          m.from_x = (if k = 0 ∨ k = 2 then 0 else 7)) ∧
      ¬ (t = (if k < 2 then BROOK else WROOK) ∧ m.to_y = (if k < 2 then 7 else 0) ∧
          m.to_x = (if k = 0 ∨ k = 2 then 0 else 7)) := by
  rw [land_bit_iff, land_bit_iff, testBit_stripRights]
  have h07 : ¬ ((0 : Int) = 7) := by decide
  have h70 : ¬ ((7 : Int) = 0) := by decide
  have hk4 : k = 0 ∨ k = 1 ∨ k = 2 ∨ k = 3 := by omega
  rcases hk4 with rfl | rfl | rfl | rfl
  all_goals
    simp only [show (3 : Nat).testBit 0 = true by decide,
      show (12 : Nat).testBit 0 = false by decide, show (11 : Nat).testBit 0 = true by decide,
      show (7 : Nat).testBit 0 = true by decide, show (14 : Nat).testBit 0 = false by decide,
      show (13 : Nat).testBit 0 = true by decide,
      show (3 : Nat).testBit 1 = true by decide,
      show (12 : Nat).testBit 1 = false by decide, show (11 : Nat).testBit 1 = true by decide,
      show (7 : Nat).testBit 1 = true by decide, show (14 : Nat).testBit 1 = true by decide,
      show (13 : Nat).testBit 1 = false by decide,
      show (3 : Nat).testBit 2 = false by decide,
      show (12 : Nat).testBit 2 = true by decide, show (11 : Nat).testBit 2 = false by decide,
      show (7 : Nat).testBit 2 = true by decide, show (14 : Nat).testBit 2 = true by decide,
      show (13 : Nat).testBit 2 = true by decide,
      show (3 : Nat).testBit 3 = false by decide,
      show (12 : Nat).testBit 3 = true by decide, show (11 : Nat).testBit 3 = true by decide,
      show (7 : Nat).testBit 3 = false by decide, show (14 : Nat).testBit 3 = true by decide,
      show (13 : Nat).testBit 3 = true by decide,
      Bool.or_true, Bool.and_true, Bool.or_false, Bool.and_eq_true, Bool.not_eq_true',
      decide_eq_false_iff_not, and_assoc]
    simp

/-- C13. `makeMove` keeps a castling bit set exactly when it was set and the move does none
of the following: the piece moved from the origin is the king of the side the bit belongs
to; it is a rook of that side leaving the home corner of the bit (h-file for the king-side
bit, a-file for the queen-side bit); the piece on the destination is a rook of that side on
that corner. So no bit that was clear is set, and a bit is cleared only for those reasons.
For a generated move, a rook found on the destination is captured by the move. -/
theorem castling_rights_after_makeMove (s : Engine) (c : Bool) (m : Move)
    (hm : m ∈ generatePseudo s c) :
    ((makeMove s m).castling &&& 8 ≠ 0 ↔ s.castling &&& 8 ≠ 0 ∧
      ¬ (s.b.get m.from_y m.from_x = WKING) ∧
      ¬ (s.b.get m.from_y m.from_x = WROOK ∧ m.from_y = 0 ∧ m.from_x = 7) ∧
      ¬ (s.b.get m.to_y m.to_x = WROOK ∧ m.to_y = 0 ∧ m.to_x = 7)) ∧
    ((makeMove s m).castling &&& 4 ≠ 0 ↔ s.castling &&& 4 ≠ 0 ∧
      ¬ (s.b.get m.from_y m.from_x = WKING) ∧
      ¬ (s.b.get m.from_y m.from_x = WROOK ∧ m.from_y = 0 ∧ m.from_x = 0) ∧
      ¬ (s.b.get m.to_y m.to_x = WROOK ∧ m.to_y = 0 ∧ m.to_x = 0)) ∧
    ((makeMove s m).castling &&& 2 ≠ 0 ↔ s.castling &&& 2 ≠ 0 ∧
      ¬ (s.b.get m.from_y m.from_x = BKING) ∧
      ¬ (s.b.get m.from_y m.from_x = BROOK ∧ m.from_y = 7 ∧ m.from_x = 7) ∧
      ¬ (s.b.get m.to_y m.to_x = BROOK ∧ m.to_y = 7 ∧ m.to_x = 7)) ∧
    ((makeMove s m).castling &&& 1 ≠ 0 ↔ s.castling &&& 1 ≠ 0 ∧
      ¬ (s.b.get m.from_y m.from_x = BKING) ∧
      ¬ (s.b.get m.from_y m.from_x = BROOK ∧ m.from_y = 7 ∧ m.from_x = 0) ∧
      ¬ (s.b.get m.to_y m.to_x = BROOK ∧ m.to_y = 7 ∧ m.to_x = 0)) ∧
    ((s.b.get m.to_y m.to_x = WROOK ∨ s.b.get m.to_y m.to_x = BROOK) →
      (m.to_y = 0 ∨ m.to_y = 7) →
      m.is_capture = true ∧ m.captured_piece = s.b.get m.to_y m.to_x) := by
  rw [makeMove_castling]
  refine ⟨right_kept_iff _ _ _ m 3 (by decide), right_kept_iff _ _ _ m 2 (by decide),
    right_kept_iff _ _ _ m 1 (by decide), right_kept_iff _ _ _ m 0 (by decide), ?_⟩
  intro ht hy
  have hok := pseudo_ok s c m hm
  have hep : m.is_enpassant = false := by
    cases h : m.is_enpassant
    · rfl
    · exfalso
      obtain ⟨_, _, _, _, hty, _⟩ := hok.ep h
      rw [hty] at hy
      cases hw : s.white_to_move <;> rw [hw] at hy <;> simp at hy
  have hcas : m.is_castle = false := by
    cases h : m.is_castle
    · rfl
    · exfalso
      obtain ⟨_, _, _, hty, hside, _⟩ := hok.castle h
      rw [hty] at ht
      rcases hside with ⟨hx, _, _, h6⟩ | ⟨hx, _, _, h2, _⟩ <;> rw [hx] at ht
      · rw [h6] at ht; rcases ht with ht | ht <;> exact absurd ht (by decide)
      · rw [h2] at ht; rcases ht with ht | ht <;> exact absurd ht (by decide)
  rcases hok.target hep hcas with ⟨h0, _, _⟩ | ⟨_, h1, h2⟩
  · rw [h0] at ht; rcases ht with ht | ht <;> exact absurd ht (by decide)
  · exact ⟨h1, h2⟩

set_option maxRecDepth 100000 in
theorem castling_rights_after_makeMove_witness :
    a1a2 ∈ generatePseudo fenRookA1 false ∧ fenRookA1.castling &&& 4 ≠ 0 ∧
      ¬ ((makeMove fenRookA1 a1a2).castling &&& 4 ≠ 0) :=
  ⟨by decide!, by decide!, fun h =>
    ((castling_rights_after_makeMove fenRookA1 false a1a2 (by decide!)).2.1.mp h).2.2.1
      ⟨by decide!, rfl, rfl⟩⟩

/-! ## Kings (C14) -/

theorem jumpMoves_to (s : Engine) (c : Bool) (x y : Int) (offs : List (Int × Int))
    (m : Move) (hm : m ∈ jumpMoves s c x y offs) :
    ∃ d ∈ offs, m.to_x = x + d.1 ∧ m.to_y = y + d.2 := by
  unfold jumpMoves at hm
  simp only [List.mem_flatMap] at hm
  obtain ⟨d, hd, hm⟩ := hm
  refine ⟨d, hd, ?_⟩
  split_ifs at hm <;> simp only [List.mem_singleton, List.not_mem_nil] at hm <;> subst hm <;>
    exact ⟨rfl, rfl⟩

theorem pawnMoves_to (s : Engine) (c : Bool) (x y : Int) (m : Move)
    (hm : m ∈ pawnMoves s c x y) :
    m.is_enpassant = true ∨ s.b.get m.to_y m.to_x = EMPTY ∨
      ((m.to_x = x + -1 ∨ m.to_x = x + 1) ∧
        m.to_y = y + (if s.white_to_move then 1 else -1)) := by
  unfold pawnMoves at hm
  simp only [List.mem_append, List.mem_flatMap, List.mem_cons, List.mem_singleton,
    List.not_mem_nil, or_false] at hm
  cases hw : s.white_to_move <;>
    simp only [hw, if_true, if_false, Bool.false_eq_true] at hm ⊢ <;>
    rcases hm with (hm | ⟨a, ha, hm⟩) | hm
  -- pushes
  case false.inl.inl | true.inl.inl =>
    split_ifs at hm with h1 h2 h3 h4
    all_goals simp only [List.mem_cons, List.mem_singleton, List.not_mem_nil, or_false] at hm
    all_goals simp only [Bool.and_eq_true, decide_eq_true_eq, Bool.not_eq_true'] at h1
    · rcases hm with rfl | rfl | rfl | rfl <;> exact Or.inr (Or.inl h1.1.2)
    · simp only [Bool.and_eq_true, decide_eq_true_eq] at h4
      rcases hm with rfl | rfl
      · exact Or.inr (Or.inl h1.1.2)
      · exact Or.inr (Or.inl h4.2)
    · subst hm; exact Or.inr (Or.inl h1.1.2)
    · subst hm; exact Or.inr (Or.inl h1.1.2)
  -- captures
  case false.inl.inr | true.inl.inr =>
    have ha2 : a = -1 ∨ a = 1 := by simpa using ha
    split_ifs at hm with h1 h2 h3
    all_goals simp only [List.mem_cons, List.mem_singleton, List.not_mem_nil, or_false] at hm
    · rcases hm with rfl | rfl | rfl | rfl <;> rcases ha2 with rfl | rfl <;>
        first | exact Or.inr (Or.inr ⟨Or.inl rfl, rfl⟩) | exact Or.inr (Or.inr ⟨Or.inr rfl, rfl⟩)
    · subst hm
      rcases ha2 with rfl | rfl <;>
        first | exact Or.inr (Or.inr ⟨Or.inl rfl, rfl⟩) | exact Or.inr (Or.inr ⟨Or.inr rfl, rfl⟩)
  -- en passant
  case false.inr | true.inr =>
    split_ifs at hm with h1 h2 h3
    all_goals simp only [List.mem_cons, List.mem_singleton, List.not_mem_nil, or_false] at hm
    subst hm
    exact Or.inl rfl

theorem slideRay_to (s : Engine) (c : Bool) (x y dx dy : Int) (m : Move) :
    ∀ (fuel k : Nat), m ∈ slideRay s c x y dx dy fuel (x + k * dx) (y + k * dy) →
      ∃ n : Nat, k ≤ n ∧ m.to_x = x + n * dx ∧ m.to_y = y + n * dy ∧
        ∀ i : Nat, k ≤ i → i < n → s.b.get (y + i * dy) (x + i * dx) = EMPTY := by
  intro fuel
  induction fuel with
  | zero => intro k hm; simp [slideRay] at hm
  | succ f ih =>
    intro k hm
    unfold slideRay at hm
    by_cases h1 : onBoard (x + k * dx) (y + k * dy) = true
    · simp only [h1, if_true] at hm
      by_cases h2 : s.b.get (y + k * dy) (x + k * dx) = EMPTY
      · simp only [h2, if_true, List.mem_append] at hm
        rcases hm with hm | hm
        · split_ifs at hm
          · simp only [List.mem_singleton] at hm
            subst hm
            exact ⟨k, le_refl _, rfl, rfl, fun i h3 h4 => absurd h4 (by omega)⟩
          · simp at hm
        · have e1 : x + k * dx + dx = x + ((k + 1 : Nat) : Int) * dx := by push_cast; ring
          have e2 : y + k * dy + dy = y + ((k + 1 : Nat) : Int) * dy := by push_cast; ring
          rw [e1, e2] at hm
          obtain ⟨n, hn, h3, h4, h5⟩ := ih (k + 1) hm
          refine ⟨n, by omega, h3, h4, fun i hi1 hi2 => ?_⟩
          by_cases hik : i = k
          · subst hik; exact h2
          · exact h5 i (by omega) hi2
      · simp only [h2, if_false] at hm
        split_ifs at hm with h4
        · simp only [List.mem_singleton] at hm
          subst hm
          exact ⟨k, le_refl _, rfl, rfl, fun i h3 h4 => absurd h4 (by omega)⟩
        · simp at hm
    · simp [h1] at hm

theorem sliderMoves_to (s : Engine) (c : Bool) (x y : Int) (p : Nat) (m : Move)
    (hm : m ∈ sliderMoves s c x y p) :
    ∃ d ∈ DIRS, ((p = WROOK ∨ p = BROOK) → (d.1 = 0 ∨ d.2 = 0)) ∧
      ((p = WBISHOP ∨ p = BBISHOP) → (d.1 ≠ 0 ∧ d.2 ≠ 0)) ∧
      ∃ n : Nat, 1 ≤ n ∧ m.to_x = x + n * d.1 ∧ m.to_y = y + n * d.2 ∧
        ∀ i : Nat, 1 ≤ i → i < n → s.b.get (y + i * d.2) (x + i * d.1) = EMPTY := by
  unfold sliderMoves at hm
  simp only [List.mem_flatMap] at hm
  obtain ⟨d, hd, hm⟩ := hm
  have hd1 : d ∈ DIRS := List.mem_of_mem_take (List.mem_of_mem_drop hd)
  have e1 : x + d.1 = x + ((1 : Nat) : Int) * d.1 := by simp
  have e2 : y + d.2 = y + ((1 : Nat) : Int) * d.2 := by simp
  rw [e1, e2] at hm
  refine ⟨d, hd1, ?_, ?_, slideRay_to s c x y d.1 d.2 m 8 1 hm⟩
  · intro hp
    have h0 : (if p = WROOK ∨ p = BROOK then 0 else if p = WBISHOP ∨ p = BBISHOP then 4 else 0)
        = 0 := if_pos hp
    have h4 : (if p = WROOK ∨ p = BROOK then 4 else if p = WBISHOP ∨ p = BBISHOP then 8 else 8)
        = 4 := if_pos hp
    rw [h0, h4] at hd
    simp only [DIRS, List.take, List.drop, List.mem_cons, List.mem_singleton,
      List.not_mem_nil, or_false] at hd
    rcases hd with rfl | rfl | rfl | rfl <;> simp
  · intro hp
    have hnr : ¬ (p = WROOK ∨ p = BROOK) := by
      rcases hp with rfl | rfl <;> decide
    have h0 : (if p = WROOK ∨ p = BROOK then 0 else if p = WBISHOP ∨ p = BBISHOP then 4 else 0)
        = 4 := by rw [if_neg hnr, if_pos hp]
    have h4 : (if p = WROOK ∨ p = BROOK then 4 else if p = WBISHOP ∨ p = BBISHOP then 8 else 8)
        = 8 := by rw [if_neg hnr, if_pos hp]
    rw [h0, h4] at hd
    simp only [DIRS, List.take, List.drop, List.mem_cons, List.mem_singleton,
      List.not_mem_nil, or_false] at hd
    rcases hd with rfl | rfl | rfl | rfl <;> simp

theorem own_pick (W : Bool) (p a b : Nat) (hown : isOwn W p = true) (h : p = a ∨ p = b)
    (ha : 1 ≤ a ∧ a ≤ 6) (hb : 7 ≤ b ∧ b ≤ 12) : p = if W then a else b := by
  rcases isOwn_cases hown with ⟨rfl, h1, h2⟩ | ⟨rfl, h1, h2⟩
  · simp only [if_true]; omega
  · simp only [Bool.false_eq_true, if_false]; omega

theorem slider_attackedBy (b : Board) (W : Bool) (x y : Int) (d : Int × Int) (n : Nat)
    (hd : d ∈ DIRS) (hn : 1 ≤ n) (hon : onBoard x y = true)
    (hempty : ∀ i : Nat, 1 ≤ i → i < n → b.get (y + i * d.2) (x + i * d.1) = EMPTY)
    (hp : ((b.get y x = (if W then WROOK else BROOK) ∨
            b.get y x = (if W then WQUEEN else BQUEEN)) ∧ (d.1 = 0 ∨ d.2 = 0)) ∨
          ((b.get y x = (if W then WBISHOP else BBISHOP) ∨
            b.get y x = (if W then WQUEEN else BQUEEN)) ∧ (d.1 ≠ 0 ∧ d.2 ≠ 0))) :
    AttackedBy b (x + n * d.1) (y + n * d.2) W := by
  have hd3 : (d.1 = -1 ∨ d.1 = 0 ∨ d.1 = 1) ∧ (d.2 = -1 ∨ d.2 = 0 ∨ d.2 = 1) := by
    simp only [DIRS, List.mem_cons, List.mem_singleton, List.not_mem_nil, or_false] at hd
    rcases hd with rfl | rfl | rfl | rfl | rfl | rfl | rfl | rfl <;> simp
  have hd0 := mem_DIRS d hd
  have hx3 : (-d.1 = -1 ∨ -d.1 = 0 ∨ -d.1 = 1) := by omega
  have hy3 : (-d.2 = -1 ∨ -d.2 = 0 ∨ -d.2 = 1) := by omega
  have hn0 : ¬ (-d.1 = 0 ∧ -d.2 = 0) := by omega
  obtain ⟨g1, g2, g3, g4, g5⟩ :=
    geom_of_ray (x + n * d.1) (y + n * d.2) (-d.1) (-d.2) n hn hx3 hy3 hn0
  have ex : x + n * d.1 + n * -d.1 = x := by ring
  have ey : y + n * d.2 + n * -d.2 = y := by ring
  simp only [ex, ey] at g1 g2 g3 g4 g5
  have hbetween : emptyBetween b (x + n * d.1) (y + n * d.2) x y := by
    intro j hj0 hjn
    rw [g1, g2]
    rw [g3] at hjn
    obtain ⟨i, rfl⟩ := Int.eq_ofNat_of_zero_le (le_of_lt hj0)
    have hi : i < n := by omega
    have e1 : x + n * d.1 + (i : Int) * -d.1 = x + ((n - i : Nat) : Int) * d.1 := by
      rw [Nat.cast_sub (le_of_lt hi)]; ring
    have e2 : y + n * d.2 + (i : Int) * -d.2 = y + ((n - i : Nat) : Int) * d.2 := by
      rw [Nat.cast_sub (le_of_lt hi)]; ring
    have hi0 : 0 < i := by omega
    rw [e1, e2]
    exact hempty (n - i) (by omega) (by omega)
  refine ⟨x, y, hon, ?_⟩
  rcases hp with ⟨hp, hk⟩ | ⟨hp, hk⟩
  · exact Or.inr (Or.inr (Or.inr (Or.inl ⟨hp, g4 (by omega), hbetween⟩)))
  · exact Or.inr (Or.inr (Or.inr (Or.inr ⟨hp, g5 (by omega), hbetween⟩)))

theorem capture_attackedBy (s : Engine) (c : Bool) (m : Move)
    (hm : m ∈ generatePseudo s c) (hep : m.is_enpassant = false)
    (ht : s.b.get m.to_y m.to_x ≠ EMPTY) :
    AttackedBy s.b m.to_x m.to_y s.white_to_move := by
  have hok := pseudo_ok s c m hm
  rw [mem_generatePseudo] at hm
  obtain ⟨x, y, hon, hm⟩ := hm
  have hown := mem_pieceMoves_own s c x y m hm
  unfold pieceMoves at hm
  simp only at hm
  split_ifs at hm with h1 h2 h3 h4 h5 h6 h7
  · simp at hm
  · simp at hm
  · simp at hm
  · -- pawn
    have hp := own_pick _ _ WPAWN BPAWN hown h4 (by decide) (by decide)
    rcases pawnMoves_to s c x y m hm with h | h | ⟨hx, hy⟩
    · rw [hep] at h; exact absurd h (by decide)
    · exact absurd h ht
    · refine ⟨x, y, hon, Or.inl ⟨hp, ?_, ?_⟩⟩
      · omega
      · rw [hy]; cases s.white_to_move <;> simp
  · -- knight
    have hp := own_pick _ _ WKNIGHT BKNIGHT hown h5 (by decide) (by decide)
    obtain ⟨d, hd, hx, hy⟩ := jumpMoves_to s c x y _ m hm
    have hk : knightJump x y m.to_x m.to_y := by
      rw [← mem_knightJumps]
      have e1 : m.to_x - x = d.1 := by omega
      have e2 : m.to_y - y = d.2 := by omega
      rw [e1, e2]; exact hd
    refine ⟨x, y, hon, Or.inr (Or.inl ⟨hp, ?_⟩)⟩
    unfold knightJump at hk ⊢
    omega
  · -- sliders
    obtain ⟨d, hd, hr, hb, n, hn, hx, hy, hempty⟩ := sliderMoves_to s c x y _ m hm
    rw [hx, hy]
    refine slider_attackedBy s.b s.white_to_move x y d n hd hn hon hempty ?_
    have hd0 := mem_DIRS d hd
    rcases h6 with h | h | h | h | h | h
    · right
      exact ⟨Or.inl (own_pick _ _ WBISHOP BBISHOP hown (Or.inl h) (by decide) (by decide)),
        hb (Or.inl h)⟩
    · right
      exact ⟨Or.inl (own_pick _ _ WBISHOP BBISHOP hown (Or.inr h) (by decide) (by decide)),
        hb (Or.inr h)⟩
    · left
      exact ⟨Or.inl (own_pick _ _ WROOK BROOK hown (Or.inl h) (by decide) (by decide)),
        hr (Or.inl h)⟩
    · left
      exact ⟨Or.inl (own_pick _ _ WROOK BROOK hown (Or.inr h) (by decide) (by decide)),
        hr (Or.inr h)⟩
    · have hq := own_pick _ _ WQUEEN BQUEEN hown (Or.inl h) (by decide) (by decide)
      by_cases hz : d.1 = 0 ∨ d.2 = 0
      · exact Or.inl ⟨Or.inr hq, hz⟩
      · exact Or.inr ⟨Or.inr hq, by omega⟩
    · have hq := own_pick _ _ WQUEEN BQUEEN hown (Or.inr h) (by decide) (by decide)
      by_cases hz : d.1 = 0 ∨ d.2 = 0
      · exact Or.inl ⟨Or.inr hq, hz⟩
      · exact Or.inr ⟨Or.inr hq, by omega⟩
  · -- king
    have hp := own_pick _ _ WKING BKING hown h7 (by decide) (by decide)
    rw [List.mem_append] at hm
    rcases hm with hm | hm
    · obtain ⟨d, hd, hx, hy⟩ := jumpMoves_to s c x y _ m hm
      have hk : adjacent x y m.to_x m.to_y := by
        rw [← mem_kingSteps]
        have e1 : m.to_x - x = d.1 := by omega
        have e2 : m.to_y - y = d.2 := by omega
        rw [e1, e2]; exact hd
      refine ⟨x, y, hon, Or.inr (Or.inr (Or.inl ⟨hp, ?_⟩))⟩
      unfold adjacent at hk ⊢
      omega
    · exfalso
      have hcas : m.is_castle = true := by
        rw [mem_castleMoves] at hm
        obtain ⟨_, _, _, _, h⟩ := hm
        rcases h with ⟨_, _, _, _, _, rfl⟩ | ⟨_, _, _, _, _, _, rfl⟩ <;> rfl
      obtain ⟨_, _, _, hty, hside, _⟩ := hok.castle hcas
      rw [hty] at ht
      rcases hside with ⟨hx, _, _, h6'⟩ | ⟨hx, _, _, h2', _⟩ <;> rw [hx] at ht
      · exact ht h6'
      · exact ht h2'
  · simp at hm

theorem attacked_iff (b : Board) (x y : Int) (byWhite : Bool) (hon : onBoard x y = true) :
    isAttacked b x y byWhite = true ↔ AttackedBy b x y byWhite := by
  unfold isAttacked AttackedBy
  rw [Bool.or_eq_true, Bool.or_eq_true, Bool.or_eq_true, pawn_part_iff, jump_any_iff,
    jump_any_iff, ray_part_iff b x y byWhite hon]
  simp only [mem_knightJumps, mem_kingSteps]
  constructor
  · rintro (((⟨px, py, h1, h2⟩ | ⟨px, py, h1, h2⟩) | ⟨px, py, h1, h2⟩) | ⟨px, py, h1, h2, h3⟩)
    · exact ⟨px, py, h1, Or.inl h2⟩
    · exact ⟨px, py, h1, Or.inr (Or.inl h2)⟩
    · exact ⟨px, py, h1, Or.inr (Or.inr (Or.inl h2))⟩
    · rcases h2 with ⟨hp, hg⟩ | ⟨hp, hg⟩
      · exact ⟨px, py, h1, Or.inr (Or.inr (Or.inr (Or.inl ⟨hp, hg, h3⟩)))⟩
      · exact ⟨px, py, h1, Or.inr (Or.inr (Or.inr (Or.inr ⟨hp, hg, h3⟩)))⟩
  · rintro ⟨px, py, h1, h | h | h | ⟨hp, hg, h3⟩ | ⟨hp, hg, h3⟩⟩
    · exact Or.inl (Or.inl (Or.inl ⟨px, py, h1, h⟩))
    · exact Or.inl (Or.inl (Or.inr ⟨px, py, h1, h⟩))
    · exact Or.inl (Or.inr ⟨px, py, h1, h⟩)
    · exact Or.inr ⟨px, py, h1, Or.inl ⟨hp, hg⟩, h3⟩
    · exact Or.inr ⟨px, py, h1, Or.inr ⟨hp, hg⟩, h3⟩

theorem capture_isAttacked (s : Engine) (c : Bool) (m : Move)
    (hm : m ∈ generatePseudo s c) (hep : m.is_enpassant = false)
    (ht : s.b.get m.to_y m.to_x ≠ EMPTY) :
    isAttacked s.b m.to_x m.to_y s.white_to_move = true :=
  (attacked_iff s.b m.to_x m.to_y s.white_to_move (pseudo_ok s c m hm).to_on).mpr
    (capture_attackedBy s c m hm hep ht)

theorem length_one_of_all_eq {α : Type} (l : List α) (a : α) (hnd : l.Nodup) (ha : a ∈ l)
    (hall : ∀ b ∈ l, b = a) : l.length = 1 := by
  match l, hnd, ha, hall with
  | [], _, ha, _ => exact absurd ha (List.not_mem_nil _)
  | [_], _, _, _ => rfl
  | x :: y :: t, hnd, _, hall =>
    exfalso
    have hx := hall x (List.mem_cons_self _ _)
    have hy := hall y (List.mem_cons_of_mem _ (List.mem_cons_self _ _))
    rw [List.nodup_cons] at hnd
    exact hnd.1 (by rw [hx, ← hy]; exact List.mem_cons_self _ _)

theorem mem_kingSquares (b : Board) (king : Nat) (y x : Int) :
    (y, x) ∈ kingSquares b king ↔ onBoard x y = true ∧ b.get y x = king := by
  unfold kingSquares
  rw [List.mem_filter, mem_squares]
  simp

theorem oneKing_iff (b : Board) (king : Nat) :
    (kingSquares b king).length = 1 ↔
      (∃ x y, onBoard x y = true ∧ b.get y x = king) ∧ AtMostOne b king := by
  constructor
  · intro h
    refine ⟨?_, atMostOne_of_count b king h⟩
    obtain ⟨a, ha⟩ := List.length_eq_one.mp h
    have hmem : (a.1, a.2) ∈ kingSquares b king := by rw [ha]; simp
    exact ⟨a.2, a.1, (mem_kingSquares b king a.1 a.2).mp hmem⟩
  · rintro ⟨⟨x, y, hon, hk⟩, hu⟩
    refine length_one_of_all_eq _ (y, x) ?_ ((mem_kingSquares b king y x).mpr ⟨hon, hk⟩) ?_
    · exact List.Nodup.filter _ squares_nodup
    · rintro ⟨y', x'⟩ hb
      obtain ⟨hon', hk'⟩ := (mem_kingSquares b king y' x').mp hb
      obtain ⟨h1, h2⟩ := hu x' y' x y hon' hon hk' hk
      rw [h1, h2]

theorem makeBoard_keeps_king (s : Engine) (m : Move) (hc : Consistent s) (hok : PseudoOK s m)
    (x y : Int) (hon : onBoard x y = true)
    (hnf : ¬ (x = m.from_x ∧ y = m.from_y)) (hnt : ¬ (x = m.to_x ∧ y = m.to_y))
    (hk : s.b.get y x = WKING ∨ s.b.get y x = BKING) :
    (makeBoard s m).get y x = s.b.get y x := by
  rw [makeBoard_get s m hok _ _ hon]
  have e1 : ¬ (y = m.from_y ∧ x = m.from_x) := fun h => hnf ⟨h.2, h.1⟩
  have e2 : ¬ (y = m.to_y ∧ x = m.to_x) := fun h => hnt ⟨h.2, h.1⟩
  have e3 : ¬ (m.is_enpassant = true ∧ y = m.from_y ∧ x = m.to_x) := by
    rintro ⟨hep, hy, hx⟩
    obtain ⟨_, _, _, _, _, _, _, hv, _⟩ := hok.ep hep
    rw [← hy, ← hx] at hv
    rw [hv] at hk
    cases hw : s.white_to_move <;> rw [hw] at hk <;> rcases hk with hk | hk <;>
      exact absurd hk (by decide)
  have hrook : ∀ v : Nat, v = (if s.white_to_move then WROOK else BROOK) →
      ¬ (v = WKING ∨ v = BKING) := by
    intro v hv
    rw [hv]
    cases s.white_to_move <;> decide
  have e4 : ¬ (m.is_castle = true ∧ y = m.from_y ∧ m.to_x = 6 ∧ x = 5) := by
    rintro ⟨hcas, hy, h6, hx⟩
    obtain ⟨_, _, _, _, hside, _⟩ := hok.castle hcas
    rcases hside with ⟨_, _, h5, _⟩ | ⟨h2, _⟩
    · rw [hy, hx, h5] at hk
      rcases hk with hk | hk <;> exact absurd hk (by decide)
    · exact absurd (h2.symm.trans h6) (by decide)
  have e5 : ¬ (m.is_castle = true ∧ y = m.from_y ∧ m.to_x = 6 ∧ x = 7) := by
    rintro ⟨hcas, hy, h6, hx⟩
    have hr := (castle_rook_home s m hc hok hcas).1 h6
    rw [hy, hx] at hk
    exact hrook _ hr hk
  have e6 : ¬ (m.is_castle = true ∧ y = m.from_y ∧ m.to_x = 2 ∧ x = 3) := by
    rintro ⟨hcas, hy, h2, hx⟩
    obtain ⟨_, _, _, _, hside, _⟩ := hok.castle hcas
    rcases hside with ⟨h6, _⟩ | ⟨_, _, _, _, h3⟩
    · exact absurd (h6.symm.trans h2) (by decide)
    · rw [hy, hx, h3] at hk
      rcases hk with hk | hk <;> exact absurd hk (by decide)
  have e7 : ¬ (m.is_castle = true ∧ y = m.from_y ∧ m.to_x = 2 ∧ x = 0) := by
    rintro ⟨hcas, hy, h2, hx⟩
    have hr := (castle_rook_home s m hc hok hcas).2 h2
    rw [hy, hx] at hk
    exact hrook _ hr hk
  unfold madeAt
  rw [if_neg e1, if_neg e2, if_neg e3, if_neg e4, if_neg e5, if_neg e6, if_neg e7]
  rfl

theorem target_empty_or_opp (s : Engine) (m : Move) (hc : Consistent s) (hok : PseudoOK s m) :
    s.b.get m.to_y m.to_x = EMPTY ∨
      (m.is_enpassant = false ∧ isOpp s.white_to_move (s.b.get m.to_y m.to_x) = true) := by
  cases hep : m.is_enpassant
  · cases hcas : m.is_castle
    · rcases hok.target hep hcas with ⟨h, _⟩ | ⟨h, _⟩
      · exact Or.inl h
      · exact Or.inr ⟨rfl, h⟩
    · left
      obtain ⟨_, _, _, hty, hside, _⟩ := hok.castle hcas
      rw [hty]
      rcases hside with ⟨hx, _, _, h6⟩ | ⟨hx, _, _, h2, _⟩ <;> rw [hx]
      · exact h6
      · exact h2
  · left
    obtain ⟨_, h1, h2, hx, hy, _⟩ := hok.ep hep
    rw [hx, hy]
    exact hc.1 ⟨h1, h2⟩

theorem written_not_enemy_king (s : Engine) (m : Move) (hok : PseudoOK s m) (y x : Int)
    (hon : onBoard x y = true)
    (h : (makeBoard s m).get y x = (if s.white_to_move then BKING else WKING)) :
    s.b.get y x = (if s.white_to_move then BKING else WKING) := by
  rw [makeBoard_get s m hok y x hon] at h
  unfold madeAt at h
  have hown := hok.own
  have hne : ∀ v : Nat, isOwn s.white_to_move v = true →
      v ≠ (if s.white_to_move then BKING else WKING) := by
    intro v hv
    rcases isOwn_cases hv with ⟨hw, h1, h2⟩ | ⟨hw, h1, h2⟩ <;> rw [hw] <;>
      simp only [if_true, if_false, Bool.false_eq_true, WKING, BKING] <;> omega
  have hemp : EMPTY ≠ (if s.white_to_move then BKING else WKING) := by
    cases s.white_to_move <;> decide
  have hrook : (if s.white_to_move then WROOK else BROOK) ≠
      (if s.white_to_move then BKING else WKING) := by
    cases s.white_to_move <;> decide
  have hprom : m.promotion ≠ 0 → m.promotion ≠ (if s.white_to_move then BKING else WKING) := by
    intro hp
    obtain ⟨_, _, _, _, _, _, hl⟩ := hok.promo hp
    cases hw : s.white_to_move <;> rw [hw] at hl <;>
      simp only [if_true, if_false, Bool.false_eq_true, List.mem_cons, List.mem_singleton,
        List.not_mem_nil, or_false] at hl ⊢ <;>
      rcases hl with h | h | h | h <;> rw [h] <;> decide
  have hpiece := hne _ hown
  cases hw : s.white_to_move <;>
    simp only [hw, if_true, if_false, Bool.false_eq_true] at h hpiece hemp hrook hprom ⊢ <;>
    split_ifs at h with h1 h2 h3 h4 h5 h6 h7 h8 <;>
    simp only [Option.getD_some, Option.getD_none] at h <;>
    first
      | exact h
      | exact absurd h hemp
      | exact absurd h hrook
      | exact absurd h hpiece
      | exact absurd h (hprom (by assumption))

theorem get_to_after (s : Engine) (m : Move) (hok : PseudoOK s m) :
    (makeBoard s m).get m.to_y m.to_x =
      (if m.promotion ≠ 0 then m.promotion else s.b.get m.from_y m.from_x) := by
  rw [makeBoard_get s m hok _ _ hok.to_on]
  have h1 : ¬ (m.to_y = m.from_y ∧ m.to_x = m.from_x) := fun h => hok.moved ⟨h.2, h.1⟩
  simp [madeAt, h1]

theorem own_king_survives (s : Engine) (m : Move) (hc : Consistent s) (hok : PseudoOK s m)
    (h : ∃ x y, onBoard x y = true ∧ s.b.get y x = (if s.white_to_move then WKING else BKING)) :
    ∃ x y, onBoard x y = true ∧
      (makeBoard s m).get y x = (if s.white_to_move then WKING else BKING) := by
  obtain ⟨kx, ky, hon, hk⟩ := h
  have hkk : s.b.get ky kx = WKING ∨ s.b.get ky kx = BKING := by
    rw [hk]; cases s.white_to_move
    · exact Or.inr rfl
    · exact Or.inl rfl
  by_cases hf : kx = m.from_x ∧ ky = m.from_y
  · refine ⟨m.to_x, m.to_y, hok.to_on, ?_⟩
    rw [get_to_after s m hok]
    have hpiece : s.b.get m.from_y m.from_x = (if s.white_to_move then WKING else BKING) := by
      rw [← hf.1, ← hf.2]; exact hk
    have hp0 : m.promotion = 0 := by
      by_contra hp
      obtain ⟨h1, _⟩ := hok.promo hp
      rw [hpiece] at h1
      cases hw : s.white_to_move <;> rw [hw] at h1 <;> exact absurd h1 (by decide)
    rw [if_neg (fun h => h hp0), hpiece]
  · refine ⟨kx, ky, hon, ?_⟩
    rw [makeBoard_keeps_king s m hc hok kx ky hon hf ?_ hkk, hk]
    rintro ⟨hx, hy⟩
    rw [hx, hy] at hk
    rcases target_empty_or_opp s m hc hok with h0 | ⟨_, h1⟩
    · rw [h0] at hk
      cases hw : s.white_to_move <;> rw [hw] at hk <;> exact absurd hk (by decide)
    · rw [hk] at h1
      cases hw : s.white_to_move <;> rw [hw] at h1 <;> exact absurd h1 (by decide)

theorem target_not_enemy_king (s : Engine) (c : Bool) (m : Move) (hc : Consistent s)
    (hm : m ∈ generatePseudo s c)
    (hu : AtMostOne s.b (if s.white_to_move then BKING else WKING))
    (hnc : inCheck s.b (!s.white_to_move) = false) :
    s.b.get m.to_y m.to_x ≠ (if s.white_to_move then BKING else WKING) := by
  intro ht
  have hok := pseudo_ok s c m hm
  have hne : s.b.get m.to_y m.to_x ≠ EMPTY := by
    rw [ht]; cases s.white_to_move <;> decide
  have hep : m.is_enpassant = false := by
    rcases target_empty_or_opp s m hc hok with h0 | ⟨h1, _⟩
    · exact absurd h0 hne
    · exact h1
  have hatt := capture_isAttacked s c m hm hep hne
  have hE : (if (!s.white_to_move) = true then WKING else BKING) =
      (if s.white_to_move then BKING else WKING) := by
    cases s.white_to_move <;> rfl
  have hin : inCheck s.b (!s.white_to_move) = true := by
    rw [inCheck_iff s.b (!s.white_to_move) (by rw [hE]; exact hu)]
    refine ⟨m.to_x, m.to_y, hok.to_on, by rw [hE]; exact ht, ?_⟩
    rw [Bool.not_not]; exact hatt
  rw [hin] at hnc
  exact absurd hnc (by decide)

theorem enemy_king_survives (s : Engine) (c : Bool) (m : Move) (hc : Consistent s)
    (hm : m ∈ generatePseudo s c)
    (hu : AtMostOne s.b (if s.white_to_move then BKING else WKING))
    (hnc : inCheck s.b (!s.white_to_move) = false)
    (h : ∃ x y, onBoard x y = true ∧ s.b.get y x = (if s.white_to_move then BKING else WKING)) :
    ∃ x y, onBoard x y = true ∧
      (makeBoard s m).get y x = (if s.white_to_move then BKING else WKING) := by
  obtain ⟨kx, ky, hon, hk⟩ := h
  have hok := pseudo_ok s c m hm
  have hkk : s.b.get ky kx = WKING ∨ s.b.get ky kx = BKING := by
    rw [hk]; cases s.white_to_move
    · exact Or.inl rfl
    · exact Or.inr rfl
  refine ⟨kx, ky, hon, ?_⟩
  rw [makeBoard_keeps_king s m hc hok kx ky hon ?_ ?_ hkk, hk]
  · rintro ⟨hx, hy⟩
    have hown := hok.own
    rw [← hx, ← hy, hk] at hown
    cases hw : s.white_to_move <;> rw [hw] at hown <;> exact absurd hown (by decide)
  · rintro ⟨hx, hy⟩
    rw [hx, hy] at hk
    exact target_not_enemy_king s c m hc hm hu hnc hk

theorem kings_step (s : Engine) (c : Bool) (m : Move) (hc : Consistent s)
    (hm : m ∈ generatePseudo s c)
    (hK : (kingSquares s.b (if s.white_to_move then WKING else BKING)).length = 1)
    (hE : (kingSquares s.b (if s.white_to_move then BKING else WKING)).length = 1)
    (hnc : inCheck s.b (!s.white_to_move) = false) :
    (kingSquares (makeBoard s m) (if s.white_to_move then WKING else BKING)).length = 1 ∧
    (kingSquares (makeBoard s m) (if s.white_to_move then BKING else WKING)).length = 1 ∧
    s.b.get m.to_y m.to_x ≠ WKING ∧ s.b.get m.to_y m.to_x ≠ BKING := by
  have hok := pseudo_ok s c m hm
  rw [oneKing_iff] at hK hE
  obtain ⟨hK1, hK2⟩ := hK
  obtain ⟨hE1, hE2⟩ := hE
  have hte := target_not_enemy_king s c m hc hm hE2 hnc
  have hto : s.b.get m.to_y m.to_x ≠ (if s.white_to_move then WKING else BKING) := by
    intro hk
    rcases target_empty_or_opp s m hc hok with h0 | ⟨_, h1⟩
    · rw [h0] at hk
      cases hw : s.white_to_move <;> rw [hw] at hk <;> exact absurd hk (by decide)
    · rw [hk] at h1
      cases hw : s.white_to_move <;> rw [hw] at h1 <;> exact absurd h1 (by decide)
  refine ⟨?_, ?_, ?_, ?_⟩
  · rw [oneKing_iff]
    exact ⟨own_king_survives s m hc hok hK1, atMostOne_after s m hok hK2⟩
  · rw [oneKing_iff]
    refine ⟨enemy_king_survives s c m hc hm hE2 hnc hE1, ?_⟩
    intro x y x' y' hon hon' hk hk'
    exact hE2 x y x' y' hon hon' (written_not_enemy_king s m hok y x hon hk)
      (written_not_enemy_king s m hok y' x' hon' hk')
  · cases hw : s.white_to_move <;> rw [hw] at hte hto
    · exact hte
    · exact hto
  · cases hw : s.white_to_move <;> rw [hw] at hte hto
    · exact hto
    · exact hte

theorem kingsOK_start (e : Engine) : KingsOK (setStartPos e) := by
  have h : KingsOK newEngine := by decide!
  exact h

theorem kingsOK_make (s : Engine) (m : Move) (hc : Consistent s) (hk : KingsOK s)
    (hm : m ∈ (generateLegal s).1) :
    KingsOK (makeMove s m) ∧
      s.b.get m.to_y m.to_x ≠ WKING ∧ s.b.get m.to_y m.to_x ≠ BKING := by
  have hp : m ∈ generatePseudo s false := legal_pseudo s m hm
  have hleg : inCheck (makeBoard s m) s.white_to_move = false := by
    rw [generateLegal_eq s hc] at hm
    have h := (List.mem_filter.mp hm).2
    simpa using h
  obtain ⟨⟨hW, hB⟩, hnc⟩ := hk
  have hb : (makeMove s m).b = makeBoard s m := rfl
  have hw : (makeMove s m).white_to_move = !s.white_to_move := rfl
  unfold KingsOK OneKingEach
  rw [hb, hw, Bool.not_not]
  cases hwt : s.white_to_move
  · have h := kings_step s false m hc hp (by rw [hwt]; exact hB) (by rw [hwt]; exact hW) hnc
    rw [hwt] at h hleg
    exact ⟨⟨⟨h.2.1, h.1⟩, hleg⟩, h.2.2⟩
  · have h := kings_step s false m hc hp (by rw [hwt]; exact hW) (by rw [hwt]; exact hB) hnc
    rw [hwt] at h hleg
    exact ⟨⟨⟨h.1, h.2.1⟩, hleg⟩, h.2.2⟩

theorem reachable_kingsOK (s : Engine) (h : Reachable s) : KingsOK s := by
  induction h with
  | start e => exact kingsOK_start e
  | step hr hm ih => exact (kingsOK_make _ _ (reachable_consistent _ hr) ih hm).1

/-- C14 (as amended). The predicate "exactly one white king and one black king are on the
board and the side that is not to move is not in check" holds in the position set by
`setStartPos`, and in every position in which the en-passant target square is empty whenever
`ep_file` is set and every set castling bit has its rook on the home corner (as in every
position reachable from the start) it is preserved by `makeMove(m)` for every move `m`
returned by `generateLegal()`; the destination square of such a move never holds a king. -/
theorem kings_invariant (e s : Engine) (m : Move) (hc : Consistent s) (hk : KingsOK s)
    (hm : m ∈ (generateLegal s).1) :
    KingsOK (setStartPos e) ∧ KingsOK (makeMove s m) ∧
      s.b.get m.to_y m.to_x ≠ WKING ∧ s.b.get m.to_y m.to_x ≠ BKING :=
  ⟨kingsOK_start e, kingsOK_make s m hc hk hm⟩

set_option maxRecDepth 100000 in
theorem kings_invariant_witness :
    e2e4 ∈ (generateLegal newEngine).1 ∧ KingsOK (makeMove newEngine e2e4) :=
  ⟨by decide!,
    (kings_invariant newEngine newEngine e2e4 (consistent_start _) (kingsOK_start _)
      (by decide!)).2.1⟩

set_option maxRecDepth 100000 in
/-- C14 fails as stated. In the position `k7/8/4K3/3Pp3/8/8/8/8 w - e6 0 1` there is one king
of each colour and Black is not in check; `generateLegal()` returns the en-passant capture
d5xe6, and after `makeMove` of it no white king is on the board. -/
theorem legal_move_removes_king :
    KingsOK fenKingOnEp ∧ epTake ∈ (generateLegal fenKingOnEp).1 ∧
      (kingSquares (makeMove fenKingOnEp epTake).b WKING).length = 0 ∧
      ¬ KingsOK (makeMove fenKingOnEp epTake) := by
  decide!

/-! ## Equality of moves (C15) -/

/-- C15 (as amended). Two `Move` values compare equal under `Move::operator==` exactly when
their origin square, destination square, promotion piece, en-passant flag and castle flag are
equal; the capture flag, the double-push flag, the captured piece and the ordering score
play no part. -/
theorem move_equality (a o : Move) :
    (Move.opEq a o = true ↔
      a.from_x = o.from_x ∧ a.from_y = o.from_y ∧ a.to_x = o.to_x ∧ a.to_y = o.to_y ∧
      a.promotion = o.promotion ∧ a.is_enpassant = o.is_enpassant ∧
      a.is_castle = o.is_castle) ∧
    (∀ (cap dbl : Bool) (cp : Nat) (sc : Int),
      Move.opEq { a with is_capture := cap, is_doublepush := dbl, captured_piece := cp,
                         score := sc } o = Move.opEq a o ∧
      Move.opEq a { o with is_capture := cap, is_doublepush := dbl, captured_piece := cp,
                           score := sc } = Move.opEq a o) := by
  refine ⟨?_, fun cap dbl cp sc => ⟨rfl, rfl⟩⟩
  unfold Move.opEq
  simp only [Bool.and_eq_true, decide_eq_true_eq, beq_iff_eq, and_assoc]

/-- C15 fails as stated. The king-side castling move and a move with the same origin,
destination and promotion but without the castle flag compare unequal. -/
theorem equal_squares_unequal_moves :
    whiteCastles.from_x = whiteKingTwoSteps.from_x ∧
    whiteCastles.from_y = whiteKingTwoSteps.from_y ∧
    whiteCastles.to_x = whiteKingTwoSteps.to_x ∧
    whiteCastles.to_y = whiteKingTwoSteps.to_y ∧
    whiteCastles.promotion = whiteKingTwoSteps.promotion ∧
    Move.opEq whiteCastles whiteKingTwoSteps = false := by
  decide

/-! ## Move notation and the move list of a position command (C16, C17) -/

theorem moveToUCI_data (m : Move) :
    (moveToUCI m).data =
      [coordChar 97 m.from_x, coordChar 49 m.from_y, coordChar 97 m.to_x, coordChar 49 m.to_y]
        ++ promoLetter m.promotion := by
  unfold moveToUCI promoLetter
  by_cases h0 : m.promotion = 0
  · simp [h0, WQUEEN, BQUEEN, WROOK, BROOK, WBISHOP, BBISHOP, WKNIGHT, BKNIGHT]
  · simp only [ne_eq, h0, not_false_eq_true, if_true]
    split_ifs <;> simp [String.push]

theorem coordChar_file (x : Int) (h0 : 0 ≤ x) (h7 : x ≤ 7) :
    charVal (coordChar 97 x) - 97 = x ∧
      'a'.toNat ≤ (coordChar 97 x).toNat ∧ (coordChar 97 x).toNat ≤ 'h'.toNat := by
  obtain ⟨n, rfl⟩ := Int.eq_ofNat_of_zero_le h0
  have hn : n ≤ 7 := by omega
  interval_cases n <;> decide

theorem coordChar_rank (y : Int) (h0 : 0 ≤ y) (h7 : y ≤ 7) :
    charVal (coordChar 49 y) - 49 = y ∧
      '1'.toNat ≤ (coordChar 49 y).toNat ∧ (coordChar 49 y).toNat ≤ '8'.toNat := by
  obtain ⟨n, rfl⟩ := Int.eq_ofNat_of_zero_le h0
  have hn : n ≤ 7 := by omega
  interval_cases n <;> decide

theorem uciToMove_of_data (s : Engine) (str : String) (c0 c1 c2 c3 : Char) (rest : List Char)
    (h : str.data = c0 :: c1 :: c2 :: c3 :: rest) :
    uciToMove s str =
      { from_x := charVal c0 - 97, from_y := charVal c1 - 49,
        to_x := charVal c2 - 97, to_y := charVal c3 - 49,
        promotion := promoOf s.white_to_move rest } := by
  unfold uciToMove
  rw [h]
  rfl

theorem promoOf_promoLetter (W : Bool) (p : Nat)
    (hp : p = 0 ∨ p ∈ (if W then [WQUEEN, WROOK, WBISHOP, WKNIGHT]
                       else [BQUEEN, BROOK, BBISHOP, BKNIGHT])) :
    (p = 0 → promoLetter p = []) ∧
    (p ≠ 0 → ∃ pc ∈ ['q', 'r', 'b', 'n'], promoLetter p = [pc]) ∧
    promoOf W (promoLetter p) = p := by
  rcases hp with h0 | hl
  · rw [h0]; cases W <;> decide
  · cases W <;>
      simp only [if_true, if_false, Bool.false_eq_true, List.mem_cons, List.mem_singleton,
        List.not_mem_nil, or_false] at hl <;>
      rcases hl with h | h | h | h <;> rw [h] <;> decide

/-- C16. For a move `m` with all coordinates in `0 .. 7` and promotion either 0 or a queen,
rook, bishop or knight of the side to move, `moveToUCI(m)` consists of a file letter `a`-`h`,
a rank digit `1`-`8`, a file letter and a rank digit, followed by one of `q`, `r`, `b`, `n`
exactly when `m` promotes, and `uciToMove(moveToUCI(m))` has the origin, destination and
promotion piece of `m`. -/
theorem notation_roundtrip (s : Engine) (m : Move)
    (hfx : 0 ≤ m.from_x ∧ m.from_x ≤ 7) (hfy : 0 ≤ m.from_y ∧ m.from_y ≤ 7)
    (htx : 0 ≤ m.to_x ∧ m.to_x ≤ 7) (hty : 0 ≤ m.to_y ∧ m.to_y ≤ 7)
    (hp : m.promotion = 0 ∨
      m.promotion ∈ (if s.white_to_move then [WQUEEN, WROOK, WBISHOP, WKNIGHT]
                     else [BQUEEN, BROOK, BBISHOP, BKNIGHT])) :
    (∃ f1 r1 f2 r2 : Char, ∃ tail : List Char,
      (moveToUCI m).data = [f1, r1, f2, r2] ++ tail ∧
      'a'.toNat ≤ f1.toNat ∧ f1.toNat ≤ 'h'.toNat ∧ '1'.toNat ≤ r1.toNat ∧ r1.toNat ≤ '8'.toNat ∧
      'a'.toNat ≤ f2.toNat ∧ f2.toNat ≤ 'h'.toNat ∧ '1'.toNat ≤ r2.toNat ∧ r2.toNat ≤ '8'.toNat ∧
      (m.promotion = 0 → tail = []) ∧
      (m.promotion ≠ 0 → ∃ pc ∈ ['q', 'r', 'b', 'n'], tail = [pc])) ∧
    (uciToMove s (moveToUCI m)).from_x = m.from_x ∧
    (uciToMove s (moveToUCI m)).from_y = m.from_y ∧
    (uciToMove s (moveToUCI m)).to_x = m.to_x ∧
    (uciToMove s (moveToUCI m)).to_y = m.to_y ∧
    (uciToMove s (moveToUCI m)).promotion = m.promotion := by
  obtain ⟨a1, a2, a3⟩ := coordChar_file m.from_x hfx.1 hfx.2
  obtain ⟨b1, b2, b3⟩ := coordChar_rank m.from_y hfy.1 hfy.2
  obtain ⟨c1, c2, c3⟩ := coordChar_file m.to_x htx.1 htx.2
  obtain ⟨d1, d2, d3⟩ := coordChar_rank m.to_y hty.1 hty.2
  have hd := moveToUCI_data m
  have hu := uciToMove_of_data s (moveToUCI m) _ _ _ _ _ hd
  obtain ⟨k1, k2, k3⟩ := promoOf_promoLetter s.white_to_move m.promotion hp
  refine ⟨⟨_, _, _, _, _, hd, a2, a3, b2, b3, c2, c3, d2, d3, k1, k2⟩, ?_, ?_, ?_, ?_, ?_⟩ <;>
    rw [hu]
  · exact a1
  · exact b1
  · exact c1
  · exact d1
  · exact k3

theorem notation_roundtrip_witness :
    (moveToUCI e2e4).data = ['e', '2', 'e', '4'] ∧
      (uciToMove newEngine (moveToUCI e2e4)).to_y = e2e4.to_y :=
  ⟨by decide,
    (notation_roundtrip newEngine e2e4 (by decide) (by decide) (by decide) (by decide)
      (Or.inl rfl)).2.2.2.2.1⟩

theorem coordChar_charVal (c : Char) (h : c.toNat < 256) :
    coordChar 97 (charVal c - 97) = c ∧ coordChar 49 (charVal c - 49) = c := by
  unfold coordChar charVal
  have key : ∀ base : Int,
      ((base + ((if c.toNat < 128 then (c.toNat : Int) else (c.toNat : Int) - 256) - base))
        % 256).toNat = c.toNat := by
    intro base
    split_ifs <;> omega
  rw [key 97, key 49]
  exact ⟨Char.ofNat_toNat c, Char.ofNat_toNat c⟩

theorem promoLetter_promoOf (W : Bool) (rest : List Char) :
    promoLetter (promoOf W rest) =
      (match rest with
       | pc :: _ => if pc = 'q' ∨ pc = 'r' ∨ pc = 'b' ∨ pc = 'n' then [pc] else []
       | [] => []) := by
  cases rest with
  | nil => rfl
  | cons pc t =>
    unfold promoOf
    simp only
    by_cases hq : pc = 'q'
    · subst hq; cases W <;> rfl
    by_cases hr : pc = 'r'
    · subst hr; cases W <;> rfl
    by_cases hb : pc = 'b'
    · subst hb; cases W <;> rfl
    by_cases hn : pc = 'n'
    · subst hn; cases W <;> rfl
    simp only [hq, hr, hb, hn, if_false, or_false]
    rfl

theorem heard_eq (s : Engine) (str : String) (hb : isBytes str) :
    moveToUCI (uciToMove s str) = heardAs str := by
  apply String.ext
  rw [moveToUCI_data]
  unfold heardAs uciToMove
  match hd : str.data with
  | [] => rfl
  | [_] => rfl
  | [_, _] => rfl
  | [_, _, _] => rfl
  | c0 :: c1 :: c2 :: c3 :: rest =>
    have h0 := hb c0 (by rw [hd]; simp)
    have h1 := hb c1 (by rw [hd]; simp)
    have h2 := hb c2 (by rw [hd]; simp)
    have h3 := hb c3 (by rw [hd]; simp)
    simp only [uciChars]
    rw [(coordChar_charVal c0 h0).1, (coordChar_charVal c1 h1).2, (coordChar_charVal c2 h2).1,
      (coordChar_charVal c3 h3).2, promoLetter_promoOf]

theorem heardAs_moveToUCI (m : Move) : heardAs (moveToUCI m) = moveToUCI m := by
  apply String.ext
  unfold heardAs
  rw [moveToUCI_data]
  simp only [List.cons_append, List.nil_append]
  unfold promoLetter
  split_ifs <;> rfl

theorem applyMoveList_cons (s : Engine) (mstr : String) (rest : List String)
    (hc : Consistent s) (hb : isBytes mstr) :
    applyMoveList s (mstr :: rest) =
      (match (generateLegal s).1.find? (fun lm => moveToUCI lm == heardAs mstr) with
       | some lm => applyMoveList (makeMove s lm) rest
       | none => (s, [illegalNotice mstr])) := by
  have h2 : (generateLegal s).2 = s := by rw [generateLegal_eq s hc]
  rw [applyMoveList]
  simp only [h2, heard_eq s mstr hb]

/-- C17 (as amended). In the loop over the move list of a `position` command, in a position
whose en-passant and castling fields agree with the board, a string `mstr` is compared as
`heardAs mstr` (its first four bytes, and the fifth when that is `q`, `r`, `b` or `n`): if
some move of `generateLegal()` has that notation, the first such move is made and the loop
goes on with the remaining strings; otherwise the position is left unchanged, the
illegal-move notice for `mstr` is printed and no remaining string is applied. The notation
of every move is compared as itself. -/
theorem position_move_list (s : Engine) (mstr : String) (rest : List String)
    (hc : Consistent s) (hb : isBytes mstr) :
    ((∃ lm ∈ (generateLegal s).1, moveToUCI lm = heardAs mstr) →
      ∃ lm ∈ (generateLegal s).1, moveToUCI lm = heardAs mstr ∧
        (generateLegal s).1.find? (fun m => moveToUCI m == heardAs mstr) = some lm ∧
        applyMoveList s (mstr :: rest) = applyMoveList (makeMove s lm) rest) ∧
    ((¬ ∃ lm ∈ (generateLegal s).1, moveToUCI lm = heardAs mstr) →
      applyMoveList s (mstr :: rest) = (s, [illegalNotice mstr])) ∧
    (∀ m : Move, heardAs (moveToUCI m) = moveToUCI m) := by
  refine ⟨?_, ?_, heardAs_moveToUCI⟩
  · rintro ⟨lm, hl, he⟩
    cases hf : (generateLegal s).1.find? (fun m => moveToUCI m == heardAs mstr) with
    | none =>
      rw [List.find?_eq_none] at hf
      exact absurd (by simpa using he) (hf lm hl)
    | some lm0 =>
      refine ⟨lm0, List.mem_of_find?_eq_some hf, ?_, rfl, ?_⟩
      · have := List.find?_some hf
        simpa using this
      · rw [applyMoveList_cons s mstr rest hc hb, hf]
  · intro hne
    have hf : (generateLegal s).1.find? (fun m => moveToUCI m == heardAs mstr) = none := by
      rw [List.find?_eq_none]
      intro m hm h
      exact hne ⟨m, hm, by simpa using h⟩
    rw [applyMoveList_cons s mstr rest hc hb, hf]

set_option maxRecDepth 100000 in
theorem position_move_list_witness :
    applyMoveList newEngine ["e2e5"] = (newEngine, [illegalNotice "e2e5"]) :=
  (position_move_list newEngine "e2e5" [] (consistent_start _) (by decide)).2.1 (by decide!)

set_option maxRecDepth 100000 in
/-- C17 fails as stated. From the start position the string `e2e4x` is the notation of no
legal move, yet the loop applies the move e2-e4 for it and prints nothing. -/
theorem trailing_bytes_accepted :
    (∀ m ∈ (generateLegal newEngine).1, moveToUCI m ≠ "e2e4x") ∧
    (applyMoveList newEngine ["e2e4x"]).1.b.get 3 4 = WPAWN ∧
    (applyMoveList newEngine ["e2e4x"]).1.b.get 1 4 = EMPTY ∧
    (applyMoveList newEngine ["e2e4x"]).1.white_to_move = false ∧
    (applyMoveList newEngine ["e2e4x"]).2 = [] := by
  decide!

/-! ## Search: the move returned (C18) -/

theorem over_congr (s t : Search) (h1 : t.clock = s.clock) (h2 : t.start_time = s.start_time)
    (h3 : t.time_limit_ms = s.time_limit_ms) (k : Nat) : Over t k ↔ Over s k := by
  unfold Over elapsedMs
  rw [h1, h2, h3]

theorem Adv.refl (s : Search) : Adv s s :=
  ⟨rfl, rfl, rfl, le_refl _, fun h => h, fun _ j h1 h2 => absurd h2 (by omega)⟩

theorem Adv.trans {s t u : Search} (h1 : Adv s t) (h2 : Adv t u) : Adv s u := by
  refine ⟨h2.clock.trans h1.clock, h2.start.trans h1.start, h2.limit.trans h1.limit,
    le_trans h1.reads h2.reads, fun h => h2.stop (h1.stop h), ?_⟩
  intro hu j hj1 hj2
  have ht : t.stop = false := by
    cases hts : t.stop with
    | false => rfl
    | true => rw [h2.stop hts] at hu; exact absurd hu (by decide)
  by_cases hj : j < t.reads
  · exact h1.quiet ht j hj1 hj
  · have := h2.quiet hu j (by omega) hj2
    rwa [over_congr s t h1.clock h1.start h1.limit] at this

/-- A step that touches neither the clock fields nor the stop flag. -/
theorem Adv.of_eq {s t : Search} (h1 : t.clock = s.clock) (h2 : t.start_time = s.start_time)
    (h3 : t.time_limit_ms = s.time_limit_ms) (h4 : t.reads = s.reads) (h5 : t.stop = s.stop) :
    Adv s t :=
  ⟨h1, h2, h3, le_of_eq h4.symm, fun h => h5.trans h, fun _ j hj1 hj2 => absurd hj2 (by omega)⟩

theorem adv_engine (s : Search) (e : Engine) : Adv s { s with e := e } :=
  Adv.of_eq rfl rfl rfl rfl rfl

theorem adv_updateHeuristics (s : Search) (m : Move) (depth ply : Int) :
    Adv s (updateHeuristics s m depth ply) :=
  Adv.of_eq rfl rfl rfl rfl rfl

theorem adv_ttStore (s : Search) (idx : Nat) (depth ply a b best : Int) (bm : Move) :
    Adv s (ttStore s idx depth ply a b best bm) :=
  Adv.of_eq rfl rfl rfl rfl rfl

theorem ready_adv {k fuel : Nat} {s t : Search} (hr : Ready k fuel s) (ha : Adv s t) :
    Ready k fuel t := by
  obtain ⟨ho, hs⟩ := hr
  refine ⟨(over_congr s t ha.clock ha.start ha.limit k).mpr ho, ?_⟩
  cases hts : t.stop with
  | true => exact Or.inl rfl
  | false =>
    right
    rcases hs with hs | ⟨h1, h2⟩
    · rw [ha.stop hs] at hts; exact absurd hts (by decide)
    · have hq := ha.quiet hts k h1
      have hle := ha.reads
      constructor
      · by_contra hlt
        exact hq (by omega) ho
      · omega

theorem searchMove_adv (child : Search → Int → Int → Int → Int × Search)
    (hc : ∀ s d a b, Adv s (child s d a b).2) (depth alpha beta : Int) (m : Move)
    (moveCount : Int) (s : Search) :
    Adv s (searchMove child depth alpha beta m moveCount s).2 := by
  simp only [searchMove]
  split_ifs
  all_goals
    first
    | exact Adv.refl _
    | exact hc _ _ _ _
    | exact (hc _ _ _ _).trans (hc _ _ _ _)
    | exact ((hc _ _ _ _).trans (hc _ _ _ _)).trans (hc _ _ _ _)

theorem pvsLoop_adv (child : Search → Int → Int → Int → Int × Search)
    (hc : ∀ s d a b, Adv s (child s d a b).2) (depth ply beta : Int) :
    ∀ (mv : List Move) (s : Search) (moveCount alpha best : Int) (bestMove : Move),
      Adv s (pvsLoop child depth ply beta mv s moveCount alpha best bestMove).2.2 := by
  intro mv
  induction mv with
  | nil => intro s _ _ _ _; exact Adv.refl s
  | cons m rest ih =>
    intro s moveCount alpha best bestMove
    have h1 : Adv s { (searchMove child depth alpha beta m (moveCount + 1)
        { s with e := makeMove s.e m }).2 with
        e := undoMove (searchMove child depth alpha beta m (moveCount + 1)
          { s with e := makeMove s.e m }).2.e m } :=
      ((adv_engine s _).trans (searchMove_adv child hc _ _ _ _ _ _)).trans (adv_engine _ _)
    simp only [pvsLoop]
    split_ifs
    all_goals
      first
      | exact h1
      | exact h1.trans (adv_updateHeuristics _ _ _ _)
      | exact h1.trans (ih _ _ _ _ _)
      | exact (h1.trans (adv_updateHeuristics _ _ _ _)).trans (ih _ _ _ _ _)

theorem pvsNode_adv (child : Search → Int → Int → Int → Int × Search)
    (hc : ∀ s d a b, Adv s (child s d a b).2) (s : Search) (depth ply alpha beta : Int) :
    Adv s (pvsNode child s depth ply alpha beta).2 := by
  have h0 : Adv s { s with nodes := s.nodes + 1 } := Adv.of_eq rfl rfl rfl rfl rfl
  simp only [pvsNode]
  split
  · exact h0
  · split_ifs
    all_goals
      first
      | exact h0
      | exact h0.trans (adv_engine _ _)
      | exact ((h0.trans (adv_engine _ _)).trans
          (pvsLoop_adv child hc _ _ _ _ _ _ _ _ _)).trans (adv_ttStore _ _ _ _ _ _ _ _)

theorem pvsBody_adv (rec : Search → Int → Int → Int → Int → Int × Search)
    (hrec : ∀ s d p a b, Adv s (rec s d p a b).2) (s : Search) (depth ply alpha beta : Int) :
    Adv s (pvsBody rec s depth ply alpha beta).2 ∧
    ((pvsBody rec s depth ply alpha beta).2.stop = false →
      s.reads < (pvsBody rec s depth ply alpha beta).2.reads) := by
  by_cases hs : s.stop = true
  · simp only [pvsBody, if_pos hs]
    exact ⟨⟨rfl, rfl, rfl, le_refl _, fun _ => rfl, fun h => Bool.noConfusion h⟩,
      fun h => Bool.noConfusion h⟩
  · by_cases ht : elapsedMs s s.reads > s.time_limit_ms
    · simp only [pvsBody, if_neg hs, timeUp, ht, decide_True, if_true]
      exact ⟨⟨rfl, rfl, rfl, Nat.le_succ _, fun _ => rfl, fun h => Bool.noConfusion h⟩,
        fun h => Bool.noConfusion h⟩
    · have h1 : Adv s { s with reads := s.reads + 1 } := by
        refine ⟨rfl, rfl, rfl, Nat.le_succ _, fun h => h, ?_⟩
        intro _ j hj1 hj2
        have hj : j = s.reads := by
          have : j < s.reads + 1 := hj2
          omega
        rw [hj]
        exact ht
      have key : ∀ t : Search, Adv { s with reads := s.reads + 1 } t →
          Adv s t ∧ (t.stop = false → s.reads < t.reads) := by
        intro t hA
        refine ⟨h1.trans hA, fun _ => ?_⟩
        have : s.reads + 1 ≤ t.reads := hA.reads
        omega
      simp only [pvsBody, if_neg hs, timeUp, ht, decide_False, Bool.false_eq_true, if_false]
      split_ifs
      · exact key _ (adv_engine _ _)
      · exact key _ (Adv.refl _)
      · exact key _ (pvsNode_adv _ (fun s1 d a b => hrec s1 d _ a b) _ _ _ _ _)

theorem pvsF_adv : ∀ (n : Nat) (s : Search) (depth ply alpha beta : Int),
    Adv s (pvsF n s depth ply alpha beta).2 ∧
    ((pvsF n s depth ply alpha beta).2.stop = false →
      s.reads < (pvsF n s depth ply alpha beta).2.reads) := by
  intro n
  induction n with
  | zero => exact pvsBody_adv _ (fun s _ _ _ _ => Adv.refl s)
  | succ k ih => exact pvsBody_adv _ (fun s d p a b => (ih s d p a b).1)

theorem pvs_adv (s : Search) (depth ply alpha beta : Int) :
    Adv s (pvs s depth ply alpha beta).2 :=
  (pvsF_adv _ s depth ply alpha beta).1

theorem pvs_reads (s : Search) (depth ply alpha beta : Int)
    (h : (pvs s depth ply alpha beta).2.stop = false) :
    s.reads < (pvs s depth ply alpha beta).2.reads :=
  (pvsF_adv _ s depth ply alpha beta).2 h

/-- The unfolding equation of `qsearch`: the model is the recursive function of the source. -/
theorem qsearch_unfold (e : Engine) (alpha beta ply : Int) :
    qsearch e alpha beta ply = qBody qsearch e alpha beta ply := by
  unfold qsearch
  by_cases hp : ply ≥ MAX_PLY - 1
  · have h0 : (MAX_PLY - 1 - ply).toNat = 0 := by omega
    rw [h0]
    simp only [qsearchF, qBody, hp, if_true]
  · have h1 : (MAX_PLY - 1 - ply).toNat = (MAX_PLY - 1 - (ply + 1)).toNat + 1 := by omega
    rw [h1]
    simp only [qsearchF, qBody, hp, if_false]

/-- The unfolding equation of `pvs`: the model is the recursive function of the source. -/
theorem pvs_unfold (s : Search) (depth ply alpha beta : Int) :
    pvs s depth ply alpha beta = pvsBody pvs s depth ply alpha beta := by
  unfold pvs
  by_cases hp : ply ≥ MAX_PLY - 1
  · have h0 : (MAX_PLY - 1 - ply).toNat = 0 := by omega
    rw [h0]
    simp only [pvsF, pvsBody, hp, if_true]
  · have h1 : (MAX_PLY - 1 - ply).toNat = (MAX_PLY - 1 - (ply + 1)).toNat + 1 := by omega
    rw [h1]
    simp only [pvsF, pvsBody, hp, if_false]

theorem aspiration_total (k : Nat) : ∀ (fuel : Nat) (s : Search) (d A B sc expand : Int),
    Ready k fuel s →
    ∃ r, aspiration fuel s d A B sc expand = some r ∧ Adv s r.2 := by
  intro fuel
  induction fuel with
  | zero =>
    intro s d A B sc expand hr
    have hs : s.stop = true := by
      rcases hr.2 with h | ⟨h1, h2⟩
      · exact h
      · omega
    exact ⟨(sc, s), by simp [aspiration, hs], Adv.refl s⟩
  | succ f ih =>
    intro s d A B sc expand hr
    by_cases hcond : (!s.stop && (decide (sc ≤ A) || decide (sc ≥ B))) = true
    · have hs : s.stop = false := by
        cases h : s.stop with
        | false => rfl
        | true => rw [h] at hcond; simp at hcond
      simp only [aspiration, hcond, if_true]
      obtain ⟨ho, hk⟩ := hr
      have hk2 : s.reads ≤ k ∧ k < s.reads + (f + 1) := by
        rcases hk with h | h
        · rw [hs] at h; exact absurd h (by decide)
        · exact h
      generalize hr1 : pvs s d 0 (if sc ≤ A then max (-INF_SCORE) (A - expand) else A)
        (if sc ≤ A then B else min INF_SCORE (B + expand)) = r1
      have ha : Adv s r1.2 := by rw [← hr1]; exact pvs_adv _ _ _ _ _
      have hrd : r1.2.stop = false → s.reads < r1.2.reads := by
        rw [← hr1]; exact pvs_reads _ _ _ _ _
      have hready : Ready k f r1.2 := by
        refine ⟨(over_congr s r1.2 ha.clock ha.start ha.limit k).mpr ho, ?_⟩
        cases hst : r1.2.stop with
        | true => exact Or.inl rfl
        | false =>
          right
          have h1 := hrd hst
          have hq := ha.quiet hst k hk2.1
          constructor
          · by_contra hlt
            exact hq (by omega) ho
          · omega
      obtain ⟨r, hr, hadv⟩ := ih r1.2 d _ _ r1.1 (expand * 9 / 5 + 10) hready
      exact ⟨r, hr, ha.trans hadv⟩
    · exact ⟨(sc, s), by simp only [aspiration, hcond, Bool.false_eq_true, if_false], Adv.refl s⟩

theorem rootBest_mem (s : Search) (root : List Move) (best : Move) (h : best ∈ root) :
    rootBest s root best ∈ root := by
  simp only [rootBest]
  split_ifs
  · split
    · next r hr => exact List.mem_of_find?_eq_some hr
    · exact h
  · exact h

theorem adv_timeUp (s : Search) (h : (timeUp s).1 = false) : Adv s (timeUp s).2 := by
  refine ⟨rfl, rfl, rfl, Nat.le_succ _, fun hs => hs, ?_⟩
  intro _ j hj1 hj2
  have hj : j = s.reads := by
    have : j < s.reads + 1 := hj2
    omega
  have h1 : ¬ elapsedMs s s.reads > s.time_limit_ms := by simpa [timeUp] using h
  rw [hj]
  exact h1

theorem deepen_mem (fuel : Nat) (root : List Move) (maxDepth : Int) :
    ∀ (n : Nat) (s : Search) (best : Move) (prev d : Int) (m : Move) (s1 : Search),
      best ∈ root → deepen fuel root maxDepth n s best prev d = some (m, s1) → m ∈ root := by
  intro n
  induction n with
  | zero =>
    intro s best prev d m s1 hb h
    cases h
    exact hb
  | succ k ih =>
    intro s best prev d m s1 hb h
    by_cases hd : d ≤ maxDepth
    · simp only [deepen, if_pos hd] at h
      generalize (if d ≥ 3 then prev - (35 + d * 3) else -INF_SCORE) = A at h
      generalize (if d ≥ 3 then prev + (35 + d * 3) else INF_SCORE) = B at h
      split at h
      · exact absurd h (by simp)
      · split_ifs at h
        · cases h; exact hb
        · cases h; exact rootBest_mem _ _ _ hb
        · exact ih _ _ _ _ _ _ (rootBest_mem _ _ _ hb) h
    · simp only [deepen, if_neg hd] at h
      cases h
      exact hb

theorem deepen_total (k fuel : Nat) (root : List Move) (maxDepth : Int) :
    ∀ (n : Nat) (s : Search) (best : Move) (prev d : Int),
      Ready k fuel s → ∃ r, deepen fuel root maxDepth n s best prev d = some r := by
  intro n
  induction n with
  | zero => intro s best prev d _; exact ⟨_, rfl⟩
  | succ j ih =>
    intro s best prev d hr
    by_cases hd : d ≤ maxDepth
    · simp only [deepen, if_pos hd]
      generalize (if d ≥ 3 then prev - (35 + d * 3) else -INF_SCORE) = A
      generalize (if d ≥ 3 then prev + (35 + d * 3) else INF_SCORE) = B
      have ha : Adv s (pvs s d 0 A B).2 := pvs_adv _ _ _ _ _
      obtain ⟨⟨sc, s1⟩, hasp, hadv⟩ := aspiration_total k fuel (pvs s d 0 A B).2 d A B
        (pvs s d 0 A B).1 80 (ready_adv hr ha)
      rw [hasp]
      simp only
      split_ifs with h1 h2
      · exact ⟨_, rfl⟩
      · exact ⟨_, rfl⟩
      · have h3 : (timeUp s1).1 = false := by simpa using h2
        exact ih _ _ _ _ (ready_adv (ready_adv (ready_adv hr ha) hadv) (adv_timeUp s1 h3))
    · simp only [deepen, if_neg hd]
      exact ⟨_, rfl⟩

/-- C18.  The move returned by `search`.  Whatever the position, depth, budget, clock, book
and table contents: a move returned by `search` is `MOVE_NONE` when `generateLegal()` is
empty at the root and an element of the root list otherwise; with an empty root list
`MOVE_NONE` is returned at once; and `search` does return as soon as some later clock
reading lies beyond the budget (the re-search loop runs at most as many rounds as there are
readings before that one). -/
theorem search_returns_root_move (book : Book) (s : Search) (maxDepth timeMs : Int) :
    (∀ (fuel : Nat) (m : Move) (s1 : Search),
      search book fuel s maxDepth timeMs = some (m, s1) →
        ((generateLegal s.e).1 = [] → m = MOVE_NONE) ∧
        ((generateLegal s.e).1 ≠ [] → m ∈ (generateLegal s.e).1)) ∧
    ((generateLegal s.e).1 = [] →
      ∀ fuel : Nat, ∃ s1, search book fuel s maxDepth timeMs = some (MOVE_NONE, s1)) ∧
    (∀ k fuel : Nat, s.reads < k →
      (s.clock k - s.clock s.reads).tdiv 1000000 > timeMs → k - s.reads ≤ fuel →
      ∃ m s1, search book fuel s maxDepth timeMs = some (m, s1)) := by
  have he : (searchStart s timeMs).e = s.e := rfl
  refine ⟨?_, ?_, ?_⟩
  · intro fuel m s1 h
    simp only [search, he] at h
    cases hg : (generateLegal s.e).1 with
    | nil =>
      rw [hg] at h
      simp only [List.isEmpty_nil, if_true, Option.some.injEq, Prod.mk.injEq] at h
      exact ⟨fun _ => h.1.symm, fun hne => absurd rfl hne⟩
    | cons a l =>
      refine ⟨fun hnil => absurd hnil (by simp), fun _ => ?_⟩
      rw [← hg]
      have hne : (generateLegal s.e).1.isEmpty = false := by rw [hg]; rfl
      simp only [hne, Bool.false_eq_true, if_false] at h
      split at h
      · next r hb =>
        simp only [Option.some.injEq, Prod.mk.injEq] at h
        rw [← h.1]
        simp only [bookMove] at hb
        split_ifs at hb
        split at hb
        · next replies _ =>
          simp only [bookReply] at hb
          obtain ⟨u, _, hu⟩ := List.exists_of_findSome?_eq_some hb
          exact List.mem_of_find?_eq_some hu
        · exact absurd hb (by simp)
      · exact deepen_mem _ _ _ _ _ _ _ _ _ _ (by rw [hg]; exact List.mem_cons_self _ _) h
  · intro hnil fuel
    refine ⟨{ searchStart s timeMs with e := (generateLegal s.e).2 }, ?_⟩
    simp only [search, he, hnil, List.isEmpty_nil, if_true]
  · intro k fuel hk hover hfuel
    simp only [search, he]
    split_ifs
    · exact ⟨_, _, rfl⟩
    · split
      · exact ⟨_, _, rfl⟩
      · have hready : Ready k fuel { searchStart s timeMs with e := (generateLegal s.e).2 } := by
          refine ⟨hover, Or.inr ⟨?_, ?_⟩⟩
          · show s.reads + 1 ≤ k
            omega
          · show k < s.reads + 1 + fuel
            omega
        obtain ⟨⟨m, s1⟩, hd⟩ := deepen_total k fuel (generateLegal s.e).1 maxDepth
          maxDepth.toNat _ ((generateLegal s.e).1.headD {}) 0 1 hready
        exact ⟨m, s1, hd⟩

set_option maxRecDepth 100000 in
/-- From the start position, with a clock that advances one second per reading, a search to
depth 64 with a budget of 1000 ms returns, and what it returns is a legal root move. -/
theorem search_returns_root_move_witness :
    ∃ m s1, search initBook 2 { clock := fun k => 1000000000 * (k : Int) } 64 1000
        = some (m, s1) ∧ m ∈ (generateLegal newEngine).1 := by
  obtain ⟨h1, _, h3⟩ :=
    search_returns_root_move initBook { clock := fun k => 1000000000 * (k : Int) } 64 1000
  obtain ⟨m, s1, h⟩ := h3 2 2 (by decide) (by decide) (by decide)
  exact ⟨m, s1, h, (h1 2 m s1 h).2 (by decide!)⟩

/-! ## Search: a clock that stands still -/

set_option maxRecDepth 100000 in
theorem newEngine_not_inCheck : inCheck newEngine.b newEngine.white_to_move = false := by
  decide!

theorem ttProbe_exact (te : TTEntry) (hash : Nat) (depth alpha beta : Int)
    (h1 : te.key = hash) (h2 : te.depth ≥ depth) (h3 : te.flag = TT_EXACT)
    (h4 : te.score = INF_SCORE) :
    ttProbe te hash depth 0 alpha beta = (some INF_SCORE, {}) := by
  simp only [ttProbe, h1, h2, h3, h4, and_self, if_true]
  simp

theorem frozen_pvs (s : Search) (h : Frozen s) :
    pvs s 1 0 (-INF_SCORE) INF_SCORE
      = (INF_SCORE, { s with reads := s.reads + 1, nodes := s.nodes + 1 }) := by
  obtain ⟨he, hstop, hclock, hstart, hlimit, htt⟩ := h
  have hp : ttProbe loudEntry newEngine.hash 1 0 (-INF_SCORE) INF_SCORE = (some INF_SCORE, {}) :=
    ttProbe_exact _ _ _ _ _ rfl (by decide) rfl rfl
  have hs : ¬ s.stop = true := by rw [hstop]; decide
  have ht : ¬ elapsedMs s s.reads > s.time_limit_ms := by
    rw [elapsedMs, hclock, hstart, hlimit]
    show ¬ ((0 : Int) - 0).tdiv 1000000 > 1000
    decide
  have hc : inCheck s.e.b s.e.white_to_move = false := by rw [he]; exact newEngine_not_inCheck
  have hpr : ttProbe (s.TT (s.e.hash &&& (TT_SIZE - 1))) s.e.hash 1 0 (-INF_SCORE) INF_SCORE
      = (some INF_SCORE, {}) := by rw [htt, he]; exact hp
  rw [pvs_unfold]
  simp only [pvsBody, if_neg hs, timeUp, ht, decide_False, Bool.false_eq_true, if_false,
    pvsNode, hc, hpr]
  simp

theorem frozen_step (s : Search) (h : Frozen s) :
    Frozen { s with reads := s.reads + 1, nodes := s.nodes + 1 } := h

theorem frozen_aspiration : ∀ (fuel : Nat) (s : Search) (expand : Int), Frozen s → 0 ≤ expand →
    aspiration fuel s 1 (-INF_SCORE) INF_SCORE INF_SCORE expand = none := by
  intro fuel
  induction fuel with
  | zero =>
    intro s expand h _
    simp [aspiration, h.2.1]
  | succ f ih =>
    intro s expand h hx
    have hB : min INF_SCORE (INF_SCORE + expand) = INF_SCORE := by
      simp only [INF_SCORE]; omega
    have hA : ¬ INF_SCORE ≤ -INF_SCORE := by decide
    have hc : (!s.stop && (decide (INF_SCORE ≤ -INF_SCORE) || decide (INF_SCORE ≥ INF_SCORE)))
        = true := by rw [h.2.1]; decide
    rw [aspiration, if_pos hc]
    simp only [hA, if_false, hB, frozen_pvs s h]
    exact ih _ _ (frozen_step s h) (by omega)

set_option maxRecDepth 100000 in
/-- As long as the clock stands still the re-search loop of `search` does not end: with
`loudEntry` in the table, every round of depth 1 returns the stored score `INF_SCORE`, which
no window contains. -/
theorem search_spins_on_frozen_clock (fuel : Nat) :
    search initBook fuel frozenSearch 1 1000 = none := by
  have hg : generateLegal newEngine
      = ((generatePseudo newEngine false).filter
          (fun m => !inCheck (makeBoard newEngine m) newEngine.white_to_move), newEngine) :=
    generateLegal_eq newEngine (consistent_start _)
  have hne : (generateLegal newEngine).1.isEmpty = false := by decide!
  have he : (searchStart frozenSearch 1000).e = newEngine := rfl
  have hb : ∀ root, bookMove initBook newEngine root = none := by
    intro root
    have : List.lookup (bookKey newEngine) initBook = none := by decide
    simp only [bookMove, this]
    split_ifs <;> rfl
  have h2 : (generateLegal newEngine).2 = newEngine := by rw [hg]
  have hF : Frozen { searchStart frozenSearch 1000 with e := newEngine } :=
    ⟨rfl, rfl, rfl, rfl, rfl, rfl⟩
  simp only [search, he, hne, h2, hb, Bool.false_eq_true, if_false]
  have h1 : (1 : Int).toNat = 0 + 1 := rfl
  rw [h1, deepen]
  have hd : ¬ (1 : Int) ≥ 3 := by decide
  simp only [le_refl, if_true, hd, if_false, frozen_pvs _ hF]
  rw [frozen_aspiration fuel _ 80 (frozen_step _ hF) (by decide)]

/-! ## Search: the opening book (C19) -/

theorem legalMove_history (s : Engine) (m : Move) :
    (legalMove s m).2.uci_history = s.uci_history := by
  simp only [legalMove]
  split_ifs
  · rfl
  · simp [undoMove, makeMove]

theorem filterLegal_history : ∀ (l : List Move) (s : Engine),
    (filterLegal s l).2.uci_history = s.uci_history := by
  intro l
  induction l with
  | nil => intro s; rfl
  | cons m rest ih =>
    intro s
    simp only [filterLegal]
    rw [ih, legalMove_history]

theorem generateLegal_history (s : Engine) :
    (generateLegal s).2.uci_history = s.uci_history :=
  filterLegal_history _ s

theorem bookKey_congr (a b : Engine) (h : a.uci_history = b.uci_history) :
    bookKey a = bookKey b := by
  unfold bookKey
  rw [h]

theorem bookReply_first (pre post : List String) (u : String) (root : List Move)
    (hpre : ∀ v ∈ pre, ∀ r ∈ root, moveToUCI r ≠ v)
    (hu : ∃ r ∈ root, moveToUCI r = u) :
    ∃ m, bookReply (pre ++ u :: post) root = some m ∧ m ∈ root ∧ moveToUCI m = u := by
  unfold bookReply
  induction pre with
  | nil =>
    obtain ⟨r, hr, hru⟩ := hu
    cases hf : root.find? (fun r => moveToUCI r == u) with
    | none =>
      have := List.find?_eq_none.mp hf r hr
      simp [hru] at this
    | some m =>
      refine ⟨m, ?_, List.mem_of_find?_eq_some hf, ?_⟩
      · simp [List.findSome?_cons, hf]
      · have := List.find?_some hf
        simpa using this
  | cons v pre ih =>
    have hv : root.find? (fun r => moveToUCI r == v) = none := by
      apply List.find?_eq_none.mpr
      intro r hr
      have := hpre v (List.mem_cons_self _ _) r hr
      simpa using this
    obtain ⟨m, hm⟩ := ih (fun w hw => hpre w (List.mem_cons_of_mem _ hw))
    refine ⟨m, ?_, hm.2⟩
    simp only [List.cons_append, List.findSome?_cons, hv]
    exact hm.1

theorem bookReply_none (replies : List String) (root : List Move)
    (h : ∀ v ∈ replies, ∀ r ∈ root, moveToUCI r ≠ v) : bookReply replies root = none := by
  unfold bookReply
  apply List.findSome?_eq_none_iff.mpr
  intro v hv
  apply List.find?_eq_none.mpr
  intro r hr
  simpa using h v hv r hr

theorem search_bookless (book : Book) (fuel : Nat) (s : Search) (maxDepth timeMs : Int)
    (h : bookMove book (generateLegal s.e).2 (generateLegal s.e).1 = none) :
    search book fuel s maxDepth timeMs = search [] fuel s maxDepth timeMs := by
  have h0 : bookMove [] (generateLegal s.e).2 (generateLegal s.e).1 = none := by
    unfold bookMove
    split_ifs <;> rfl
  have he : (searchStart s timeMs).e = s.e := rfl
  simp only [search, he, h, h0]

/-- C19.  Book lookup of `search`.  With fewer than 12 moves in `uci_history` and `bookKey()`
a key of the book, `search` returns, for the first reply `u` of that key that is the
notation of a legal root move, a root move with that notation; it does so for every depth,
budget, clock and table contents and without a call of `pvs` (no node counted, no clock
reading besides `start_time`, table untouched).  With 12 or more moves in `uci_history`,
and also when no reply of the key is the notation of a root move, `search` behaves as with
an empty book. -/
theorem book_lookup (book : Book) (fuel : Nat) (s : Search) (maxDepth timeMs : Int) :
    (∀ (replies pre post : List String) (u : String),
      s.e.uci_history.length < 12 →
      book.lookup (bookKey s.e) = some replies →
      replies = pre ++ u :: post →
      (∀ v ∈ pre, ∀ r ∈ (generateLegal s.e).1, moveToUCI r ≠ v) →
      (∃ r ∈ (generateLegal s.e).1, moveToUCI r = u) →
      ∃ m s1, search book fuel s maxDepth timeMs = some (m, s1) ∧
        m ∈ (generateLegal s.e).1 ∧ moveToUCI m = u ∧
        s1.nodes = 0 ∧ s1.reads = s.reads + 1 ∧ s1.TT = s.TT) ∧
    (12 ≤ s.e.uci_history.length →
      search book fuel s maxDepth timeMs = search [] fuel s maxDepth timeMs) ∧
    (∀ replies : List String,
      book.lookup (bookKey s.e) = some replies →
      (∀ v ∈ replies, ∀ r ∈ (generateLegal s.e).1, moveToUCI r ≠ v) →
      search book fuel s maxDepth timeMs = search [] fuel s maxDepth timeMs) := by
  have hk : bookKey (generateLegal s.e).2 = bookKey s.e :=
    bookKey_congr _ _ (generateLegal_history s.e)
  refine ⟨?_, ?_, ?_⟩
  · intro replies pre post u hlen hkey hsplit hpre hu
    obtain ⟨m, hm, hmem, hmu⟩ := bookReply_first pre post u _ hpre hu
    have hne : (generateLegal s.e).1.isEmpty = false := by
      cases hg : (generateLegal s.e).1 with
      | nil => rw [hg] at hmem; exact absurd hmem (List.not_mem_nil _)
      | cons a l => rfl
    have hb : bookMove book (generateLegal s.e).2 (generateLegal s.e).1 = some m := by
      unfold bookMove
      rw [generateLegal_history, if_pos hlen, hk, hkey, hsplit]
      exact hm
    refine ⟨m, { searchStart s timeMs with e := (generateLegal s.e).2 }, ?_, hmem, hmu,
      rfl, rfl, rfl⟩
    have he : (searchStart s timeMs).e = s.e := rfl
    simp only [search, he, hne, hb, Bool.false_eq_true, if_false]
  · intro hlen
    apply search_bookless
    unfold bookMove
    rw [generateLegal_history, if_neg (by omega)]
  · intro replies hkey hnone
    apply search_bookless
    unfold bookMove
    rw [hk, hkey]
    split_ifs
    · exact bookReply_none _ _ hnone
    · rfl

set_option maxRecDepth 100000 in
/-- After `e2e4 e7e5` from the start position the book reply `g1f3` is returned. -/
theorem book_lookup_witness :
    ∃ m s1, search initBook 0 { e := afterE4E5 } 64 1000 = some (m, s1) ∧
      m ∈ (generateLegal afterE4E5).1 ∧ moveToUCI m = "g1f3" ∧
      s1.nodes = 0 ∧ s1.reads = 0 + 1 ∧ s1.TT = ({ e := afterE4E5 } : Search).TT :=
  (book_lookup initBook 0 { e := afterE4E5 } 64 1000).1 ["g1f3", "d2d4"] [] ["d2d4"] "g1f3"
    (by decide!) (by decide!) rfl (fun v hv => absurd hv (List.not_mem_nil _))
    ⟨g1f3, by decide!, by decide!⟩

/-! ## Search: positions without a legal move (C20) -/

theorem pvsBody_no_moves (rec : Search → Int → Int → Int → Int → Int × Search) (s : Search)
    (depth ply alpha beta : Int)
    (hempty : (generateLegal s.e).1 = [])
    (hd : 1 ≤ depth) (hp : ply < MAX_PLY - 1) (hstop : s.stop = false)
    (htime : ¬ elapsedMs s s.reads > s.time_limit_ms)
    (htt : (s.TT (s.e.hash &&& (TT_SIZE - 1))).key ≠ s.e.hash)
    (hab : max alpha (-MATE_IN_MAX + ply) < min beta (MATE_IN_MAX - ply - 1)) :
    (pvsBody rec s depth ply alpha beta).1 =
      if inCheck (generateLegal s.e).2.b (generateLegal s.e).2.white_to_move
      then -MATE_SCORE + ply else 0 := by
  have hd0 : ¬ depth ≤ 0 := by omega
  have hp0 : ¬ ply ≥ MAX_PLY - 1 := by omega
  have hab0 : ¬ max alpha (-MATE_IN_MAX + ply) ≥ min beta (MATE_IN_MAX - ply - 1) := by omega
  simp only [pvsBody, hstop, timeUp, htime, decide_False, Bool.false_eq_true, if_false, hd0, hp0,
    pvsNode, ttProbe, htt, false_and, hab0, hempty, List.isEmpty_nil, if_true]
  split <;> rfl

theorem pvsF_eq_body (n : Nat) : ∃ rec, pvsF n = pvsBody rec := by
  cases n with
  | zero => exact ⟨_, rfl⟩
  | succ k => exact ⟨_, rfl⟩

theorem generateLegal_state (s : Engine) (hc : Consistent s) : (generateLegal s).2 = s := by
  rw [generateLegal_eq s hc]

/-- C20 (amended).  In a position whose en-passant field and castling rights agree with the
board (`Consistent`, which holds for every position reached by play), when `generateLegal()`
is empty, `depth ≥ 1`, `ply < MAX_PLY - 1`, the stop flag is clear, the clock reading is
within the budget, the table slot of the hash holds another key and `alpha < beta` after the
mate-distance clamp, `pvs` returns `-MATE_SCORE + ply` if the side to move is in check and
`0` otherwise. -/
theorem pvs_no_legal_moves (s : Search) (depth ply alpha beta : Int)
    (hc : Consistent s.e)
    (hempty : (generateLegal s.e).1 = [])
    (hd : 1 ≤ depth) (hp : ply < MAX_PLY - 1) (hstop : s.stop = false)
    (htime : ¬ elapsedMs s s.reads > s.time_limit_ms)
    (htt : (s.TT (s.e.hash &&& (TT_SIZE - 1))).key ≠ s.e.hash)
    (hab : max alpha (-MATE_IN_MAX + ply) < min beta (MATE_IN_MAX - ply - 1)) :
    (pvs s depth ply alpha beta).1 =
      if inCheck s.e.b s.e.white_to_move then -MATE_SCORE + ply else 0 := by
  obtain ⟨rec, hrec⟩ := pvsF_eq_body (MAX_PLY - 1 - ply).toNat
  have h := pvsBody_no_moves rec s depth ply alpha beta hempty hd hp hstop htime htt hab
  rw [generateLegal_state s.e hc] at h
  unfold pvs
  rw [hrec]
  exact h

set_option maxRecDepth 100000 in
/-- The back-rank mate searched at ply 3 scores `-MATE_SCORE + 3`. -/
theorem pvs_no_legal_moves_witness :
    (pvs { e := fenBackRankMate } 1 3 (-INF_SCORE) INF_SCORE).1 = -28997 :=
  (pvs_no_legal_moves { e := fenBackRankMate } 1 3 (-INF_SCORE) INF_SCORE
    (by decide!) (by decide!) (by decide) (by decide) rfl (by decide!) (by decide!)
    (by decide)).trans (by decide!)

set_option maxRecDepth 100000 in
/-- C20 as stated fails for a position whose en-passant field contradicts the board: White
is in check and has no legal move, every condition of the claim holds, and `pvs` returns
`0`, the stalemate score (trying the en-passant capture d5xe6 inside `generateLegal` removes
the checking rook from e6, and the check is tested after that). -/
theorem mate_scored_as_stalemate :
    (generateLegal fenMatedStaleEp).1 = [] ∧
    inCheck fenMatedStaleEp.b fenMatedStaleEp.white_to_move = true ∧
    ¬ elapsedMs { e := fenMatedStaleEp } 0 > 0 ∧
    (({ e := fenMatedStaleEp } : Search).TT (fenMatedStaleEp.hash &&& (TT_SIZE - 1))).key
      ≠ fenMatedStaleEp.hash ∧
    max (-INF_SCORE) (-MATE_IN_MAX + 0) < min INF_SCORE (MATE_IN_MAX - 0 - 1) ∧
    (pvs { e := fenMatedStaleEp } 1 0 (-INF_SCORE) INF_SCORE).1 = 0 ∧
    (0 : Int) ≠ -MATE_SCORE + 0 := by
  decide!

/-! ## Colour symmetry of evaluate: squares (C21) -/

theorem whiteScore_swap (matW matB pst minorW minorB bishopsW bishopsB mob : Int) :
    whiteScore matB matW (-pst) minorB minorW bishopsB bishopsW (-mob)
      = - whiteScore matW matB pst minorW minorB bishopsW bishopsB mob := by
  simp only [whiteScore]
  split_ifs <;> omega

theorem evaluate_eq (s : Engine) :
    evaluate s =
      (if s.white_to_move then 1 else -1) *
        whiteScore (squares.foldl (evalSquare s.b) {}).matW
          (squares.foldl (evalSquare s.b) {}).matB (squares.foldl (evalSquare s.b) {}).pst
          (squares.foldl (evalSquare s.b) {}).minorW (squares.foldl (evalSquare s.b) {}).minorB
          (countPiece s.b WBISHOP) (countPiece s.b BBISHOP)
          (squares.foldl (mobSquare s.b) 0) := by
  simp only [evaluate, whiteScore]
  split_ifs <;> simp

theorem flip_perm : (squares.map flipSquare).Perm squares := by decide

theorem sum_flip (g : Int × Int → Int) :
    (squares.map (fun yx => g (flipSquare yx))).sum = (squares.map g).sum := by
  have h : (squares.map (fun yx => g (flipSquare yx))) = (squares.map flipSquare).map g := by
    rw [List.map_map]; rfl
  rw [h]
  exact (flip_perm.map g).sum_eq

theorem foldl_add_sum {α : Type} (f : α → Int) (l : List α) (c : Int) :
    l.foldl (fun acc x => acc + f x) c = c + (l.map f).sum := by
  induction l generalizing c with
  | nil => simp
  | cons a l ih => simp [List.foldl_cons, ih, add_assoc]

theorem evalSquare_congr (b c : Board) (a : EvalAcc) (yx : Int × Int)
    (h : b.get yx.1 yx.2 = c.get yx.1 yx.2) : evalSquare b a yx = evalSquare c a yx := by
  unfold evalSquare
  rw [h]

theorem evalSquare_add (b : Board) (a : EvalAcc) (yx : Int × Int) :
    evalSquare b a yx = EvalAcc.add a (evalSquare b {} yx) := by
  have hp := Board.get_lt b yx.1 yx.2
  unfold evalSquare
  generalize b.get yx.1 yx.2 = p at hp ⊢
  generalize (sq yx.2 yx.1).toNat = i
  interval_cases p <;>
    simp [EvalAcc.add, isWhitePiece, sub_eq_add_neg, WPAWN, WKNIGHT, WBISHOP, WROOK, WQUEEN, WKING,
      BPAWN, BKNIGHT, BBISHOP, BROOK, BQUEEN, BKING]

/-- The totals of the first loop of `evaluate` are sums over the squares. -/
theorem fold_evalSquare (b : Board) (l : List (Int × Int)) (a : EvalAcc) :
    (l.foldl (evalSquare b) a).matW = a.matW + (l.map (fun yx => (evalSquare b {} yx).matW)).sum ∧
    (l.foldl (evalSquare b) a).matB = a.matB + (l.map (fun yx => (evalSquare b {} yx).matB)).sum ∧
    (l.foldl (evalSquare b) a).pst = a.pst + (l.map (fun yx => (evalSquare b {} yx).pst)).sum ∧
    (l.foldl (evalSquare b) a).minorW
      = a.minorW + (l.map (fun yx => (evalSquare b {} yx).minorW)).sum ∧
    (l.foldl (evalSquare b) a).minorB
      = a.minorB + (l.map (fun yx => (evalSquare b {} yx).minorB)).sum := by
  induction l generalizing a with
  | nil => simp
  | cons x l ih =>
    obtain ⟨h1, h2, h3, h4, h5⟩ := ih (evalSquare b a x)
    simp only [List.foldl_cons, List.map_cons, List.sum_cons, h1, h2, h3, h4, h5]
    rw [evalSquare_add b a x]
    simp only [EvalAcc.add]
    refine ⟨?_, ?_, ?_, ?_, ?_⟩ <;> ring

set_option maxRecDepth 100000 in
/-- On every square and for every piece code: the counters of a piece and those of the
piece of the other colour on the flipped square are each other's mirror image. -/
theorem evalSquare_mirror_cases :
    ∀ yx ∈ squares, ∀ p ∈ List.range 16,
      (evalSquare (Board.zero.set yx.1 yx.2 (swapColour p)) {} yx).matW
        = (evalSquare (Board.zero.set (7 - yx.1) yx.2 p) {} (flipSquare yx)).matB ∧
      (evalSquare (Board.zero.set yx.1 yx.2 (swapColour p)) {} yx).matB
        = (evalSquare (Board.zero.set (7 - yx.1) yx.2 p) {} (flipSquare yx)).matW ∧
      (evalSquare (Board.zero.set yx.1 yx.2 (swapColour p)) {} yx).pst
        = - (evalSquare (Board.zero.set (7 - yx.1) yx.2 p) {} (flipSquare yx)).pst ∧
      (evalSquare (Board.zero.set yx.1 yx.2 (swapColour p)) {} yx).minorW
        = (evalSquare (Board.zero.set (7 - yx.1) yx.2 p) {} (flipSquare yx)).minorB ∧
      (evalSquare (Board.zero.set yx.1 yx.2 (swapColour p)) {} yx).minorB
        = (evalSquare (Board.zero.set (7 - yx.1) yx.2 p) {} (flipSquare yx)).minorW := by
  decide!

theorem swapColour_lt (p : Nat) (h : p < 16) : swapColour p < 16 := by
  unfold swapColour
  split_ifs <;> omega

theorem swapColour_facts :
    ∀ p ∈ List.range 16,
      (swapColour p = 0 ↔ p = 0) ∧ (swapColour p = WBISHOP ↔ p = BBISHOP) ∧
      (swapColour p = BBISHOP ↔ p = WBISHOP) ∧
      ((swapColour p = WROOK ∨ swapColour p = WQUEEN) ↔ (p = BROOK ∨ p = BQUEEN)) ∧
      ((swapColour p = BROOK ∨ swapColour p = BQUEEN) ↔ (p = WROOK ∨ p = WQUEEN)) := by
  decide

theorem flip_onBoard (yx : Int × Int) (h : yx ∈ squares) :
    onBoard yx.2 yx.1 = true ∧ onBoard yx.2 (7 - yx.1) = true := by
  rw [mem_squares] at h
  refine ⟨h, ?_⟩
  rw [onBoard_iff] at h ⊢
  omega

/-- The counters of a square of the mirrored board. -/
theorem evalSquare_mirror (b1 b2 : Board) (hm : Mirrored b1 b2) (yx : Int × Int)
    (h : yx ∈ squares) :
    (evalSquare b2 {} yx).matW = (evalSquare b1 {} (flipSquare yx)).matB ∧
    (evalSquare b2 {} yx).matB = (evalSquare b1 {} (flipSquare yx)).matW ∧
    (evalSquare b2 {} yx).pst = - (evalSquare b1 {} (flipSquare yx)).pst ∧
    (evalSquare b2 {} yx).minorW = (evalSquare b1 {} (flipSquare yx)).minorB ∧
    (evalSquare b2 {} yx).minorB = (evalSquare b1 {} (flipSquare yx)).minorW := by
  obtain ⟨o1, o2⟩ := flip_onBoard yx h
  have hp := Board.get_lt b1 (7 - yx.1) yx.2
  have hx := (onBoard_iff _ _).mp o1
  have e2 : evalSquare b2 {} yx
      = evalSquare (Board.zero.set yx.1 yx.2 (swapColour (b1.get (7 - yx.1) yx.2))) {} yx := by
    apply evalSquare_congr
    rw [hm yx h, Board.get_set_on _ _ _ _ _ _ o1 ⟨hx.1, hx.2.1⟩ hx.2.2.1]
    simp [Nat.mod_eq_of_lt (swapColour_lt _ hp)]
  have e1 : evalSquare b1 {} (flipSquare yx)
      = evalSquare (Board.zero.set (7 - yx.1) yx.2 (b1.get (7 - yx.1) yx.2)) {}
          (flipSquare yx) := by
    apply evalSquare_congr
    show b1.get (7 - yx.1) yx.2
      = (Board.zero.set (7 - yx.1) yx.2 (b1.get (7 - yx.1) yx.2)).get (7 - yx.1) yx.2
    rw [Board.get_set_on _ _ _ _ _ _ o2 ⟨hx.1, hx.2.1⟩ (by omega)]
    simp [Nat.mod_eq_of_lt hp]
  rw [e1, e2]
  exact evalSquare_mirror_cases yx h _ (List.mem_range.mpr hp)

/-! ## Colour symmetry of evaluate: totals and mobility (C21) -/

theorem neg_sum_map {α : Type} (g : α → Int) (l : List α) :
    - (l.map g).sum = (l.map (fun x => - g x)).sum := by
  induction l with
  | nil => simp
  | cons a l ih => simp only [List.map_cons, List.sum_cons, ← ih]; ring

/-- The five totals of the first loop of `evaluate` on the mirrored board. -/
theorem fold_evalSquare_mirror (b1 b2 : Board) (hm : Mirrored b1 b2) :
    (squares.foldl (evalSquare b2) {}).matW = (squares.foldl (evalSquare b1) {}).matB ∧
    (squares.foldl (evalSquare b2) {}).matB = (squares.foldl (evalSquare b1) {}).matW ∧
    (squares.foldl (evalSquare b2) {}).pst = - (squares.foldl (evalSquare b1) {}).pst ∧
    (squares.foldl (evalSquare b2) {}).minorW = (squares.foldl (evalSquare b1) {}).minorB ∧
    (squares.foldl (evalSquare b2) {}).minorB = (squares.foldl (evalSquare b1) {}).minorW := by
  obtain ⟨h1, h2, h3, h4, h5⟩ := fold_evalSquare b1 squares {}
  obtain ⟨k1, k2, k3, k4, k5⟩ := fold_evalSquare b2 squares {}
  have z1 : ({} : EvalAcc).matW = 0 := rfl
  have z2 : ({} : EvalAcc).matB = 0 := rfl
  have z3 : ({} : EvalAcc).pst = 0 := rfl
  have z4 : ({} : EvalAcc).minorW = 0 := rfl
  have z5 : ({} : EvalAcc).minorB = 0 := rfl
  rw [h1, h2, h3, h4, h5, k1, k2, k3, k4, k5, z1, z2, z3, z4, z5]
  simp only [zero_add]
  refine ⟨?_, ?_, ?_, ?_, ?_⟩
  · rw [← sum_flip (fun yx => (evalSquare b1 {} yx).matB)]
    exact congrArg List.sum (List.map_congr_left fun yx h => (evalSquare_mirror b1 b2 hm yx h).1)
  · rw [← sum_flip (fun yx => (evalSquare b1 {} yx).matW)]
    exact congrArg List.sum
      (List.map_congr_left fun yx h => (evalSquare_mirror b1 b2 hm yx h).2.1)
  · rw [← sum_flip (fun yx => (evalSquare b1 {} yx).pst), neg_sum_map]
    exact congrArg List.sum
      (List.map_congr_left fun yx h => (evalSquare_mirror b1 b2 hm yx h).2.2.1)
  · rw [← sum_flip (fun yx => (evalSquare b1 {} yx).minorB)]
    exact congrArg List.sum
      (List.map_congr_left fun yx h => (evalSquare_mirror b1 b2 hm yx h).2.2.2.1)
  · rw [← sum_flip (fun yx => (evalSquare b1 {} yx).minorW)]
    exact congrArg List.sum
      (List.map_congr_left fun yx h => (evalSquare_mirror b1 b2 hm yx h).2.2.2.2)

/-- The loop of `countPiece` is a sum over the squares. -/
theorem countPiece_sum (b : Board) (piece : Nat) :
    countPiece b piece
      = (squares.map (fun yx => if b.get yx.1 yx.2 = piece then (1 : Int) else 0)).sum := by
  unfold countPiece
  rw [← zero_add (List.sum _), ← foldl_add_sum]
  congr 1
  funext c yx
  split_ifs <;> simp

theorem mirrored_get (b1 b2 : Board) (hm : Mirrored b1 b2) (yx : Int × Int)
    (h : yx ∈ squares) :
    (b2.get yx.1 yx.2 = 0 ↔ b1.get (7 - yx.1) yx.2 = 0) ∧
    (b2.get yx.1 yx.2 = WBISHOP ↔ b1.get (7 - yx.1) yx.2 = BBISHOP) ∧
    (b2.get yx.1 yx.2 = BBISHOP ↔ b1.get (7 - yx.1) yx.2 = WBISHOP) ∧
    ((b2.get yx.1 yx.2 = WROOK ∨ b2.get yx.1 yx.2 = WQUEEN) ↔
      (b1.get (7 - yx.1) yx.2 = BROOK ∨ b1.get (7 - yx.1) yx.2 = BQUEEN)) ∧
    ((b2.get yx.1 yx.2 = BROOK ∨ b2.get yx.1 yx.2 = BQUEEN) ↔
      (b1.get (7 - yx.1) yx.2 = WROOK ∨ b1.get (7 - yx.1) yx.2 = WQUEEN)) := by
  rw [hm yx h]
  exact swapColour_facts _ (List.mem_range.mpr (Board.get_lt b1 (7 - yx.1) yx.2))

/-- The bishops of one colour on the mirrored board are the bishops of the other colour. -/
theorem countPiece_mirror (b1 b2 : Board) (hm : Mirrored b1 b2) :
    countPiece b2 WBISHOP = countPiece b1 BBISHOP ∧
    countPiece b2 BBISHOP = countPiece b1 WBISHOP := by
  rw [countPiece_sum, countPiece_sum, countPiece_sum, countPiece_sum]
  constructor
  · rw [← sum_flip (fun yx => if b1.get yx.1 yx.2 = BBISHOP then (1 : Int) else 0)]
    refine congrArg List.sum (List.map_congr_left fun yx h => ?_)
    have := (mirrored_get b1 b2 hm yx h).2.1
    show (if b2.get yx.1 yx.2 = WBISHOP then (1 : Int) else 0)
      = if b1.get (7 - yx.1) yx.2 = BBISHOP then (1 : Int) else 0
    by_cases hc : b1.get (7 - yx.1) yx.2 = BBISHOP
    · rw [if_pos hc, if_pos (this.mpr hc)]
    · rw [if_neg hc, if_neg (fun h' => hc (this.mp h'))]
  · rw [← sum_flip (fun yx => if b1.get yx.1 yx.2 = WBISHOP then (1 : Int) else 0)]
    refine congrArg List.sum (List.map_congr_left fun yx h => ?_)
    have := (mirrored_get b1 b2 hm yx h).2.2.1
    show (if b2.get yx.1 yx.2 = BBISHOP then (1 : Int) else 0)
      = if b1.get (7 - yx.1) yx.2 = WBISHOP then (1 : Int) else 0
    by_cases hc : b1.get (7 - yx.1) yx.2 = WBISHOP
    · rw [if_pos hc, if_pos (this.mpr hc)]
    · rw [if_neg hc, if_neg (fun h' => hc (this.mp h'))]

/-- A run of empty squares of the mirrored board is the run of the original board in the
direction with the vertical step reversed. -/
theorem emptyRun_mirror (b1 b2 : Board) (hm : Mirrored b1 b2) (dx dy : Int) (n : Nat)
    (nx ny : Int) :
    emptyRun b2 dx dy n nx ny = emptyRun b1 dx (-dy) n nx (7 - ny) := by
  induction n generalizing nx ny with
  | zero => rfl
  | succ n ih =>
    unfold emptyRun
    by_cases ho : onBoard nx ny = true
    · have ho' : onBoard nx (7 - ny) = true := by
        rw [onBoard_iff] at ho ⊢
        omega
      have hs : (ny, nx) ∈ squares := (mem_squares (ny, nx)).mpr ho
      have hz := (mirrored_get b1 b2 hm (ny, nx) hs).1
      have hn : 7 - (ny + dy) = 7 - ny + -dy := by ring
      rw [ho, ho', ih, hn]
      by_cases hc : b1.get (7 - ny) nx = 0
      · have hc2 : b2.get ny nx = 0 := hz.mpr hc
        simp [hc, hc2]
      · have hc2 : ¬ b2.get ny nx = 0 := fun h' => hc (hz.mp h')
        simp [hc, hc2]
    · have ho' : ¬ onBoard nx (7 - ny) = true := by
        rw [onBoard_iff] at ho ⊢
        omega
      simp [ho, ho']

/-- The mobility count of a square of the mirrored board. -/
theorem mobCount_mirror (b1 b2 : Board) (hm : Mirrored b1 b2) (x y : Int) :
    mobCount b2 x y = mobCount b1 x (7 - y) := by
  simp only [mobCount, mobDirs, List.foldl_cons, List.foldl_nil, emptyRun_mirror b1 b2 hm]
  have e1 : 7 - (y + 0) = 7 - y + 0 := by ring
  have e2 : 7 - (y + 1) = 7 - y + -1 := by ring
  have e3 : 7 - (y + -1) = 7 - y + 1 := by ring
  rw [e1, e2, e3]
  simp only [neg_zero, neg_neg]
  ring

/-- The loop of `mobSquare` is a sum over the squares. -/
theorem fold_mobSquare (b : Board) (l : List (Int × Int)) (c : Int) :
    l.foldl (mobSquare b) c = c + (l.map (mobTerm b)).sum := by
  rw [← foldl_add_sum]
  congr 1
  funext m yx
  simp only [mobSquare, mobTerm]
  split_ifs <;> ring

theorem mobTerm_mirror (b1 b2 : Board) (hm : Mirrored b1 b2) (yx : Int × Int)
    (h : yx ∈ squares) : mobTerm b2 yx = - mobTerm b1 (flipSquare yx) := by
  obtain ⟨h0, -, -, hw, hb⟩ := mirrored_get b1 b2 hm yx h
  have hp := Board.get_lt b1 (7 - yx.1) yx.2
  simp only [mobTerm, flipSquare, mobCount_mirror b1 b2 hm]
  by_cases c0 : b1.get (7 - yx.1) yx.2 = 0
  · rw [if_pos c0, if_pos (h0.mpr c0)]; rfl
  · rw [if_neg c0, if_neg (fun h' => c0 (h0.mp h'))]
    by_cases cw : b1.get (7 - yx.1) yx.2 = WROOK ∨ b1.get (7 - yx.1) yx.2 = WQUEEN
    · have nb : ¬ (b1.get (7 - yx.1) yx.2 = BROOK ∨ b1.get (7 - yx.1) yx.2 = BQUEEN) := by
        rcases cw with cw | cw <;> rw [cw] <;> decide
      rw [if_pos cw, if_neg (fun h' => nb (hw.mp h')), if_pos (hb.mpr cw)]
    · rw [if_neg cw, if_neg (fun h' => cw (hb.mp h'))]
      by_cases cb : b1.get (7 - yx.1) yx.2 = BROOK ∨ b1.get (7 - yx.1) yx.2 = BQUEEN
      · rw [if_pos cb, if_pos (hw.mpr cb)]
        ring
      · rw [if_neg cb, if_neg (fun h' => cb (hw.mp h'))]
        rfl

/-- The mobility total of the mirrored board is the negated total of the original board. -/
theorem mobility_mirror (b1 b2 : Board) (hm : Mirrored b1 b2) :
    squares.foldl (mobSquare b2) 0 = - squares.foldl (mobSquare b1) 0 := by
  rw [fold_mobSquare, fold_mobSquare, zero_add, zero_add, ← sum_flip (mobTerm b1),
    neg_sum_map]
  exact congrArg List.sum (List.map_congr_left fun yx h => mobTerm_mirror b1 b2 hm yx h)

/-- Colour symmetry of `evaluate`, helper form. -/
theorem evaluate_mirror (s1 s2 : Engine) (hm : Mirrored s1.b s2.b)
    (hw : s2.white_to_move = !s1.white_to_move) : evaluate s2 = evaluate s1 := by
  obtain ⟨h1, h2, h3, h4, h5⟩ := fold_evalSquare_mirror s1.b s2.b hm
  obtain ⟨c1, c2⟩ := countPiece_mirror s1.b s2.b hm
  rw [evaluate_eq, evaluate_eq, h1, h2, h3, h4, h5, c1, c2, mobility_mirror s1.b s2.b hm,
    whiteScore_swap, hw]
  cases s1.white_to_move <;> simp

/-- With the same board and the other side to move, `evaluate` changes sign. -/
theorem evaluate_other_side (s1 s2 : Engine) (hb : s2.b = s1.b)
    (hw : s2.white_to_move = !s1.white_to_move) : evaluate s2 = - evaluate s1 := by
  rw [evaluate_eq, evaluate_eq, hb, hw]
  cases s1.white_to_move <;> simp

set_option maxRecDepth 100000 in
/-- The board of the start position is its own mirror image. -/
theorem mirrored_start : Mirrored newEngine.b newEngine.b := by
  decide!

set_option maxRecDepth 100000 in
/-- The boards of `fenAfterE4` and `fenMirrorE4` are mirror images, the sides to move differ,
and the position after `1. e4` is worth -25 to black. -/
theorem mirrored_e4 :
    Mirrored (setFEN newEngine fenAfterE4).b (setFEN newEngine fenMirrorE4).b ∧
    (setFEN newEngine fenMirrorE4).white_to_move
      = (!(setFEN newEngine fenAfterE4).white_to_move) ∧
    evaluate (setFEN newEngine fenAfterE4) = -25 := by
  decide!

/-- Claim C21: `evaluate` is colour-symmetric.  If the board of `s2` is the board of `s1`
flipped vertically (rank `y` becomes rank `7 - y`) with the colour of every piece swapped, and
the side to move of `s2` is the other side, then `evaluate s2 = evaluate s1`; in particular
the start position, whose board is its own mirror image, evaluates to 0. -/
theorem evaluate_colour_symmetric :
    (∀ s1 s2 : Engine, Mirrored s1.b s2.b → s2.white_to_move = (!s1.white_to_move) →
      evaluate s2 = evaluate s1) ∧
    (∀ e : Engine, evaluate (setStartPos e) = 0) := by
  refine ⟨evaluate_mirror, fun e => ?_⟩
  have hb : (setStartPos e).b = newEngine.b := rfl
  have hw : (setStartPos e).white_to_move = true := rfl
  have hm : Mirrored (setStartPos e).b ({ setStartPos e with white_to_move := false }).b := by
    show Mirrored (setStartPos e).b (setStartPos e).b
    rw [hb]
    exact mirrored_start
  have e1 := evaluate_mirror (setStartPos e) { setStartPos e with white_to_move := false } hm
    (by rw [hw]; rfl)
  have e2 := evaluate_other_side (setStartPos e) { setStartPos e with white_to_move := false }
    rfl (by rw [hw]; rfl)
  omega

/-- The symmetry at the position after `1. e4` and its mirror image: both are worth -25 to
the side to move. -/
theorem evaluate_colour_symmetric_witness :
    evaluate (setFEN newEngine fenMirrorE4) = evaluate (setFEN newEngine fenAfterE4) ∧
    evaluate (setFEN newEngine fenAfterE4) = -25 :=
  ⟨evaluate_colour_symmetric.1 _ _ mirrored_e4.1 mirrored_e4.2.1, mirrored_e4.2.2⟩

/-! ## setFEN on the start position (C22) -/

/-- The position fields written by `setFEN` before the hash is computed. -/
theorem setFEN_fields (e : Engine) (fen : String) :
    (setFEN e fen).b = (setFEN {} fen).b ∧
    (setFEN e fen).white_to_move = (setFEN {} fen).white_to_move ∧
    (setFEN e fen).castling = (setFEN {} fen).castling ∧
    (setFEN e fen).ep_file = (setFEN {} fen).ep_file ∧
    (setFEN e fen).halfmove = (setFEN {} fen).halfmove ∧
    (setFEN e fen).fullmove = (setFEN {} fen).fullmove ∧
    (setFEN e fen).uci_history = [] ∧
    (setFEN e fen).undo = e.undo :=
  ⟨rfl, rfl, rfl, rfl, rfl, rfl, rfl, rfl⟩

set_option maxRecDepth 100000 in
theorem setFEN_startFEN_fields :
    (setFEN {} startFEN).b = startBoard ∧
    (setFEN {} startFEN).white_to_move = true ∧
    (setFEN {} startFEN).castling = 15 ∧
    (setFEN {} startFEN).ep_file = 0 ∧
    (setFEN {} startFEN).halfmove = 0 ∧
    (setFEN {} startFEN).fullmove = 1 := by
  decide!

theorem setStartPos_fields (e : Engine) :
    (setStartPos e).b = startBoard ∧
    (setStartPos e).white_to_move = true ∧
    (setStartPos e).castling = 15 ∧
    (setStartPos e).ep_file = 0 ∧
    (setStartPos e).halfmove = 0 ∧
    (setStartPos e).fullmove = 1 ∧
    (setStartPos e).uci_history = [] ∧
    (setStartPos e).undo = e.undo := by
  obtain ⟨b, wtm, castling, ep_file, hmv, fmv, hash, hist, undo⟩ := e
  exact ⟨rfl, rfl, rfl, rfl, rfl, rfl, rfl, rfl⟩

theorem Engine.ext_fields (a b : Engine) (h1 : a.b = b.b)
    (h2 : a.white_to_move = b.white_to_move) (h3 : a.castling = b.castling)
    (h4 : a.ep_file = b.ep_file) (h5 : a.halfmove = b.halfmove) (h6 : a.fullmove = b.fullmove)
    (h7 : a.hash = b.hash) (h8 : a.uci_history = b.uci_history) (h9 : a.undo = b.undo) :
    a = b := by
  cases a; cases b
  simp only [Engine.mk.injEq]
  exact ⟨h1, h2, h3, h4, h5, h6, h7, h8, h9⟩

/-- C22.  `setFEN` applied to the standard start FEN leaves the engine in the state that
`setStartPos()` leaves it in: the same board, side to move, castling rights, `ep_file`,
`halfmove`, `fullmove`, (empty) `uci_history` and hash; neither touches the undo stack. -/
theorem setFEN_start_eq_setStartPos (e : Engine) : setFEN e startFEN = setStartPos e := by
  obtain ⟨f1, f2, f3, f4, f5, f6, f7, f8⟩ := setFEN_fields e startFEN
  obtain ⟨g1, g2, g3, g4, g5, g6⟩ := setFEN_startFEN_fields
  obtain ⟨k1, k2, k3, k4, k5, k6, k7, k8⟩ := setStartPos_fields e
  have b1 := (f1.trans g1).trans k1.symm
  have b2 := (f2.trans g2).trans k2.symm
  have b3 := (f3.trans g3).trans k3.symm
  have b4 := (f4.trans g4).trans k4.symm
  have b5 := (f5.trans g5).trans k5.symm
  have b6 := (f6.trans g6).trans k6.symm
  have hh : (setFEN e startFEN).hash = (setStartPos e).hash := by
    rw [computeHash_setFEN, computeHash_setStartPos]
    exact computeHash_congr _ _ b1 b2 b3 b4
  exact Engine.ext_fields _ _ b1 b2 b3 b4 b5 b6 hh (f7.trans k7.symm) (f8.trans k8.symm)

/-! ## The slot written by the table store -/

theorem toInt16_small (v : Int) (h1 : -32768 ≤ v) (h2 : v < 32768) : toInt16 v = v := by
  unfold toInt16
  omega

theorem ttStore_slot (s : Search) (idx : Nat) (depth ply origAlpha beta best : Int)
    (bm : Move) :
    (ttStore s idx depth ply origAlpha beta best bm).TT idx =
      { key := s.e.hash, depth := toInt8 depth, best := bm,
        flag := if best ≤ origAlpha then TT_ALPHA else if best ≥ beta then TT_BETA
                else TT_EXACT,
        score := toInt16 (if best < -INF_SCORE + 1000
                          then (if best > INF_SCORE - 1000 then best + ply else best) - ply
                          else (if best > INF_SCORE - 1000 then best + ply else best)) } := by
  simp only [ttStore, if_true]

/-! ## The stop flag and the transposition table (C24) -/

theorem stop_eta (s : Search) (h : s.stop = true) : ({ s with stop := true } : Search) = s := by
  cases s
  simp only at h
  subst h
  rfl

theorem pvs_stopped (s : Search) (depth ply alpha beta : Int) (h : s.stop = true) :
    pvs s depth ply alpha beta = (alpha, s) := by
  rw [pvs_unfold]
  simp only [pvsBody, if_pos h, stop_eta s h]

theorem pvs_timeUp (s : Search) (depth ply alpha beta : Int) (h : s.stop = false)
    (ho : Over s s.reads) :
    pvs s depth ply alpha beta = (alpha, { s with reads := s.reads + 1, stop := true }) := by
  have hs : ¬ s.stop = true := by rw [h]; decide
  have ht : elapsedMs s s.reads > s.time_limit_ms := ho
  rw [pvs_unfold]
  simp only [pvsBody, if_neg hs, timeUp, ht, decide_True, if_true]

theorem legalMove_hash (s : Engine) (m : Move) : (legalMove s m).2.hash = s.hash := by
  simp only [legalMove]
  split_ifs
  · rfl
  · simp [undoMove, makeMove, undo_last]

theorem filterLegal_hash : ∀ (l : List Move) (s : Engine),
    (filterLegal s l).2.hash = s.hash := by
  intro l
  induction l with
  | nil => intro s; rfl
  | cons m rest ih =>
    intro s
    simp only [filterLegal]
    rw [ih, legalMove_hash]

theorem generateLegal_hash (s : Engine) : (generateLegal s).2.hash = s.hash :=
  filterLegal_hash _ s

theorem undo_make_hash (e : Engine) (m : Move) : (undoMove (makeMove e m) m).hash = e.hash := by
  simp [undoMove, makeMove, undo_last]

theorem scoreMoves_ne_nil (s : Search) (mv : List Move) (ttMove : Move) (ply : Int)
    (h : mv ≠ []) : scoreMoves s mv ttMove ply ≠ [] := by
  intro hnil
  have hl : (scoreMoves s mv ttMove ply).length = mv.length := by
    simp [scoreMoves, sortByScore, List.length_insertionSort]
  rw [hnil] at hl
  exact h (List.length_eq_zero.mp hl.symm)

/-- The first round of the move loop of `pvs` when the clock reading taken by the child lies
beyond the budget: the child returns its `alpha`, that is `-beta`, the move scores `beta`,
and the loop is left by the cutoff test with the stop flag set. -/
theorem pvsLoop_first_timeUp (depth ply alpha beta best : Int) (m bm : Move) (rest : List Move)
    (s : Search) (hs : s.stop = false) (ho : Over s s.reads) (hab : alpha < beta)
    (hb : best < beta) :
    (pvsLoop (fun s1 d a b => pvs s1 d (ply + 1) a b) depth ply beta (m :: rest) s 0 alpha
        best bm).1 = beta ∧
    (pvsLoop (fun s1 d a b => pvs s1 d (ply + 1) a b) depth ply beta (m :: rest) s 0 alpha
        best bm).2.1 = m ∧
    (pvsLoop (fun s1 d a b => pvs s1 d (ply + 1) a b) depth ply beta (m :: rest) s 0 alpha
        best bm).2.2.stop = true ∧
    (pvsLoop (fun s1 d a b => pvs s1 d (ply + 1) a b) depth ply beta (m :: rest) s 0 alpha
        best bm).2.2.TT = s.TT ∧
    (pvsLoop (fun s1 d a b => pvs s1 d (ply + 1) a b) depth ply beta (m :: rest) s 0 alpha
        best bm).2.2.e.hash = s.e.hash := by
  have hc : pvs { s with e := makeMove s.e m } (depth - 1) (ply + 1) (-beta) (-alpha)
      = (-beta, { s with e := makeMove s.e m, reads := s.reads + 1, stop := true }) :=
    pvs_timeUp _ _ _ _ _ hs ho
  have h1 : beta > alpha := hab
  have h2 : beta > best := hb
  have h3 : beta ≥ beta := le_refl _
  simp only [pvsLoop, searchMove, zero_add, if_true, hc, neg_neg, h1, h2, h3]
  split_ifs <;> refine ⟨?_, ?_, ?_, ?_, ?_⟩ <;>
    first | trivial | rfl | exact undo_make_hash _ _

theorem pvsLoop_timeUp_any (depth ply alpha beta best : Int) (bm : Move) (mv : List Move)
    (hmv : mv ≠ []) (s : Search) (hs : s.stop = false) (ho : Over s s.reads)
    (hab : alpha < beta) (hb : best < beta) :
    (pvsLoop (fun s1 d a b => pvs s1 d (ply + 1) a b) depth ply beta mv s 0 alpha
        best bm).1 = beta ∧
    (pvsLoop (fun s1 d a b => pvs s1 d (ply + 1) a b) depth ply beta mv s 0 alpha
        best bm).2.2.stop = true ∧
    (pvsLoop (fun s1 d a b => pvs s1 d (ply + 1) a b) depth ply beta mv s 0 alpha
        best bm).2.2.e.hash = s.e.hash := by
  cases mv with
  | nil => exact absurd rfl hmv
  | cons m rest =>
    have h := pvsLoop_first_timeUp depth ply alpha beta best m bm rest s hs ho hab hb
    exact ⟨h.1, h.2.2.1, h.2.2.2.2⟩

/-- C24 (what the code does).  A frame of `pvs` entered with the stop flag set returns with
the table untouched.  A frame whose first child finds the time used up does not: the child
sets the stop flag and returns `-beta`, the frame takes the move for a cutoff, leaves the
loop and then runs the table store, so it returns the clamped `beta` with the stop flag set
and with an entry for its own hash (flag `TT_BETA`, score `beta`, the unsearched first move)
in a slot that held another key when the flag was set. -/
theorem pvs_stores_after_stop (s : Search) (depth ply alpha beta : Int) :
    (s.stop = true → (pvs s depth ply alpha beta).2.TT = s.TT) ∧
    (s.stop = false → ¬ Over s s.reads → Over s (s.reads + 1) → 1 ≤ depth → 0 ≤ ply →
      ply < MAX_PLY - 1 → (s.TT (s.e.hash &&& (TT_SIZE - 1))).key ≠ s.e.hash →
      max alpha (-MATE_IN_MAX + ply) < min beta (MATE_IN_MAX - ply - 1) →
      (generateLegal s.e).1 ≠ [] →
      (pvs s depth ply alpha beta).1 = min beta (MATE_IN_MAX - ply - 1) ∧
      (pvs s depth ply alpha beta).2.stop = true ∧
      ((pvs s depth ply alpha beta).2.TT (s.e.hash &&& (TT_SIZE - 1))).key = s.e.hash ∧
      ((pvs s depth ply alpha beta).2.TT (s.e.hash &&& (TT_SIZE - 1))).flag = TT_BETA ∧
      (pvs s depth ply alpha beta).2.TT ≠ s.TT) := by
  constructor
  · intro h
    rw [pvs_stopped s depth ply alpha beta h]
  · intro hstop h0 h1 hd hp0 hp htt hab hne
    have hs : ¬ s.stop = true := by rw [hstop]; decide
    have ht : ¬ elapsedMs s s.reads > s.time_limit_ms := h0
    have hd0 : ¬ depth ≤ 0 := by omega
    have hpl : ¬ ply ≥ MAX_PLY - 1 := by omega
    have hab0 : ¬ max alpha (-MATE_IN_MAX + ply) ≥ min beta (MATE_IN_MAX - ply - 1) := by omega
    have hemp : (generateLegal s.e).1.isEmpty = false := by
      cases hg : (generateLegal s.e).1 with
      | nil => exact absurd hg hne
      | cons a l => rfl
    have key : ∀ r : Int × Move × Search, r.1 = min beta (MATE_IN_MAX - ply - 1) →
        r.2.2.stop = true → r.2.2.e.hash = s.e.hash → ∀ d : Int,
        r.1 = min beta (MATE_IN_MAX - ply - 1) ∧
        (ttStore r.2.2 (s.e.hash &&& (TT_SIZE - 1)) d ply (max alpha (-MATE_IN_MAX + ply))
          (min beta (MATE_IN_MAX - ply - 1)) r.1 r.2.1).stop = true ∧
        ((ttStore r.2.2 (s.e.hash &&& (TT_SIZE - 1)) d ply (max alpha (-MATE_IN_MAX + ply))
          (min beta (MATE_IN_MAX - ply - 1)) r.1 r.2.1).TT (s.e.hash &&& (TT_SIZE - 1))).key
          = s.e.hash ∧
        ((ttStore r.2.2 (s.e.hash &&& (TT_SIZE - 1)) d ply (max alpha (-MATE_IN_MAX + ply))
          (min beta (MATE_IN_MAX - ply - 1)) r.1 r.2.1).TT (s.e.hash &&& (TT_SIZE - 1))).flag
          = TT_BETA ∧
        (ttStore r.2.2 (s.e.hash &&& (TT_SIZE - 1)) d ply (max alpha (-MATE_IN_MAX + ply))
          (min beta (MATE_IN_MAX - ply - 1)) r.1 r.2.1).TT ≠ s.TT := by
      intro r hr1 hr2 hr3 d
      have hk : ((ttStore r.2.2 (s.e.hash &&& (TT_SIZE - 1)) d ply
          (max alpha (-MATE_IN_MAX + ply)) (min beta (MATE_IN_MAX - ply - 1)) r.1 r.2.1).TT
          (s.e.hash &&& (TT_SIZE - 1))).key = s.e.hash := by
        simp only [ttStore, if_true]
        exact hr3
      have hf1 : ¬ r.1 ≤ max alpha (-MATE_IN_MAX + ply) := by rw [hr1]; omega
      have hf2 : r.1 ≥ min beta (MATE_IN_MAX - ply - 1) := by rw [hr1]
      refine ⟨hr1, hr2, hk, ?_, ?_⟩
      · simp only [ttStore, if_true, hf1, hf2, if_false]
      · intro heq
        rw [heq] at hk
        exact htt hk
    rw [pvs_unfold]
    simp only [pvsBody, if_neg hs, timeUp, ht, decide_False, Bool.false_eq_true, if_false, hd0,
      hpl, pvsNode, ttProbe, htt, false_and, hab0, hemp]
    have hbest : -INF_SCORE < min beta (MATE_IN_MAX - ply - 1) := by
      simp only [INF_SCORE, MATE_IN_MAX] at *; omega
    refine key _ ?_ ?_ ?_ _
    · exact (pvsLoop_timeUp_any _ _ _ _ _ _ _ (scoreMoves_ne_nil _ _ _ _ hne)
        (Search.mk (generateLegal s.e).2 (s.nodes + 1) s.stop s.start_time s.time_limit_ms
          s.clock (s.reads + 1) s.TT s.killer s.history_heur)
        hstop h1 hab hbest).1
    · exact (pvsLoop_timeUp_any _ _ _ _ _ _ _ (scoreMoves_ne_nil _ _ _ _ hne)
        (Search.mk (generateLegal s.e).2 (s.nodes + 1) s.stop s.start_time s.time_limit_ms
          s.clock (s.reads + 1) s.TT s.killer s.history_heur)
        hstop h1 hab hbest).2.1
    · exact ((pvsLoop_timeUp_any _ _ _ _ _ _ _ (scoreMoves_ne_nil _ _ _ _ hne)
        (Search.mk (generateLegal s.e).2 (s.nodes + 1) s.stop s.start_time s.time_limit_ms
          s.clock (s.reads + 1) s.TT s.killer s.history_heur)
        hstop h1 hab hbest).2.2).trans (generateLegal_hash s.e)

set_option maxRecDepth 100000 in
/-- At the start position, with the second clock reading beyond the budget, `pvs(1, 0,
-INF_SCORE, INF_SCORE)` returns the clamped `beta` (27999) with the stop flag set and leaves
an entry for the start position in the table. -/
theorem pvs_stores_after_stop_witness :
    (pvs stopAtChild 1 0 (-INF_SCORE) INF_SCORE).1 = min INF_SCORE (MATE_IN_MAX - 0 - 1) ∧
    (pvs stopAtChild 1 0 (-INF_SCORE) INF_SCORE).2.stop = true ∧
    ((pvs stopAtChild 1 0 (-INF_SCORE) INF_SCORE).2.TT
      (stopAtChild.e.hash &&& (TT_SIZE - 1))).key = stopAtChild.e.hash ∧
    ((pvs stopAtChild 1 0 (-INF_SCORE) INF_SCORE).2.TT
      (stopAtChild.e.hash &&& (TT_SIZE - 1))).flag = TT_BETA ∧
    (pvs stopAtChild 1 0 (-INF_SCORE) INF_SCORE).2.TT ≠ stopAtChild.TT :=
  (pvs_stores_after_stop stopAtChild 1 0 (-INF_SCORE) INF_SCORE).2 rfl (by decide) (by decide)
    (by decide) (by decide) (by decide) (by decide!) (by decide) (by decide!)

/-! ## The stop flag ends the search (C25, C26) -/

theorem aspiration_stopped (fuel : Nat) (s : Search) (d A B sc expand : Int)
    (h : s.stop = true) : aspiration fuel s d A B sc expand = some (sc, s) := by
  cases fuel <;> simp [aspiration, h]

theorem pvsLoop_stop_exit (child : Search → Int → Int → Int → Int × Search)
    (depth ply beta : Int) (m : Move) (rest : List Move) (s : Search)
    (moveCount alpha best : Int) (bestMove : Move)
    (h : (searchMove child depth alpha beta m (moveCount + 1)
            { s with e := makeMove s.e m }).2.stop = true) :
    pvsLoop child depth ply beta (m :: rest) s moveCount alpha best bestMove
      = pvsLoop child depth ply beta [m] s moveCount alpha best bestMove ∧
    (pvsLoop child depth ply beta [m] s moveCount alpha best bestMove).2.2.e
      = undoMove (searchMove child depth alpha beta m (moveCount + 1)
          { s with e := makeMove s.e m }).2.e m ∧
    (pvsLoop child depth ply beta [m] s moveCount alpha best bestMove).2.2.stop = true := by
  have h2 : ({ (searchMove child depth alpha beta m (moveCount + 1)
      { s with e := makeMove s.e m }).2 with
      e := undoMove (searchMove child depth alpha beta m (moveCount + 1)
        { s with e := makeMove s.e m }).2.e m } : Search).stop = true := h
  have h3 : (updateHeuristics { (searchMove child depth alpha beta m (moveCount + 1)
      { s with e := makeMove s.e m }).2 with
      e := undoMove (searchMove child depth alpha beta m (moveCount + 1)
        { s with e := makeMove s.e m }).2.e m } m depth ply).stop = true := h
  simp only [pvsLoop]
  split_ifs <;> simp_all [updateHeuristics]

theorem deepen_stopped (fuel : Nat) (root : List Move) (maxDepth : Int) :
    ∀ (n : Nat) (s : Search) (best : Move) (prev d : Int), s.stop = true →
      ∃ m s1, deepen fuel root maxDepth n s best prev d = some (m, s1) ∧
        s1.stop = true ∧ s1.e = s.e ∧ s1.TT = s.TT ∧ s1.killer = s.killer ∧
        s1.history_heur = s.history_heur := by
  intro n
  induction n with
  | zero => intro s best prev d _; exact ⟨best, s, rfl, by assumption, rfl, rfl, rfl, rfl⟩
  | succ j ih =>
    intro s best prev d hs
    by_cases hd : d ≤ maxDepth
    · simp only [deepen, if_pos hd]
      generalize (if d ≥ 3 then prev - (35 + d * 3) else -INF_SCORE) = A
      generalize (if d ≥ 3 then prev + (35 + d * 3) else INF_SCORE) = B
      rw [pvs_stopped s d 0 A B hs, aspiration_stopped fuel s d A B A 80 hs]
      simp only [hs, Bool.true_and]
      by_cases hd1 : d > 1
      · simp only [hd1, decide_True, if_true]
        exact ⟨best, s, rfl, hs, rfl, rfl, rfl, rfl⟩
      · simp only [hd1, decide_False, Bool.false_eq_true, if_false]
        split_ifs
        · exact ⟨_, _, rfl, hs, rfl, rfl, rfl, rfl⟩
        · obtain ⟨m, s1, h1, h2, h3, h4, h5, h6⟩ :=
            ih (timeUp s).2 (rootBest s root best) A (d + 1) hs
          exact ⟨m, s1, h1, h2, h3, h4, h5, h6⟩
    · simp only [deepen, if_neg hd]
      exact ⟨best, s, rfl, hs, rfl, rfl, rfl, rfl⟩

/-- C25.  Once the stop flag is set no move is applied any more and the flag stays set.
A call of `pvs` on a state with the flag set returns at once and leaves the whole state,
the position included, as it is.  In the move loop, when the searches of a move end with
the flag set, the loop is left after `undoMove`: the result is that of the loop over this
move alone, whatever moves remain, and the position is the one `undoMove` leaves.  `pvs`
never clears the flag; the re-search loop of `search` calls `pvs` no more (it ends at once),
and the deepening loop ends with the flag set and the position, the table, the killers and
the history as they were. -/
theorem stop_ends_moves :
    (∀ (s : Search) (depth ply alpha beta : Int), s.stop = true →
      pvs s depth ply alpha beta = (alpha, s)) ∧
    (∀ (child : Search → Int → Int → Int → Int × Search) (depth ply beta : Int) (m : Move)
      (rest : List Move) (s : Search) (moveCount alpha best : Int) (bestMove : Move),
      (searchMove child depth alpha beta m (moveCount + 1)
          { s with e := makeMove s.e m }).2.stop = true →
      pvsLoop child depth ply beta (m :: rest) s moveCount alpha best bestMove
        = pvsLoop child depth ply beta [m] s moveCount alpha best bestMove ∧
      (pvsLoop child depth ply beta [m] s moveCount alpha best bestMove).2.2.e
        = undoMove (searchMove child depth alpha beta m (moveCount + 1)
            { s with e := makeMove s.e m }).2.e m ∧
      (pvsLoop child depth ply beta [m] s moveCount alpha best bestMove).2.2.stop = true) ∧
    (∀ (s : Search) (depth ply alpha beta : Int),
      (pvs s depth ply alpha beta).2.stop = false → s.stop = false) ∧
    (∀ (fuel : Nat) (s : Search) (d A B sc expand : Int), s.stop = true →
      aspiration fuel s d A B sc expand = some (sc, s)) ∧
    (∀ (fuel : Nat) (root : List Move) (maxDepth : Int) (n : Nat) (s : Search) (best : Move)
      (prev d : Int), s.stop = true →
      ∃ m s1, deepen fuel root maxDepth n s best prev d = some (m, s1) ∧
        s1.stop = true ∧ s1.e = s.e ∧ s1.TT = s.TT ∧ s1.killer = s.killer ∧
        s1.history_heur = s.history_heur) := by
  refine ⟨pvs_stopped, pvsLoop_stop_exit, ?_, aspiration_stopped, deepen_stopped⟩
  intro s depth ply alpha beta h
  cases hs : s.stop with
  | false => rfl
  | true =>
    rw [(pvs_adv s depth ply alpha beta).stop hs] at h
    exact absurd h (by decide)

/-- C26.  An iteration `d > 1` of the deepening loop whose searches end with the stop flag
set returns the move `best` that the loop held when the iteration began, the one retained
at the end of iteration `d - 1`, in the state the searches left: the table is not consulted
any more.  This is so for every number of re-search rounds after which the flag is found
set, in particular when the first search of the iteration sets it. -/
theorem aborted_iteration_keeps_best (fuel : Nat) (root : List Move) (maxDepth : Int) (n : Nat)
    (s : Search) (best : Move) (prev d : Int) (hd : 1 < d) (hmax : d ≤ maxDepth) :
    (∀ (sc : Int) (s1 : Search),
      aspiration fuel
          (pvs s d 0 (if d ≥ 3 then prev - (35 + d * 3) else -INF_SCORE)
            (if d ≥ 3 then prev + (35 + d * 3) else INF_SCORE)).2 d
          (if d ≥ 3 then prev - (35 + d * 3) else -INF_SCORE)
          (if d ≥ 3 then prev + (35 + d * 3) else INF_SCORE)
          (pvs s d 0 (if d ≥ 3 then prev - (35 + d * 3) else -INF_SCORE)
            (if d ≥ 3 then prev + (35 + d * 3) else INF_SCORE)).1 80 = some (sc, s1) →
      s1.stop = true →
      deepen fuel root maxDepth (n + 1) s best prev d = some (best, s1)) ∧
    ((pvs s d 0 (if d ≥ 3 then prev - (35 + d * 3) else -INF_SCORE)
        (if d ≥ 3 then prev + (35 + d * 3) else INF_SCORE)).2.stop = true →
      deepen fuel root maxDepth (n + 1) s best prev d
        = some (best, (pvs s d 0 (if d ≥ 3 then prev - (35 + d * 3) else -INF_SCORE)
            (if d ≥ 3 then prev + (35 + d * 3) else INF_SCORE)).2)) := by
  have key : ∀ (sc : Int) (s1 : Search),
      aspiration fuel
          (pvs s d 0 (if d ≥ 3 then prev - (35 + d * 3) else -INF_SCORE)
            (if d ≥ 3 then prev + (35 + d * 3) else INF_SCORE)).2 d
          (if d ≥ 3 then prev - (35 + d * 3) else -INF_SCORE)
          (if d ≥ 3 then prev + (35 + d * 3) else INF_SCORE)
          (pvs s d 0 (if d ≥ 3 then prev - (35 + d * 3) else -INF_SCORE)
            (if d ≥ 3 then prev + (35 + d * 3) else INF_SCORE)).1 80 = some (sc, s1) →
      s1.stop = true →
      deepen fuel root maxDepth (n + 1) s best prev d = some (best, s1) := by
    intro sc s1 hrun hstop
    have hd1 : d > 1 := hd
    simp only [deepen, if_pos hmax, hrun, hstop, hd1, decide_True, Bool.and_self, if_true]
  refine ⟨key, fun hstop => ?_⟩
  exact key _ _ (aspiration_stopped fuel _ d _ _ _ 80 hstop) hstop

/-- With `g1f3` retained after the first iteration and the clock beyond the budget when the
second iteration begins, the loop returns `g1f3`. -/
theorem aborted_iteration_keeps_best_witness :
    deepen 0 [e2e4, g1f3] 64 (62 + 1) lateSearch g1f3 0 2
      = some (g1f3, (pvs lateSearch 2 0 (-INF_SCORE) INF_SCORE).2) :=
  (aborted_iteration_keeps_best 0 [e2e4, g1f3] 64 62 lateSearch g1f3 0 2 (by decide)
    (by decide)).2 (by rw [pvs_timeUp lateSearch 2 0 _ _ rfl (by decide)])

/-! ## Move ordering: scores -/

theorem qBody_moves (rec : Engine → Int → Int → Int → Int × Engine) (e : Engine)
    (alpha beta ply : Int) :
    qBody rec e alpha beta ply =
      if ply ≥ MAX_PLY - 1 then (evaluate e, e)
      else if evaluate e ≥ beta then (beta, e)
      else qLoop (fun e1 a b => rec e1 a b (ply + 1)) (qsearchMoves e)
        (filterLegal e (generatePseudo e true)).2
        (if evaluate e > alpha then evaluate e else alpha) beta := rfl

theorem sortByScore_sorted (mv : List Move) :
    (sortByScore mv).Pairwise (fun a b => a.score ≥ b.score) :=
  List.sorted_insertionSort _ mv

theorem sortByScore_perm (mv : List Move) : (sortByScore mv).Perm mv :=
  List.perm_insertionSort _ mv

theorem mem_sortByScore (mv : List Move) (a : Move) : a ∈ sortByScore mv ↔ a ∈ mv :=
  (sortByScore_perm mv).mem_iff

theorem not_before_of_score (L : List Move) (hs : L.Pairwise (fun a b => a.score ≥ b.score))
    (a b : Move) (h : a.score > b.score) : ¬ Before L b a := by
  rintro ⟨l1, l2, l3, rfl⟩
  have h1 := (List.pairwise_append.mp hs).2.1
  have h2 := (List.pairwise_cons.mp h1).1 a (by simp)
  omega

theorem before_of_score (L : List Move) (hs : L.Pairwise (fun a b => a.score ≥ b.score))
    (a b : Move) (ha : a ∈ L) (hb : b ∈ L) (h : a.score > b.score) :
    Before L a b ∧ ¬ Before L b a := by
  refine ⟨?_, not_before_of_score L hs a b h⟩
  obtain ⟨l1, l2, rfl⟩ := List.append_of_mem ha
  rcases List.mem_append.mp hb with hb1 | hb2
  · obtain ⟨p, q, rfl⟩ := List.append_of_mem hb1
    exact absurd ⟨p, q, l2, by simp⟩ (not_before_of_score _ hs a b h)
  · rcases List.mem_cons.mp hb2 with rfl | hb3
    · omega
    · obtain ⟨p, q, rfl⟩ := List.append_of_mem hb3
      exact ⟨l1, p, q, rfl⟩

theorem PIECE_VALUE_bounds (p : Nat) : 0 ≤ PIECE_VALUE p ∧ PIECE_VALUE p ≤ 20000 := by
  unfold PIECE_VALUE
  by_cases h : p < 13
  · interval_cases p <;> decide
  · rw [List.getD_eq_default _ _ (by simp; omega)]
    decide

theorem mvv_lva_eq (e : Engine) (m : Move) :
    mvv_lva e m = 10 * victimValue e m - attackerValue e m := rfl

theorem mvv_lva_bounds (e : Engine) (m : Move) :
    -20000 ≤ mvv_lva e m ∧ mvv_lva e m ≤ 200000 := by
  rw [mvv_lva_eq]
  have h1 := PIECE_VALUE_bounds (if m.is_enpassant then (if e.white_to_move then BPAWN else WPAWN)
               else e.b.get m.to_y m.to_x)
  have h2 := PIECE_VALUE_bounds (e.b.get m.from_y m.from_x)
  unfold victimValue attackerValue
  omega

theorem ite_bonus (c : Prop) [Decidable c] (x v : Int) :
    (if c then x + v else x) = x + (if c then v else 0) := by
  split_ifs <;> simp

theorem ite_bonus2 (c : Prop) [Decidable c] (x u v : Int) :
    (if c then x + u + v else x) = x + (if c then u + v else 0) := by
  split_ifs <;> simp [add_assoc]

/-- The score of `scoreMoves` as a sum of its bonuses. -/
theorem moveScore_eq (s : Search) (ttMove : Move) (ply : Int) (m : Move) :
    moveScore s ttMove ply m =
      ttBonus ttMove m + captureBonus s m + castleBonus m + killerBonus s ply 0 m +
      killerBonus s ply 1 m + historyOf s m := by
  simp only [moveScore, ttBonus, captureBonus, castleBonus, killerBonus, isTTMove, historyOf,
    ite_bonus, ite_bonus2]
  norm_num

theorem ttBonus_cases (ttMove m : Move) :
    (isTTMove ttMove m = true → ttBonus ttMove m = 2000000) ∧
    (isTTMove ttMove m = false → ttBonus ttMove m = 0) := by
  unfold ttBonus
  constructor <;> intro h <;> rw [h] <;> rfl

theorem captureBonus_cases (s : Search) (m : Move) :
    (m.is_capture = true → captureBonus s m = 1000000 + mvv_lva s.e m) ∧
    (m.is_capture = false → captureBonus s m = 0) := by
  unfold captureBonus
  constructor <;> intro h <;> rw [h] <;> rfl

theorem castleBonus_cases (m : Move) :
    (m.is_castle = false → castleBonus m = 0) ∧
    0 ≤ castleBonus m ∧ castleBonus m ≤ 50000 := by
  unfold castleBonus
  refine ⟨fun h => by rw [h]; rfl, ?_, ?_⟩ <;> split_ifs <;> decide

theorem castleBonus_true (m : Move) (h : m.is_castle = true) : castleBonus m = 50000 := by
  unfold castleBonus
  rw [h]
  rfl

theorem killerBonus_bounds (s : Search) (ply : Int) (m : Move) :
    0 ≤ killerBonus s ply 0 m ∧ killerBonus s ply 0 m ≤ 40000 ∧
    0 ≤ killerBonus s ply 1 m ∧ killerBonus s ply 1 m ≤ 35000 := by
  unfold killerBonus
  refine ⟨?_, ?_, ?_, ?_⟩ <;> split_ifs <;> decide

theorem killerBonus_cases (s : Search) (ply : Int) (m : Move) :
    (isKiller s ply m = false → killerBonus s ply 0 m = 0 ∧ killerBonus s ply 1 m = 0) ∧
    (isKiller s ply m = true → killerBonus s ply 0 m + killerBonus s ply 1 m ≥ 35000) := by
  simp only [isKiller, killerBonus, Bool.or_eq_true, Bool.or_eq_false_iff]
  constructor
  · rintro ⟨h1, h2⟩
    rw [h1, h2]
    exact ⟨rfl, rfl⟩
  · rintro (h | h) <;> rw [h] <;> simp only [if_true] <;> split_ifs <;> omega

theorem mem_scoreMoves (s : Search) (mv : List Move) (ttMove : Move) (ply : Int) (a : Move)
    (h : a ∈ scoreMoves s mv ttMove ply) : a.score = moveScore s ttMove ply a := by
  unfold scoreMoves at h
  rw [mem_sortByScore] at h
  obtain ⟨m, _, rfl⟩ := List.mem_map.mp h
  rfl

theorem mem_qsearchMoves (e : Engine) (a : Move) (h : a ∈ qsearchMoves e) :
    a.score = mvv_lva (filterLegal e (generatePseudo e true)).2 a := by
  unfold qsearchMoves at h
  rw [mem_sortByScore] at h
  obtain ⟨m, _, rfl⟩ := List.mem_map.mp h
  rfl

/-! ## Move ordering: tiers and captures (C27, C28) -/

theorem filterLegal_state (e : Engine) (hc : Consistent e) (c : Bool) :
    (filterLegal e (generatePseudo e c)).2 = e := by
  rw [filterLegal_eq e hc _ (fun m hm => pseudo_ok e c m hm)]

/-- C27 (amended).  The order of the list made by `scoreMoves` when no two entries of the
history table differ by 35000 or more (so whenever all entries lie in `0 .. 34999`): a move
that passes the transposition-move test stands before every move that does not; a capture
stands before every non-capture that is not the transposition move; a killer of the ply
stands before every non-capturing, non-castling move that is neither the transposition move
nor a killer, and so does a castling move; and among the non-capturing, non-castling moves
that are neither transposition move nor killer the larger history entry stands first. -/
theorem scoreMoves_tiers (s : Search) (mv : List Move) (ttMove : Move) (ply : Int) (a b : Move)
    (hh : ∀ x y z x1 y1 z1, s.history_heur x y z - s.history_heur x1 y1 z1 < 35000)
    (ha : a ∈ scoreMoves s mv ttMove ply) (hb : b ∈ scoreMoves s mv ttMove ply) :
    (isTTMove ttMove a = true → isTTMove ttMove b = false →
      Before (scoreMoves s mv ttMove ply) a b ∧ ¬ Before (scoreMoves s mv ttMove ply) b a) ∧
    (a.is_capture = true → b.is_capture = false → isTTMove ttMove b = false →
      Before (scoreMoves s mv ttMove ply) a b ∧ ¬ Before (scoreMoves s mv ttMove ply) b a) ∧
    (isKiller s ply a = true → b.is_capture = false → b.is_castle = false →
      isTTMove ttMove b = false → isKiller s ply b = false →
      Before (scoreMoves s mv ttMove ply) a b ∧ ¬ Before (scoreMoves s mv ttMove ply) b a) ∧
    (a.is_castle = true → b.is_capture = false → b.is_castle = false →
      isTTMove ttMove b = false → isKiller s ply b = false →
      Before (scoreMoves s mv ttMove ply) a b ∧ ¬ Before (scoreMoves s mv ttMove ply) b a) ∧
    (a.is_capture = false → a.is_castle = false → isTTMove ttMove a = false →
      isKiller s ply a = false → b.is_capture = false → b.is_castle = false →
      isTTMove ttMove b = false → isKiller s ply b = false →
      historyOf s a > historyOf s b →
      Before (scoreMoves s mv ttMove ply) a b ∧ ¬ Before (scoreMoves s mv ttMove ply) b a) := by
  have hsa := mem_scoreMoves s mv ttMove ply a ha
  have hsb := mem_scoreMoves s mv ttMove ply b hb
  rw [moveScore_eq] at hsa hsb
  have hsrt : (scoreMoves s mv ttMove ply).Pairwise (fun a b => a.score ≥ b.score) :=
    sortByScore_sorted _
  have ma := mvv_lva_bounds s.e a
  have mb := mvv_lva_bounds s.e b
  have kab : historyOf s b - historyOf s a < 35000 := hh _ _ _ _ _ _
  have ta := ttBonus_cases ttMove a
  have tb := ttBonus_cases ttMove b
  have ca := captureBonus_cases s a
  have cb := captureBonus_cases s b
  have sa := castleBonus_cases a
  have sb := castleBonus_cases b
  have ba := killerBonus_bounds s ply a
  have bb := killerBonus_bounds s ply b
  have qa := killerBonus_cases s ply a
  have qb := killerBonus_cases s ply b
  have ca0 : 0 ≤ captureBonus s a := by
    cases h : a.is_capture with
    | false => rw [ca.2 h]
    | true => rw [ca.1 h]; omega
  have cb1 : captureBonus s b ≤ 1200000 := by
    cases h : b.is_capture with
    | false => rw [cb.2 h]; decide
    | true => rw [cb.1 h]; omega
  have ta0 : 0 ≤ ttBonus ttMove a := by
    cases h : isTTMove ttMove a with
    | false => rw [ta.2 h]
    | true => rw [ta.1 h]; decide
  refine ⟨?_, ?_, ?_, ?_, ?_⟩
  · intro h1 h2
    apply before_of_score _ hsrt a b ha hb
    have e1 := ta.1 h1
    have e2 := tb.2 h2
    omega
  · intro h1 h2 h3
    apply before_of_score _ hsrt a b ha hb
    have e1 := ca.1 h1
    have e2 := cb.2 h2
    have e3 := tb.2 h3
    omega
  · intro h1 h2 h3 h4 h5
    apply before_of_score _ hsrt a b ha hb
    have e1 := qa.2 h1
    have e2 := cb.2 h2
    have e3 := sb.1 h3
    have e4 := tb.2 h4
    have e5 := qb.1 h5
    omega
  · intro h1 h2 h3 h4 h5
    apply before_of_score _ hsrt a b ha hb
    have e1 := castleBonus_true a h1
    have e2 := cb.2 h2
    have e3 := sb.1 h3
    have e4 := tb.2 h4
    have e5 := qb.1 h5
    omega
  · intro a1 a2 a3 a4 b1 b2 b3 b4 hgt
    apply before_of_score _ hsrt a b ha hb
    have e1 := ca.2 a1
    have e2 := sa.1 a2
    have e3 := ta.2 a3
    have e4 := qa.1 a4
    have f1 := cb.2 b1
    have f2 := sb.1 b2
    have f3 := tb.2 b3
    have f4 := qb.1 b4
    omega

set_option maxRecDepth 100000 in
/-- With a2a3 as killer and an all-zero history table, the killer a2a3 and the castling
move e1g1 both stand before the quiet move a2a4. -/
theorem scoreMoves_tiers_witness :
    Before (scoreMoves killerSearch (generateLegal fenCastleKiller).1 {} 0)
      { a2a3 with score := 40000 } a2a4 ∧
    Before (scoreMoves killerSearch (generateLegal fenCastleKiller).1 {} 0)
      { e1g1 with score := 50000 } a2a4 :=
  have hz : ∀ x y z x1 y1 z1,
      killerSearch.history_heur x y z - killerSearch.history_heur x1 y1 z1 < 35000 :=
    fun _ _ _ _ _ _ => show (0 : Int) - 0 < 35000 by decide
  have hb : a2a4 ∈ scoreMoves killerSearch (generateLegal fenCastleKiller).1 {} 0 := by decide!
  ⟨((scoreMoves_tiers killerSearch (generateLegal fenCastleKiller).1 {} 0
      { a2a3 with score := 40000 } a2a4 hz (by decide!) hb).2.2.1
      (by decide) rfl rfl rfl (by decide)).1,
   ((scoreMoves_tiers killerSearch (generateLegal fenCastleKiller).1 {} 0
      { e1g1 with score := 50000 } a2a4 hz (by decide!) hb).2.2.2.1
      rfl rfl rfl rfl (by decide)).1⟩

set_option maxRecDepth 100000 in
/-- C27 as stated fails, in two ways.  With a2a3 as first killer and an all-zero history
table (`killerSearch`), the quiet castling move e1g1, which is neither the transposition
move nor a killer, gets the bonus 50000 and stands before the killer a2a3 (bonus 40000).
With a2a3 as second killer and the history entry 35000 for e1d1, all other entries being 0
(`historySearch`), the quiet move e1d1, which is neither castling nor the transposition move
nor a killer, has the score 35000 of the killer a2a3 and stands before it, as it did in the
list given to `scoreMoves`. -/
theorem quiet_move_precedes_killer :
    (((scoreMoves killerSearch (generateLegal fenCastleKiller).1 {} 0).take 2).map moveToUCI
      = ["e1g1", "a2a3"] ∧
     ((scoreMoves killerSearch (generateLegal fenCastleKiller).1 {} 0).take 2).map
      (fun m => (m.is_capture, isTTMove {} m, isKiller killerSearch 0 m, m.score))
      = [(false, false, false, 50000), (false, false, true, 40000)]) ∧
    (((scoreMoves historySearch (generateLegal fenCastleKiller).1 {} 0).take 3).map moveToUCI
      = ["e1g1", "e1d1", "a2a3"] ∧
     ((scoreMoves historySearch (generateLegal fenCastleKiller).1 {} 0).take 3).map
      (fun m => (m.is_capture, m.is_castle, isTTMove {} m, isKiller historySearch 0 m,
        historyOf historySearch m, m.score))
      = [(false, true, false, false, 0, 50000), (false, false, false, false, 35000, 35000),
         (false, false, false, true, 0, 35000)]) := by
  decide!

/-- C28 (amended).  The captures of `qsearch`, and the captures of `scoreMoves` that are
neither transposition move nor killer when the history table is all zero, are ordered by
`10 * value(victim) - value(attacker)`: the capture with the larger difference stands first.
So among captures of equally valued victims the one with the lower-valued attacker stands
first, and a capture of a higher-valued victim stands first when ten times the difference
of the victims exceeds the difference of the attackers. -/
theorem capture_order (s : Search) (mv : List Move) (ttMove : Move) (ply : Int)
    (hc : Consistent s.e) (hz : ∀ x y z, s.history_heur x y z = 0) :
    (∀ a b : Move, a ∈ qsearchMoves s.e → b ∈ qsearchMoves s.e →
      (10 * victimValue s.e a - attackerValue s.e a
          > 10 * victimValue s.e b - attackerValue s.e b →
        Before (qsearchMoves s.e) a b ∧ ¬ Before (qsearchMoves s.e) b a) ∧
      (victimValue s.e a = victimValue s.e b → attackerValue s.e a < attackerValue s.e b →
        Before (qsearchMoves s.e) a b ∧ ¬ Before (qsearchMoves s.e) b a) ∧
      (10 * (victimValue s.e a - victimValue s.e b)
          > attackerValue s.e a - attackerValue s.e b →
        Before (qsearchMoves s.e) a b ∧ ¬ Before (qsearchMoves s.e) b a)) ∧
    (∀ a b : Move, a ∈ scoreMoves s mv ttMove ply → b ∈ scoreMoves s mv ttMove ply →
      a.is_capture = true → b.is_capture = true →
      a.is_castle = false → b.is_castle = false →
      isTTMove ttMove a = false → isTTMove ttMove b = false →
      isKiller s ply a = false → isKiller s ply b = false →
      10 * victimValue s.e a - attackerValue s.e a
          > 10 * victimValue s.e b - attackerValue s.e b →
      Before (scoreMoves s mv ttMove ply) a b ∧ ¬ Before (scoreMoves s mv ttMove ply) b a) := by
  constructor
  · intro a b ha hb
    have hsa := mem_qsearchMoves s.e a ha
    have hsb := mem_qsearchMoves s.e b hb
    rw [filterLegal_state s.e hc true, mvv_lva_eq] at hsa hsb
    have hsrt : (qsearchMoves s.e).Pairwise (fun a b => a.score ≥ b.score) :=
      sortByScore_sorted _
    refine ⟨?_, ?_, ?_⟩
    · intro h
      exact before_of_score _ hsrt a b ha hb (by omega)
    · intro h1 h2
      exact before_of_score _ hsrt a b ha hb (by omega)
    · intro h
      exact before_of_score _ hsrt a b ha hb (by omega)
  · intro a b ha hb a1 b1 a2 b2 a3 b3 a4 b4 h
    have hsa := mem_scoreMoves s mv ttMove ply a ha
    have hsb := mem_scoreMoves s mv ttMove ply b hb
    rw [moveScore_eq] at hsa hsb
    have hsrt : (scoreMoves s mv ttMove ply).Pairwise (fun a b => a.score ≥ b.score) :=
      sortByScore_sorted _
    apply before_of_score _ hsrt a b ha hb
    have ka : historyOf s a = 0 := hz _ _ _
    have kb : historyOf s b = 0 := hz _ _ _
    have e1 := (captureBonus_cases s a).1 a1
    have e2 := (castleBonus_cases a).1 a2
    have e3 := (ttBonus_cases ttMove a).2 a3
    have e4 := (killerBonus_cases s ply a).1 a4
    have f1 := (captureBonus_cases s b).1 b1
    have f2 := (castleBonus_cases b).1 b2
    have f3 := (ttBonus_cases ttMove b).2 b3
    have f4 := (killerBonus_cases s ply b).1 b4
    rw [mvv_lva_eq] at e1 f1
    omega

set_option maxRecDepth 100000 in
/-- Pawn takes knight (3200 - 100) stands before queen takes bishop (3300 - 900). -/
theorem capture_order_witness :
    Before (qsearchMoves fenTwoCaptures) { e4xf5 with score := 3100 }
      { d1xd7 with score := 2400 } :=
  (((capture_order { e := fenTwoCaptures } [] {} 0 (by decide!) (fun _ _ _ => rfl)).1
    { e4xf5 with score := 3100 } { d1xd7 with score := 2400 } (by decide!) (by decide!)).1
    (by decide!)).1

set_option maxRecDepth 100000 in
/-- C28 as stated fails: the bishop is worth more than the knight (330 against 320), yet
`qsearch` tries pawn takes knight before queen takes bishop, and so does `scoreMoves`. -/
theorem lower_victim_first :
    (qsearchMoves fenTwoCaptures).map moveToUCI = ["e4f5", "d1d7"] ∧
    (qsearchMoves fenTwoCaptures).map (fun m =>
        (victimValue fenTwoCaptures m, attackerValue fenTwoCaptures m))
      = [(320, 100), (330, 900)] ∧
    ((scoreMoves { e := fenTwoCaptures } (generateLegal fenTwoCaptures).1 {} 0).take 2).map
        moveToUCI = ["e4f5", "d1d7"] := by
  decide!

/-! ## Killer and history updates (C29) -/

theorem pvsLoop_single (child : Search → Int → Int → Int → Int × Search)
    (depth ply beta : Int) (m : Move) (s : Search) (moveCount alpha best : Int)
    (bestMove : Move) :
    (pvsLoop child depth ply beta [m] s moveCount alpha best bestMove).2.2 =
      if (searchedMove child depth alpha beta m moveCount s).1 > alpha ∧ m.is_capture = false
      then updateHeuristics (searchedMove child depth alpha beta m moveCount s).2 m depth ply
      else (searchedMove child depth alpha beta m moveCount s).2 := by
  simp only [pvsLoop, searchedMove]
  split_ifs <;> simp_all

/-- C29 (amended).  The loop of `pvs` changes the killer slots of the ply and the history
table exactly when a non-capturing move scores above `alpha`, whether or not the score
reaches `beta`: the move becomes the first killer of the ply, the former first killer the
second, and the history entry of (side, origin, destination) grows by `depth * depth`; no
other killer slot or history entry changes.  After a capture, and after a move that does
not score above `alpha`, killers and history are what the searches of the move left. -/
theorem heuristics_update (child : Search → Int → Int → Int → Int × Search)
    (depth ply beta : Int) (m : Move) (s : Search) (moveCount alpha best : Int)
    (bestMove : Move) :
    ((searchedMove child depth alpha beta m moveCount s).1 > alpha → m.is_capture = false →
      (pvsLoop child depth ply beta [m] s moveCount alpha best bestMove).2.2.killer 0 ply = m ∧
      (pvsLoop child depth ply beta [m] s moveCount alpha best bestMove).2.2.killer 1 ply
        = (searchedMove child depth alpha beta m moveCount s).2.killer 0 ply ∧
      (∀ (k : Nat) (p : Int), p ≠ ply →
        (pvsLoop child depth ply beta [m] s moveCount alpha best bestMove).2.2.killer k p
          = (searchedMove child depth alpha beta m moveCount s).2.killer k p) ∧
      (pvsLoop child depth ply beta [m] s moveCount alpha best bestMove).2.2.history_heur
          (if (searchedMove child depth alpha beta m moveCount s).2.e.white_to_move then 0
           else 1) (sq m.from_x m.from_y) (sq m.to_x m.to_y)
        = (searchedMove child depth alpha beta m moveCount s).2.history_heur
            (if (searchedMove child depth alpha beta m moveCount s).2.e.white_to_move then 0
             else 1) (sq m.from_x m.from_y) (sq m.to_x m.to_y) + depth * depth ∧
      (∀ (a : Nat) (b c : Int),
        ¬ (a = (if (searchedMove child depth alpha beta m moveCount s).2.e.white_to_move
                then 0 else 1) ∧ b = sq m.from_x m.from_y ∧ c = sq m.to_x m.to_y) →
        (pvsLoop child depth ply beta [m] s moveCount alpha best bestMove).2.2.history_heur
            a b c
          = (searchedMove child depth alpha beta m moveCount s).2.history_heur a b c)) ∧
    ((searchedMove child depth alpha beta m moveCount s).1 ≤ alpha ∨ m.is_capture = true →
      (pvsLoop child depth ply beta [m] s moveCount alpha best bestMove).2.2.killer
        = (searchedMove child depth alpha beta m moveCount s).2.killer ∧
      (pvsLoop child depth ply beta [m] s moveCount alpha best bestMove).2.2.history_heur
        = (searchedMove child depth alpha beta m moveCount s).2.history_heur) := by
  rw [pvsLoop_single]
  constructor
  · intro h1 h2
    rw [if_pos ⟨h1, h2⟩]
    refine ⟨?_, ?_, ?_, ?_, ?_⟩
    · simp [updateHeuristics]
    · simp [updateHeuristics]
    · intro k p hp
      simp [updateHeuristics, hp]
    · simp [updateHeuristics]
    · intro a b c h
      simp only [updateHeuristics]
      rw [if_neg h]
  · intro h
    have hn : ¬ ((searchedMove child depth alpha beta m moveCount s).1 > alpha ∧
        m.is_capture = false) := by
      rintro ⟨h1, h2⟩
      rcases h with h | h
      · omega
      · rw [h2] at h; exact absurd h (by decide)
    rw [if_neg hn]
    exact ⟨rfl, rfl⟩

set_option maxRecDepth 100000 in
/-- C29 as stated fails: at `fenKingPawn`, `pvs(1, 0, -INF_SCORE, INF_SCORE)` returns 110
and stores an exact entry, so no move scored `beta = 27999` or more; yet the quiet move
a1b2, which raised `alpha`, is the first killer of ply 0 afterwards and its history entry
is 1, where both were zero before. -/
theorem killer_without_cutoff :
    ((pvs { e := fenKingPawn } 1 0 (-INF_SCORE) INF_SCORE).1,
     ((pvs { e := fenKingPawn } 1 0 (-INF_SCORE) INF_SCORE).2.TT
        (fenKingPawn.hash &&& (TT_SIZE - 1))).flag,
     (pvs { e := fenKingPawn } 1 0 (-INF_SCORE) INF_SCORE).2.killer 0 0,
     (pvs { e := fenKingPawn } 1 0 (-INF_SCORE) INF_SCORE).2.history_heur 0 0 9)
      = (110, TT_EXACT, a1b2, 1) ∧
    (({ e := fenKingPawn } : Search).killer 0 0,
     ({ e := fenKingPawn } : Search).history_heur 0 0 9) = (MOVE_NONE, 0) ∧
    (110 : Int) < min INF_SCORE (MATE_IN_MAX - 0 - 1) := by
  decide!

/-! ## Flag of the stored entry (C31) -/

/-- The result of a call of `pvs` that gets to its store step. -/
theorem pvs_store_eq (s : Search) (depth ply alpha beta : Int)
    (h : ReachesStore s depth ply alpha beta) :
    ∃ (r : Int × Move × Search) (d : Int),
      pvs s depth ply alpha beta
        = (r.1, ttStore r.2.2 (s.e.hash &&& (TT_SIZE - 1)) d ply
            (max alpha (-MATE_IN_MAX + ply)) (min beta (MATE_IN_MAX - ply - 1)) r.1 r.2.1) := by
  obtain ⟨hstop, h0, hd, hp, hprobe, hab, hne⟩ := h
  have hs : ¬ s.stop = true := by rw [hstop]; decide
  have ht : ¬ elapsedMs s s.reads > s.time_limit_ms := h0
  have hd0 : ¬ depth ≤ 0 := by omega
  have hpl : ¬ ply ≥ MAX_PLY - 1 := by omega
  have hab0 : ¬ max alpha (-MATE_IN_MAX + ply) ≥ min beta (MATE_IN_MAX - ply - 1) := by omega
  have hemp : (generateLegal s.e).1.isEmpty = false := by
    cases hg : (generateLegal s.e).1 with
    | nil => exact absurd hg hne
    | cons a l => rfl
  rw [pvs_unfold]
  simp only [pvsBody, if_neg hs, timeUp, ht, decide_False, Bool.false_eq_true, if_false, hd0,
    hpl, pvsNode, hprobe, hab0, hemp]
  exact ⟨_, _, rfl⟩

/-- C31 (amended).  When `pvs` gets to its store step and returns `v`, the bound kind it
writes into the slot of the position is decided by `v` and the window after the mate-distance
clamp, `a = max(alpha, -MATE_IN_MAX + ply)` and `b = min(beta, MATE_IN_MAX - ply - 1)`:
`TT_ALPHA` iff `v ≤ a`, `TT_BETA` iff `v ≥ b`, `TT_EXACT` iff `a < v < b`.  When the caller's
window lies within the clamp these are the caller's `alpha` and `beta`. -/
theorem stored_flag_clamped_window (s : Search) (depth ply alpha beta : Int)
    (h : ReachesStore s depth ply alpha beta) :
    (((pvs s depth ply alpha beta).2.TT (s.e.hash &&& (TT_SIZE - 1))).flag = TT_ALPHA ↔
      (pvs s depth ply alpha beta).1 ≤ max alpha (-MATE_IN_MAX + ply)) ∧
    (((pvs s depth ply alpha beta).2.TT (s.e.hash &&& (TT_SIZE - 1))).flag = TT_BETA ↔
      (pvs s depth ply alpha beta).1 ≥ min beta (MATE_IN_MAX - ply - 1)) ∧
    (((pvs s depth ply alpha beta).2.TT (s.e.hash &&& (TT_SIZE - 1))).flag = TT_EXACT ↔
      max alpha (-MATE_IN_MAX + ply) < (pvs s depth ply alpha beta).1 ∧
      (pvs s depth ply alpha beta).1 < min beta (MATE_IN_MAX - ply - 1)) ∧
    (-MATE_IN_MAX + ply ≤ alpha → beta ≤ MATE_IN_MAX - ply - 1 →
      max alpha (-MATE_IN_MAX + ply) = alpha ∧ min beta (MATE_IN_MAX - ply - 1) = beta) := by
  have hab := h.2.2.2.2.2.1
  obtain ⟨r, d, hr⟩ := pvs_store_eq s depth ply alpha beta h
  have key :
      (((pvs s depth ply alpha beta).2.TT (s.e.hash &&& (TT_SIZE - 1))).flag = TT_ALPHA ↔
        (pvs s depth ply alpha beta).1 ≤ max alpha (-MATE_IN_MAX + ply)) ∧
      (((pvs s depth ply alpha beta).2.TT (s.e.hash &&& (TT_SIZE - 1))).flag = TT_BETA ↔
        (pvs s depth ply alpha beta).1 ≥ min beta (MATE_IN_MAX - ply - 1)) ∧
      (((pvs s depth ply alpha beta).2.TT (s.e.hash &&& (TT_SIZE - 1))).flag = TT_EXACT ↔
        max alpha (-MATE_IN_MAX + ply) < (pvs s depth ply alpha beta).1 ∧
        (pvs s depth ply alpha beta).1 < min beta (MATE_IN_MAX - ply - 1)) := by
    rw [hr]
    simp only [ttStore_slot]
    generalize max alpha (-MATE_IN_MAX + ply) = a at hab ⊢
    generalize min beta (MATE_IN_MAX - ply - 1) = b at hab ⊢
    have e01 : (TT_EXACT : Int) ≠ TT_ALPHA := by decide
    have e02 : (TT_EXACT : Int) ≠ TT_BETA := by decide
    have e12 : (TT_ALPHA : Int) ≠ TT_BETA := by decide
    by_cases c1 : r.1 ≤ a
    · rw [if_pos c1]
      exact And.intro (Iff.intro (fun _ => c1) (fun _ => rfl))
        (And.intro (Iff.intro (fun h => absurd h e12) (fun h => by omega))
          (Iff.intro (fun h => absurd h.symm e01) (fun h => by omega)))
    · rw [if_neg c1]
      by_cases c2 : r.1 ≥ b
      · rw [if_pos c2]
        exact And.intro (Iff.intro (fun h => absurd h.symm e12) (fun h => absurd h c1))
          (And.intro (Iff.intro (fun _ => c2) (fun _ => rfl))
            (Iff.intro (fun h => absurd h.symm e02) (fun h => by omega)))
      · rw [if_neg c2]
        exact And.intro (Iff.intro (fun h => absurd h e01) (fun h => absurd h c1))
          (And.intro (Iff.intro (fun h => absurd h e02) (fun h => absurd h c2))
            (Iff.intro (fun _ => And.intro (by omega) (by omega)) (fun _ => rfl)))
  exact And.intro key.1 (And.intro key.2.1 (And.intro key.2.2
    (fun h1 h2 => And.intro (max_eq_left h1) (min_eq_left h2))))

set_option maxRecDepth 100000 in
/-- At `fenMateInOne` the call `pvs(2, 0, -INF_SCORE, INF_SCORE)` gets to its store step, and
the flag it writes is `TT_BETA` exactly if the value is at least the clamped `beta`. -/
theorem stored_flag_clamped_window_witness :
    ReachesStore mateInOneSearch 2 0 (-INF_SCORE) INF_SCORE ∧
    (((pvs mateInOneSearch 2 0 (-INF_SCORE) INF_SCORE).2.TT
        (mateInOneSearch.e.hash &&& (TT_SIZE - 1))).flag = TT_BETA ↔
      (pvs mateInOneSearch 2 0 (-INF_SCORE) INF_SCORE).1
        ≥ min INF_SCORE (MATE_IN_MAX - 0 - 1)) :=
  ⟨by decide!,
   (stored_flag_clamped_window mateInOneSearch 2 0 (-INF_SCORE) INF_SCORE (by decide!)).2.1⟩

set_option maxRecDepth 100000 in
/-- C31 as stated fails: at `fenMateInOne`, with the caller's window `(-30000, 30000)`, the
call gets to its store step and returns 28999 (mate at ply 1), a value strictly inside the
caller's window, yet the entry written for the position has the flag `TT_BETA`, not
`TT_EXACT`: 28999 is not below the clamped `beta`, which is 27999. -/
theorem value_inside_window_stored_as_bound :
    ReachesStore mateInOneSearch 2 0 (-INF_SCORE) INF_SCORE ∧
    (pvs mateInOneSearch 2 0 (-INF_SCORE) INF_SCORE).1 = 28999 ∧
    -INF_SCORE < (28999 : Int) ∧ (28999 : Int) < INF_SCORE ∧
    ((pvs mateInOneSearch 2 0 (-INF_SCORE) INF_SCORE).2.TT
      (fenMateInOne.hash &&& (TT_SIZE - 1))).key = fenMateInOne.hash ∧
    ((pvs mateInOneSearch 2 0 (-INF_SCORE) INF_SCORE).2.TT
      (fenMateInOne.hash &&& (TT_SIZE - 1))).flag = TT_BETA ∧
    (pvs mateInOneSearch 2 0 (-INF_SCORE) INF_SCORE).2.stop = false := by
  decide!

/-! ## Mate scores in the transposition table (C23) -/

/-- The probe of `pvs` written with the local `sc` of `probeScore`. -/
theorem ttProbe_probeScore (te : TTEntry) (hash : Nat) (depth ply alpha beta : Int) :
    ttProbe te hash depth ply alpha beta =
      if te.key = hash ∧ te.depth ≥ depth then
        if te.flag = TT_EXACT then (some (probeScore te ply), {})
        else if te.flag = TT_ALPHA ∧ probeScore te ply ≤ alpha then (some alpha, {})
        else if te.flag = TT_BETA ∧ probeScore te ply ≥ beta then (some beta, {})
        else (none, te.best)
      else if te.key = hash then (none, te.best)
      else (none, {}) := rfl

/-- A stored score of magnitude at most `INF_SCORE - 1000` is read by the probe as it is, at
every ply. -/
theorem probeScore_inner (te : TTEntry) (q : Int) (h1 : -29000 ≤ te.score)
    (h2 : te.score ≤ 29000) : probeScore te q = te.score := by
  unfold probeScore
  have e1 : ¬ te.score > INF_SCORE - 1000 := by simp only [INF_SCORE]; omega
  have e2 : ¬ te.score < -INF_SCORE + 1000 := by simp only [INF_SCORE]; omega
  simp only [e1, e2, if_false]

/-- The entry written by the store step for a value `best` of magnitude at most
`INF_SCORE - 1000`: the score is `best` itself, with no ply added or taken off. -/
theorem ttStore_inner (s : Search) (idx : Nat) (depth ply a b best : Int) (bm : Move)
    (h1 : -29000 ≤ best) (h2 : best ≤ 29000) :
    ((ttStore s idx depth ply a b best bm).TT idx).score = best ∧
    ((ttStore s idx depth ply a b best bm).TT idx).flag =
      (if best ≤ a then TT_ALPHA else if best ≥ b then TT_BETA else TT_EXACT) := by
  rw [ttStore_slot]
  have e1 : ¬ best > INF_SCORE - 1000 := by simp only [INF_SCORE]; omega
  have e2 : ¬ best < -INF_SCORE + 1000 := by simp only [INF_SCORE]; omega
  refine ⟨?_, rfl⟩
  simp only [e1, e2, if_false]
  exact toInt16_small _ (by omega) (by omega)

/-- C23 (what the code does).  Let the call `pvs(depth, p, alpha, beta)` get to its store
step and return the mate value `MATE_SCORE - p - k` (or `-MATE_SCORE + p + k`), with
`0 ≤ p`, `0 ≤ k` and `p + k < MAX_PLY`.  The entry it writes for the position holds that
very value, which contains `p`: no ply is added or taken off, since the store adjusts only
values above `INF_SCORE - 1000 = 29000 = MATE_SCORE` or below `-29000`.  The entry is a
bound (`TT_BETA`, respectively `TT_ALPHA`), never exact.  A probe at any ply `q` reads the
same value `MATE_SCORE - p - k`, which is the value `MATE_SCORE - q - k` of ply `q` only
when `q = p`; and what a probe with the entry's key and a depth the entry covers returns is
the caller's `beta` (respectively `alpha`) when the stored value is beyond it, and nothing
otherwise. -/
theorem mate_score_stored_with_ply (s : Search) (depth p alpha beta k : Int)
    (h : ReachesStore s depth p alpha beta) (hp : 0 ≤ p) (hk : 0 ≤ k)
    (hpk : p + k < MAX_PLY) :
    ((pvs s depth p alpha beta).1 = MATE_SCORE - p - k →
      ((pvs s depth p alpha beta).2.TT (s.e.hash &&& (TT_SIZE - 1))).score
        = MATE_SCORE - p - k ∧
      ((pvs s depth p alpha beta).2.TT (s.e.hash &&& (TT_SIZE - 1))).flag = TT_BETA ∧
      ∀ q : Int,
        probeScore ((pvs s depth p alpha beta).2.TT (s.e.hash &&& (TT_SIZE - 1))) q
          = MATE_SCORE - p - k ∧
        (probeScore ((pvs s depth p alpha beta).2.TT (s.e.hash &&& (TT_SIZE - 1))) q
          = MATE_SCORE - q - k ↔ q = p) ∧
        ∀ d a b : Int,
          ((pvs s depth p alpha beta).2.TT (s.e.hash &&& (TT_SIZE - 1))).depth ≥ d →
          (ttProbe ((pvs s depth p alpha beta).2.TT (s.e.hash &&& (TT_SIZE - 1)))
            ((pvs s depth p alpha beta).2.TT (s.e.hash &&& (TT_SIZE - 1))).key d q a b).1
            = if MATE_SCORE - p - k ≥ b then some b else none) ∧
    ((pvs s depth p alpha beta).1 = -MATE_SCORE + p + k →
      ((pvs s depth p alpha beta).2.TT (s.e.hash &&& (TT_SIZE - 1))).score
        = -MATE_SCORE + p + k ∧
      ((pvs s depth p alpha beta).2.TT (s.e.hash &&& (TT_SIZE - 1))).flag = TT_ALPHA ∧
      ∀ q : Int,
        probeScore ((pvs s depth p alpha beta).2.TT (s.e.hash &&& (TT_SIZE - 1))) q
          = -MATE_SCORE + p + k ∧
        (probeScore ((pvs s depth p alpha beta).2.TT (s.e.hash &&& (TT_SIZE - 1))) q
          = -MATE_SCORE + q + k ↔ q = p) ∧
        ∀ d a b : Int,
          ((pvs s depth p alpha beta).2.TT (s.e.hash &&& (TT_SIZE - 1))).depth ≥ d →
          (ttProbe ((pvs s depth p alpha beta).2.TT (s.e.hash &&& (TT_SIZE - 1)))
            ((pvs s depth p alpha beta).2.TT (s.e.hash &&& (TT_SIZE - 1))).key d q a b).1
            = if -MATE_SCORE + p + k ≤ a then some a else none) := by
  have hab := h.2.2.2.2.2.1
  obtain ⟨r, d0, hr⟩ := pvs_store_eq s depth p alpha beta h
  rw [hr]
  simp only [MATE_SCORE, MATE_IN_MAX, MAX_PLY] at *
  generalize ha0 : max alpha (-28000 + p) = a0 at hab ⊢
  have ha1 : -28000 + p ≤ a0 := by rw [← ha0]; exact le_max_right _ _
  generalize hb0 : min beta (28000 - p - 1) = b0 at hab ⊢
  have hb1 : b0 ≤ 28000 - p - 1 := by rw [← hb0]; exact min_le_right _ _
  generalize hte : (ttStore r.2.2 (s.e.hash &&& (TT_SIZE - 1)) d0 p a0 b0 r.1 r.2.1).TT
    (s.e.hash &&& (TT_SIZE - 1)) = te
  constructor
  · intro hv
    have hst := ttStore_inner r.2.2 (s.e.hash &&& (TT_SIZE - 1)) d0 p a0 b0 r.1 r.2.1
      (by omega) (by omega)
    rw [hte, hv] at hst
    have c1 : ¬ (29000 - p - k ≤ a0) := by omega
    have c2 : 29000 - p - k ≥ b0 := by omega
    rw [if_neg c1, if_pos c2] at hst
    obtain ⟨hsc, hfl⟩ := hst
    refine ⟨hsc, hfl, fun q => ?_⟩
    have hq := probeScore_inner te q (by omega) (by omega)
    rw [hsc] at hq
    refine ⟨hq, by rw [hq]; omega, fun d a b hd => ?_⟩
    rw [ttProbe_probeScore, hq, hfl]
    have f1 : ¬ ((TT_BETA : Int) = TT_EXACT) := by decide
    have f2 : ¬ ((TT_BETA : Int) = TT_ALPHA) := by decide
    simp only [hd, and_self, true_and, if_true, f1, f2, false_and, if_false]
    split_ifs <;> rfl
  · intro hv
    have hst := ttStore_inner r.2.2 (s.e.hash &&& (TT_SIZE - 1)) d0 p a0 b0 r.1 r.2.1
      (by omega) (by omega)
    rw [hte, hv] at hst
    have c1 : -29000 + p + k ≤ a0 := by omega
    rw [if_pos c1] at hst
    obtain ⟨hsc, hfl⟩ := hst
    refine ⟨hsc, hfl, fun q => ?_⟩
    have hq := probeScore_inner te q (by omega) (by omega)
    rw [hsc] at hq
    refine ⟨hq, by rw [hq]; omega, fun d a b hd => ?_⟩
    rw [ttProbe_probeScore, hq, hfl]
    have f1 : ¬ ((TT_ALPHA : Int) = TT_EXACT) := by decide
    have f2 : ¬ ((TT_ALPHA : Int) = TT_BETA) := by decide
    simp only [hd, and_self, true_and, if_true, f1, f2, false_and, if_false]
    split_ifs <;> rfl

set_option maxRecDepth 100000 in
/-- One session: `position fen 8/8/8/8/8/3k3p/6BP/r6K w - - 0 1`, `go depth 1`,
`position fen 8/8/8/8/8/3k3p/7P/r4B1K b - - 1 1`, `go depth 1`.  The first search plays
g2f1; it leaves for its root (ply 0, value `-28998 = -MATE_SCORE + 0 + 2`) an entry with
the score -28998 and the flag `TT_ALPHA`, and for the position after g2f1 (a node at ply 1
of value `28998 = MATE_SCORE - 1 - 1`) an entry with the key of that position, the score
28998 and the flag `TT_BETA`.  In the second search that position is the root: the probe at ply 0
reads 28998 from the entry, not `MATE_SCORE - 0 - 1 = 28999`; the call
`pvs(1, 0, -INF_SCORE, INF_SCORE)` gets to its store step with the value
`28999 = MATE_SCORE - 0 - 1` and writes 28999 into the same entry.  So for the same
position and the same `k = 1` the score written at ply 1 is 28998 and the score written at
ply 0 is 28999. -/
theorem mate_score_stored_with_ply_witness :
    (search initBook 0 crossCheckSearch 1 2000).map (fun r => moveToUCI r.1) = some "g2f1" ∧
    (afterFirstGo.TT (fenCrossCheck.hash &&& (TT_SIZE - 1))).score = -MATE_SCORE + 0 + 2 ∧
    (afterFirstGo.TT (fenCrossCheck.hash &&& (TT_SIZE - 1))).flag = TT_ALPHA ∧
    (rootCall replySearch 2000).e.hash = (setFEN {} fenCrossCheckReply).hash ∧
    (makeMove fenCrossCheck g2f1).hash = (setFEN {} fenCrossCheckReply).hash ∧
    ((rootCall replySearch 2000).TT ((rootCall replySearch 2000).e.hash &&& (TT_SIZE - 1))).key
      = (rootCall replySearch 2000).e.hash ∧
    ((rootCall replySearch 2000).TT ((rootCall replySearch 2000).e.hash &&& (TT_SIZE - 1))).score
      = MATE_SCORE - 1 - 1 ∧
    ((rootCall replySearch 2000).TT ((rootCall replySearch 2000).e.hash &&& (TT_SIZE - 1))).flag
      = TT_BETA ∧
    probeScore
      ((rootCall replySearch 2000).TT ((rootCall replySearch 2000).e.hash &&& (TT_SIZE - 1))) 0
      = 28998 ∧
    (28998 : Int) ≠ MATE_SCORE - 0 - 1 ∧
    ReachesStore (rootCall replySearch 2000) 1 0 (-INF_SCORE) INF_SCORE ∧
    (pvs (rootCall replySearch 2000) 1 0 (-INF_SCORE) INF_SCORE).1 = MATE_SCORE - 0 - 1 ∧
    ((pvs (rootCall replySearch 2000) 1 0 (-INF_SCORE) INF_SCORE).2.TT
      ((rootCall replySearch 2000).e.hash &&& (TT_SIZE - 1))).score = MATE_SCORE - 0 - 1 ∧
    ((pvs (rootCall replySearch 2000) 1 0 (-INF_SCORE) INF_SCORE).2.TT
      ((rootCall replySearch 2000).e.hash &&& (TT_SIZE - 1))).flag = TT_BETA := by
  have c : (search initBook 0 crossCheckSearch 1 2000).map (fun r => moveToUCI r.1)
        = some "g2f1" ∧
      (afterFirstGo.TT (fenCrossCheck.hash &&& (TT_SIZE - 1))).score = -MATE_SCORE + 0 + 2 ∧
      (afterFirstGo.TT (fenCrossCheck.hash &&& (TT_SIZE - 1))).flag = TT_ALPHA ∧
      (rootCall replySearch 2000).e.hash = (setFEN {} fenCrossCheckReply).hash ∧
      (makeMove fenCrossCheck g2f1).hash = (setFEN {} fenCrossCheckReply).hash ∧
      ((rootCall replySearch 2000).TT
        ((rootCall replySearch 2000).e.hash &&& (TT_SIZE - 1))).key
        = (rootCall replySearch 2000).e.hash ∧
      ((rootCall replySearch 2000).TT
        ((rootCall replySearch 2000).e.hash &&& (TT_SIZE - 1))).score = MATE_SCORE - 1 - 1 ∧
      ((rootCall replySearch 2000).TT
        ((rootCall replySearch 2000).e.hash &&& (TT_SIZE - 1))).flag = TT_BETA ∧
      probeScore ((rootCall replySearch 2000).TT
        ((rootCall replySearch 2000).e.hash &&& (TT_SIZE - 1))) 0 = 28998 ∧
      (28998 : Int) ≠ MATE_SCORE - 0 - 1 ∧
      ReachesStore (rootCall replySearch 2000) 1 0 (-INF_SCORE) INF_SCORE ∧
      (pvs (rootCall replySearch 2000) 1 0 (-INF_SCORE) INF_SCORE).1
        = MATE_SCORE - 0 - 1 := by
    decide!
  obtain ⟨c1, n1, n2, c2, c3, c4, c5, c6, c7, c8, hr, hv⟩ := c
  have h := (mate_score_stored_with_ply (rootCall replySearch 2000) 1 0 (-INF_SCORE) INF_SCORE 1
    hr (by decide) (by decide) (by decide)).1 hv
  exact ⟨c1, n1, n2, c2, c3, c4, c5, c6, c7, c8, hr, hv, h.1, h.2.1⟩

/-! ## Captures-only generation (C32) -/

theorem filter_capture_flatMap {α : Type} (l : List α) (f g : α → List Move)
    (h : ∀ a ∈ l, g a = (f a).filter (fun m => m.is_capture)) :
    l.flatMap g = (l.flatMap f).filter (fun m => m.is_capture) := by
  induction l with
  | nil => rfl
  | cons a l ih =>
    simp only [List.flatMap_cons, List.filter_append]
    rw [h a (List.mem_cons_self _ _), ih (fun b hb => h b (List.mem_cons_of_mem _ hb))]

theorem pawnMoves_captures (s : Engine) (x y : Int) :
    pawnMoves s true x y = (pawnMoves s false x y).filter (fun m => m.is_capture) := by
  simp only [pawnMoves, List.filter_append]
  refine congrArg₂ (· ++ ·) (congrArg₂ (· ++ ·) ?_ ?_) ?_
  · split_ifs <;> simp_all [add]
  · apply filter_capture_flatMap
    intro dx _
    split_ifs <;> simp [add]
  · split_ifs <;> simp [add]

theorem jumpMoves_captures (s : Engine) (x y : Int) (offs : List (Int × Int)) :
    jumpMoves s true x y offs = (jumpMoves s false x y offs).filter (fun m => m.is_capture) := by
  unfold jumpMoves
  apply filter_capture_flatMap
  intro d _
  by_cases ho : onBoard (x + d.1) (y + d.2) = true
  · by_cases ht : s.b.get (y + d.2) (x + d.1) = EMPTY
    · have hopp : isOpp s.white_to_move EMPTY = false := by
        cases s.white_to_move <;> rfl
      simp [ho, ht, hopp, add]
    · by_cases hopp : isOpp s.white_to_move (s.b.get (y + d.2) (x + d.1)) = true
      · simp [ho, ht, hopp, add]
      · simp [ho, ht, hopp]
  · simp [ho]

theorem slideRay_captures (s : Engine) (x y dx dy : Int) :
    ∀ (fuel : Nat) (nx ny : Int),
      slideRay s true x y dx dy fuel nx ny
        = (slideRay s false x y dx dy fuel nx ny).filter (fun m => m.is_capture) := by
  intro fuel
  induction fuel with
  | zero => intro nx ny; rfl
  | succ n ih =>
    intro nx ny
    unfold slideRay
    by_cases ho : onBoard nx ny = true
    · by_cases ht : s.b.get ny nx = EMPTY
      · simp [ho, ht, add, ih (nx + dx) (ny + dy)]
      · by_cases hopp : isOpp s.white_to_move (s.b.get ny nx) = true
        · simp [ho, ht, hopp, add]
        · simp [ho, ht, hopp]
    · simp [ho]

theorem sliderMoves_captures (s : Engine) (x y : Int) (p : Nat) :
    sliderMoves s true x y p = (sliderMoves s false x y p).filter (fun m => m.is_capture) := by
  unfold sliderMoves
  apply filter_capture_flatMap
  intro d _
  exact slideRay_captures s x y d.1 d.2 8 _ _

theorem castleMoves_captures (s : Engine) (x y : Int) :
    castleMoves s true x y = (castleMoves s false x y).filter (fun m => m.is_capture) := by
  simp only [castleMoves, Bool.not_true, Bool.false_eq_true, if_false, Bool.not_false, if_true,
    List.append_nil, ite_self]
  split_ifs <;> simp [add]

theorem pieceMoves_captures (s : Engine) (x y : Int) :
    pieceMoves s true x y = (pieceMoves s false x y).filter (fun m => m.is_capture) := by
  unfold pieceMoves
  simp only []
  split_ifs
  · rfl
  · rfl
  · rfl
  · exact pawnMoves_captures s x y
  · exact jumpMoves_captures s x y knightJumps
  · exact sliderMoves_captures s x y _
  · rw [List.filter_append, ← jumpMoves_captures, ← castleMoves_captures]
  · rfl

/-- The captures-only list is the sub-list of the captures of the full list, helper form. -/
theorem generatePseudo_true_eq (s : Engine) :
    generatePseudo s true = (generatePseudo s false).filter (fun m => m.is_capture) := by
  unfold generatePseudo
  apply filter_capture_flatMap
  intro yx _
  exact pieceMoves_captures s yx.2 yx.1

/-- C32 (amended).  For every position `generatePseudo(true)` is the sub-list of
`generatePseudo(false)` made of the moves with `is_capture` set (captures, capturing
promotions and en-passant captures), in the same order.  A promotion that does not capture
is not in it, so the moves examined by `qsearch` are the legal captures only. -/
theorem generatePseudo_captures_only (s : Engine) :
    generatePseudo s true = (generatePseudo s false).filter (fun m => m.is_capture) ∧
    (∀ m ∈ generatePseudo s true, m.is_capture = true) ∧
    (∀ m ∈ generatePseudo s false, m.is_capture = false → m ∉ generatePseudo s true) := by
  refine ⟨generatePseudo_true_eq s, fun m hm => ?_, fun m _ hc hm => ?_⟩
  · rw [generatePseudo_true_eq] at hm
    exact (List.mem_filter.mp hm).2
  · rw [generatePseudo_true_eq] at hm
    have := (List.mem_filter.mp hm).2
    rw [hc] at this
    exact absurd this (by decide)

set_option maxRecDepth 100000 in
/-- C32 as stated fails: with a white pawn on a7 and a8 empty (`fenPromo`) the promotion
`a7a8q` is in `generatePseudo(false)` and promotes, yet `generatePseudo(true)` is empty, and
`qsearch` examines no move. -/
theorem promotion_not_examined :
    a7a8q ∈ generatePseudo fenPromo false ∧ a7a8q.promotion = WQUEEN ∧
    generatePseudo fenPromo true = [] ∧ qsearchMoves fenPromo = [] := by
  decide!

/-! ## Bounded recursion of the search (C33) -/

theorem pvsBodyQ_qsearch (rec : Search → Int → Int → Int → Int → Int × Search) :
    pvsBodyQ qsearch rec = pvsBody rec := rfl

theorem qBody_congr (rec1 rec2 : Engine → Int → Int → Int → Int × Engine) (e : Engine)
    (alpha beta ply : Int)
    (h : ∀ e1 a b, rec1 e1 a b (ply + 1) = rec2 e1 a b (ply + 1)) :
    qBody rec1 e alpha beta ply = qBody rec2 e alpha beta ply := by
  have hf : (fun e1 a b => rec1 e1 a b (ply + 1)) = (fun e1 a b => rec2 e1 a b (ply + 1)) := by
    funext e1 a b; exact h e1 a b
  simp only [qBody, hf]

theorem qBody_cap (rec1 rec2 : Engine → Int → Int → Int → Int × Engine) (e : Engine)
    (alpha beta ply : Int) (h : ply ≥ MAX_PLY - 1) :
    qBody rec1 e alpha beta ply = qBody rec2 e alpha beta ply := by
  simp only [qBody, if_pos h]

theorem pvsBodyQ_congr (q1 q2 : Engine → Int → Int → Int → Int × Engine)
    (rec1 rec2 : Search → Int → Int → Int → Int → Int × Search) (s : Search)
    (depth ply alpha beta : Int)
    (hq : ∀ e a b, q1 e a b ply = q2 e a b ply)
    (h : ply < MAX_PLY - 1 → ∀ s1 d a b, rec1 s1 d (ply + 1) a b = rec2 s1 d (ply + 1) a b) :
    pvsBodyQ q1 rec1 s depth ply alpha beta = pvsBodyQ q2 rec2 s depth ply alpha beta := by
  by_cases hp : ply ≥ MAX_PLY - 1
  · simp only [pvsBodyQ, hq, if_pos hp]
  · have hf : (fun s1 d a b => rec1 s1 d (ply + 1) a b)
        = (fun s1 d a b => rec2 s1 d (ply + 1) a b) := by
      funext s1 d a b; exact h (by omega) s1 d a b
    simp only [pvsBodyQ, hq, hf]

theorem qsearchN_eq (bot : Engine → Int → Int → Int → Int × Engine) :
    ∀ (n : Nat) (e : Engine) (alpha beta ply : Int),
      1 ≤ n → (MAX_PLY - ply).toNat ≤ n → qsearchN bot n e alpha beta ply
        = qsearch e alpha beta ply := by
  intro n
  induction n with
  | zero => intro e alpha beta ply h; omega
  | succ n ih =>
    intro e alpha beta ply _ hn
    rw [qsearch_unfold]
    show qBody (qsearchN bot n) e alpha beta ply = _
    by_cases hp : ply ≥ MAX_PLY - 1
    · exact qBody_cap _ _ e alpha beta ply hp
    · apply qBody_congr
      intro e1 a b
      have hM : MAX_PLY = 64 := rfl
      exact ih e1 a b (ply + 1) (by omega) (by omega)

theorem pvsN_eq (botq : Engine → Int → Int → Int → Int × Engine)
    (bot : Search → Int → Int → Int → Int → Int × Search) :
    ∀ (n : Nat) (s : Search) (depth ply alpha beta : Int),
      2 ≤ n → (MAX_PLY - ply).toNat + 1 ≤ n → pvsN botq bot n s depth ply alpha beta
        = pvs s depth ply alpha beta := by
  intro n
  induction n with
  | zero => intro s depth ply alpha beta h; omega
  | succ n ih =>
    intro s depth ply alpha beta h2 hn
    rw [pvs_unfold, ← pvsBodyQ_qsearch]
    show pvsBodyQ (qsearchN botq n) (pvsN botq bot n) s depth ply alpha beta = _
    apply pvsBodyQ_congr
    · intro e a b
      exact qsearchN_eq botq n e a b ply (by omega) (by omega)
    · intro hp s1 d a b
      have hM : MAX_PLY = 64 := rfl
      exact ih s1 d (ply + 1) a b (by omega) (by omega)

/-- C33.  `pvs` and `qsearch` terminate: the recursion is bounded by the ply.  Every
recursive call in the two bodies is made with `ply + 1` (a body gives the same result with
any two functions that agree at `ply + 1`), no recursive call is made once
`ply ≥ MAX_PLY - 1`, and `pvs` hands over to `qsearch` at its own ply.  Hence a call of
`qsearch` at `ply ≥ 0` is complete within `MAX_PLY` nested calls, the call itself included,
and a call of `pvs` within `MAX_PLY + 1`, i.e. with at most `MAX_PLY` calls below it, for
every position, depth and window, whatever the check extension does to `depth`; the results
are those of the total functions `qsearch` and `pvs` of this development. -/
theorem search_recursion_bounded :
    (∀ (rec1 rec2 : Engine → Int → Int → Int → Int × Engine) (e : Engine) (alpha beta ply : Int),
      ((∀ e1 a b, rec1 e1 a b (ply + 1) = rec2 e1 a b (ply + 1)) ∨ ply ≥ MAX_PLY - 1) →
      qBody rec1 e alpha beta ply = qBody rec2 e alpha beta ply) ∧
    (∀ (rec1 rec2 : Search → Int → Int → Int → Int → Int × Search) (s : Search)
      (depth ply alpha beta : Int),
      ((∀ s1 d a b, rec1 s1 d (ply + 1) a b = rec2 s1 d (ply + 1) a b) ∨ ply ≥ MAX_PLY - 1) →
      pvsBody rec1 s depth ply alpha beta = pvsBody rec2 s depth ply alpha beta) ∧
    (∀ (bot : Engine → Int → Int → Int → Int × Engine) (n : Nat) (e : Engine)
      (alpha beta ply : Int), 0 ≤ ply → MAX_PLY ≤ n →
      qsearchN bot n e alpha beta ply = qsearch e alpha beta ply) ∧
    (∀ (botq : Engine → Int → Int → Int → Int × Engine)
      (bot : Search → Int → Int → Int → Int → Int × Search) (n : Nat) (s : Search)
      (depth ply alpha beta : Int), 0 ≤ ply → MAX_PLY + 1 ≤ n →
      pvsN botq bot n s depth ply alpha beta = pvs s depth ply alpha beta) ∧
    (∀ (e : Engine) (alpha beta ply : Int),
      qsearch e alpha beta ply = qBody qsearch e alpha beta ply) ∧
    (∀ (s : Search) (depth ply alpha beta : Int),
      pvs s depth ply alpha beta = pvsBody pvs s depth ply alpha beta) := by
  refine ⟨?_, ?_, ?_, ?_, qsearch_unfold, pvs_unfold⟩
  · intro rec1 rec2 e alpha beta ply h
    rcases h with h | h
    · exact qBody_congr rec1 rec2 e alpha beta ply h
    · exact qBody_cap rec1 rec2 e alpha beta ply h
  · intro rec1 rec2 s depth ply alpha beta h
    rw [← pvsBodyQ_qsearch, ← pvsBodyQ_qsearch]
    apply pvsBodyQ_congr
    · intro e a b; rfl
    · intro hp s1 d a b
      rcases h with h | h
      · exact h s1 d a b
      · omega
  · intro bot n e alpha beta ply hp hn
    have hM : MAX_PLY = 64 := rfl
    exact qsearchN_eq bot n e alpha beta ply (by omega) (by omega)
  · intro botq bot n s depth ply alpha beta hp hn
    have hM : MAX_PLY = 64 := rfl
    exact pvsN_eq botq bot n s depth ply alpha beta (by omega) (by omega)

/-! ## The legality filter leaves the position unchanged (C34) -/

set_option maxRecDepth 100000 in
theorem reachable_afterQh5 : Reachable afterQh5 :=
  Reachable.step (Reachable.step (Reachable.step (Reachable.start {}) (by decide!))
    (by decide!)) (by decide!)

/-- C34.  In every position reachable from the start position `generateLegal()` leaves the
whole engine record as it was (board, side to move, castling rights, `ep_file`, both move
counters, hash, undo stack and `uci_history`), and so does the legality test of every single
candidate, kept or rejected: each candidate of `generatePseudo(false)` is made and unmade,
and the list returned holds the candidates after which the mover's king is not attacked. -/
theorem generateLegal_leaves_state (s : Engine) (h : Reachable s) :
    (generateLegal s).2 = s ∧
    (∀ m ∈ generatePseudo s false,
      (legalMove s m).2 = s ∧ undoMove (makeMove s m) m = s ∧
      (legalMove s m).1 = !inCheck (makeMove s m).b s.white_to_move) ∧
    (generateLegal s).1
      = (generatePseudo s false).filter (fun m => !inCheck (makeBoard s m) s.white_to_move) := by
  have hc := reachable_consistent s h
  refine ⟨generateLegal_state s hc, fun m hm => ?_, ?_⟩
  · have hp := pseudo_ok s false m hm
    rw [legalMove_eq s m hc hp]
    exact ⟨rfl, roundtrip s m hc hp, rfl⟩
  · rw [generateLegal_eq s hc]

set_option maxRecDepth 100000 in
/-- After `1. e4 e5 2. Qh5` the candidate `f7f6` is generated and rejected (it would leave
the black king attacked by the queen), and the engine is unchanged by the call. -/
theorem generateLegal_leaves_state_witness :
    f7f6 ∈ generatePseudo afterQh5 false ∧ f7f6 ∉ (generateLegal afterQh5).1 ∧
    (generateLegal afterQh5).2 = afterQh5 :=
  ⟨by decide!, by decide!, (generateLegal_leaves_state afterQh5 reachable_afterQh5).1⟩

/-! ## Quiescence value (C35) -/

theorem quiescence_unfold (e : Engine) (ply : Int) :
    quiescence e ply =
      if ply ≥ MAX_PLY - 1 then evaluate e
      else (legalCaptures e).foldl
        (fun acc m => max acc (- quiescence (makeMove e m) (ply + 1))) (evaluate e) := by
  unfold quiescence
  by_cases hp : ply ≥ MAX_PLY - 1
  · rw [if_pos hp]
    have h0 : (MAX_PLY - 1 - ply).toNat = 0 := by
      have hM : MAX_PLY = 64 := rfl
      omega
    rw [h0]
    rfl
  · rw [if_neg hp]
    have hM : MAX_PLY = 64 := rfl
    obtain ⟨k, hk⟩ : ∃ k, (MAX_PLY - 1 - ply).toNat = k + 1 :=
      ⟨(MAX_PLY - 1 - ply).toNat - 1, by omega⟩
    have hk' : (MAX_PLY - 1 - (ply + 1)).toNat = k := by omega
    rw [hk, hk']
    simp only [quiescenceF, if_neg hp]

theorem foldl_max_init (v : Move → Int) (l : List Move) (a b : Int) :
    l.foldl (fun acc m => max acc (v m)) (max a b)
      = max a (l.foldl (fun acc m => max acc (v m)) b) := by
  induction l generalizing b with
  | nil => rfl
  | cons m l ih => simp only [List.foldl_cons, max_assoc, ih]

theorem foldl_max_ge (v : Move → Int) (l : List Move) (a : Int) :
    a ≤ l.foldl (fun acc m => max acc (v m)) a := by
  induction l generalizing a with
  | nil => exact le_refl _
  | cons m l ih => exact le_trans (le_max_left _ _) (ih _)

/-- The move loop of `qsearch` computes the maximum of `alpha` and the values of the moves,
cut off at `beta`, and leaves the engine as it was: this needs that every move is undone
exactly and that the value `sc` obtained for a move `m` is as good as its true value `v m`
for the two tests of the loop. -/
theorem qLoop_eq (child : Engine → Int → Int → Int × Engine) (v : Move → Int) (e : Engine)
    (beta : Int) :
    ∀ (l : List Move) (alpha : Int), alpha < beta →
      (∀ m ∈ l, ∀ a : Int, a < beta →
        undoMove (child (makeMove e m) (-beta) (-a)).2 m = e ∧
        (-(child (makeMove e m) (-beta) (-a)).1 ≥ beta ↔ v m ≥ beta) ∧
        (-(child (makeMove e m) (-beta) (-a)).1 < beta →
          max a (-(child (makeMove e m) (-beta) (-a)).1) = max a (v m))) →
      qLoop child l e alpha beta
        = (min beta (l.foldl (fun acc m => max acc (v m)) alpha), e) := by
  intro l
  induction l with
  | nil =>
    intro alpha hab _
    simp only [qLoop, List.foldl_nil]
    rw [min_eq_right (le_of_lt hab)]
  | cons m l ih =>
    intro alpha hab hall
    obtain ⟨h1, h2, h3⟩ := hall m (List.mem_cons_self _ _) alpha hab
    simp only [qLoop, List.foldl_cons, h1]
    by_cases hc : -(child (makeMove e m) (-beta) (-alpha)).1 ≥ beta
    · rw [if_pos hc]
      have hv := h2.mp hc
      have hge := foldl_max_ge v l (max alpha (v m))
      have : beta ≤ l.foldl (fun acc m => max acc (v m)) (max alpha (v m)) :=
        le_trans (le_trans hv (le_max_right _ _)) hge
      rw [min_eq_left this]
    · rw [if_neg hc]
      have hlt : -(child (makeMove e m) (-beta) (-alpha)).1 < beta := by omega
      have hmax := h3 hlt
      have hnew : (if -(child (makeMove e m) (-beta) (-alpha)).1 > alpha
          then -(child (makeMove e m) (-beta) (-alpha)).1 else alpha) = max alpha (v m) := by
        rw [← hmax]
        split_ifs with h
        · exact (max_eq_right (le_of_lt h)).symm
        · exact (max_eq_left (by omega)).symm
      rw [hnew]
      have hvlt : v m < beta := by
        by_contra hcon
        exact hc (h2.mpr (by omega))
      exact ih (max alpha (v m)) (max_lt hab hvlt)
        (fun m' hm' a ha => hall m' (List.mem_cons_of_mem _ hm') a ha)

/-- The legal captures of the source (`generatePseudo(true)` filtered by `legalMove`) in a
consistent position. -/
theorem filterLegal_captures (e : Engine) (hc : Consistent e) :
    (filterLegal e (generatePseudo e true)).1 = legalCaptures e := by
  rw [filterLegal_eq e hc _ (fun m hm => pseudo_ok e true m hm), generatePseudo_true_eq,
    List.filter_filter]
  unfold legalCaptures
  show List.filter _ _ = List.filter _ _
  congr 1
  funext m
  exact Bool.and_comm _ _

/-- The maximum over the moves of `qsearch` (scored and sorted) is the maximum over the
legal captures. -/
theorem foldl_qsearchMoves (e : Engine) (hc : Consistent e) (v : Engine → Int) (a : Int) :
    (qsearchMoves e).foldl (fun acc m => max acc (v (makeMove e m))) a
      = (legalCaptures e).foldl (fun acc m => max acc (v (makeMove e m))) a := by
  unfold qsearchMoves
  rw [List.Perm.foldl_eq (sortByScore_perm _) a, List.foldl_map, filterLegal_captures e hc]
  rfl

/-- The value and the state returned by `qsearch` in a consistent position, helper form. -/
theorem qsearch_eq (n : Nat) :
    ∀ (e : Engine) (alpha beta ply : Int), Consistent e → alpha < beta →
      (MAX_PLY - 1 - ply).toNat ≤ n →
      (qsearch e alpha beta ply).2 = e ∧
      (qsearch e alpha beta ply).1
        = if ply ≥ MAX_PLY - 1 then quiescence e ply
          else max alpha (min (quiescence e ply) beta) := by
  induction n with
  | zero =>
    intro e alpha beta ply _ _ hn
    have hp : ply ≥ MAX_PLY - 1 := by
      have hM : MAX_PLY = 64 := rfl
      omega
    rw [qsearch_unfold, qBody_moves, if_pos hp, if_pos hp, quiescence_unfold, if_pos hp]
    exact ⟨rfl, rfl⟩
  | succ n ih =>
    intro e alpha beta ply hc hab hn
    by_cases hp : ply ≥ MAX_PLY - 1
    · rw [qsearch_unfold, qBody_moves, if_pos hp, if_pos hp, quiescence_unfold, if_pos hp]
      exact ⟨rfl, rfl⟩
    · have hM : MAX_PLY = 64 := rfl
      have hq := quiescence_unfold e ply
      rw [if_neg hp] at hq
      have hge := foldl_max_ge (fun m => - quiescence (makeMove e m) (ply + 1))
        (legalCaptures e) (evaluate e)
      rw [← hq] at hge
      rw [qsearch_unfold, qBody_moves, if_neg hp, if_neg hp]
      by_cases hs : evaluate e ≥ beta
      · rw [if_pos hs]
        refine ⟨rfl, ?_⟩
        show beta = _
        rw [min_eq_right (le_trans hs hge), max_eq_right (le_of_lt hab)]
      · rw [if_neg hs, filterLegal_state e hc true]
        have ha0 : (if evaluate e > alpha then evaluate e else alpha) = max alpha (evaluate e) := by
          split_ifs with h
          · exact (max_eq_right (le_of_lt h)).symm
          · exact (max_eq_left (by omega)).symm
        rw [ha0]
        have hlt : max alpha (evaluate e) < beta := max_lt hab (by omega)
        have hloop := qLoop_eq (fun e1 a b => qsearch e1 a b (ply + 1))
          (fun m => - quiescence (makeMove e m) (ply + 1)) e beta (qsearchMoves e)
          (max alpha (evaluate e)) hlt (by
            intro m hm a ha
            have hperm : m ∈ (filterLegal e (generatePseudo e true)).1.map
                (fun m => { m with score := mvv_lva (filterLegal e (generatePseudo e true)).2 m }) :=
              (sortByScore_perm _).mem_iff.mp hm
            obtain ⟨m0, hm0, rfl⟩ := List.mem_map.mp hperm
            have hps : PseudoOK e m0 :=
              pseudo_ok e true m0 (filterLegal_subset _ e m0 hm0)
            have hcc : Consistent (makeMove e m0) := consistent_make e m0 hc hps
            have hrt : undoMove (makeMove e m0) m0 = e := roundtrip e m0 hc hps
            obtain ⟨i1, i2⟩ := ih (makeMove e m0) (-beta) (-a) (ply + 1) hcc (by omega)
              (by omega)
            show undoMove (qsearch (makeMove e m0) (-beta) (-a) (ply + 1)).2 m0 = e ∧
              (-(qsearch (makeMove e m0) (-beta) (-a) (ply + 1)).1 ≥ beta ↔
                - quiescence (makeMove e m0) (ply + 1) ≥ beta) ∧
              (-(qsearch (makeMove e m0) (-beta) (-a) (ply + 1)).1 < beta →
                max a (-(qsearch (makeMove e m0) (-beta) (-a) (ply + 1)).1)
                  = max a (- quiescence (makeMove e m0) (ply + 1)))
            rw [i1, i2]
            refine ⟨hrt, ?_⟩
            generalize quiescence (makeMove e m0) (ply + 1) = q
            split_ifs
            · exact ⟨Iff.rfl, fun _ => rfl⟩
            · constructor
              · constructor
                · intro h
                  rcases max_cases (-beta) (min q (-a)) with ⟨h1, _⟩ | ⟨h1, _⟩ <;>
                    rcases min_cases q (-a) with ⟨h3, _⟩ | ⟨h3, _⟩ <;> omega
                · intro h
                  rcases max_cases (-beta) (min q (-a)) with ⟨h1, _⟩ | ⟨h1, _⟩ <;>
                    rcases min_cases q (-a) with ⟨h3, _⟩ | ⟨h3, _⟩ <;> omega
              · intro h
                rcases max_cases (-beta) (min q (-a)) with ⟨h1, h2⟩ | ⟨h1, h2⟩ <;>
                  rcases min_cases q (-a) with ⟨h3, h4⟩ | ⟨h3, h4⟩ <;>
                  rcases max_cases a (-(max (-beta) (min q (-a)))) with ⟨h5, _⟩ | ⟨h5, _⟩ <;>
                  rcases max_cases a (-q) with ⟨h7, _⟩ | ⟨h7, _⟩ <;> omega)
        rw [hloop]
        refine ⟨rfl, ?_⟩
        show min beta _ = _
        rw [foldl_qsearchMoves e hc (fun e1 => - quiescence e1 (ply + 1)),
          foldl_max_init, ← hq]
        rcases max_cases alpha (quiescence e ply) with ⟨h1, _⟩ | ⟨h1, _⟩ <;>
          rcases min_cases beta (max alpha (quiescence e ply)) with ⟨h3, _⟩ | ⟨h3, _⟩ <;>
          rcases min_cases (quiescence e ply) beta with ⟨h5, _⟩ | ⟨h5, _⟩ <;>
          rcases max_cases alpha (min (quiescence e ply) beta) with ⟨h7, _⟩ | ⟨h7, _⟩ <;>
          omega

/-- C35 (amended).  In every position whose en-passant field and castling rights agree with
the board (`Consistent`, as every position reachable from the start position is), for every
window `alpha < beta` and every `ply < MAX_PLY - 1`, `qsearch(alpha, beta, ply)` returns the
value `Q(P, ply)` of the capture-only negamax without pruning, clamped to `[alpha, beta]`,
and leaves the engine as it was; pruning and the order of the moves do not change the
result. -/
theorem qsearch_clamped_negamax (e : Engine) (alpha beta ply : Int) (hc : Consistent e)
    (hab : alpha < beta) (hp : ply < MAX_PLY - 1) :
    (qsearch e alpha beta ply).1 = max alpha (min (quiescence e ply) beta) ∧
    (qsearch e alpha beta ply).2 = e := by
  obtain ⟨h1, h2⟩ := qsearch_eq (MAX_PLY - 1 - ply).toNat e alpha beta ply hc hab (le_refl _)
  rw [if_neg (by omega)] at h2
  exact ⟨h2, h1⟩

set_option maxRecDepth 100000 in
/-- At `fenTwoCaptures` the value of the unpruned negamax is 723; with the window
`(-50, 50)` the search returns 50. -/
theorem qsearch_clamped_negamax_witness :
    quiescence fenTwoCaptures 0 = 723 ∧ (qsearch fenTwoCaptures (-50) 50 0).1 = 50 :=
  have h := (qsearch_clamped_negamax fenTwoCaptures (-50) 50 0 (by decide!) (by decide)
    (by decide)).1
  have q : quiescence fenTwoCaptures 0 = 723 := by decide!
  ⟨q, by rw [h, q]; decide⟩

set_option maxRecDepth 100000 in
/-- C35 as stated fails: at `fenKnightOnEp` the legal captures are the en-passant capture
`d5xe6` and `Nxc7`, and the unpruned negamax is worth 330 (the knight takes the queen); but
trying and undoing `d5xe6` inside `qsearch` removes the knight from e6, the capture `Nxc7`
is then rejected, and `qsearch(-INF_SCORE, INF_SCORE, 0)` returns the static value -598. -/
theorem qsearch_misses_capture :
    (legalCaptures fenKnightOnEp).map moveToUCI = ["d5e6", "e6c7"] ∧
    quiescence fenKnightOnEp 0 = 330 ∧
    (qsearchMoves fenKnightOnEp).map moveToUCI = ["d5e6"] ∧
    (qsearch fenKnightOnEp (-INF_SCORE) INF_SCORE 0).1 = -598 ∧
    max (-INF_SCORE) (min (330 : Int) INF_SCORE) = 330 := by
  decide!

/-! ## Attack oracle and generated captures (C36) -/

theorem pieceMoves_knight (s : Engine) (c : Bool) (x y : Int)
    (hp : s.b.get y x = (if s.white_to_move then WKNIGHT else BKNIGHT)) :
    pieceMoves s c x y = jumpMoves s c x y knightJumps := by
  unfold pieceMoves
  cases hw : s.white_to_move <;> rw [hw] at hp <;>
    simp only [if_true, if_false, Bool.false_eq_true] at hp <;>
    simp [hp, isWhitePiece, isBlackPiece, EMPTY, WPAWN, WKNIGHT, WBISHOP, WROOK, WQUEEN, WKING,
      BPAWN, BKNIGHT, BBISHOP, BROOK, BQUEEN, BKING]

theorem pieceMoves_slider (s : Engine) (c : Bool) (x y : Int)
    (hk : s.b.get y x = (if s.white_to_move then WROOK else BROOK) ∨
          s.b.get y x = (if s.white_to_move then WBISHOP else BBISHOP) ∨
          s.b.get y x = (if s.white_to_move then WQUEEN else BQUEEN)) :
    pieceMoves s c x y = sliderMoves s c x y (s.b.get y x) := by
  unfold pieceMoves
  cases hw : s.white_to_move <;> rw [hw] at hk <;>
    simp only [if_true, if_false, Bool.false_eq_true] at hk <;>
    rcases hk with h | h | h <;>
    simp [h, isWhitePiece, isBlackPiece, EMPTY, WPAWN, WKNIGHT, WBISHOP, WROOK, WQUEEN, WKING,
      BPAWN, BKNIGHT, BBISHOP, BROOK, BQUEEN, BKING]

/-- The jump loop pushes the capture of an enemy piece that stands one offset away. -/
theorem jump_capture (s : Engine) (c : Bool) (px py x y : Int) (offs : List (Int × Int))
    (hd : (x - px, y - py) ∈ offs) (hon : onBoard x y = true)
    (hopp : isOpp s.white_to_move (s.b.get y x) = true) :
    ∃ m ∈ jumpMoves s c px py offs, CapturesOn x y m := by
  refine ⟨add px py x y true (s.b.get y x) false false false 0, ?_, rfl, rfl, rfl, rfl⟩
  unfold jumpMoves
  rw [List.mem_flatMap]
  refine ⟨(x - px, y - py), hd, ?_⟩
  have e1 : px + (x - px) = x := by ring
  have e2 : py + (y - py) = y := by ring
  have hne := isOpp_ne_empty _ _ hopp
  simp only [e1, e2, hon, Bool.not_true, Bool.false_eq_true, if_false, hopp, if_true]
  simp [hne]

/-- The sliding loop started at `(nx, ny)` pushes the capture of the first piece it meets,
when that is an enemy piece. -/
theorem slideRay_capture (s : Engine) (c : Bool) (x y dx dy : Int) :
    ∀ (fuel : Nat) (nx ny : Int) (k : Nat), k < fuel →
      (∀ j : Nat, j < k → onBoard (nx + j * dx) (ny + j * dy) = true ∧
        s.b.get (ny + j * dy) (nx + j * dx) = EMPTY) →
      onBoard (nx + k * dx) (ny + k * dy) = true →
      isOpp s.white_to_move (s.b.get (ny + k * dy) (nx + k * dx)) = true →
      add x y (nx + k * dx) (ny + k * dy) true (s.b.get (ny + k * dy) (nx + k * dx))
        false false false 0 ∈ slideRay s c x y dx dy fuel nx ny := by
  intro fuel
  induction fuel with
  | zero => intro nx ny k hk; omega
  | succ n ih =>
    intro nx ny k hk hall hon hopp
    unfold slideRay
    cases k with
    | zero =>
      simp only [Nat.cast_zero, zero_mul, add_zero] at hon hopp ⊢
      have hne := isOpp_ne_empty _ _ hopp
      simp [hon, hne, hopp]
    | succ k =>
      have h0 := hall 0 (by omega)
      simp only [Nat.cast_zero, zero_mul, add_zero] at h0
      have e1 : nx + ((k + 1 : Nat) : Int) * dx = nx + dx + (k : Int) * dx := by
        push_cast; ring
      have e2 : ny + ((k + 1 : Nat) : Int) * dy = ny + dy + (k : Int) * dy := by
        push_cast; ring
      rw [e1, e2] at hon hopp ⊢
      have := ih (nx + dx) (ny + dy) k (by omega)
        (fun j hj => by
          have h := hall (j + 1) (by omega)
          have e3 : nx + ((j + 1 : Nat) : Int) * dx = nx + dx + (j : Int) * dx := by
            push_cast; ring
          have e4 : ny + ((j + 1 : Nat) : Int) * dy = ny + dy + (j : Int) * dy := by
            push_cast; ring
          rw [e3, e4] at h
          exact h) hon hopp
      simp only [h0.1, h0.2, if_true]
      exact List.mem_append_right _ this

/-- From `(px, py)` a slider moving in the direction `(dx, dy)` takes the enemy piece `n`
steps away when the squares in between are empty. -/
theorem slide_capture (s : Engine) (c : Bool) (px py dx dy : Int) (n : Nat) (hn : 1 ≤ n)
    (hon : onBoard px py = true)
    (hdx : dx = -1 ∨ dx = 0 ∨ dx = 1) (hdy : dy = -1 ∨ dy = 0 ∨ dy = 1)
    (hd : ¬ (dx = 0 ∧ dy = 0))
    (ht : onBoard (px + n * dx) (py + n * dy) = true)
    (hall : ∀ j : Nat, 1 ≤ j → j < n → s.b.get (py + j * dy) (px + j * dx) = EMPTY)
    (hopp : isOpp s.white_to_move (s.b.get (py + n * dy) (px + n * dx)) = true) :
    ∃ m ∈ slideRay s c px py dx dy 8 (px + dx) (py + dy),
      CapturesOn (px + n * dx) (py + n * dy) m := by
  obtain ⟨k, rfl⟩ : ∃ k, n = k + 1 := ⟨n - 1, by omega⟩
  have e1 : px + ((k + 1 : Nat) : Int) * dx = px + dx + (k : Int) * dx := by push_cast; ring
  have e2 : py + ((k + 1 : Nat) : Int) * dy = py + dy + (k : Int) * dy := by push_cast; ring
  have hon' := (onBoard_iff _ _).mp hon
  have ht' := (onBoard_iff _ _).mp ht
  have hk : k < 8 := by
    rcases hdx with rfl | rfl | rfl <;> rcases hdy with rfl | rfl | rfl <;>
      simp at hd ht' <;> omega
  rw [e1, e2] at ht hopp ⊢
  refine ⟨_, slideRay_capture s c px py dx dy 8 (px + dx) (py + dy) k hk ?_ ht hopp,
    rfl, rfl, rfl, rfl⟩
  intro j hj
  have e3 : px + ((j + 1 : Nat) : Int) * dx = px + dx + (j : Int) * dx := by push_cast; ring
  have e4 : py + ((j + 1 : Nat) : Int) * dy = py + dy + (j : Int) * dy := by push_cast; ring
  refine ⟨?_, by rw [← e3, ← e4]; exact hall (j + 1) (by omega) (by omega)⟩
  rw [onBoard_iff]
  rw [onBoard_iff] at ht
  rcases hdx with rfl | rfl | rfl <;> rcases hdy with rfl | rfl | rfl <;>
    simp at hd ht ⊢ <;> omega

theorem mem_sliderMoves (s : Engine) (c : Bool) (x y : Int) (p : Nat) (d : Int × Int)
    (m : Move) (hd : d ∈ sliderDirs p)
    (hm : m ∈ slideRay s c x y d.1 d.2 8 (x + d.1) (y + d.2)) : m ∈ sliderMoves s c x y p := by
  unfold sliderMoves
  exact List.mem_flatMap.mpr ⟨d, hd, hm⟩

theorem sliderDirs_mem (WT : Bool) (p : Nat) (dx dy : Int)
    (hdx : dx = -1 ∨ dx = 0 ∨ dx = 1) (hdy : dy = -1 ∨ dy = 0 ∨ dy = 1)
    (hd : ¬ (dx = 0 ∧ dy = 0))
    (h : ((p = (if WT then WROOK else BROOK) ∨ p = (if WT then WQUEEN else BQUEEN)) ∧
            (dx = 0 ∨ dy = 0)) ∨
         ((p = (if WT then WBISHOP else BBISHOP) ∨ p = (if WT then WQUEEN else BQUEEN)) ∧
            (dx ≠ 0 ∧ dy ≠ 0))) :
    (dx, dy) ∈ sliderDirs p := by
  cases WT <;> simp only [if_true, if_false, Bool.false_eq_true] at h <;>
    rcases h with ⟨hp | hp, hg⟩ | ⟨hp | hp, hg⟩ <;> subst hp <;>
    rcases hdx with rfl | rfl | rfl <;> rcases hdy with rfl | rfl | rfl <;>
    simp at hd hg <;> decide

/-- The pawn block pushes the capture of an enemy piece standing diagonally ahead. -/
theorem pawn_capture (s : Engine) (c : Bool) (px py x y : Int)
    (hx : px = x - 1 ∨ px = x + 1)
    (hy : py = (if s.white_to_move then y - 1 else y + 1))
    (hon : onBoard x y = true) (hopp : isOpp s.white_to_move (s.b.get y x) = true) :
    ∃ m ∈ pawnMoves s c px py, CapturesOn x y m := by
  have hyy : py + (if s.white_to_move then 1 else -1) = y := by
    rw [hy]; split_ifs <;> ring
  have key : ∃ m ∈ ([-1, 1] : List Int).flatMap (fun dx =>
      if !onBoard (px + dx) (py + (if s.white_to_move then 1 else -1)) then []
      else
        if isOpp s.white_to_move
            (s.b.get (py + (if s.white_to_move then 1 else -1)) (px + dx)) then
          if py = (if s.white_to_move then 6 else 1) then
            [add px py (px + dx) (py + (if s.white_to_move then 1 else -1)) true
               (s.b.get (py + (if s.white_to_move then 1 else -1)) (px + dx)) false false false
               (if s.white_to_move then WQUEEN else BQUEEN),
             add px py (px + dx) (py + (if s.white_to_move then 1 else -1)) true
               (s.b.get (py + (if s.white_to_move then 1 else -1)) (px + dx)) false false false
               (if s.white_to_move then WROOK else BROOK),
             add px py (px + dx) (py + (if s.white_to_move then 1 else -1)) true
               (s.b.get (py + (if s.white_to_move then 1 else -1)) (px + dx)) false false false
               (if s.white_to_move then WBISHOP else BBISHOP),
             add px py (px + dx) (py + (if s.white_to_move then 1 else -1)) true
               (s.b.get (py + (if s.white_to_move then 1 else -1)) (px + dx)) false false false
               (if s.white_to_move then WKNIGHT else BKNIGHT)]
          else [add px py (px + dx) (py + (if s.white_to_move then 1 else -1)) true
                 (s.b.get (py + (if s.white_to_move then 1 else -1)) (px + dx)) false false false
                 0]
        else []), CapturesOn x y m := by
    have hdx : x - px ∈ ([-1, 1] : List Int) := by
      rcases hx with h | h <;> rw [h] <;> simp
    have e1 : px + (x - px) = x := by ring
    by_cases hpr : py = (if s.white_to_move then 6 else 1)
    · refine ⟨add px py x y true (s.b.get y x) false false false
        (if s.white_to_move then WQUEEN else BQUEEN), ?_, rfl, rfl, rfl, rfl⟩
      rw [List.mem_flatMap]
      refine ⟨x - px, hdx, ?_⟩
      rw [e1, hyy]
      simp only [hon, Bool.not_true, Bool.false_eq_true, if_false, hopp, if_true, if_pos hpr]
      exact List.mem_cons_self _ _
    · refine ⟨add px py x y true (s.b.get y x) false false false 0, ?_, rfl, rfl, rfl, rfl⟩
      rw [List.mem_flatMap]
      refine ⟨x - px, hdx, ?_⟩
      rw [e1, hyy]
      simp only [hon, Bool.not_true, Bool.false_eq_true, if_false, hopp, if_true, if_neg hpr]
      exact List.mem_cons_self _ _
  obtain ⟨m, hm, hc⟩ := key
  refine ⟨m, ?_, hc⟩
  simp only [pawnMoves]
  exact List.mem_append_left _ (List.mem_append_right _ hm)

/-- The generator pushes a capture on every attacked enemy square, helper form. -/
theorem capture_of_attacked (s : Engine) (c : Bool) (x y : Int) (hon : onBoard x y = true)
    (hopp : isOpp s.white_to_move (s.b.get y x) = true)
    (ha : isAttacked s.b x y s.white_to_move = true) :
    ∃ m ∈ generatePseudo s c, CapturesOn x y m := by
  rw [attacked_iff s.b x y s.white_to_move hon] at ha
  obtain ⟨px, py, hpon, h⟩ := ha
  suffices hs : ∃ m ∈ pieceMoves s c px py, CapturesOn x y m by
    obtain ⟨m, hm, hc⟩ := hs
    exact ⟨m, (mem_generatePseudo s c m).mpr ⟨px, py, hpon, hm⟩, hc⟩
  have slide : ∀ (p : Nat), s.b.get py px = p →
      (sameRankOrFile x y px py ∨ sameDiagonal x y px py) →
      emptyBetween s.b x y px py →
      (((p = (if s.white_to_move then WROOK else BROOK) ∨
            p = (if s.white_to_move then WQUEEN else BQUEEN)) ∧ sameRankOrFile x y px py) ∨
       ((p = (if s.white_to_move then WBISHOP else BBISHOP) ∨
            p = (if s.white_to_move then WQUEEN else BQUEEN)) ∧ sameDiagonal x y px py)) →
      ∃ m ∈ sliderMoves s c px py p, CapturesOn x y m := by
    intro p hp hg he hk
    obtain ⟨g1, g2, g3, g4, g5, g6⟩ := ray_of_geom x y px py hg
    unfold emptyBetween at he
    generalize hn : max (px - x).natAbs (py - y).natAbs = n at g1 g2 g3 he
    have hsx := sign_dir (px - x)
    have hsy := sign_dir (py - y)
    generalize (px - x).sign = sx at g2 g3 g4 g5 g6 he hsx
    generalize (py - y).sign = sy at g2 g3 g4 g5 g6 he hsy
    have ex : px + (n : Int) * (-sx) = x := by rw [g2]; ring
    have ey : py + (n : Int) * (-sy) = y := by rw [g3]; ring
    have hdx : -sx = -1 ∨ -sx = 0 ∨ -sx = 1 := by omega
    have hdy : -sy = -1 ∨ -sy = 0 ∨ -sy = 1 := by omega
    have hd : ¬ (-sx = 0 ∧ -sy = 0) := by omega
    obtain ⟨m, hm, hc⟩ := slide_capture s c px py (-sx) (-sy) n g1 hpon hdx hdy hd
      (by rw [ex, ey]; exact hon)
      (fun j hj1 hj2 => by
        have h := he ((n : Int) - j) (by omega) (by omega)
        have e1 : py + (j : Int) * (-sy) = y + ((n : Int) - j) * sy := by rw [g3]; ring
        have e2 : px + (j : Int) * (-sx) = x + ((n : Int) - j) * sx := by rw [g2]; ring
        rw [e1, e2]
        exact h)
      (by rw [ex, ey]; exact hopp)
    rw [ex, ey] at hc
    refine ⟨m, mem_sliderMoves s c px py p (-sx, -sy) m ?_ hm, hc⟩
    apply sliderDirs_mem s.white_to_move p (-sx) (-sy) hdx hdy hd
    rcases hk with ⟨hp', hgeo⟩ | ⟨hp', hgeo⟩
    · exact Or.inl ⟨hp', by have := g5 hgeo; omega⟩
    · exact Or.inr ⟨hp', by have := g6 hgeo; omega⟩
  rcases h with ⟨hp, hx, hy⟩ | ⟨hp, hj⟩ | ⟨hp, hadj⟩ | ⟨hp, hg, he⟩ | ⟨hp, hg, he⟩
  · rw [pieceMoves_pawn s c px py hp]
    exact pawn_capture s c px py x y hx hy hon hopp
  · rw [pieceMoves_knight s c px py hp]
    apply jump_capture s c px py x y knightJumps _ hon hopp
    rw [mem_knightJumps]
    unfold knightJump at hj ⊢
    omega
  · rw [pieceMoves_king s c px py hp]
    obtain ⟨m, hm, hc⟩ := jump_capture s c px py x y kingSteps
      (by rw [mem_kingSteps]; unfold adjacent at hadj ⊢; omega) hon hopp
    exact ⟨m, List.mem_append_left _ hm, hc⟩
  · have hk : s.b.get py px = (if s.white_to_move then WROOK else BROOK) ∨
        s.b.get py px = (if s.white_to_move then WBISHOP else BBISHOP) ∨
        s.b.get py px = (if s.white_to_move then WQUEEN else BQUEEN) := by
      rcases hp with h | h
      · exact Or.inl h
      · exact Or.inr (Or.inr h)
    rw [pieceMoves_slider s c px py hk]
    exact slide _ rfl (Or.inl hg) he (Or.inl ⟨hp, hg⟩)
  · have hk : s.b.get py px = (if s.white_to_move then WROOK else BROOK) ∨
        s.b.get py px = (if s.white_to_move then WBISHOP else BBISHOP) ∨
        s.b.get py px = (if s.white_to_move then WQUEEN else BQUEEN) := by
      rcases hp with h | h
      · exact Or.inr (Or.inl h)
      · exact Or.inr (Or.inr h)
    rw [pieceMoves_slider s c px py hk]
    exact slide _ rfl (Or.inr hg) he (Or.inr ⟨hp, hg⟩)

/-- C36.  The attack oracle and the move generator agree.  For every engine state and every
on-board square `(x, y)` that holds a piece of the side not to move, `isAttacked(x, y,
white_to_move)` is true exactly if `generatePseudo(true)` contains a capture that is not en
passant and lands on `(x, y)` (and the same holds for the captures of
`generatePseudo(false)`). -/
theorem attacked_iff_capture_generated (s : Engine) (x y : Int) (hon : onBoard x y = true)
    (hopp : isOpp s.white_to_move (s.b.get y x) = true) :
    (isAttacked s.b x y s.white_to_move = true ↔
      ∃ m ∈ generatePseudo s true, CapturesOn x y m) ∧
    (isAttacked s.b x y s.white_to_move = true ↔
      ∃ m ∈ generatePseudo s false, CapturesOn x y m) := by
  have back : ∀ c : Bool, (∃ m ∈ generatePseudo s c, CapturesOn x y m) →
      isAttacked s.b x y s.white_to_move = true := by
    rintro c ⟨m, hm, -, hep, hx, hy⟩
    have h := capture_isAttacked s c m hm hep
      (by rw [hx, hy]; exact isOpp_ne_empty _ _ hopp)
    rw [hx, hy] at h
    exact h
  exact ⟨⟨capture_of_attacked s true x y hon hopp, back true⟩,
    ⟨capture_of_attacked s false x y hon hopp, back false⟩⟩

set_option maxRecDepth 100000 in
/-- After `1. e4 d5` the black pawn on d5 is attacked by White, and the capture `e4xd5` is
generated. -/
theorem attacked_iff_capture_generated_witness :
    isAttacked afterE4D5.b 3 4 afterE4D5.white_to_move = true ∧
    ∃ m ∈ generatePseudo afterE4D5 true, CapturesOn 3 4 m :=
  ⟨by decide!,
   (attacked_iff_capture_generated afterE4D5 3 4 (by decide) (by decide!)).1.mp (by decide!)⟩

/-! ## Castling rights and home squares (C37) -/

/-- A move that takes no king and does not move the king standing on `(4, y)` leaves that
king where it is. -/
theorem king_stays (s : Engine) (m : Move) (hm : PseudoOK s m) (y : Int) (king : Nat)
    (hy : y = 0 ∨ y = 7) (hking : king = WKING ∨ king = BKING)
    (hk : s.b.get y 4 = king)
    (hfrom : s.b.get m.from_y m.from_x ≠ king)
    (hto : s.b.get m.to_y m.to_x ≠ king) :
    (makeBoard s m).get y 4 = king := by
  have hon : onBoard 4 y = true := by rcases hy with h | h <;> rw [h] <;> decide
  rw [makeBoard_get s m hm y 4 hon]
  have hnf : ¬ (y = m.from_y ∧ (4 : Int) = m.from_x) := by
    rintro ⟨h1, h2⟩
    rw [h1, h2] at hk
    exact hfrom hk
  have hnt : ¬ (y = m.to_y ∧ (4 : Int) = m.to_x) := by
    rintro ⟨h1, h2⟩
    rw [h1, h2] at hk
    exact hto hk
  have hnep : ¬ (m.is_enpassant = true ∧ y = m.from_y ∧ (4 : Int) = m.to_x) := by
    rintro ⟨h1, h2, h3⟩
    have := (hm.ep h1).2.2.2.2.2.1
    rw [← h2] at this
    split_ifs at this <;> omega
  simp only [madeAt, if_neg hnf, if_neg hnt, if_neg hnep]
  have e5 : ¬ ((4 : Int) = 5) := by decide
  have e7 : ¬ ((4 : Int) = 7) := by decide
  have e3 : ¬ ((4 : Int) = 3) := by decide
  have e0 : ¬ ((4 : Int) = 0) := by decide
  simp only [e5, e7, e3, e0, and_false, if_false, Option.getD_none]
  exact hk

theorem kingHome_make (s : Engine) (m : Move) (hc : Consistent s) (hk : KingsOK s)
    (hh : KingHome s) (hm : m ∈ (generateLegal s).1) : KingHome (makeMove s m) := by
  have hp : PseudoOK s m := pseudo_ok s false m (legal_pseudo s m hm)
  obtain ⟨-, ht1, ht2⟩ := kingsOK_make s m hc hk hm
  have hb : (makeMove s m).b = makeBoard s m := rfl
  obtain ⟨h8, h4, h2, h1⟩ := hh
  unfold KingHome
  rw [makeMove_castling, hb]
  refine ⟨fun h => ?_, fun h => ?_, fun h => ?_, fun h => ?_⟩
  · have r := (right_kept_iff _ _ _ m 3 (by decide)).mp h
    exact king_stays s m hp 0 WKING (Or.inl rfl) (Or.inl rfl) (h8 r.1) (by simpa using r.2.1) ht1
  · have r := (right_kept_iff _ _ _ m 2 (by decide)).mp h
    exact king_stays s m hp 0 WKING (Or.inl rfl) (Or.inl rfl) (h4 r.1) (by simpa using r.2.1) ht1
  · have r := (right_kept_iff _ _ _ m 1 (by decide)).mp h
    exact king_stays s m hp 7 BKING (Or.inr rfl) (Or.inr rfl) (h2 r.1) (by simpa using r.2.1) ht2
  · have r := (right_kept_iff _ _ _ m 0 (by decide)).mp h
    exact king_stays s m hp 7 BKING (Or.inr rfl) (Or.inr rfl) (h1 r.1) (by simpa using r.2.1) ht2

set_option maxRecDepth 100000 in
theorem kingHome_start (e : Engine) : KingHome (setStartPos e) := by
  have h : KingHome newEngine := by
    unfold KingHome
    decide!
  exact h

theorem reachable_kingHome (s : Engine) (h : Reachable s) : KingHome s := by
  induction h with
  | start e => exact kingHome_start e
  | step hr hm ih =>
    exact kingHome_make _ _ (reachable_consistent _ hr) (reachable_kingsOK _ hr) ih hm

/-- C37.  In every position reachable from `setStartPos()` by legal moves each castling
right that is still set has its king on e1 / e8 and the rook of that colour on its home
corner; so every castling move that `generatePseudo` produces there moves the king from the
e-file square of its home rank and finds the rook it relocates on the corner (h-file for the
king side, a-file for the queen side). -/
theorem castling_rights_home (s : Engine) (h : Reachable s) :
    CastleHome s ∧
    ∀ (c : Bool) (m : Move), m ∈ generatePseudo s c → m.is_castle = true →
      s.b.get m.from_y m.from_x = (if s.white_to_move then WKING else BKING) ∧
      m.from_x = 4 ∧ m.from_y = (if s.white_to_move then 0 else 7) ∧
      (m.to_x = 6 ∨ m.to_x = 2) ∧
      (m.to_x = 6 → s.b.get m.from_y 7 = (if s.white_to_move then WROOK else BROOK)) ∧
      (m.to_x = 2 → s.b.get m.from_y 0 = (if s.white_to_move then WROOK else BROOK)) := by
  have hc := reachable_consistent s h
  obtain ⟨k8, k4, k2, k1⟩ := reachable_kingHome s h
  obtain ⟨-, c8, c4, c2, c1⟩ := hc
  refine ⟨⟨fun b => ⟨k8 b, c8 b⟩, fun b => ⟨k4 b, c4 b⟩, fun b => ⟨k2 b, c2 b⟩,
    fun b => ⟨k1 b, c1 b⟩⟩, fun c m hm hcas => ?_⟩
  have hp := pseudo_ok s c m hm
  have hr := castle_rook_home s m (reachable_consistent s h) hp hcas
  obtain ⟨q1, q2, q3, -, q5, -⟩ := hp.castle hcas
  refine ⟨q1, q2, q3, ?_, hr.1, hr.2⟩
  rcases q5 with q | q
  · exact Or.inl q.1
  · exact Or.inr q.1

set_option maxRecDepth 100000 in
/-- At the start position all four rights are set and kings and rooks are at home. -/
theorem castling_rights_home_witness :
    newEngine.castling = 15 ∧ CastleHome newEngine :=
  ⟨by decide!, (castling_rights_home newEngine (Reachable.start {})).1⟩

/-! ## Range of evaluate (C39) -/

theorem getD_bounds (l : List Int) (lo hi : Int) (h : ∀ v ∈ l, lo ≤ v ∧ v ≤ hi)
    (h0 : lo ≤ 0 ∧ 0 ≤ hi) (i : Nat) : lo ≤ l.getD i 0 ∧ l.getD i 0 ≤ hi := by
  by_cases hi' : i < l.length
  · rw [List.getD_eq_getElem _ _ hi']
    exact h _ (List.getElem_mem hi')
  · rw [List.getD_eq_default _ _ (by omega)]
    exact h0

theorem pst_pawn_bounds (i : Nat) : -5 ≤ PST_PAWN.getD i 0 ∧ PST_PAWN.getD i 0 ≤ 50 :=
  getD_bounds _ _ _ (by decide) (by decide) i

theorem pst_knight_bounds (i : Nat) : -30 ≤ PST_KNIGHT.getD i 0 ∧ PST_KNIGHT.getD i 0 ≤ 15 :=
  getD_bounds _ _ _ (by decide) (by decide) i

theorem pst_bishop_bounds (i : Nat) : -20 ≤ PST_BISHOP.getD i 0 ∧ PST_BISHOP.getD i 0 ≤ 10 :=
  getD_bounds _ _ _ (by decide) (by decide) i

theorem pst_rook_bounds (i : Nat) : -5 ≤ PST_ROOK.getD i 0 ∧ PST_ROOK.getD i 0 ≤ 10 :=
  getD_bounds _ _ _ (by decide) (by decide) i

theorem pst_queen_bounds (i : Nat) : -20 ≤ PST_QUEEN.getD i 0 ∧ PST_QUEEN.getD i 0 ≤ 5 :=
  getD_bounds _ _ _ (by decide) (by decide) i

/-- The king term `(mg + eg) / 2` of `evaluate`, for every index. -/
theorem pst_king_bounds (i : Nat) :
    -50 ≤ (PST_KING_MG.getD i 0 + PST_KING_EG.getD i 0).tdiv 2 ∧
    (PST_KING_MG.getD i 0 + PST_KING_EG.getD i 0).tdiv 2 ≤ 50 := by
  by_cases hi : i < 64
  · have h : ∀ j ∈ List.range 64,
        -50 ≤ (PST_KING_MG.getD j 0 + PST_KING_EG.getD j 0).tdiv 2 ∧
        (PST_KING_MG.getD j 0 + PST_KING_EG.getD j 0).tdiv 2 ≤ 50 := by decide
    exact h i (List.mem_range.mpr hi)
  · have h1 : PST_KING_MG.getD i 0 = 0 := List.getD_eq_default _ _ (by simp [PST_KING_MG]; omega)
    have h2 : PST_KING_EG.getD i 0 = 0 := List.getD_eq_default _ _ (by simp [PST_KING_EG]; omega)
    rw [h1, h2]
    decide

theorem emptyRun_bounds (b : Board) (dx dy : Int) :
    ∀ (n : Nat) (nx ny : Int), 0 ≤ emptyRun b dx dy n nx ny ∧ emptyRun b dx dy n nx ny ≤ n := by
  intro n
  induction n with
  | zero => intro nx ny; simp [emptyRun]
  | succ n ih =>
    intro nx ny
    unfold emptyRun
    have := ih (nx + dx) (ny + dy)
    split_ifs
    · refine ⟨by omega, ?_⟩
      push_cast
      omega
    · refine ⟨le_refl _, ?_⟩
      push_cast
      omega

theorem mobCount_bounds (b : Board) (x y : Int) : 0 ≤ mobCount b x y ∧ mobCount b x y ≤ 32 := by
  simp only [mobCount, mobDirs, List.foldl_cons, List.foldl_nil]
  have h1 := emptyRun_bounds b 1 0 8 (x + 1) (y + 0)
  have h2 := emptyRun_bounds b (-1) 0 8 (x + -1) (y + 0)
  have h3 := emptyRun_bounds b 0 1 8 (x + 0) (y + 1)
  have h4 := emptyRun_bounds b 0 (-1) 8 (x + 0) (y + -1)
  push_cast at h1 h2 h3 h4
  omega

/-- What one square adds: the king values apart, at most 969 for a white piece and at least
-969 for a black one (900 + 5 for a queen on its best square and 2 * 32 for mobility), and
between -50 and 50 for a king. -/
theorem squareTerm_bounds (b : Board) (yx : Int × Int) :
    20000 * (holds b WKING yx - holds b BKING yx)
        - 969 * (holds b BPAWN yx + holds b BKNIGHT yx + holds b BBISHOP yx + holds b BROOK yx
            + holds b BQUEEN yx)
        - 50 * (holds b WKING yx + holds b BKING yx) ≤ squareTerm b yx ∧
    squareTerm b yx ≤
      20000 * (holds b WKING yx - holds b BKING yx)
        + 969 * (holds b WPAWN yx + holds b WKNIGHT yx + holds b WBISHOP yx + holds b WROOK yx
            + holds b WQUEEN yx)
        + 50 * (holds b WKING yx + holds b BKING yx) := by
  have hp := Board.get_lt b yx.1 yx.2
  have hm := mobCount_bounds b yx.2 yx.1
  unfold squareTerm mobTerm holds evalSquare
  simp only [pstWhite, pstBlack]
  generalize mobCount b yx.2 yx.1 = c at hm
  generalize b.get yx.1 yx.2 = p at hp ⊢
  generalize (sq yx.2 yx.1).toNat = i
  have a1 := pst_pawn_bounds i
  have a2 := pst_knight_bounds i
  have a3 := pst_bishop_bounds i
  have a4 := pst_rook_bounds i
  have a5 := pst_queen_bounds i
  have a6 := pst_king_bounds i
  have b1 := pst_pawn_bounds (56 ^^^ i)
  have b2 := pst_knight_bounds (56 ^^^ i)
  have b3 := pst_bishop_bounds (56 ^^^ i)
  have b4 := pst_rook_bounds (56 ^^^ i)
  have b5 := pst_queen_bounds (56 ^^^ i)
  have b6 := pst_king_bounds (56 ^^^ i)
  generalize (PST_KING_MG.getD i 0 + PST_KING_EG.getD i 0).tdiv 2 = k1 at a6 ⊢
  generalize (PST_KING_MG.getD (56 ^^^ i) 0 + PST_KING_EG.getD (56 ^^^ i) 0).tdiv 2 = k2
    at b6 ⊢
  generalize PST_PAWN.getD i 0 = v1 at a1 ⊢
  generalize PST_KNIGHT.getD i 0 = v2 at a2 ⊢
  generalize PST_BISHOP.getD i 0 = v3 at a3 ⊢
  generalize PST_ROOK.getD i 0 = v4 at a4 ⊢
  generalize PST_QUEEN.getD i 0 = v5 at a5 ⊢
  generalize PST_PAWN.getD (56 ^^^ i) 0 = w1 at b1 ⊢
  generalize PST_KNIGHT.getD (56 ^^^ i) 0 = w2 at b2 ⊢
  generalize PST_BISHOP.getD (56 ^^^ i) 0 = w3 at b3 ⊢
  generalize PST_ROOK.getD (56 ^^^ i) 0 = w4 at b4 ⊢
  generalize PST_QUEEN.getD (56 ^^^ i) 0 = w5 at b5 ⊢
  generalize PST_KING_MG.getD i 0 = v6
  generalize PST_KING_MG.getD (56 ^^^ i) 0 = w6
  interval_cases p <;>
    simp [isWhitePiece, PIECE_VALUE, WPAWN, WKNIGHT, WBISHOP, WROOK, WQUEEN,
      WKING, BPAWN, BKNIGHT, BBISHOP, BROOK, BQUEEN, BKING] <;>
    omega

theorem countPiece_holds (b : Board) (piece : Nat) :
    countPiece b piece = (squares.map (holds b piece)).sum := countPiece_sum b piece

theorem sum_squareTerm (b : Board) (l : List (Int × Int)) :
    (l.map (squareTerm b)).sum
      = (l.map (fun yx => (evalSquare b {} yx).matW)).sum
        - (l.map (fun yx => (evalSquare b {} yx).matB)).sum
        + (l.map (fun yx => (evalSquare b {} yx).pst)).sum + (l.map (mobTerm b)).sum := by
  induction l with
  | nil => simp
  | cons a l ih =>
    simp only [List.map_cons, List.sum_cons, ih, squareTerm]
    ring

theorem sum_squareTerm_bounds (b : Board) (l : List (Int × Int)) :
    20000 * ((l.map (holds b WKING)).sum - (l.map (holds b BKING)).sum)
        - 969 * ((l.map (holds b BPAWN)).sum + (l.map (holds b BKNIGHT)).sum
            + (l.map (holds b BBISHOP)).sum + (l.map (holds b BROOK)).sum
            + (l.map (holds b BQUEEN)).sum)
        - 50 * ((l.map (holds b WKING)).sum + (l.map (holds b BKING)).sum)
      ≤ (l.map (squareTerm b)).sum ∧
    (l.map (squareTerm b)).sum ≤
      20000 * ((l.map (holds b WKING)).sum - (l.map (holds b BKING)).sum)
        + 969 * ((l.map (holds b WPAWN)).sum + (l.map (holds b WKNIGHT)).sum
            + (l.map (holds b WBISHOP)).sum + (l.map (holds b WROOK)).sum
            + (l.map (holds b WQUEEN)).sum)
        + 50 * ((l.map (holds b WKING)).sum + (l.map (holds b BKING)).sum) := by
  induction l with
  | nil => simp
  | cons a l ih =>
    have h := squareTerm_bounds b a
    simp only [List.map_cons, List.sum_cons]
    constructor
    · linarith [h.1, ih.1]
    · linarith [h.2, ih.2]

/-- The bishop-pair terms change the score by at most 25. -/
theorem whiteScore_bounds (matW matB pst minorW minorB bishopsW bishopsB mob : Int) :
    matW - matB + pst + mob - 25
      ≤ whiteScore matW matB pst minorW minorB bishopsW bishopsB mob ∧
    whiteScore matW matB pst minorW minorB bishopsW bishopsB mob
      ≤ matW - matB + pst + mob + 25 := by
  simp only [whiteScore]
  split_ifs <;> constructor <;> omega

/-- The numeric bound on `evaluate`, helper form. -/
theorem evaluate_abs_le (s : Engine) (hWK : countPiece s.b WKING = 1)
    (hBK : countPiece s.b BKING = 1) (hW : othersW s.b ≤ 15) (hB : othersB s.b ≤ 15) :
    |evaluate s| ≤ 14660 := by
  obtain ⟨f1, f2, f3, -, -⟩ := fold_evalSquare s.b squares {}
  have z1 : ({} : EvalAcc).matW = 0 := rfl
  have z2 : ({} : EvalAcc).matB = 0 := rfl
  have z3 : ({} : EvalAcc).pst = 0 := rfl
  rw [z1, zero_add] at f1
  rw [z2, zero_add] at f2
  rw [z3, zero_add] at f3
  have f4 := fold_mobSquare s.b squares 0
  rw [zero_add] at f4
  have hsum := sum_squareTerm s.b squares
  rw [← f1, ← f2, ← f3, ← f4] at hsum
  have hb := sum_squareTerm_bounds s.b squares
  simp only [← countPiece_holds] at hb
  rw [hWK, hBK, hsum] at hb
  unfold othersW at hW
  unfold othersB at hB
  have hw := whiteScore_bounds (squares.foldl (evalSquare s.b) {}).matW
    (squares.foldl (evalSquare s.b) {}).matB (squares.foldl (evalSquare s.b) {}).pst
    (squares.foldl (evalSquare s.b) {}).minorW (squares.foldl (evalSquare s.b) {}).minorB
    (countPiece s.b WBISHOP) (countPiece s.b BBISHOP) (squares.foldl (mobSquare s.b) 0)
  rw [evaluate_eq]
  rw [abs_le]
  cases s.white_to_move
  · simp only [Bool.false_eq_true, if_false]
    constructor <;> linarith [hb.1, hb.2, hw.1, hw.2]
  · simp only [if_true]
    constructor <;> linarith [hb.1, hb.2, hw.1, hw.2]

/-- C39.  For every position with exactly one king of each colour and at most 15 other
pieces of each colour the static evaluation is far from the mate scores: `|evaluate()|` is
at most 14660, which is below `MATE_IN_MAX - MAX_PLY = 27936`, and so below
`MATE_SCORE - MAX_PLY` and `INF_SCORE`. -/
theorem evaluate_below_mate (s : Engine) (hWK : countPiece s.b WKING = 1)
    (hBK : countPiece s.b BKING = 1) (hW : othersW s.b ≤ 15) (hB : othersB s.b ≤ 15) :
    |evaluate s| ≤ 14660 ∧ MATE_IN_MAX - MAX_PLY = 27936 ∧
    |evaluate s| < MATE_IN_MAX - MAX_PLY ∧ |evaluate s| < MATE_SCORE - MAX_PLY ∧
    |evaluate s| < INF_SCORE := by
  have h := evaluate_abs_le s hWK hBK hW hB
  have e1 : MATE_IN_MAX - MAX_PLY = 27936 := by decide
  have e2 : MATE_SCORE - MAX_PLY = 28936 := by decide
  have e3 : INF_SCORE = 30000 := rfl
  rw [e1, e2, e3]
  exact ⟨h, rfl, by omega, by omega, by omega⟩

set_option maxRecDepth 100000 in
/-- The start position has one king and 15 other pieces on each side; its evaluation is 0. -/
theorem evaluate_below_mate_witness :
    othersW newEngine.b = 15 ∧ othersB newEngine.b = 15 ∧
    |evaluate newEngine| < MATE_IN_MAX - MAX_PLY :=
  ⟨by decide!, by decide!,
   (evaluate_below_mate newEngine (by decide!) (by decide!) (by decide!) (by decide!)).2.2.1⟩

end DeepBecky02

namespace DeepBecky01

/-! ## Undoing an en-passant capture (C2) -/

set_option maxRecDepth 100000 in
/-- C2 fails on the code. The position after 1. e4 a6 2. e5 d5 is reached from the start
position by moves that `generateAllLegalMoves` returns; there `generateAllLegalMoves` returns
the en-passant capture e5xd6, d6 is empty, and after `applyMove` and `undoMove` of that
capture a black pawn stands on d6. The call of `generateAllLegalMoves` itself, which makes
and unmakes every candidate on the engine, leaves the same pawn on d6. -/
theorem undo_enpassant_leaves_pawn :
    e2e4 ∈ (generateAllLegalMoves startEngine).1 ∧
    a7a6 ∈ (generateAllLegalMoves (applyMove startEngine e2e4)).1 ∧
    e4e5 ∈ (generateAllLegalMoves (applyMove (applyMove startEngine e2e4) a7a6)).1 ∧
    d7d5 ∈ (generateAllLegalMoves
      (applyMove (applyMove (applyMove startEngine e2e4) a7a6) e4e5)).1 ∧
    e5d6 ∈ (generateAllLegalMoves afterD5).1 ∧
    afterD5.board.get 5 3 = EMPTY ∧
    (undoMove (applyMove afterD5 e5d6) e5d6).board.get 5 3 = bP ∧
    (generateAllLegalMoves afterD5).2.board.get 5 3 = bP := by
  decide!

/-! ## Repetition check of pvs (C30) -/

theorem sizeSub_ge (a b : Nat) (ha : a < 2 ^ 64) (hb : b ≤ a) : sizeSub a b = a - b := by
  unfold sizeSub
  have h1 : a % 2 ^ 64 = a := Nat.mod_eq_of_lt ha
  have h2 : b % 2 ^ 64 = b := Nat.mod_eq_of_lt (by omega)
  rw [h1, h2]
  omega

theorem sizeSub_lt (a b : Nat) (hb : b < 2 ^ 64) (hab : a < b) :
    sizeSub a b = a + 2 ^ 64 - b := by
  unfold sizeSub
  have h1 : a % 2 ^ 64 = a := Nat.mod_eq_of_lt (by omega)
  have h2 : b % 2 ^ 64 = b := Nat.mod_eq_of_lt hb
  rw [h1, h2]
  omega

/-- Five tests of the loop condition are all the loop can use. -/
theorem repetitionLoop_total (s : Engine) (hn : s.board_history.length < 2 ^ 64)
    (h4 : 4 < s.board_history.length) :
    repetitionLoop s 5 (sizeSub s.board_history.length 2) ≠ none := by
  by_cases h10 : 10 ≤ s.board_history.length
  · have e10 := sizeSub_ge _ 10 hn h10
    have e2 := sizeSub_ge _ 2 hn (by omega)
    have f1 := sizeSub_ge (s.board_history.length - 2) 2 (by omega) (by omega)
    have f2 := sizeSub_ge (s.board_history.length - 2 - 2) 2 (by omega) (by omega)
    have f3 := sizeSub_ge (s.board_history.length - 2 - 2 - 2) 2 (by omega) (by omega)
    have g : ¬ (0 < s.board_history.length - 2 - 2 - 2 - 2 - 2 ∧
        s.board_history.length - 10 < s.board_history.length - 2 - 2 - 2 - 2 - 2) := by omega
    have f4 := sizeSub_ge (s.board_history.length - 2 - 2 - 2 - 2) 2 (by omega) (by omega)
    simp only [repetitionLoop, e10, e2, f1, f2, f3, f4, g, if_false]
    split_ifs <;> simp
  · have e10 := sizeSub_lt s.board_history.length 10 (by norm_num) (by omega)
    have e2 := sizeSub_ge _ 2 hn (by omega)
    have g : ¬ (0 < s.board_history.length - 2 ∧
        s.board_history.length + 2 ^ 64 - 10 < s.board_history.length - 2) := by omega
    simp only [repetitionLoop, e10, e2, g, if_false]
    simp

theorem generateHash_congr (s t : Engine) (h1 : s.board = t.board)
    (h2 : s.is_white_turn = t.is_white_turn) (h3 : s.white_king_moved = t.white_king_moved)
    (h4 : s.black_king_moved = t.black_king_moved)
    (h5 : s.white_rook_a1_moved = t.white_rook_a1_moved)
    (h6 : s.white_rook_h1_moved = t.white_rook_h1_moved)
    (h7 : s.black_rook_a8_moved = t.black_rook_a8_moved)
    (h8 : s.black_rook_h8_moved = t.black_rook_h8_moved)
    (h9 : s.en_passant_x = t.en_passant_x) : generateHash s = generateHash t := by
  unfold generateHash
  rw [h1, h2, h3, h4, h5, h6, h7, h8, h9]

theorem applyMove_hash (s : Engine) (m : Move) :
    (applyMove s m).current_hash = generateHash (applyMove s m) := by
  unfold applyMove
  exact generateHash_congr _ _ rfl rfl rfl rfl rfl rfl rfl rfl rfl

set_option maxRecDepth 100000 in
theorem knightsDance_fields :
    knightsDance.board = knightsOut.board ∧
    knightsDance.is_white_turn = knightsOut.is_white_turn ∧
    knightsDance.white_king_moved = knightsOut.white_king_moved ∧
    knightsDance.black_king_moved = knightsOut.black_king_moved ∧
    knightsDance.white_rook_a1_moved = knightsOut.white_rook_a1_moved ∧
    knightsDance.white_rook_h1_moved = knightsOut.white_rook_h1_moved ∧
    knightsDance.black_rook_a8_moved = knightsOut.black_rook_a8_moved ∧
    knightsDance.black_rook_h8_moved = knightsOut.black_rook_h8_moved ∧
    knightsDance.en_passant_x = knightsOut.en_passant_x ∧
    knightsDance.board_history.length = 6 := by
  decide!

theorem knightsDance_repeats :
    (knightsDance.board_history.getD (6 - 2 * 2) default).hash = knightsDance.current_hash := by
  have h1 : knightsDance.current_hash = generateHash knightsDance :=
    applyMove_hash _ g8f6
  have h2 : knightsOut.current_hash = generateHash knightsOut := applyMove_hash _ g8f6
  have h3 : (knightsDance.board_history.getD (6 - 2 * 2) default).hash
      = knightsOut.current_hash := rfl
  obtain ⟨f1, f2, f3, f4, f5, f6, f7, f8, f9, _⟩ := knightsDance_fields
  rw [h3, h1, h2]
  exact (generateHash_congr _ _ f1 f2 f3 f4 f5 f6 f7 f8 f9).symm

/-- C30 (what the code does).  For `depth > 0` and `0 < ply < MAX_PLY`: with ten or more
entries on the move stack `pvs` returns 0 when the current fingerprint equals the one
recorded 2, 4, 6 or 8 plies earlier, and goes on otherwise.  With fewer than ten entries
the test is not made at all and `pvs` goes on whatever the fingerprints are: with five to
nine entries `board_history.size() - 10` wraps around to a huge `size_t` value, so the loop
condition fails at once, and with at most four the guard `size() > 4` fails. -/
theorem repetition_check (quiescenceSearch : Engine → Int → Int → Int → Int)
    (evaluatePosition : Engine → Int) (rest : Engine → Int → Int → Int → Int → Int)
    (s : Engine) (depth ply alpha beta : Int) (hd : 0 < depth) (hp0 : 0 < ply)
    (hp : ply < MAX_PLY) (hn : s.board_history.length < 2 ^ 64) :
    (10 ≤ s.board_history.length →
      (∃ k : Nat, 1 ≤ k ∧ k ≤ 4 ∧
        (s.board_history.getD (s.board_history.length - 2 * k) default).hash
          = s.current_hash) →
      pvs quiescenceSearch evaluatePosition rest s depth ply alpha beta = some 0) ∧
    (10 ≤ s.board_history.length →
      (∀ k : Nat, 1 ≤ k → k ≤ 4 →
        (s.board_history.getD (s.board_history.length - 2 * k) default).hash
          ≠ s.current_hash) →
      pvs quiescenceSearch evaluatePosition rest s depth ply alpha beta
        = some (rest s depth ply alpha beta)) ∧
    (s.board_history.length < 10 →
      pvs quiescenceSearch evaluatePosition rest s depth ply alpha beta
        = some (rest s depth ply alpha beta)) := by
  have hd0 : ¬ depth ≤ 0 := by omega
  have hpm : ¬ ply ≥ MAX_PLY := by omega
  have loop10 : 10 ≤ s.board_history.length →
      repetitionLoop s 5 (sizeSub s.board_history.length 2) =
        if (s.board_history.getD (s.board_history.length - 2 * 1) default).hash
            = s.current_hash then some true
        else if (s.board_history.getD (s.board_history.length - 2 * 2) default).hash
            = s.current_hash then some true
        else if (s.board_history.getD (s.board_history.length - 2 * 3) default).hash
            = s.current_hash then some true
        else if (s.board_history.getD (s.board_history.length - 2 * 4) default).hash
            = s.current_hash then some true
        else some false := by
    intro h10
    have e10 := sizeSub_ge _ 10 hn h10
    have e2 := sizeSub_ge _ 2 hn (by omega)
    have f1 := sizeSub_ge (s.board_history.length - 2) 2 (by omega) (by omega)
    have f2 := sizeSub_ge (s.board_history.length - 2 - 2) 2 (by omega) (by omega)
    have f3 := sizeSub_ge (s.board_history.length - 2 - 2 - 2) 2 (by omega) (by omega)
    have g : ¬ (0 < s.board_history.length - 2 - 2 - 2 - 2 - 2 ∧
        s.board_history.length - 10 < s.board_history.length - 2 - 2 - 2 - 2 - 2) := by omega
    have f4 := sizeSub_ge (s.board_history.length - 2 - 2 - 2 - 2) 2 (by omega) (by omega)
    have c1 : 0 < s.board_history.length - 2 ∧
        s.board_history.length - 10 < s.board_history.length - 2 := by omega
    have c2 : 0 < s.board_history.length - 2 - 2 ∧
        s.board_history.length - 10 < s.board_history.length - 2 - 2 := by omega
    have c3 : 0 < s.board_history.length - 2 - 2 - 2 ∧
        s.board_history.length - 10 < s.board_history.length - 2 - 2 - 2 := by omega
    have c4 : 0 < s.board_history.length - 2 - 2 - 2 - 2 ∧
        s.board_history.length - 10 < s.board_history.length - 2 - 2 - 2 - 2 := by omega
    have i1 : s.board_history.length - 2 * 1 = s.board_history.length - 2 := by omega
    have i2 : s.board_history.length - 2 * 2 = s.board_history.length - 2 - 2 := by omega
    have i3 : s.board_history.length - 2 * 3 = s.board_history.length - 2 - 2 - 2 := by omega
    have i4 : s.board_history.length - 2 * 4 = s.board_history.length - 2 - 2 - 2 - 2 := by
      omega
    rw [i1, i2, i3, i4]
    simp only [repetitionLoop, e10, e2, f1, f2, f3, f4, g, c1, c2, c3, c4, and_self, if_true,
      if_false]
  refine ⟨?_, ?_, ?_⟩
  · intro h10 hk
    have hg : ply > 0 ∧ s.board_history.length > 4 := ⟨hp0, by omega⟩
    obtain ⟨k, k1, k4, hk⟩ := hk
    simp only [pvs, hd0, hpm, hg, and_self, if_true, if_false, loop10 h10]
    have hk' : k = 1 ∨ k = 2 ∨ k = 3 ∨ k = 4 := by omega
    rcases hk' with rfl | rfl | rfl | rfl
    · rw [if_pos hk]
    · rw [if_pos hk]; split_ifs <;> rfl
    · rw [if_pos hk]; split_ifs <;> rfl
    · rw [if_pos hk]; split_ifs <;> rfl
  · intro h10 hk
    have hg : ply > 0 ∧ s.board_history.length > 4 := ⟨hp0, by omega⟩
    simp only [pvs, hd0, hpm, hg, and_self, if_true, if_false, loop10 h10,
      hk 1 (by norm_num) (by norm_num), hk 2 (by norm_num) (by norm_num),
      hk 3 (by norm_num) (by norm_num), hk 4 (by norm_num) (by norm_num)]
  · intro h10
    by_cases h4 : 4 < s.board_history.length
    · have hg : ply > 0 ∧ s.board_history.length > 4 := ⟨hp0, h4⟩
      have e10 := sizeSub_lt s.board_history.length 10 (by norm_num) h10
      have e2 := sizeSub_ge _ 2 hn (by omega)
      have g : ¬ (0 < s.board_history.length - 2 ∧
          s.board_history.length + 2 ^ 64 - 10 < s.board_history.length - 2) := by omega
      have hl : repetitionLoop s 5 (sizeSub s.board_history.length 2) = some false := by
        simp only [repetitionLoop, e10, e2, g, if_false]
      simp only [pvs, hd0, hpm, hg, and_self, if_true, if_false, hl]
    · have hg : ¬ (ply > 0 ∧ s.board_history.length > 4) := fun h => h4 h.2
      simp only [pvs, hd0, hpm, hg, if_false]

set_option maxRecDepth 100000 in
/-- At `knightsDance` the fingerprint equals the one recorded four plies earlier
(`board_history[size - 4]`, index 2 of 6), yet `pvs(1, 2, alpha, beta)` goes on to the
statements after the test. -/
theorem repetition_check_witness :
    knightsDance.board_history.length = 6 ∧
    (knightsDance.board_history.getD (6 - 2 * 2) default).hash = knightsDance.current_hash ∧
    pvs (fun _ _ _ _ => 0) (fun _ => 0) (fun _ _ _ _ _ => 1) knightsDance 1 2 (-32000) 32000
      = some 1 :=
  ⟨knightsDance_fields.2.2.2.2.2.2.2.2.2, knightsDance_repeats,
   (repetition_check (fun _ _ _ _ => 0) (fun _ => 0) (fun _ _ _ _ _ => 1) knightsDance 1 2
     (-32000) 32000 (by decide) (by decide) (by decide)
     (by rw [knightsDance_fields.2.2.2.2.2.2.2.2.2]; decide)).2.2
     (by rw [knightsDance_fields.2.2.2.2.2.2.2.2.2]; decide)⟩

/-! ## The two attack oracles agree (C38) -/

/-- One more step of fuel does not change the ray loop of deepbecky02 when the square
`fuel` steps further is off the board. -/
theorem attackRay02_fuel (b : DeepBecky02.Board) (w : Bool) (dx dy : Int) :
    ∀ (n : Nat) (nx ny : Int), DeepBecky02.onBoard (nx + n * dx) (ny + n * dy) = false →
      DeepBecky02.attackRay b w dx dy (n + 1) nx ny =
        DeepBecky02.attackRay b w dx dy n nx ny := by
  intro n
  induction n with
  | zero =>
    intro nx ny h
    simp only [Nat.cast_zero, zero_mul, add_zero] at h
    simp [DeepBecky02.attackRay, h]
  | succ n ih =>
    intro nx ny h
    have e1 : nx + dx + (n : Int) * dx = nx + ((n + 1 : Nat) : Int) * dx := by push_cast; ring
    have e2 : ny + dy + (n : Int) * dy = ny + ((n + 1 : Nat) : Int) * dy := by push_cast; ring
    have h2 := ih (nx + dx) (ny + dy) (by rw [e1, e2]; exact h)
    rw [DeepBecky02.attackRay]
    conv_rhs => rw [DeepBecky02.attackRay]
    rw [h2]

/-- The ray loop of deepbecky01, counted by the step `st`, is the ray loop of deepbecky02
started on the square of step `st`. -/
theorem attackRay_eq (b : DeepBecky02.Board) (tx ty : Int) (w : Bool) (i : Nat) (dx dy : Int)
    (hi : i < 4 ↔ (dx = 0 ∨ dy = 0)) :
    ∀ (n : Nat) (st : Int),
      attackRay b tx ty (if w then wR else bR) (if w then wB else bB) (if w then wQ else bQ)
        i dx dy n st =
      DeepBecky02.attackRay b w dx dy n (tx + dx * st) (ty + dy * st) := by
  intro n
  induction n with
  | zero => intro st; rfl
  | succ n ih =>
    intro st
    have e1 : tx + dx * st + dx = tx + dx * (st + 1) := by ring
    have e2 : ty + dy * st + dy = ty + dy * (st + 1) := by ring
    rw [attackRay, DeepBecky02.attackRay, ih (st + 1), e1, e2]
    have hi2 : i ≥ 4 ↔ (dx ≠ 0 ∧ dy ≠ 0) := by
      constructor
      · intro h
        by_contra hc
        have : dx = 0 ∨ dy = 0 := by
          by_cases hx : dx = 0
          · exact Or.inl hx
          · by_cases hy : dy = 0
            · exact Or.inr hy
            · exact absurd ⟨hx, hy⟩ hc
        have := hi.2 this
        omega
      · rintro ⟨hx, hy⟩
        by_contra hc
        have h4 : i < 4 := by omega
        rcases hi.1 h4 with h | h
        · exact hx h
        · exact hy h
    simp only [inside]
    cases hb : DeepBecky02.onBoard (tx + dx * st) (ty + dy * st)
    · simp
    · simp only [Bool.not_true, Bool.false_eq_true, if_false, if_true]
      by_cases hp : b.get (ty + dy * st) (tx + dx * st) = 0
      · simp [hp, EMPTY]
      · have hp2 : b.get (ty + dy * st) (tx + dx * st) ≠ EMPTY := hp
        simp only [hp2, hp, ne_eq, not_false_eq_true, if_true]
        by_cases h4 : i < 4
        · have hd := hi.1 h4
          have hn : ¬ (dx ≠ 0 ∧ dy ≠ 0) := fun h => by
            rcases hd with h0 | h0
            · exact h.1 h0
            · exact h.2 h0
          have h5 : ¬ i ≥ 4 := by omega
          cases w <;>
            simp [h4, h5, hd, hn, wR, wB, wQ, bR, bB, bQ, DeepBecky02.WROOK,
              DeepBecky02.WBISHOP, DeepBecky02.WQUEEN, DeepBecky02.BROOK, DeepBecky02.BBISHOP,
              DeepBecky02.BQUEEN]
        · have h5 : i ≥ 4 := by omega
          have hd := hi2.1 h5
          have hn : ¬ (dx = 0 ∨ dy = 0) := fun h => by
            rcases h with h0 | h0
            · exact hd.1 h0
            · exact hd.2 h0
          cases w <;>
            simp [h4, h5, hd, hn, wR, wB, wQ, bR, bB, bQ, DeepBecky02.WROOK,
              DeepBecky02.WBISHOP, DeepBecky02.WQUEEN, DeepBecky02.BROOK, DeepBecky02.BBISHOP,
              DeepBecky02.BQUEEN]

/-- From an on-board square, direction `i` of deepbecky01 with seven steps is the ray of
deepbecky02 in the same direction. -/
theorem ray_dir_eq (b : DeepBecky02.Board) (x y : Int) (w : Bool) (i : Nat) (dx dy : Int)
    (hon : DeepBecky02.onBoard x y = true) (hi : i < 4 ↔ (dx = 0 ∨ dy = 0))
    (hd : (dx = 1 ∨ dx = -1 ∨ dy = 1 ∨ dy = -1)) :
    attackRay b x y (if w then wR else bR) (if w then wB else bB) (if w then wQ else bQ)
        i dx dy 7 1 =
      DeepBecky02.attackRay b w dx dy 8 (x + dx) (y + dy) := by
  rw [attackRay_eq b x y w i dx dy hi 7 1, mul_one, mul_one]
  symm
  apply attackRay02_fuel
  rw [DeepBecky02.onBoard_iff] at hon
  cases h : DeepBecky02.onBoard (x + dx + ((7 : Nat) : Int) * dx)
      (y + dy + ((7 : Nat) : Int) * dy)
  · rfl
  · rw [DeepBecky02.onBoard_iff] at h
    push_cast at h
    omega

/-- The pawn test of deepbecky01 (rank in range, then the file tests `x > 0`, `x < 7`) is
the pawn test of deepbecky02 (`onBoard` of each of the two squares). -/
theorem pawn_test_eq (x y t : Int) (p1 p2 : Bool) (hon : DeepBecky02.onBoard x y = true) :
    (decide (t ≥ 0) && decide (t < 8) &&
      ((decide (x > 0) && p1) || (decide (x < 7) && p2))) =
    ((DeepBecky02.onBoard (x - 1) t && p1) || (DeepBecky02.onBoard (x + 1) t && p2)) := by
  rw [DeepBecky02.onBoard_iff] at hon
  have h1 : DeepBecky02.onBoard (x - 1) t =
      (decide (t ≥ 0) && decide (t < 8) && decide (x > 0)) := by
    rw [Bool.eq_iff_iff]
    simp only [DeepBecky02.onBoard_iff, Bool.and_eq_true, decide_eq_true_eq]
    omega
  have h2 : DeepBecky02.onBoard (x + 1) t =
      (decide (t ≥ 0) && decide (t < 8) && decide (x < 7)) := by
    rw [Bool.eq_iff_iff]
    simp only [DeepBecky02.onBoard_iff, Bool.and_eq_true, decide_eq_true_eq]
    omega
  rw [h1, h2]
  cases decide (t ≥ 0) <;> cases decide (t < 8) <;> cases decide (x > 0) <;>
    cases decide (x < 7) <;> cases p1 <;> cases p2 <;> rfl

/-- The two attack oracles agree on every board, for every on-board square and either
colour. -/
theorem isAttacked_eq (b : DeepBecky02.Board) (x y : Int) (w : Bool)
    (hon : DeepBecky02.onBoard x y = true) :
    isAttacked b x y w = DeepBecky02.isAttacked b x y w := by
  have r0 := ray_dir_eq b x y w 0 0 1 hon (by decide) (by decide)
  have r1 := ray_dir_eq b x y w 1 0 (-1) hon (by decide) (by decide)
  have r2 := ray_dir_eq b x y w 2 1 0 hon (by decide) (by decide)
  have r3 := ray_dir_eq b x y w 3 (-1) 0 hon (by decide) (by decide)
  have r4 := ray_dir_eq b x y w 4 1 1 hon (by decide) (by decide)
  have r5 := ray_dir_eq b x y w 5 1 (-1) hon (by decide) (by decide)
  have r6 := ray_dir_eq b x y w 6 (-1) 1 hon (by decide) (by decide)
  have r7 := ray_dir_eq b x y w 7 (-1) (-1) hon (by decide) (by decide)
  have hr : List.range 8 = [0, 1, 2, 3, 4, 5, 6, 7] := by decide
  have ko : knightOffsets =
      [(-2, -1), (-2, 1), (-1, -2), (-1, 2), (1, -2), (1, 2), (2, -1), (2, 1)] := by decide
  have kg : kingOffsets =
      [(-1, -1), (-1, 0), (-1, 1), (0, -1), (0, 1), (1, -1), (1, 0), (1, 1)] := by decide
  unfold isAttacked DeepBecky02.isAttacked
  simp only [hr, ko, kg, DeepBecky02.knightJumps, DeepBecky02.kingSteps, DeepBecky02.dirs3,
    dirs, List.any_cons, List.any_nil, List.getD_cons_zero, List.getD_cons_succ, inside,
    Bool.or_false]
  rw [r0, r1, r2, r3, r4, r5, r6, r7, pawn_test_eq x y _ _ _ hon]
  have n1 : ¬ ((-1 : Int) = 0) := by decide
  have n2 : ¬ ((1 : Int) = 0) := by decide
  have n3 : ¬ ((-1 : Int) = 0 ∧ (1 : Int) = 0) := by decide
  have n4 : ¬ ((1 : Int) = 0 ∧ (-1 : Int) = 0) := by decide
  have n5 : ¬ ((1 : Int) = 0 ∧ (1 : Int) = 0) := by decide
  have n6 : ¬ ((-1 : Int) = 0 ∧ (-1 : Int) = 0) := by decide
  cases w <;>
    simp only [if_true, if_false, Bool.false_eq_true, Bool.true_and, Bool.false_and,
      Bool.not_true, Bool.not_false, Bool.or_false, Bool.false_or, add_zero, sub_neg_eq_add,
      Int.add_neg_one, wP, wN, wK, bP, bN, bK, DeepBecky02.WPAWN, DeepBecky02.WKNIGHT,
      DeepBecky02.WKING, DeepBecky02.BPAWN, DeepBecky02.BKNIGHT, DeepBecky02.BKING,
      n1, n2, n3, n4, n5, n6, and_true, true_and, and_self] <;>
    rw [Bool.or_right_comm] <;>
    refine congrArg₂ (· || ·) (congrArg₂ (· || ·) (congrArg₂ (· || ·) rfl ?_) ?_) ?_ <;>
    ac_rfl

/-- Claim C38: the attack oracles of the two engine versions are equivalent.  For every
board, every on-board square `(x, y)` and either attacking colour, `isAttacked` of
deepbecky01 and `isAttacked` of deepbecky02 return the same result. -/
theorem attack_oracles_agree (b : DeepBecky02.Board) (x y : Int) (w : Bool)
    (hon : DeepBecky02.onBoard x y = true) :
    isAttacked b x y w = DeepBecky02.isAttacked b x y w :=
  isAttacked_eq b x y w hon

/-- Claim C38, an instance: on the starting board the square e3 is on the board, both
oracles agree on it for White, and both report the attack (by the pawns on d2 and f2). -/
theorem attack_oracles_agree_witness :
    DeepBecky02.onBoard 4 2 = true ∧
    isAttacked DeepBecky02.newEngine.b 4 2 true =
      DeepBecky02.isAttacked DeepBecky02.newEngine.b 4 2 true ∧
    DeepBecky02.isAttacked DeepBecky02.newEngine.b 4 2 true = true :=
  ⟨by decide, attack_oracles_agree DeepBecky02.newEngine.b 4 2 true (by decide), by decide⟩

/-! ## Index of the killer table (C40) -/

theorem killerRow_some (k : List (Move × Move)) (ply : Int) (h0 : 0 ≤ ply)
    (h1 : ply < MAX_PLY) : killerRow k ply = some (k.getD ply.toNat ({}, {})) := by
  unfold killerRow
  rw [if_pos ⟨h0, h1⟩]

theorem killerRow_none (k : List (Move × Move)) (ply : Int)
    (h : ¬ (0 ≤ ply ∧ ply < MAX_PLY)) : killerRow k ply = none := by
  unfold killerRow
  rw [if_neg h]

theorem scoreOf_inBounds (s : Engine) (t : Tables) (ply : Int) (m : Move) (h0 : 0 ≤ ply)
    (h1 : ply < MAX_PLY) : (scoreOf s t ply m).isSome = true := by
  unfold scoreOf
  rw [killerRow_some _ _ h0 h1]
  simp only []
  split_ifs <;> rfl

theorem scoreOf_outOfBounds (s : Engine) (t : Tables) (ply : Int) (m : Move)
    (h : ¬ (0 ≤ ply ∧ ply < MAX_PLY)) (htt : Move.same m (ttMove s t) = false)
    (hq : m.captured_piece = EMPTY) : scoreOf s t ply m = none := by
  unfold scoreOf
  rw [killerRow_none _ _ h, htt, hq]
  simp

theorem scoreMoves_inBounds (s : Engine) (t : Tables) (ms : List Move) (ply : Int)
    (h0 : 0 ≤ ply) (h1 : ply < MAX_PLY) : (scoreMoves s t ms ply).isSome = true := by
  induction ms with
  | nil => rfl
  | cons m rest ih =>
    have hm := scoreOf_inBounds s t ply m h0 h1
    rw [Option.isSome_iff_exists] at hm ih
    obtain ⟨sc, hsc⟩ := hm
    obtain ⟨l, hl⟩ := ih
    simp [scoreMoves, hsc, hl]

theorem scoreMoves_outOfBounds (s : Engine) (t : Tables) (ms : List Move) (ply : Int)
    (h : ¬ (0 ≤ ply ∧ ply < MAX_PLY))
    (hm : ∃ m ∈ ms, Move.same m (ttMove s t) = false ∧ m.captured_piece = EMPTY) :
    scoreMoves s t ms ply = none := by
  induction ms with
  | nil =>
    obtain ⟨m, hmem, _⟩ := hm
    simp at hmem
  | cons a rest ih =>
    obtain ⟨m, hmem, htt, hq⟩ := hm
    rcases List.mem_cons.1 hmem with rfl | hin
    · simp [scoreMoves, scoreOf_outOfBounds s t ply m h htt hq]
    · have hr := ih ⟨m, hin, htt, hq⟩
      unfold scoreMoves
      cases scoreOf s t ply a with
      | none => rfl
      | some sc => simp [hr]

theorem quiescenceSearch_reaches_scoreMoves (evaluatePosition : Engine → Int)
    (timeOver : Bool) (rest : Engine → Tables → List (Move × Int) → Int → Int → Int → Int)
    (s : Engine) (t : Tables) (ply alpha beta : Int) (hs : t.stop_search = false)
    (ht : timeOver = false) (he : evaluatePosition s < beta) :
    quiescenceSearch evaluatePosition timeOver rest s t ply alpha beta =
      (scoreMoves (generateAllLegalMoves s).2 { t with nodes_searched := t.nodes_searched + 1 }
        (generateAllLegalMoves s).1 ply).map
        (fun moves => rest (generateAllLegalMoves s).2
          { t with nodes_searched := t.nodes_searched + 1 } moves ply
          (if evaluatePosition s > alpha then evaluatePosition s else alpha) beta) := by
  subst ht
  obtain ⟨tt, km, hh, stop, n⟩ := t
  simp only at hs
  subst hs
  have he2 : ¬ evaluatePosition s ≥ beta := by omega
  simp only [quiescenceSearch, Bool.false_eq_true, and_false, if_false, he2]
  cases scoreMoves (generateAllLegalMoves s).2 (Tables.mk tt km hh false (n + 1))
    (generateAllLegalMoves s).1 ply <;> rfl

set_option maxRecDepth 100000 in
theorem bareKings_quiet : e1d1 ∈ (generateAllLegalMoves bareKings).1 ∧
    e1d1.captured_piece = EMPTY ∧ Move.same e1d1 {} = false := by
  decide!

/-- Claim C40, what the code does.  `scoreMoves` reads `killer_moves[ply]` inside the array
whenever `0 ≤ ply < MAX_PLY`, and outside it for every other `ply` as soon as one move of
the list is neither the transposition move nor a capture.  `pvs` guards its own call: with
`depth > 0` and `ply ≥ MAX_PLY` it returns the evaluation.  But with `depth ≤ 0` it calls
`quiescenceSearch` with its own `ply`, whatever that is, before the test of `ply`, and
`quiescenceSearch` has no test of `ply`: with the search not stopped and the stand-pat
value below `beta` it calls `scoreMoves` with the `ply` it was given.  On the position with
the two bare kings and `ply = MAX_PLY` that read is outside the table. -/
theorem killer_index_unguarded :
    (∀ (s : Engine) (t : Tables) (ms : List Move) (ply : Int), 0 ≤ ply → ply < MAX_PLY →
      (scoreMoves s t ms ply).isSome = true) ∧
    (∀ (s : Engine) (t : Tables) (ms : List Move) (ply : Int), ¬ (0 ≤ ply ∧ ply < MAX_PLY) →
      (∃ m ∈ ms, Move.same m (ttMove s t) = false ∧ m.captured_piece = EMPTY) →
      scoreMoves s t ms ply = none) ∧
    (∀ (q : Engine → Int → Int → Int → Int) (ev : Engine → Int)
      (rest : Engine → Int → Int → Int → Int → Int) (s : Engine) (depth ply alpha beta : Int),
      0 < depth → MAX_PLY ≤ ply → pvs q ev rest s depth ply alpha beta = some (ev s)) ∧
    (∀ (q : Engine → Int → Int → Int → Int) (ev : Engine → Int)
      (rest : Engine → Int → Int → Int → Int → Int) (s : Engine) (depth ply alpha beta : Int),
      depth ≤ 0 → pvs q ev rest s depth ply alpha beta = some (q s ply alpha beta)) ∧
    (∀ (ev : Engine → Int) (rest : Engine → Tables → List (Move × Int) → Int → Int → Int → Int)
      (s : Engine) (t : Tables) (ply alpha beta : Int), t.stop_search = false →
      ev s < beta → ¬ (0 ≤ ply ∧ ply < MAX_PLY) →
      (∃ m ∈ (generateAllLegalMoves s).1,
        Move.same m (ttMove (generateAllLegalMoves s).2
          { t with nodes_searched := t.nodes_searched + 1 }) = false ∧
        m.captured_piece = EMPTY) →
      quiescenceSearch ev false rest s t ply alpha beta = none) ∧
    (∀ (ev : Engine → Int) (rest : Engine → Tables → List (Move × Int) → Int → Int → Int → Int)
      (alpha beta : Int), ev bareKings < beta →
      quiescenceSearch ev false rest bareKings {} MAX_PLY alpha beta = none) := by
  have key : ∀ (ev : Engine → Int)
      (rest : Engine → Tables → List (Move × Int) → Int → Int → Int → Int)
      (s : Engine) (t : Tables) (ply alpha beta : Int), t.stop_search = false →
      ev s < beta → ¬ (0 ≤ ply ∧ ply < MAX_PLY) →
      (∃ m ∈ (generateAllLegalMoves s).1,
        Move.same m (ttMove (generateAllLegalMoves s).2
          { t with nodes_searched := t.nodes_searched + 1 }) = false ∧
        m.captured_piece = EMPTY) →
      quiescenceSearch ev false rest s t ply alpha beta = none := by
    intro ev rest s t ply alpha beta hs he hp hm
    rw [quiescenceSearch_reaches_scoreMoves ev false rest s t ply alpha beta hs rfl he,
      scoreMoves_outOfBounds _ _ _ _ hp hm]
    rfl
  refine ⟨scoreMoves_inBounds, scoreMoves_outOfBounds, ?_, ?_, key, ?_⟩
  · intro q ev rest s depth ply alpha beta hd hp
    have hd0 : ¬ depth ≤ 0 := by omega
    simp only [pvs, hd0, if_false]
    rw [if_pos hp]
  · intro q ev rest s depth ply alpha beta hd
    simp only [pvs, hd, if_true]
  · intro ev rest alpha beta he
    refine key ev rest bareKings {} MAX_PLY alpha beta rfl he (by decide) ?_
    obtain ⟨h1, h2, h3⟩ := bareKings_quiet
    refine ⟨e1d1, h1, ?_, h2⟩
    have : ttMove (generateAllLegalMoves bareKings).2
        { ({} : Tables) with nodes_searched := ({} : Tables).nodes_searched + 1 } = {} := by
      simp [ttMove]
    rw [this]
    exact h3

end DeepBecky01
